import Mathlib

/-!
# CBOR codec of `gosubl/vendor/cbor_py/c/cbormodule.c`

A shallow embedding of the C extension module (`cbormodule.c`, `cbor.h`) and
theorems about it.  The embedding follows the Python 3 build of the module
(`IS_PY3 = 1`, `HAS_FILE_READER = 0`): there is no `PyInt` branch and
`bytes` and `str` are distinct types.

Conventions of the embedding

* C unsigned integers are natural numbers; every store into a `uint8_t`
  reduces modulo `256`, every `uint64_t` result that could overflow reduces
  modulo `2 ^ 64`; `Py_ssize_t` and `long long` are integers, obtained from a
  `uint64_t` by `toSsize`.
* Python objects are the inductive type `PyObj`.  A `float` is carried as the
  64-bit pattern of its C `double`; a `str` is carried as its UTF-8 encoding.
* A `Reader` is the record of the two function pointers `read` and `read1`
  acting on an explicit reader state.  `return_buffer` and `delete` only
  release memory and are not modelled.
* The decoder is recursive on the input and the encoder on the object graph;
  both take a `fuel` argument that bounds the recursion depth and the number
  of loop iterations.  Running out of fuel is the separate result
  `Res.timeout`, never an error of the program.
* Behaviour of the host interpreter that the module relies on (dictionary
  insertion and lookup, list sorting, UTF-8 validation) is taken as the
  parameter `Host`.
-/

namespace Cbor

/-! ## Constants of `cbor.h` -/

def CBOR_TYPE_MASK : Nat := 0xE0
def CBOR_INFO_BITS : Nat := 0x1F

def CBOR_UINT : Nat := 0x00
def CBOR_NEGINT : Nat := 0x20
def CBOR_BYTES : Nat := 0x40
def CBOR_TEXT : Nat := 0x60
def CBOR_ARRAY : Nat := 0x80
def CBOR_MAP : Nat := 0xA0
def CBOR_TAG : Nat := 0xC0
def CBOR_7 : Nat := 0xE0

def CBOR_UINT8_FOLLOWS : Nat := 24
def CBOR_UINT16_FOLLOWS : Nat := 25
def CBOR_UINT32_FOLLOWS : Nat := 26
def CBOR_UINT64_FOLLOWS : Nat := 27
def CBOR_VAR_FOLLOWS : Nat := 31

def CBOR_BREAK : Nat := 0xFF

def CBOR_FALSE : Nat := CBOR_7 ||| 20
def CBOR_TRUE : Nat := CBOR_7 ||| 21
def CBOR_NULL : Nat := CBOR_7 ||| 22
def CBOR_UNDEFINED : Nat := CBOR_7 ||| 23

def CBOR_TAG_BIGNUM : Nat := 2
def CBOR_TAG_NEGBIGNUM : Nat := 3

/-! ## Python objects, errors, results -/

/-- Python objects the module consumes and produces.  `tag t v` is an instance
of `cbor.cbor.Tag` whose attributes `tag` and `value` are `t` and `v`;
`brokenTag hasTag` is an instance of that class that lacks the attribute
`tag` (`hasTag = false`) or has `tag` but lacks `value` (`hasTag = true`);
`other` is an object of any type the encoder does not know. -/
inductive PyObj where
  | none
  | bool (b : Bool)
  | long (n : Int)
  | float (bits : Nat)
  | bytes (b : List Nat)
  | unicode (utf8 : List Nat)
  | list (xs : List PyObj)
  | tuple (xs : List PyObj)
  | dict (kvs : List (PyObj × PyObj))
  | tag (t : PyObj) (v : PyObj)
  | brokenTag (hasTag : Bool)
  | other

instance : Inhabited PyObj := ⟨PyObj.none⟩

/-- The places where the module gives up, one constructor per
`PyErr_SetString` or `PyErr_Format` site (named after the exception class and
the message), the exceptions that the interpreter raises in calls the module
makes, plus `undefinedBehaviour` for executions in which the C program
dereferences a NULL pointer or accesses memory outside an allocation. -/
inductive PyErr where
  | lookupBufferExhausted          -- LookupError "buffer exhausted"
  | valueBufferRead                -- ValueError "buffer read for %zd but only have %zd"
  | valueZeroLengthString          -- ValueError "got zero length string in loads"
  | valueInputUnknownType          -- ValueError "input of unknown type not bytes or bytearray"
  | valueGotNone                   -- ValueError "got None for buffer to decode in loads"
  | valueExpectedSubBytes          -- ValueError "expected subordinate BYTES block under VAR BYTES"
  | valueUnknownSection7           -- ValueError "unknown section 7 marker"
  | valueBignumNotBytes            -- ValueError "TAG BIGNUM not followed by bytes"
  | valueNegbignumNotBytes         -- ValueError "TAG NEGBIGNUM not followed by bytes"
  | notImplementedBiggerBignum     -- NotImplementedError "TODO: TAG BIGNUM for bigger bignum"
  | runtimeDecodingVarBytes        -- RuntimeError "unknown error decoding VAR BYTES"
  | runtimeDecodingBytes           -- RuntimeError "unknown error decoding BYTES"
  | runtimeDecodingVarText         -- RuntimeError "unknown error decoding VAR TEXT"
  | runtimeDecodingText            -- RuntimeError "unknown error decoding TEXT"
  | runtimeDecodingArray           -- RuntimeError "unknown error decoding ARRAY"
  | runtimeUnknownMarker           -- RuntimeError "unknown cbor marker"
  | valueCannotSerialize           -- ValueError "cannot serialize unknown object"
  | valueTagNegative               -- ValueError "tag cannot be a negative long"
  | valueTagTooLarge               -- ValueError "tag number too large"
  | valueBrokenTagNoValue          -- ValueError "broken Tag object has .tag but not .value"
  | valueBrokenTagNoTag            -- ValueError "broken Tag object with no .tag"
  | streamRaised                   -- the exception raised by the `read` method of a stream
  | valueExpectedBytes             -- ValueError "expected ob.read() to return a bytes object"
  | valueReadTooMuch               -- ValueError "ob.read() returned %ld bytes but only wanted %lu"
  | valueReadTooMuch1              -- ValueError "TODO: raise exception: WAT ob.read() returned ..."
  | valueGotNothing1               -- ValueError "got nothing reading 1"
  | eofReadNothing                 -- EOFError "read nothing, apparent EOF"
  | valueFileShort                 -- ValueError "only got %zd bytes with %zd stil to read from file"
  | runtimeFileNullDst             -- RuntimeError "known error in file reader, NULL dst"
  | valueFileNothing1              -- ValueError "got nothing reading 1 from file"
  | systemNullNoError              -- SystemError: NULL returned with no exception set
  | typeUnhashable                 -- TypeError "unhashable type", set by `PyDict_SetItem`
  | typeNotComparable              -- TypeError "'<' not supported", set by `PyList_Sort`
  | systemResultWithError          -- SystemError: a result returned with an exception set
  | undefinedBehaviour
  deriving DecidableEq, Repr

/-- Result of a step that threads a reader state: a value with the state after
it, a failure with the state at the point of failure, or `timeout` when the
fuel of the model ran out.  `pending e a s` is a value returned while the
exception `e` is set: the step called a function of the interpreter that
failed, did not look at its status and went on. -/
inductive Res (σ α : Type) where
  | ok (a : α) (s : σ)
  | fail (e : PyErr) (s : σ)
  | timeout
  | pending (e : PyErr) (a : α) (s : σ)

/-- Whether a result is a value. -/
def Res.isOk {σ α : Type} : Res σ α → Bool
  | .ok _ _ => true
  | _ => false

/-- Whether a result is a failure of the program (not a timeout of the model). -/
def Res.isFail {σ α : Type} : Res σ α → Bool
  | .fail _ _ => true
  | _ => false

/-- The value a step has returned and the state after it, with or without an
exception set. -/
def Res.returned {σ α : Type} : Res σ α → Option (α × σ)
  | .ok a s => some (a, s)
  | .pending _ a s => some (a, s)
  | _ => Option.none

/-- Whether a step has returned a value, with or without an exception set. -/
def Res.returns {σ α : Type} (r : Res σ α) : Bool :=
  r.returned.isSome

/-- The value of a result, if it is one. -/
def Res.value {σ α : Type} : Res σ α → Option α
  | .ok a _ => some a
  | _ => Option.none

/-- The result `r` of a step that started while the exception `e` was set.  A
value leaves the exception as it is; a failure that sets an exception of its
own replaces it, and a NULL that comes with no exception of its own
(`systemNullNoError`) goes up with `e` set.  The calls the decoder makes with
an exception set are taken to behave as they do with none set. -/
def Res.after {σ α : Type} (e : PyErr) (r : Res σ α) : Res σ α :=
  match r with
  | .ok a s => .pending e a s
  | .fail e2 s => .fail (if e2 = .systemNullNoError then e else e2) s
  | .timeout => .timeout
  | .pending e2 a s => .pending e2 a s

/-- Sequencing of steps: the first failure or timeout ends the computation,
and an exception that is set stays set while the computation goes on. -/
def Res.bind {σ α β : Type} (r : Res σ α) (f : α → σ → Res σ β) : Res σ β :=
  match r with
  | .ok a s => f a s
  | .fail e s => .fail e s
  | .timeout => .timeout
  | .pending e a s => (f a s).after e

/-- Conversion of a `uint64_t` to `Py_ssize_t` (two's complement, 64 bits). -/
def toSsize (aux : Nat) : Int :=
  if aux % 2 ^ 64 < 2 ^ 63 then (aux % 2 ^ 64 : Nat) else (aux % 2 ^ 64 : Nat) - 2 ^ 64

/-- The host interpreter, as far as the module depends on it.

* `utf8_valid raw`: whether `PyUnicode_FromStringAndSize` accepts `raw`.
* `dict_set_ok d k v`: whether `PyDict_SetItem(d, k, v)` returns `0`; when it
  does not, it has set an exception (a `TypeError` for a key that cannot be
  hashed).
* `dict_set d k v`: the items of dictionary `d` after `PyDict_SetItem(d, k, v)`,
  whether it returned `0` or not.
* `dict_get d k`: `PyDict_GetItem(d, k)`, `none` for NULL; it leaves an
  exception that is set as it is.
* `list_sort_ok ks`: whether `PyList_Sort(ks)` returns `0`; when it does not,
  it has set an exception (a `TypeError` for keys that cannot be compared).
* `list_sort ks`: the list after `PyList_Sort(ks)`, whether it returned `0` or
  not. -/
structure Host where
  utf8_valid : List Nat → Bool
  dict_set_ok : List (PyObj × PyObj) → PyObj → PyObj → Bool
  dict_set : List (PyObj × PyObj) → PyObj → PyObj → List (PyObj × PyObj)
  dict_get : List (PyObj × PyObj) → PyObj → Option PyObj
  list_sort_ok : List PyObj → Bool
  list_sort : List PyObj → List PyObj

/-! ## Readers -/

/-- The function pointers `read` and `read1` of a `Reader`, on reader states
of type `σ`.  `read s len` yields the bytes the returned buffer holds. -/
structure Reader (σ : Type) where
  read : σ → Int → Res σ (List Nat)
  read1 : σ → Res σ Nat

/-- State of a `BufferReader`: the bytes of the object being decoded, the
number of bytes left (`len`, a `Py_ssize_t`) and the cursor `pos`, kept as an
offset from `raw` (so the cursor is inside the buffer when `0 ≤ pos` and
`pos ≤ raw.length`). -/
structure BufferReader where
  raw : List Nat
  len : Int
  pos : Int

/-- Function `BufferReader_read`: the test is the signed comparison
`len <= thiz->len`; on success the cursor moves by `len` and the buffer
returned is what the old cursor points at. -/
def BufferReader_read (thiz : BufferReader) (len : Int) : Res BufferReader (List Nat) :=
  if len ≤ thiz.len then
    .ok ((thiz.raw.drop thiz.pos.toNat).take len.toNat)
      { thiz with pos := thiz.pos + len, len := thiz.len - len }
  else
    .fail .valueBufferRead thiz

/-- Function `BufferReader_read1`.  Dereferencing a cursor that is outside the
buffer is undefined behaviour. -/
def BufferReader_read1 (thiz : BufferReader) : Res BufferReader Nat :=
  if thiz.len ≤ 0 then
    .fail .lookupBufferExhausted thiz
  else if 0 ≤ thiz.pos ∧ thiz.pos < thiz.raw.length then
    .ok (thiz.raw.getD thiz.pos.toNat 0)
      { thiz with pos := thiz.pos + 1, len := thiz.len - 1 }
  else
    .fail .undefinedBehaviour thiz

/-- The `BufferReader` function table (`SET_READER_FUNCTIONS`). -/
def bufferReader : Reader BufferReader where
  read := BufferReader_read
  read1 := BufferReader_read1

/-- Function `NewBufferReader` on a Python object (`bytearray` objects are not
part of `PyObj`). -/
def NewBufferReader (ob : PyObj) : Except PyErr BufferReader :=
  match ob with
  | .bytes b =>
    if b.length = 0 then .error .valueZeroLengthString
    else .ok { raw := b, len := b.length, pos := 0 }
  | _ => .error .valueInputUnknownType

/-- A `BufferReader` over the bytes `pre ++ suf` that has consumed `pre`. -/
def BufferReader.over (pre suf : List Nat) : BufferReader :=
  { raw := pre ++ suf, len := suf.length, pos := pre.length }

/-! ## Header codec: decoding -/

/-- Function `handle_info_bits`: the auxiliary value of a header whose
additional information is `cbor_info`. -/
def handle_info_bits {σ : Type} (R : Reader σ) (rin : σ) (cbor_info : Nat) : Res σ Nat :=
  if cbor_info ≤ 23 then
    .ok cbor_info rin
  else if cbor_info = CBOR_UINT8_FOLLOWS then
    match R.read1 rin with
    | .ok taux rin => .ok taux rin
    | .fail e s => .fail e s
    | .timeout => .timeout
    | .pending e taux rin => .pending e taux rin
  else if cbor_info = CBOR_UINT16_FOLLOWS then
    match R.read1 rin with
    | .ok hibyte rin =>
      match R.read1 rin with
      | .ok lobyte rin => .ok ((hibyte <<< 8) ||| lobyte) rin
      | .fail e s => .fail e s
      | .timeout => .timeout
      | .pending e lobyte rin => .pending e ((hibyte <<< 8) ||| lobyte) rin
    | .fail e s => .fail e s
    | .timeout => .timeout
    | .pending e hibyte rin =>
      ((R.read1 rin).bind fun lobyte rin => .ok ((hibyte <<< 8) ||| lobyte) rin).after e
  else if cbor_info = CBOR_UINT32_FOLLOWS then
    match R.read rin 4 with
    | .ok raw rin =>
      .ok (((raw.getD 0 0) <<< 24) ||| ((raw.getD 1 0) <<< 16) |||
           ((raw.getD 2 0) <<< 8) ||| (raw.getD 3 0)) rin
    | .fail e s => .fail e s
    | .timeout => .timeout
    | .pending e raw rin =>
      .pending e (((raw.getD 0 0) <<< 24) ||| ((raw.getD 1 0) <<< 16) |||
           ((raw.getD 2 0) <<< 8) ||| (raw.getD 3 0)) rin
  else if cbor_info = CBOR_UINT64_FOLLOWS then
    match R.read rin 8 with
    | .ok raw rin =>
      .ok ((List.range 8).foldl (fun aux si => ((aux <<< 8) % 2 ^ 64) ||| raw.getD si 0) 0) rin
    | .fail e s => .fail e s
    | .timeout => .timeout
    | .pending e raw rin =>
      .pending e
        ((List.range 8).foldl (fun aux si => ((aux <<< 8) % 2 ^ 64) ||| raw.getD si 0) 0) rin
  else
    .ok 0 rin

/-! ## Header codec: encoding -/

/-- The output buffer of the emit pass, as the sequence of stores made into
it: `(i, b)` records `out[i] = b`. -/
abbrev OutBuf := List (Nat × Nat)

/-- The store `out[i] = b` into a `uint8_t` buffer; nothing when `out` is NULL. -/
def store (out : Option OutBuf) (i b : Nat) : Option OutBuf :=
  out.map (fun log => log ++ [(i, b % 256)])

/-- The stores `out[pos + k] = bs[k]` in increasing order of `k` (`memcpy`). -/
def storeBytes (out : Option OutBuf) (pos : Nat) : List Nat → Option OutBuf
  | [] => out
  | b :: bs => storeBytes (store out pos b) (pos + 1) bs

/-- Function `tag_u64_out`; returns the buffer and the new `*posp`. -/
def tag_u64_out (cbor_type aux : Nat) (out : Option OutBuf) (pos : Nat) : Option OutBuf × Nat :=
  let out := store out pos (cbor_type ||| CBOR_UINT64_FOLLOWS)
  let out := store out (pos + 1) ((aux >>> 56) &&& 0x0ff)
  let out := store out (pos + 2) ((aux >>> 48) &&& 0x0ff)
  let out := store out (pos + 3) ((aux >>> 40) &&& 0x0ff)
  let out := store out (pos + 4) ((aux >>> 32) &&& 0x0ff)
  let out := store out (pos + 5) ((aux >>> 24) &&& 0x0ff)
  let out := store out (pos + 6) ((aux >>> 16) &&& 0x0ff)
  let out := store out (pos + 7) ((aux >>> 8) &&& 0x0ff)
  let out := store out (pos + 8) (aux &&& 0x0ff)
  (out, pos + 9)

/-- Function `tag_aux_out`; returns the buffer and the new `*posp`. -/
def tag_aux_out (cbor_type aux : Nat) (out : Option OutBuf) (pos : Nat) : Option OutBuf × Nat :=
  if aux ≤ 23 then
    (store out pos (cbor_type ||| aux), pos + 1)
  else if aux ≤ 0x0ff then
    let out := store out pos (cbor_type ||| CBOR_UINT8_FOLLOWS)
    let out := store out (pos + 1) aux
    (out, pos + 2)
  else if aux ≤ 0x0ffff then
    let out := store out pos (cbor_type ||| CBOR_UINT16_FOLLOWS)
    let out := store out (pos + 1) ((aux >>> 8) &&& 0x0ff)
    let out := store out (pos + 2) (aux &&& 0x0ff)
    (out, pos + 3)
  else if aux ≤ 0x0ffffffff then
    let out := store out pos (cbor_type ||| CBOR_UINT32_FOLLOWS)
    let out := store out (pos + 1) ((aux >>> 24) &&& 0x0ff)
    let out := store out (pos + 2) ((aux >>> 16) &&& 0x0ff)
    let out := store out (pos + 3) ((aux >>> 8) &&& 0x0ff)
    let out := store out (pos + 4) (aux &&& 0x0ff)
    (out, pos + 5)
  else
    tag_u64_out cbor_type aux out pos

/-- The stores `out[pos + k] = bs[k]`, in increasing order of `k`. -/
def placed (pos : Nat) : List Nat → OutBuf
  | [] => []
  | b :: bs => (pos, b) :: placed (pos + 1) bs

/-- An emitter `f` writes exactly the bytes `bs`, in order, at the positions
that start at `*posp`, and advances `*posp` by their number; with a NULL
buffer it only advances `*posp`. -/
def Emits (f : Option OutBuf → Nat → Option OutBuf × Nat) (bs : List Nat) : Prop :=
  ∀ (out : Option OutBuf) (pos : Nat),
    f out pos = (out.map (fun log => log ++ placed pos bs), pos + bs.length)

/-- The bytes a buffer of `n` bytes holds after the stores of `log` (a position
never stored to reads as `0`; a store outside the buffer is dropped here and
reported by `cbor_dumps`). -/
def readBack (log : OutBuf) (n : Nat) : List Nat :=
  log.foldl (fun mem w => mem.set w.1 w.2) (List.replicate n 0)

/-- The bytes an emitter writes when it is run on an empty buffer at position
`0`, in the order of the stores. -/
def emitted (f : Option OutBuf → Nat → Option OutBuf × Nat) : List Nat :=
  match (f (some []) 0).1 with
  | some log => log.map Prod.snd
  | Option.none => []

/-! ## Floating point decoding

A C `double` is carried as its IEEE-754 binary64 bit pattern.  `ldexp`,
`INFINITY`, `NAN`, unary minus and the conversion from `float` to `double`
are the operations of the C library and language on such patterns. -/

/-- The pattern of the double `x * 2 ^ e`, for `0 ≤ x < 2 ^ 53` and a result in
the normal range (the only uses here are `x < 2 ^ 23`, `-149 ≤ e ≤ 5`). -/
def ldexp (x : Nat) (e : Int) : Nat :=
  if x = 0 then 0
  else
    let k := (List.range 53).foldl (fun k i => if 2 ^ i ≤ x then i else k) 0
    (1023 + (k : Int) + e).toNat * 2 ^ 52 + (x - 2 ^ k) * 2 ^ (52 - k)

def INFINITY : Nat := 0x7FF0000000000000
def NAN : Nat := 0x7FF8000000000000

/-- Unary minus on a double: the sign bit is flipped. -/
def negate (bits : Nat) : Nat :=
  if bits < 2 ^ 63 then bits + 2 ^ 63 else bits - 2 ^ 63

/-- Conversion `(double)val` of a `float` given by its binary32 pattern. -/
def floatToDouble (b : Nat) : Nat :=
  let s := b / 2 ^ 31 % 2
  let e := b / 2 ^ 23 % 256
  let f := b % 2 ^ 23
  if e = 255 then
    s * 2 ^ 63 + 0x7FF * 2 ^ 52 + (if f = 0 then 0 else (2 ^ 51 ||| (f * 2 ^ 29)))
  else if e = 0 then
    s * 2 ^ 63 + ldexp f (-149)
  else
    s * 2 ^ 63 + (e + 896) * 2 ^ 52 + f * 2 ^ 29

/-- Function `decodeFloat16`. -/
def decodeFloat16 {σ : Type} (R : Reader σ) (rin : σ) : Res σ PyObj :=
  (R.read1 rin).bind fun hibyte rin =>
  (R.read1 rin).bind fun lobyte rin =>
    let exp := (hibyte >>> 2) &&& 0x1f
    let mant := ((hibyte &&& 0x3) <<< 8) ||| lobyte
    let val :=
      if exp = 0 then ldexp mant (-24)
      else if exp ≠ 31 then ldexp (mant + 1024) ((exp : Int) - 25)
      else if mant = 0 then INFINITY else NAN
    let val := if hibyte &&& 0x80 ≠ 0 then negate val else val
    .ok (.float val) rin

/-- Function `decodeFloat32` (either byte order of the host gives the
big-endian reading of the four bytes). -/
def decodeFloat32 {σ : Type} (R : Reader σ) (rin : σ) : Res σ PyObj :=
  (R.read rin 4).bind fun raw rin =>
    let val := (raw.getD 0 0) * 2 ^ 24 + (raw.getD 1 0) * 2 ^ 16 +
      (raw.getD 2 0) * 2 ^ 8 + raw.getD 3 0
    .ok (.float (floatToDouble val)) rin

/-- Function `decodeFloat64`. -/
def decodeFloat64 {σ : Type} (R : Reader σ) (rin : σ) : Res σ PyObj :=
  (R.read rin 8).bind fun raw rin =>
    let aux := (List.range 8).foldl (fun aux si => ((aux <<< 8) % 2 ^ 64) ||| raw.getD si 0) 0
    .ok (.float aux) rin

/-! ## Decoder -/

/-- Function `inner_loads`, with the call of `inner_loads_c` abstracted as
`item`: read the header byte, then decode the item it starts. -/
def inner_loads_of {σ : Type} (R : Reader σ) (item : σ → Nat → Res σ PyObj) (rin : σ) :
    Res σ PyObj :=
  (R.read1 rin).bind fun c rin => item rin c

/-- The loop `while (sc != CBOR_BREAK)` of the `CBOR_BYTES` case with
`CBOR_VAR_FOLLOWS`, with the chunks collected so far in `parts`.  A chunk
length of `2 ^ 63` or more makes `PyMem_Malloc(sizeof(VarBufferPart) + saux)`
return NULL or a block that is too small, and the stores and the `memcpy` that
follow are undefined behaviour. -/
def loads_var_bytes {σ : Type} (R : Reader σ) :
    Nat → σ → Nat → List (List Nat) → Res σ PyObj
  | 0, _, _, _ => .timeout
  | n + 1, rin, sc, parts =>
    if sc ≠ CBOR_BREAK then
      let scbor_type := sc &&& CBOR_TYPE_MASK
      let scbor_info := sc &&& CBOR_INFO_BITS
      if scbor_type ≠ CBOR_BYTES then
        .fail .valueExpectedSubBytes rin
      else
        (handle_info_bits R rin scbor_info).bind fun saux rin =>
        (R.read rin (toSsize saux)).bind fun blob rin =>
          if toSsize saux < 0 then .fail .undefinedBehaviour rin
          else
            (R.read1 rin).bind fun sc rin =>
              loads_var_bytes R n rin sc (parts ++ [blob])
    else
      .ok (.bytes parts.flatten) rin

/-- The loop `while (sc != CBOR_BREAK)` of the `CBOR_TEXT` and of the
`CBOR_ARRAY` case with `CBOR_VAR_FOLLOWS` (the two loops are the same code):
each item is decoded by `inner_loads_c(rin, sc)` and appended. -/
def loads_var_items {σ : Type} (R : Reader σ) (item : σ → Nat → Res σ PyObj) :
    Nat → σ → Nat → List PyObj → Res σ (List PyObj)
  | 0, _, _, _ => .timeout
  | n + 1, rin, sc, parts =>
    if sc ≠ CBOR_BREAK then
      (item rin sc).bind fun subitem rin =>
      (R.read1 rin).bind fun sc rin =>
        loads_var_items R item n rin sc (parts ++ [subitem])
    else
      .ok parts rin

/-- Host function `PyUnicode_Join` with the empty joiner: the concatenation
when every part is a `str`, NULL otherwise. -/
def unicode_join : List PyObj → Option (List Nat)
  | [] => some []
  | .unicode u :: rest => (unicode_join rest).map (fun r => u ++ r)
  | _ :: _ => Option.none

/-- Host function `PyList_SetItem(out, i, subitem)` on a list whose slots
`0 .. out.length - 1` are filled and whose further slots are still NULL. -/
def list_set_item (out : List PyObj) (i : Nat) (subitem : PyObj) : List PyObj :=
  if i < out.length then out.set i subitem else out ++ [subitem]

/-- The loop `for (i = 0; i < aux; i++)` of the `CBOR_ARRAY` case; `i` is an
`unsigned int` and wraps at `2 ^ 32`.  `out` is `none` when `PyList_New`
returned NULL, and then `PyList_SetItem` dereferences NULL. -/
def loads_array_items {σ : Type} (R : Reader σ) (item : σ → Nat → Res σ PyObj) (aux : Nat) :
    Nat → σ → Nat → Option (List PyObj) → Res σ PyObj
  | 0, _, _, _ => .timeout
  | n + 1, rin, i, out =>
    if i < aux then
      (inner_loads_of R item rin).bind fun subitem rin =>
        match out with
        | Option.none => .fail .undefinedBehaviour rin
        | some l => loads_array_items R item aux n rin ((i + 1) % 2 ^ 32) (some (list_set_item l i subitem))
    else
      match out with
      | Option.none => .fail .runtimeDecodingArray rin
      | some l => .ok (.list l) rin

/-- The statement `PyDict_SetItem(out, key, value);` of `loads_kv` and of the
loop of the indefinite-length map: the status is not looked at, so after a
failed insertion the decoder goes on with the exception set. -/
def dict_set_item {σ : Type} (H : Host) (out : List (PyObj × PyObj)) (key value : PyObj)
    (rin : σ) : Res σ (List (PyObj × PyObj)) :=
  if H.dict_set_ok out key value then .ok (H.dict_set out key value) rin
  else .pending .typeUnhashable (H.dict_set out key value) rin

/-- Function `loads_kv`; `out` is the list of items of the dictionary. -/
def loads_kv {σ : Type} (H : Host) (R : Reader σ) (item : σ → Nat → Res σ PyObj)
    (out : List (PyObj × PyObj)) (rin : σ) : Res σ (List (PyObj × PyObj)) :=
  (inner_loads_of R item rin).bind fun key rin =>
  (inner_loads_of R item rin).bind fun value rin =>
    dict_set_item H out key value rin

/-- The loop `for (i = 0; i < aux; i++)` of the `CBOR_MAP` case; `i` is an
`unsigned int` and wraps at `2 ^ 32`. -/
def loads_map_items {σ : Type} (H : Host) (R : Reader σ) (item : σ → Nat → Res σ PyObj)
    (aux : Nat) : Nat → σ → Nat → List (PyObj × PyObj) → Res σ PyObj
  | 0, _, _, _ => .timeout
  | n + 1, rin, i, out =>
    if i < aux then
      (loads_kv H R item out rin).bind fun out rin =>
        loads_map_items H R item aux n rin ((i + 1) % 2 ^ 32) out
    else
      .ok (.dict out) rin

/-- The loop `while (sc != CBOR_BREAK)` of the `CBOR_MAP` case with
`CBOR_VAR_FOLLOWS`. -/
def loads_var_map {σ : Type} (H : Host) (R : Reader σ) (item : σ → Nat → Res σ PyObj) :
    Nat → σ → Nat → List (PyObj × PyObj) → Res σ PyObj
  | 0, _, _, _ => .timeout
  | n + 1, rin, sc, out =>
    if sc ≠ CBOR_BREAK then
      (item rin sc).bind fun key rin =>
      (inner_loads_of R item rin).bind fun value rin =>
      (dict_set_item H out key value rin).bind fun out rin =>
      (R.read1 rin).bind fun sc rin =>
        loads_var_map H R item n rin sc out
    else
      .ok (.dict out) rin

/-- The loop `for (i = 0; i < bytes_info; i++)` of `loads_bignum`, with `k`
iterations left; the Python integer `out` is never negative. -/
def loads_bignum_loop {σ : Type} (R : Reader σ) : Nat → σ → Nat → Res σ PyObj
  | 0, rin, out => .ok (.long out) rin
  | k + 1, rin, out =>
    (R.read1 rin).bind fun cb rin =>
      loads_bignum_loop R k rin ((out <<< 8) ||| cb)

/-- Function `loads_bignum`. -/
def loads_bignum {σ : Type} (R : Reader σ) (rin : σ) (c : Nat) : Res σ PyObj :=
  let bytes_info := c &&& CBOR_INFO_BITS
  if bytes_info < 24 then
    loads_bignum_loop R bytes_info rin 0
  else
    .fail .notImplementedBiggerBignum rin

/-- Function `loads_tag`, with the call of `inner_loads_c` inside
`inner_loads` abstracted as `item`. -/
def loads_tag {σ : Type} (R : Reader σ) (item : σ → Nat → Res σ PyObj) (rin : σ) (aux : Nat) :
    Res σ PyObj :=
  if aux = CBOR_TAG_BIGNUM then
    (R.read1 rin).bind fun sc rin =>
      if sc &&& CBOR_TYPE_MASK = CBOR_BYTES then loads_bignum R rin sc
      else .fail .valueBignumNotBytes rin
  else if aux = CBOR_TAG_NEGBIGNUM then
    (R.read1 rin).bind fun sc rin =>
      if sc &&& CBOR_TYPE_MASK = CBOR_BYTES then
        (loads_bignum R rin sc).bind fun out rin =>
          match out with
          | .long n => .ok (.long (-1 - n)) rin
          | _ => .fail .undefinedBehaviour rin
      else .fail .valueNegbignumNotBytes rin
  else
    (inner_loads_of R item rin).bind fun out rin =>
      .ok (.tag (.long aux) out) rin

/-- The value of `(long long)(((long long)-1) - aux)`: the subtraction is made
in `uint64_t` and the result converted to `long long`. -/
def negint_small (aux : Nat) : Int :=
  toSsize ((2 ^ 64 - 1 + 2 ^ 64 - aux % 2 ^ 64) % 2 ^ 64)

/-- Function `inner_loads_c`.  `PyList_New((Py_ssize_t)aux)` returns NULL when
the size is negative or above `PY_SSIZE_T_MAX / sizeof(PyObject*)`; a
negative size makes `PyBytes_FromStringAndSize` and
`PyUnicode_FromStringAndSize` return NULL. -/
def inner_loads_c {σ : Type} (H : Host) (R : Reader σ) : Nat → σ → Nat → Res σ PyObj
  | 0, _, _ => .timeout
  | fuel + 1, rin, c =>
    let cbor_type := c &&& CBOR_TYPE_MASK
    let cbor_info := c &&& CBOR_INFO_BITS
    if cbor_type = CBOR_7 ∧ cbor_info = CBOR_UINT16_FOLLOWS then decodeFloat16 R rin
    else if cbor_type = CBOR_7 ∧ cbor_info = CBOR_UINT32_FOLLOWS then decodeFloat32 R rin
    else if cbor_type = CBOR_7 ∧ cbor_info = CBOR_UINT64_FOLLOWS then decodeFloat64 R rin
    else
    (handle_info_bits R rin cbor_info).bind fun aux rin =>
      if cbor_type = CBOR_UINT then
        .ok (.long aux) rin
      else if cbor_type = CBOR_NEGINT then
        if aux > 0x7fffffffffffffff then .ok (.long (-1 - (aux : Int))) rin
        else .ok (.long (negint_small aux)) rin
      else if cbor_type = CBOR_BYTES then
        if cbor_info = CBOR_VAR_FOLLOWS then
          (R.read1 rin).bind fun sc rin => loads_var_bytes R (fuel + 1) rin sc []
        else if aux = 0 then
          .ok (.bytes []) rin
        else
          (R.read rin (toSsize aux)).bind fun raw rin =>
            if toSsize aux < 0 then .fail .runtimeDecodingBytes rin
            else .ok (.bytes raw) rin
      else if cbor_type = CBOR_TEXT then
        if cbor_info = CBOR_VAR_FOLLOWS then
          (R.read1 rin).bind fun sc rin =>
          (loads_var_items R (inner_loads_c H R fuel) (fuel + 1) rin sc []).bind fun parts rin =>
            match unicode_join parts with
            | some u => .ok (.unicode u) rin
            | Option.none => .fail .runtimeDecodingVarText rin
        else if aux = 0 then
          .ok (.unicode []) rin
        else
          (R.read rin (toSsize aux)).bind fun raw rin =>
            if toSsize aux < 0 then .fail .runtimeDecodingText rin
            else if H.utf8_valid raw then .ok (.unicode raw) rin
            else .fail .runtimeDecodingText rin
      else if cbor_type = CBOR_ARRAY then
        if cbor_info = CBOR_VAR_FOLLOWS then
          (R.read1 rin).bind fun sc rin =>
          (loads_var_items R (inner_loads_c H R fuel) (fuel + 1) rin sc []).bind fun out rin =>
            .ok (.list out) rin
        else
          loads_array_items R (inner_loads_c H R fuel) aux (fuel + 1) rin 0
            (if 0 ≤ toSsize aux ∧ toSsize aux ≤ (2 ^ 63 - 1) / 8 then some [] else Option.none)
      else if cbor_type = CBOR_MAP then
        if cbor_info = CBOR_VAR_FOLLOWS then
          (R.read1 rin).bind fun sc rin =>
            loads_var_map H R (inner_loads_c H R fuel) (fuel + 1) rin sc []
        else
          loads_map_items H R (inner_loads_c H R fuel) aux (fuel + 1) rin 0 []
      else if cbor_type = CBOR_TAG then
        loads_tag R (inner_loads_c H R fuel) rin aux
      else if cbor_type = CBOR_7 then
        if aux = 20 then .ok (.bool false) rin
        else if aux = 21 then .ok (.bool true) rin
        else if aux = 22 then .ok .none rin
        else if aux = 23 then .ok .none rin
        else .fail .valueUnknownSection7 rin
      else
        .fail .runtimeUnknownMarker rin

/-- Function `inner_loads`. -/
def inner_loads {σ : Type} (H : Host) (R : Reader σ) (fuel : Nat) (rin : σ) : Res σ PyObj :=
  inner_loads_of R (inner_loads_c H R fuel) rin

/-- Function `cbor_loads` on its argument object: `none` when the fuel of the
model ran out, else the object returned or the exception raised.  When the
function returns an object while an exception is set, the interpreter
(CPython 3.5 and later) drops the object and raises a `SystemError`. -/
def cbor_loads (H : Host) (fuel : Nat) (ob : PyObj) : Option (Except PyErr PyObj) :=
  match ob with
  | .none => some (.error .valueGotNone)
  | _ =>
    match NewBufferReader ob with
    | .error e => some (.error e)
    | .ok r =>
      match inner_loads H bufferReader fuel r with
      | .ok out _ => some (.ok out)
      | .fail e _ => some (.error e)
      | .timeout => Option.none
      | .pending _ _ _ => some (.error .systemResultWithError)

/-! ## Encoder -/

/-- The options `EncodeOptions`. -/
structure EncodeOptions where
  sort_keys : Bool

/-- State of an encoding pass: the buffer `out` (`none` for the NULL of the
measure pass) and the position `pos`. -/
abbrev EncState := Option OutBuf × Nat

/-- The loop `for (i = 0; i < listlen; i++)` of the list and tuple cases of
`inner_dumps`, with the call of `inner_dumps` abstracted as `item`. -/
def dumps_items (item : PyObj → Option OutBuf → Nat → Res EncState Unit) :
    List PyObj → Option OutBuf → Nat → Res EncState Unit
  | [], out, pos => .ok () (out, pos)
  | x :: xs, out, pos =>
    (item x out pos).bind fun _ s => dumps_items item xs s.1 s.2

/-- The loop `while (PyDict_Next(ob, &dictiter, &key, &val))` of `dumps_dict`. -/
def dumps_pairs (item : PyObj → Option OutBuf → Nat → Res EncState Unit) :
    List (PyObj × PyObj) → Option OutBuf → Nat → Res EncState Unit
  | [], out, pos => .ok () (out, pos)
  | kv :: kvs, out, pos =>
    (item kv.1 out pos).bind fun _ s =>
    (item kv.2 s.1 s.2).bind fun _ s =>
      dumps_pairs item kvs s.1 s.2

/-- The loop over the sorted key list of `dumps_dict`.  When `PyDict_GetItem`
returns NULL the second call of `inner_dumps` dereferences it. -/
def dumps_sorted (H : Host) (item : PyObj → Option OutBuf → Nat → Res EncState Unit)
    (ob : List (PyObj × PyObj)) : List PyObj → Option OutBuf → Nat → Res EncState Unit
  | [], out, pos => .ok () (out, pos)
  | key :: keylist, out, pos =>
    (item key out pos).bind fun _ s =>
      match H.dict_get ob key with
      | Option.none => .fail .undefinedBehaviour s
      | some val =>
        (item val s.1 s.2).bind fun _ s =>
          dumps_sorted H item ob keylist s.1 s.2

/-- Function `dumps_dict`; `ob` is the list of items of the dictionary in
iteration order.  The status of `PyList_Sort` is not looked at: after a failed
sort the loop runs over the list as the sort left it, with the exception set
(see `dumps_error_pending`). -/
def dumps_dict (H : Host) (optp : EncodeOptions)
    (item : PyObj → Option OutBuf → Nat → Res EncState Unit)
    (ob : List (PyObj × PyObj)) (out : Option OutBuf) (pos : Nat) : Res EncState Unit :=
  let s := tag_aux_out CBOR_MAP ob.length out pos
  if optp.sort_keys then
    dumps_sorted H item ob (H.list_sort (ob.map Prod.fst)) s.1 s.2
  else
    dumps_pairs item ob s.1 s.2

/-- The loop `while (PyObject_IsTrue(val) && (revbytepos < 23))` of
`dumps_bignum`, with at most `n` iterations; returns `revbytepos` and the
bytes `revbytes[0 .. revbytepos - 1]`.  On a Python integer `val & 0xff` is
`val % 256` and `val >> 8` is `val / 256` (rounding down). -/
def dumps_bignum_loop : Nat → Int → Nat → List Nat → Nat × List Nat
  | 0, _, revbytepos, revbytes => (revbytepos, revbytes)
  | n + 1, val, revbytepos, revbytes =>
    if val ≠ 0 ∧ revbytepos < 23 then
      dumps_bignum_loop n (val / 256) (revbytepos + 1) (revbytes ++ [(val % 256).toNat])
    else
      (revbytepos, revbytes)

/-- Function `dumps_bignum`.  The loop runs at most 23 times. -/
def dumps_bignum (tag : Nat) (val : Int) (out : Option OutBuf) (pos : Nat) : EncState :=
  let r := dumps_bignum_loop 23 val 0 []
  let revbytepos := r.1
  let out := store out pos (CBOR_TAG ||| tag)
  let out := store out (pos + 1) (CBOR_BYTES ||| revbytepos)
  let out := storeBytes out (pos + 2) r.2.reverse
  (out, pos + 2 + revbytepos)

/-- Function `dumps_tag` on an instance with both attributes, `tag_num` and
`tag_value`.  `PyLong_Check` accepts `int` and its subclass `bool`; for any
other `tag_num` nothing is written and `0` is returned. -/
def dumps_tag (item : PyObj → Option OutBuf → Nat → Res EncState Unit)
    (tag_num tag_value : PyObj) (out : Option OutBuf) (pos : Nat) : Res EncState Unit :=
  let asLong : Option Int :=
    match tag_num with
    | .long n => some n
    | .bool b => some (if b then 1 else 0)
    | _ => Option.none
  match asLong with
  | some n =>
    if -(2 ^ 63 : Int) ≤ n ∧ n < 2 ^ 63 then
      if n ≥ 0 then
        let s := tag_aux_out CBOR_TAG n.toNat out pos
        item tag_value s.1 s.2
      else
        .fail .valueTagNegative (out, pos)
    else
      .fail .valueTagTooLarge (out, pos)
  | Option.none => .ok () (out, pos)

/-- Function `inner_dumps`.  With `out = none` it just counts the length. -/
def inner_dumps (H : Host) (optp : EncodeOptions) :
    Nat → PyObj → Option OutBuf → Nat → Res EncState Unit
  | 0, _, _, _ => .timeout
  | fuel + 1, ob, out, pos =>
    match ob with
    | .none => .ok () (store out pos CBOR_NULL, pos + 1)
    | .bool b => .ok () (store out pos (if b then CBOR_TRUE else CBOR_FALSE), pos + 1)
    | .dict kvs => dumps_dict H optp (inner_dumps H optp fuel) kvs out pos
    | .list xs =>
      let s := tag_aux_out CBOR_ARRAY xs.length out pos
      dumps_items (inner_dumps H optp fuel) xs s.1 s.2
    | .tuple xs =>
      let s := tag_aux_out CBOR_ARRAY xs.length out pos
      dumps_items (inner_dumps H optp fuel) xs s.1 s.2
    | .long n =>
      if -(2 ^ 63 : Int) ≤ n ∧ n < 2 ^ 63 then
        if n ≥ 0 then .ok () (tag_aux_out CBOR_UINT n.toNat out pos)
        else .ok () (tag_aux_out CBOR_NEGINT (-1 - n).toNat out pos)
      else if n < 0 then
        .ok () (dumps_bignum CBOR_TAG_NEGBIGNUM (-1 - n) out pos)
      else
        .ok () (dumps_bignum CBOR_TAG_BIGNUM n out pos)
    | .float bits => .ok () (tag_u64_out CBOR_7 bits out pos)
    | .bytes b =>
      let s := tag_aux_out CBOR_BYTES b.length out pos
      .ok () (storeBytes s.1 s.2 b, s.2 + b.length)
    | .unicode utf8 =>
      let s := tag_aux_out CBOR_TEXT utf8.length out pos
      .ok () (storeBytes s.1 s.2 utf8, s.2 + utf8.length)
    | .tag t v => dumps_tag (inner_dumps H optp fuel) t v out pos
    | .brokenTag hasTag =>
      .fail (if hasTag then .valueBrokenTagNoValue else .valueBrokenTagNoTag) (out, pos)
    | .other => .fail .valueCannotSerialize (out, pos)

/-- Whether an exception is set when a call of `inner_dumps` on `ob` has
returned `0`: the one of a `PyList_Sort` that failed in `dumps_dict`, in a
dictionary that the call has visited.  No call that `inner_dumps` makes on
its way clears or replaces an exception unless the pass fails. -/
def dumps_error_pending (H : Host) (optp : EncodeOptions) : Nat → PyObj → Bool
  | 0, _ => false
  | fuel + 1, ob =>
    match ob with
    | .dict kvs =>
      if optp.sort_keys then
        !H.list_sort_ok (kvs.map Prod.fst) ||
        (H.list_sort (kvs.map Prod.fst)).any fun key =>
          dumps_error_pending H optp fuel key ||
          match H.dict_get kvs key with
          | some val => dumps_error_pending H optp fuel val
          | Option.none => false
      else
        kvs.any fun kv =>
          dumps_error_pending H optp fuel kv.1 || dumps_error_pending H optp fuel kv.2
    | .list xs => xs.any fun x => dumps_error_pending H optp fuel x
    | .tuple xs => xs.any fun x => dumps_error_pending H optp fuel x
    | .tag (.long _) v => dumps_error_pending H optp fuel v
    | .tag (.bool _) v => dumps_error_pending H optp fuel v
    | _ => false

/-- Function `cbor_dumps` on the object and the value of the keyword argument
`sort_keys`: the measure pass, the allocation of `outlen` bytes, the emit pass
and the copy of the buffer into a `bytes` object.  A store at a position
outside the allocation is undefined behaviour.  When the function returns the
`bytes` object while an exception is set, the interpreter (CPython 3.5 and
later) drops the object and raises a `SystemError`.  `none` when the fuel of
the model ran out. -/
def cbor_dumps (H : Host) (fuel : Nat) (ob : PyObj) (sort_keys : Bool) :
    Option (Except PyErr PyObj) :=
  let optp : EncodeOptions := { sort_keys := sort_keys }
  match inner_dumps H optp fuel ob Option.none 0 with
  | .timeout => Option.none
  | .fail e _ => some (.error e)
  | .pending _ _ _ => some (.error .systemResultWithError)
  | .ok _ s =>
    let outlen := s.2
    match inner_dumps H optp fuel ob (some []) 0 with
    | .timeout => Option.none
    | .fail e _ => some (.error e)
    | .pending _ _ _ => some (.error .systemResultWithError)
    | .ok _ s2 =>
      match s2.1 with
      | Option.none => some (.error .undefinedBehaviour)
      | some log =>
        if log.all (fun w => w.1 < outlen) then
          if dumps_error_pending H optp fuel ob then some (.error .systemResultWithError)
          else some (.ok (.bytes (readBack log outlen)))
        else some (.error .undefinedBehaviour)

/-! ## A reference host

The host functions of CPython (3.3 to 3.12) on the objects of `PyObj`: the
strict UTF-8 decoder, the hash, the comparisons `==` and `<`, the dictionary
with its insertion order, and the list sort on lists of fewer than 64 items
(`count_run` followed by `binarysort`; on longer lists the list sort of
CPython merges runs, with the same result whenever `<` orders the items
totally).

What the model cannot tell is which objects are one and the same object: the
lookup of a key takes the first key that is equal to it or of the same shape
(so a NaN key is found, as the lookup of CPython finds it by identity), and
`==` on the items of two tuples does not take two NaN for one object.  An
object of another type (`other`) has the hash and the comparisons of `object`.
The class `Tag` is not part of the sources; whether its instances can be
hashed is the parameter `tagHash` (they cannot when the class defines `__eq__`
and no `__hash__`), and an instance that can be hashed is equal to itself
only. -/

/-- Whether a byte is a continuation byte of UTF-8. -/
def utf8_cont (b : Nat) : Bool :=
  decide (0x80 ≤ b) && decide (b ≤ 0xBF)

/-- The strict UTF-8 decoder of `PyUnicode_FromStringAndSize`: whether the
bytes are well-formed UTF-8 (shortest forms only, no surrogates, no code point
above `U+10FFFF`). -/
def utf8_decodable : List Nat → Bool
  | [] => true
  | b0 :: rest =>
    if b0 < 0x80 then utf8_decodable rest
    else if b0 < 0xC2 then false
    else if b0 < 0xE0 then
      match rest with
      | b1 :: rest => utf8_cont b1 && utf8_decodable rest
      | _ => false
    else if b0 < 0xF0 then
      match rest with
      | b1 :: b2 :: rest =>
        decide ((if b0 = 0xE0 then 0xA0 else 0x80) ≤ b1) &&
        decide (b1 ≤ (if b0 = 0xED then 0x9F else 0xBF)) &&
        utf8_cont b2 && utf8_decodable rest
      | _ => false
    else if b0 < 0xF5 then
      match rest with
      | b1 :: b2 :: b3 :: rest =>
        decide ((if b0 = 0xF0 then 0x90 else 0x80) ≤ b1) &&
        decide (b1 ≤ (if b0 = 0xF4 then 0x8F else 0xBF)) &&
        utf8_cont b2 && utf8_cont b3 && utf8_decodable rest
      | _ => false
    else false

/-- A Python number (an `int`, a `bool` or a `float`): a NaN, an infinity, or
the number times `2 ^ 1075`, which is an integer for every finite float. -/
inductive PyNum where
  | nan
  | ninf
  | fin (scaled : Int)
  | pinf

/-- The number a float stands for, by its binary64 pattern. -/
def doubleNum (bits : Nat) : PyNum :=
  let s : Nat := bits / 2 ^ 63 % 2
  let e : Nat := bits / 2 ^ 52 % 2048
  let f : Nat := bits % 2 ^ 52
  if e = 2047 then
    if f ≠ 0 then .nan else if s = 1 then .ninf else .pinf
  else
    let m : Nat := if e = 0 then f <<< 1 else (2 ^ 52 + f) <<< e
    .fin (if s = 1 then -(m : Int) else (m : Int))

/-- The number a Python object stands for, if it is an `int`, a `bool` or a
`float`. -/
def pyNum : PyObj → Option PyNum
  | .bool b => some (.fin ((if b then 1 else 0) * ((1 <<< 1075 : Nat) : Int)))
  | .long n => some (.fin (n * ((1 <<< 1075 : Nat) : Int)))
  | .float bits => some (doubleNum bits)
  | _ => Option.none

/-- The comparison `<` of two numbers; it is false when one is a NaN. -/
def PyNum.lt : PyNum → PyNum → Bool
  | .nan, _ => false
  | _, .nan => false
  | .ninf, .ninf => false
  | .ninf, _ => true
  | .fin _, .ninf => false
  | .fin a, .fin b => decide (a < b)
  | .fin _, .pinf => true
  | .pinf, _ => false

/-- The comparison `==` of two numbers; a NaN equals nothing. -/
def PyNum.eq : PyNum → PyNum → Bool
  | .ninf, .ninf => true
  | .fin a, .fin b => decide (a = b)
  | .pinf, .pinf => true
  | _, _ => false

/-- The comparison `<` of byte strings and of text strings: lexicographic, a
proper prefix first.  A text string is held as its UTF-8 bytes, and Python
compares text strings code point by code point; on well-formed UTF-8 the two
orders are the same. -/
def bytesLt : List Nat → List Nat → Bool
  | [], [] => false
  | [], _ :: _ => true
  | _ :: _, [] => false
  | a :: as, b :: bs => if a < b then true else if b < a then false else bytesLt as bs

mutual
/-- The truth value of `a == b` in Python. -/
def pyEq : PyObj → PyObj → Bool
  | .none, .none => true
  | .bytes a, .bytes b => a == b
  | .unicode a, .unicode b => a == b
  | .tuple xs, .tuple ys => pyEqs xs ys
  | .list xs, .list ys => pyEqs xs ys
  | a, b =>
    match pyNum a, pyNum b with
    | some x, some y => x.eq y
    | _, _ => false
/-- Elementwise `==`. -/
def pyEqs : List PyObj → List PyObj → Bool
  | [], [] => true
  | x :: xs, y :: ys => pyEq x y && pyEqs xs ys
  | _, _ => false
end


mutual
/-- The comparison `a < b` of Python: its truth value, or `none` when it
raises a `TypeError`. -/
def pyLt : PyObj → PyObj → Option Bool
  | .bytes a, .bytes b => some (bytesLt a b)
  | .unicode a, .unicode b => some (bytesLt a b)
  | .tuple xs, .tuple ys => pyLts xs ys
  | .list xs, .list ys => pyLts xs ys
  | a, b =>
    match pyNum a, pyNum b with
    | some x, some y => some (x.lt y)
    | _, _ => Option.none
/-- The comparison `<` of two sequences: the first items that are not equal
decide, else the shorter sequence is the lesser. -/
def pyLts : List PyObj → List PyObj → Option Bool
  | [], [] => some false
  | [], _ :: _ => some true
  | _ :: _, [] => some false
  | x :: xs, y :: ys => if pyEq x y then pyLts xs ys else pyLt x y
end

mutual
/-- Whether two objects of the model are one and the same, as far as the
model tells objects apart. -/
def pySame : PyObj → PyObj → Bool
  | .none, .none => true
  | .bool a, .bool b => a == b
  | .long a, .long b => a == b
  | .float a, .float b => a == b
  | .bytes a, .bytes b => a == b
  | .unicode a, .unicode b => a == b
  | .list xs, .list ys => pySames xs ys
  | .tuple xs, .tuple ys => pySames xs ys
  | .dict xs, .dict ys => pySamePairs xs ys
  | .tag t v, .tag t2 v2 => pySame t t2 && pySame v v2
  | .brokenTag a, .brokenTag b => a == b
  | .other, .other => true
  | _, _ => false
/-- The same, item by item. -/
def pySames : List PyObj → List PyObj → Bool
  | [], [] => true
  | x :: xs, y :: ys => pySame x y && pySames xs ys
  | _, _ => false
/-- The same, pair by pair. -/
def pySamePairs : List (PyObj × PyObj) → List (PyObj × PyObj) → Bool
  | [], [] => true
  | (k, v) :: xs, (k2, v2) :: ys => pySame k k2 && pySame v v2 && pySamePairs xs ys
  | _, _ => false
end

mutual
/-- Whether `PyObject_Hash` succeeds. -/
def pyHashable (tagHash : Bool) : PyObj → Bool
  | .list _ => false
  | .dict _ => false
  | .tuple xs => pyHashables tagHash xs
  | .tag _ _ => tagHash
  | .brokenTag _ => tagHash
  | _ => true
/-- Whether every item can be hashed. -/
def pyHashables (tagHash : Bool) : List PyObj → Bool
  | [] => true
  | x :: xs => pyHashable tagHash x && pyHashables tagHash xs
end

/-- The items of a dictionary after the insertion of a key that can be hashed:
the value of the first key equal to it is replaced (the key stays), else the
item is added at the end.  The decoder inserts objects it has just made, so
that a key is found by `==` alone. -/
def pyDictInsert : List (PyObj × PyObj) → PyObj → PyObj → List (PyObj × PyObj)
  | [], k, v => [(k, v)]
  | (k0, v0) :: d, k, v =>
    if pyEq k0 k then (k0, v) :: d else (k0, v0) :: pyDictInsert d k v

/-- The lookup of a key that can be hashed: the first key that is the same
object or equal to it.  The encoder looks up the keys that `PyDict_Keys`
returned, which are the key objects of the dictionary. -/
def pyDictFind : List (PyObj × PyObj) → PyObj → Option PyObj
  | [], _ => Option.none
  | (k0, v0) :: d, k => if pySame k0 k || pyEq k0 k then some v0 else pyDictFind d k

/-- The loop of `count_run` over a run that goes down. -/
def run_down : PyObj → List PyObj → Option Nat
  | _, [] => some 0
  | prev, x :: rest =>
    match pyLt x prev with
    | Option.none => Option.none
    | some true => (run_down x rest).map (· + 1)
    | some false => some 0

/-- The loop of `count_run` over a run that does not go down. -/
def run_up : PyObj → List PyObj → Option Nat
  | _, [] => some 0
  | prev, x :: rest =>
    match pyLt x prev with
    | Option.none => Option.none
    | some true => some 0
    | some false => (run_up x rest).map (· + 1)

/-- Function `count_run`: the length of the run at the start of the list and
whether it goes down (strictly), or `none` when a comparison fails. -/
def count_run : List PyObj → Option (Nat × Bool)
  | [] => some (0, false)
  | [_] => some (1, false)
  | a :: b :: rest =>
    match pyLt b a with
    | Option.none => Option.none
    | some true => (run_down b rest).map fun n => (n + 2, true)
    | some false => (run_up b rest).map fun n => (n + 2, false)

/-- The loop `do .. while (l < r)` of `binarysort`, with at most `fuel`
iterations: the place of `pivot` among the sorted items `arr[l .. r - 1]`, or
`none` when a comparison fails. -/
def bisect (pivot : PyObj) (arr : List PyObj) : Nat → Nat → Nat → Option Nat
  | 0, l, _ => some l
  | fuel + 1, l, r =>
    let p := l + (r - l) / 2
    match pyLt pivot (arr.getD p .none) with
    | Option.none => Option.none
    | some true => if l < p then bisect pivot arr fuel l p else some p
    | some false => if p + 1 < r then bisect pivot arr fuel (p + 1) r else some (p + 1)

/-- Function `binarysort`: the items after the sorted run are inserted into
it one by one, each at the place the bisection finds; returns the list and
whether every comparison succeeded. -/
def binarysort (sorted : List PyObj) : List PyObj → List PyObj × Bool
  | [] => (sorted, true)
  | pivot :: rest =>
    match bisect pivot sorted sorted.length 0 sorted.length with
    | Option.none => (sorted ++ pivot :: rest, false)
    | some l => binarysort (sorted.take l ++ pivot :: sorted.drop l) rest

/-- Function `list_sort_impl` on a list of fewer than 64 items: the list it
leaves and whether it succeeds.  The first run is extended to the whole list
by `binarysort`; when a comparison fails, the list stays as it is at that
point. -/
def list_sort_impl (ks : List PyObj) : List PyObj × Bool :=
  if ks.length < 2 then (ks, true)
  else
    match count_run ks with
    | Option.none => (ks, false)
    | some (n, descending) =>
      binarysort (if descending then (ks.take n).reverse else ks.take n) (ks.drop n)

/-- The host of the model of CPython above. -/
def pyHost (tagHash : Bool) : Host where
  utf8_valid := utf8_decodable
  dict_set_ok := fun _ k _ => pyHashable tagHash k
  dict_set := fun d k v => if pyHashable tagHash k then pyDictInsert d k v else d
  dict_get := fun d k => if pyHashable tagHash k then pyDictFind d k else Option.none
  list_sort_ok := fun ks => (list_sort_impl ks).2
  list_sort := fun ks => (list_sort_impl ks).1

/-- The reference host: instances of `Tag` cannot be hashed. -/
def refHost : Host := pyHost false

/-- The header bytes `tag_aux_out` writes for a major type and an auxiliary
value. -/
def header (cbor_type aux : Nat) : List Nat :=
  emitted (tag_aux_out cbor_type aux)

/-- The big-endian value of a byte sequence. -/
def bigEndian (bs : List Nat) : Nat :=
  bs.foldl (fun acc b => acc * 256 + b) 0

/-- The major types of `cbor.h`: the multiples of `0x20` below `0x100`. -/
def IsMajorType (t : Nat) : Prop :=
  t % 32 = 0 ∧ t < 256

/-! ## The encoder as a function to bytes

`encode` gives the bytes that `inner_dumps` writes as a function of the
object; `inner_dumps_encodes` below proves that both passes of `inner_dumps`
follow it.  It is a device of the proofs: the theorems are about `inner_dumps`
and `cbor_dumps`. -/

/-- Outcome of an encoding: `none` when the fuel ran out, else the bytes or
the error. -/
abbrev EncRes := Option (Except PyErr (List Nat))

/-- One encoding step after another: the bytes are concatenated, the first
failure or timeout ends the encoding. -/
def encSeq (r1 r2 : EncRes) : EncRes :=
  match r1 with
  | some (.ok b1) =>
    match r2 with
    | some (.ok b2) => some (.ok (b1 ++ b2))
    | other => other
  | other => other

/-- An encoding step `f` has outcome `r`: it writes these bytes at `*posp` in
order (only advancing `*posp` when the buffer is NULL), or fails with this
error, or times out, whatever the buffer and position. -/
def Encodes (f : Option OutBuf → Nat → Res EncState Unit) (r : EncRes) : Prop :=
  match r with
  | some (.ok bs) =>
    ∀ (out : Option OutBuf) (pos : Nat),
      f out pos = .ok () (out.map (fun log => log ++ placed pos bs), pos + bs.length)
  | some (.error e) => ∀ (out : Option OutBuf) (pos : Nat), ∃ s, f out pos = .fail e s
  | Option.none => ∀ (out : Option OutBuf) (pos : Nat), f out pos = .timeout

/-- Bytes of `dumps_items`. -/
def encode_items (item : PyObj → EncRes) : List PyObj → EncRes
  | [] => some (.ok [])
  | x :: xs => encSeq (item x) (encode_items item xs)

/-- Bytes of `dumps_pairs`. -/
def encode_pairs (item : PyObj → EncRes) : List (PyObj × PyObj) → EncRes
  | [] => some (.ok [])
  | kv :: kvs => encSeq (item kv.1) (encSeq (item kv.2) (encode_pairs item kvs))

/-- Bytes of `dumps_sorted`. -/
def encode_sorted (H : Host) (item : PyObj → EncRes) (ob : List (PyObj × PyObj)) :
    List PyObj → EncRes
  | [] => some (.ok [])
  | key :: keylist =>
    encSeq (item key)
      (match H.dict_get ob key with
       | Option.none => some (.error .undefinedBehaviour)
       | some val => encSeq (item val) (encode_sorted H item ob keylist))

/-- Bytes of `dumps_bignum`. -/
def encode_bignum (tag : Nat) (val : Int) : List Nat :=
  let r := dumps_bignum_loop 23 val 0 []
  [(CBOR_TAG ||| tag) % 256, (CBOR_BYTES ||| r.1) % 256] ++ r.2.reverse.map (fun b => b % 256)

/-- Bytes of `dumps_tag`. -/
def encode_tag (item : PyObj → EncRes) (tag_num tag_value : PyObj) : EncRes :=
  let asLong : Option Int :=
    match tag_num with
    | .long n => some n
    | .bool b => some (if b then 1 else 0)
    | _ => Option.none
  match asLong with
  | some n =>
    if -(2 ^ 63 : Int) ≤ n ∧ n < 2 ^ 63 then
      if n ≥ 0 then encSeq (some (.ok (header CBOR_TAG n.toNat))) (item tag_value)
      else some (.error .valueTagNegative)
    else some (.error .valueTagTooLarge)
  | Option.none => some (.ok [])

/-- Bytes of `inner_dumps`. -/
def encode (H : Host) (optp : EncodeOptions) : Nat → PyObj → EncRes
  | 0, _ => Option.none
  | fuel + 1, ob =>
    match ob with
    | .none => some (.ok [CBOR_NULL % 256])
    | .bool b => some (.ok [(if b then CBOR_TRUE else CBOR_FALSE) % 256])
    | .dict kvs =>
      encSeq (some (.ok (header CBOR_MAP kvs.length)))
        (if optp.sort_keys then
          encode_sorted H (encode H optp fuel) kvs (H.list_sort (kvs.map Prod.fst))
         else encode_pairs (encode H optp fuel) kvs)
    | .list xs =>
      encSeq (some (.ok (header CBOR_ARRAY xs.length))) (encode_items (encode H optp fuel) xs)
    | .tuple xs =>
      encSeq (some (.ok (header CBOR_ARRAY xs.length))) (encode_items (encode H optp fuel) xs)
    | .long n =>
      if -(2 ^ 63 : Int) ≤ n ∧ n < 2 ^ 63 then
        if n ≥ 0 then some (.ok (header CBOR_UINT n.toNat))
        else some (.ok (header CBOR_NEGINT (-1 - n).toNat))
      else if n < 0 then some (.ok (encode_bignum CBOR_TAG_NEGBIGNUM (-1 - n)))
      else some (.ok (encode_bignum CBOR_TAG_BIGNUM n))
    | .float bits => some (.ok (emitted (tag_u64_out CBOR_7 bits)))
    | .bytes b => some (.ok (header CBOR_BYTES b.length ++ b.map (fun x => x % 256)))
    | .unicode utf8 =>
      some (.ok (header CBOR_TEXT utf8.length ++ utf8.map (fun x => x % 256)))
    | .tag t v => encode_tag (encode H optp fuel) t v
    | .brokenTag hasTag =>
      some (.error (if hasTag then .valueBrokenTagNoValue else .valueBrokenTagNoTag))
    | .other => some (.error .valueCannotSerialize)

/-! ## Well-formed input of the in-memory decoder -/

/-- The bytes `h` are a definite-length header of major type `t` that carries
`aux`: the first byte has type `t` and an additional information of at most
27, and `handle_info_bits` reads `aux` from the rest of `h`, wherever `h`
stands in a buffer. -/
def IsHeader (t aux : Nat) (h : List Nat) : Prop :=
  ∃ c tail, h = c :: tail ∧ c &&& CBOR_TYPE_MASK = t ∧ c &&& CBOR_INFO_BITS ≤ 27 ∧
    ∀ pre rest,
      handle_info_bits bufferReader (BufferReader.over (pre ++ [c]) (tail ++ rest))
          (c &&& CBOR_INFO_BITS)
        = .ok aux (BufferReader.over (pre ++ h) rest)

/-- The decoding step `item`, started on the first byte of `b`, yields `v` and
stops exactly behind `b`, wherever `b` stands in a buffer; and `b` does not
start with the break byte. -/
def ItemOk (item : BufferReader → Nat → Res BufferReader PyObj) (b : List Nat) (v : PyObj) :
    Prop :=
  ∃ c tail, b = c :: tail ∧ c ≠ CBOR_BREAK ∧
    ∀ pre rest,
      item (BufferReader.over (pre ++ [c]) (tail ++ rest)) c
        = .ok v (BufferReader.over (pre ++ b) rest)

/-- The bytes `b` are a well-formed item that decodes to `v`: `inner_loads`
with this fuel yields `v` and stops exactly behind `b`, wherever `b` stands in
a buffer. -/
def DecodesTo (H : Host) (fuel : Nat) (b : List Nat) (v : PyObj) : Prop :=
  ∀ pre rest,
    inner_loads H bufferReader fuel (BufferReader.over pre (b ++ rest))
      = .ok v (BufferReader.over (pre ++ b) rest)

/-- The dictionary built by inserting the pairs in order, starting from `d`. -/
def dict_of (H : Host) (d : List (PyObj × PyObj)) (kvs : List (PyObj × PyObj)) :
    List (PyObj × PyObj) :=
  kvs.foldl (fun d kv => H.dict_set d kv.1 kv.2) d

/-- Whether `PyDict_SetItem` returns `0` for each of the pairs, inserted in
order into the dictionary with the items `d`. -/
def dict_accepts (H : Host) : List (PyObj × PyObj) → List (PyObj × PyObj) → Bool
  | _, [] => true
  | d, kv :: kvs => H.dict_set_ok d kv.1 kv.2 && dict_accepts H (H.dict_set d kv.1 kv.2) kvs

set_option maxRecDepth 100000 in
/-- The objects that the encoder writes and the decoder reads back unchanged:
`None`, booleans, integers from `-2 ^ 184` to `2 ^ 184 - 1`, floats, byte
strings, text strings the host accepts as UTF-8, lists and dictionaries of
fewer than `2 ^ 32` entries (a dictionary with keys that the host accepts,
keeps apart and in insertion order), and `Tag` objects whose tag number is an integer from
`0` to `2 ^ 63 - 1` other than `2` and `3`. -/
inductive Storable (H : Host) : PyObj → Prop
  | none : Storable H .none
  | bool (b : Bool) : Storable H (.bool b)
  | long (n : Int) (hlo : -(2 ^ 184 : Int) ≤ n) (hhi : n < 2 ^ 184) : Storable H (.long n)
  | float (bits : Nat) (h : bits < 2 ^ 64) : Storable H (.float bits)
  | bytes (b : List Nat) (hb : ∀ x ∈ b, x < 256) (hl : b.length < 2 ^ 63) :
    Storable H (.bytes b)
  | unicode (u : List Nat) (hb : ∀ x ∈ u, x < 256) (hl : u.length < 2 ^ 63)
    (hv : u = [] ∨ H.utf8_valid u = true) : Storable H (.unicode u)
  | list (xs : List PyObj) (hl : xs.length < 2 ^ 32) (hx : ∀ x ∈ xs, Storable H x) :
    Storable H (.list xs)
  | dict (kvs : List (PyObj × PyObj)) (hl : kvs.length < 2 ^ 32)
    (hk : ∀ kv ∈ kvs, Storable H kv.1) (hv : ∀ kv ∈ kvs, Storable H kv.2)
    (ha : dict_accepts H [] kvs = true)
    (hd : dict_of H [] kvs = kvs) :
    Storable H (.dict kvs)
  | tag (n : Int) (v : PyObj) (h0 : 0 ≤ n) (hhi : n < 2 ^ 63) (h2 : n ≠ 2) (h3 : n ≠ 3)
    (hv : Storable H v) : Storable H (.tag (.long n) v)

/-- A step of the in-memory decoder, started on `over pre suf`, comes to an
end: it either fails or yields a value and stops behind some prefix `used` of
the bytes `suf` that were left; it does not run out of fuel. -/
def Progress {α : Type} (pre suf : List Nat) (r : Res BufferReader α) : Prop :=
  match r with
  | .ok _ s => ∃ used rest, suf = used ++ rest ∧ s = BufferReader.over (pre ++ used) rest
  | .fail _ _ => True
  | .timeout => False
  | .pending _ _ s => ∃ used rest, suf = used ++ rest ∧ s = BufferReader.over (pre ++ used) rest

/-- A step of the in-memory decoder, started on `over pre suf`, comes to an
end, and where it yields a value it has consumed at least one byte. -/
def Advances {α : Type} (pre suf : List Nat) (r : Res BufferReader α) : Prop :=
  match r with
  | .ok _ s =>
    ∃ used rest, suf = used ++ rest ∧ 1 ≤ used.length ∧ s = BufferReader.over (pre ++ used) rest
  | .fail _ _ => True
  | .timeout => False
  | .pending _ _ s =>
    ∃ used rest, suf = used ++ rest ∧ 1 ≤ used.length ∧ s = BufferReader.over (pre ++ used) rest

/-! ## Predicates of the indefinite-length forms -/

/-- The step `r` does not return a `str` object. -/
def NotText {σ : Type} (r : Res σ PyObj) : Prop :=
  match r with
  | .ok v _ => ∀ u, v ≠ .unicode u
  | .fail _ _ => True
  | .timeout => True
  | .pending _ v _ => ∀ u, v ≠ .unicode u

/-- The bytes `p.1 ++ p.2` are a chunk that the loop of an indefinite-length
byte string accepts with payload `p.2`: a definite-length byte string header
`p.1` that carries the length of `p.2`, or one header byte of type byte string
with an additional information above 27 (the indefinite-length marker 31 among
them) and no payload. -/
def IsChunk (p : List Nat × List Nat) : Prop :=
  (IsHeader CBOR_BYTES p.2.length p.1 ∧ p.2.length < 2 ^ 63) ∨
  (∃ c, p.1 = [c] ∧ c &&& CBOR_TYPE_MASK = CBOR_BYTES ∧ 27 < c &&& CBOR_INFO_BITS ∧ p.2 = [])

/-! ## The value of a binary64 pattern -/

/-- The rational number that a finite binary64 pattern stands for (IEEE 754:
sign in bit 63, exponent field in bits 62 to 52, fraction in bits 51 to 0).
The patterns with the exponent field 2047, the infinities and the NaNs, stand
for no number. -/
def doubleValue (bits : Nat) : ℚ :=
  let s : Nat := bits / 2 ^ 63 % 2
  let e : Nat := bits / 2 ^ 52 % 2048
  let f : Nat := bits % 2 ^ 52
  (if s = 1 then -1 else 1) *
    (if e = 0 then (f : ℚ) * (2 : ℚ) ^ (-1074 : ℤ)
     else ((2 ^ 52 + f : Nat) : ℚ) * (2 : ℚ) ^ ((e : ℤ) - 1075))

/-! ## Objects that cannot be serialized -/

/-- The object holds an object outside the supported types at some depth: as
an element of a list or tuple, as a key or a value of a dictionary, or as the
value of a `Tag` object whose tag number is an integer (an `int` or a
`bool`). -/
inductive HasUnsupported : PyObj → Prop
  | other : HasUnsupported .other
  | list (xs : List PyObj) (x : PyObj) (hx : x ∈ xs) (h : HasUnsupported x) :
    HasUnsupported (.list xs)
  | tuple (xs : List PyObj) (x : PyObj) (hx : x ∈ xs) (h : HasUnsupported x) :
    HasUnsupported (.tuple xs)
  | key (kvs : List (PyObj × PyObj)) (kv : PyObj × PyObj) (hkv : kv ∈ kvs)
    (h : HasUnsupported kv.1) : HasUnsupported (.dict kvs)
  | value (kvs : List (PyObj × PyObj)) (kv : PyObj × PyObj) (hkv : kv ∈ kvs)
    (h : HasUnsupported kv.2) : HasUnsupported (.dict kvs)
  | tag (n : Int) (v : PyObj) (h : HasUnsupported v) : HasUnsupported (.tag (.long n) v)
  | tagBool (b : Bool) (v : PyObj) (h : HasUnsupported v) : HasUnsupported (.tag (.bool b) v)

/-! ## Stream readers -/

/-- What a call of the method `read` of a Python object hands back to
`PyObject_CallMethod`: NULL with an exception set, an object that is not
`bytes`, or a `bytes` object. -/
inductive ReadResult where
  | raised
  | notBytes
  | bytes (b : List Nat)

/-- A Python object with a method `read(n)`, as a transition on the states `τ`
of the object. -/
structure Stream (τ : Type) where
  read : τ → Int → ReadResult × τ

/-- State of an `ObjectReader`: the object read from, the number of bytes it
has handed over and whether a failure came from the object itself.  The
pointers `retval`, `bytes` and `dst` are NULL between two calls of `read`, as
the decoder gives every buffer back with `return_buffer`. -/
structure ObjectReader (τ : Type) where
  ob : τ
  read_count : Int
  exception_is_external : Bool

/-- Function `NewObjectReader`. -/
def NewObjectReader {τ : Type} (ob : τ) : ObjectReader τ :=
  { ob := ob, read_count := 0, exception_is_external := false }

/-- The statement `return thiz->dst` after the loop of `ObjectReader_read`,
with the content of `dst` (`none` while `dst` is NULL): a NULL is returned with
no exception set. -/
def ObjectReader_read_dst {τ : Type} (thiz : ObjectReader τ) (dst : Option (List Nat)) :
    Res (ObjectReader τ) (List Nat) :=
  match dst with
  | some d => .ok d thiz
  | none => .fail .systemNullNoError thiz

/-- The loop `while (rtotal < len)` of `ObjectReader_read`, with the content
of `dst` so far.  The fuel bounds the number of calls of `read`. -/
def ObjectReader_read_loop {τ : Type} (S : Stream τ) (len : Int) :
    Nat → ObjectReader τ → Int → Option (List Nat) → Res (ObjectReader τ) (List Nat)
  | 0, thiz, rtotal, dst =>
    if rtotal < len then .timeout else ObjectReader_read_dst thiz dst
  | n + 1, thiz, rtotal, dst =>
    if rtotal < len then
      match S.read thiz.ob (len - rtotal) with
      | (.raised, ob) =>
        .fail .streamRaised { thiz with ob := ob, exception_is_external := true }
      | (.notBytes, ob) => .fail .valueExpectedBytes { thiz with ob := ob }
      | (.bytes b, ob) =>
        let rlen : Int := b.length
        let thiz := { thiz with ob := ob, read_count := thiz.read_count + rlen }
        if rlen > len - rtotal then .fail .valueReadTooMuch thiz
        else if rlen = len then .ok b thiz
        else ObjectReader_read_loop S len n thiz (rtotal + rlen) (some (dst.getD [] ++ b))
    else ObjectReader_read_dst thiz dst

/-- Function `ObjectReader_read`. -/
def ObjectReader_read {τ : Type} (S : Stream τ) (fuel : Nat) (thiz : ObjectReader τ)
    (len : Int) : Res (ObjectReader τ) (List Nat) :=
  ObjectReader_read_loop S len fuel thiz 0 none

/-- Function `ObjectReader_read1`. -/
def ObjectReader_read1 {τ : Type} (S : Stream τ) (thiz : ObjectReader τ) :
    Res (ObjectReader τ) Nat :=
  match S.read thiz.ob 1 with
  | (.raised, ob) => .fail .streamRaised { thiz with ob := ob, exception_is_external := true }
  | (.notBytes, ob) => .fail .valueExpectedBytes { thiz with ob := ob }
  | (.bytes b, ob) =>
    let rlen : Int := b.length
    let thiz := { thiz with ob := ob, read_count := thiz.read_count + rlen }
    if rlen > 1 then .fail .valueReadTooMuch1 thiz
    else if rlen = 1 then .ok (b.getD 0 0) thiz
    else .fail .valueGotNothing1 thiz

/-- The `ObjectReader` function table (`SET_READER_FUNCTIONS`). -/
def objectReader {τ : Type} (S : Stream τ) (fuel : Nat) : Reader (ObjectReader τ) where
  read := ObjectReader_read S fuel
  read1 := ObjectReader_read1 S

/-- Function `cbor_load` on an argument that is not a Python 2 file object
and not `None`: `none` when the fuel of the model ran out, else the object
returned or the exception raised. -/
def cbor_load {τ : Type} (H : Host) (S : Stream τ) (fuel : Nat) (ob : τ) :
    Option (Except PyErr PyObj) :=
  let reader := NewObjectReader ob
  match inner_loads H (objectReader S fuel) fuel reader with
  | .ok retval _ => some (.ok retval)
  | .fail e reader =>
    if !reader.exception_is_external ∧ reader.read_count = 0 then
      some (.error .eofReadNothing)
    else some (.error e)
  | .timeout => Option.none
  | .pending _ _ _ => some (.error .systemResultWithError)

/-- A stream over a byte string, with the method `read` of `io.BytesIO`: at
most `n` of the bytes that are left, all of them for a negative `n`, and the
empty byte string at the end of the input. -/
def bytesStream : Stream (List Nat) where
  read := fun s n => if n < 0 then (.bytes s, []) else (.bytes (s.take n.toNat), s.drop n.toNat)

/-- State of a `FileReader` (Python 2 build): the bytes of the file after the
file position, whether `dst` is a buffer (not NULL), and the counters. -/
structure FileReader where
  fin : List Nat
  dst : Bool
  dst_size : Int
  read_count : Int

/-- Function `NewFileReader` on an open file. -/
def NewFileReader (fin : List Nat) : FileReader :=
  { fin := fin, dst := false, dst_size := 0, read_count := 0 }

/-- The call `fread(ptr, 1, len, fin)` on a regular file: the bytes stored
and the rest of the file.  The count is `len` converted to `size_t`. -/
def fread (fin : List Nat) (len : Int) : List Nat × List Nat :=
  (fin.take (len % 2 ^ 64).toNat, fin.drop (len % 2 ^ 64).toNat)

/-- The loop `while (1)` of `FileReader_read`, with the bytes stored in `dst`
so far.  Storing without a buffer or past its end is undefined behaviour. -/
def FileReader_read_loop :
    Nat → FileReader → Int → Int → List Nat → Res FileReader (List Nat)
  | 0, _, _, _, _ => .timeout
  | n + 1, thiz, len, rtotal, buf =>
    let got := (fread thiz.fin len).1
    let rlen : Int := got.length
    if rlen = 0 then
      .fail .valueFileShort { thiz with dst := false, dst_size := 0 }
    else if thiz.dst = false ∨ rtotal + rlen > thiz.dst_size then
      .fail .undefinedBehaviour thiz
    else
      let thiz := { thiz with fin := (fread thiz.fin len).2, read_count := thiz.read_count + rlen }
      let rtotal := rtotal + rlen
      let len := len - rlen
      if rtotal ≥ len then
        if thiz.dst = false then .fail .runtimeFileNullDst thiz
        else .ok (buf ++ got) thiz
      else FileReader_read_loop n thiz len rtotal (buf ++ got)

/-- Function `FileReader_read`.  `PyMem_Malloc` of a negative length (a huge
`size_t`) returns NULL. -/
def FileReader_read (fuel : Nat) (thiz : FileReader) (len : Int) : Res FileReader (List Nat) :=
  let thiz : FileReader :=
    if len > thiz.dst_size then { thiz with dst := true, dst_size := len }
    else if thiz.dst_size > 128 * 1024 ∧ len < 4096 then
      { thiz with dst := decide (0 ≤ len), dst_size := len }
    else thiz
  FileReader_read_loop fuel thiz len 0 []

/-- Function `FileReader_read1`. -/
def FileReader_read1 (thiz : FileReader) : Res FileReader Nat :=
  match thiz.fin with
  | [] => .fail .valueFileNothing1 thiz
  | b :: rest => .ok b { thiz with fin := rest, read_count := thiz.read_count + 1 }

/-- The `FileReader` function table (`SET_READER_FUNCTIONS`). -/
def fileReader (fuel : Nat) : Reader FileReader where
  read := FileReader_read fuel
  read1 := FileReader_read1

/-! ## Invariants of a decoding run -/

/-- The exceptions the decoder raises itself (the `PyErr_SetString` and
`PyErr_Format` sites of `inner_loads_c`, `loads_bignum` and `loads_tag`, the
exception of a `PyDict_SetItem` that failed, and the undefined behaviour of
the model), as opposed to those of the reader. -/
def decoderErrors : List PyErr :=
  [.valueExpectedSubBytes, .valueUnknownSection7, .valueBignumNotBytes,
   .valueNegbignumNotBytes, .notImplementedBiggerBignum, .runtimeDecodingVarBytes,
   .runtimeDecodingBytes, .runtimeDecodingVarText, .runtimeDecodingText,
   .runtimeDecodingArray, .runtimeUnknownMarker, .undefinedBehaviour, .typeUnhashable]

/-- The step `r` ends in a reader state with the property `P`, whether it
yields a value or fails, and an exception it raises has the property `Q`. -/
def Keeps {σ α : Type} (P : σ → Prop) (Q : PyErr → Prop) (r : Res σ α) : Prop :=
  match r with
  | .ok _ s => P s
  | .fail e s => P s ∧ Q e
  | .timeout => True
  | .pending e _ s => P s ∧ Q e

/-! ## Two runs of the decoder side by side -/

/-- Whenever the step `r2` yields a value, the step `r1` yields the same value,
in a state that `Rel` relates to the state of `r2`, or else `r1` fails with an
exception in `E`. -/
def Follows {σ1 σ2 α : Type} (E : PyErr → Prop) (Rel : σ1 → σ2 → Prop)
    (r1 : Res σ1 α) (r2 : Res σ2 α) : Prop :=
  match r2 with
  | .ok a s2 => (∃ s1, r1 = .ok a s1 ∧ Rel s1 s2) ∨ ∃ e s, r1 = .fail e s ∧ E e
  | .fail _ _ => True
  | .timeout => True
  | .pending _ _ _ => True

/-- The in-memory reader `s1` and the reader `s2` of a stream over a byte
string have the same bytes left to read. -/
def SameLeft (s1 : BufferReader) (s2 : ObjectReader (List Nat)) : Prop :=
  ∃ pre, s1 = BufferReader.over pre s2.ob

/-! ## Self-delimiting steps of the in-memory decoder -/

/-- The step `f` of the in-memory decoder is self-delimiting: where it yields
a value on the buffer `over pre suf`, it stops behind a prefix `used` of the
bytes `suf`, and on every buffer in which `used` stands at the cursor,
whatever stands before and behind, it yields the same value and stops behind
`used`. -/
def Framed {α : Type} (f : BufferReader → Res BufferReader α) : Prop :=
  ∀ pre suf a s, f (BufferReader.over pre suf) = .ok a s →
    ∃ used rest, suf = used ++ rest ∧ s = BufferReader.over (pre ++ used) rest ∧
      ∀ pre2 rest2, f (BufferReader.over pre2 (used ++ rest2))
        = .ok a (BufferReader.over (pre2 ++ used) rest2)

/-! ## Keys that Python orders -/

/-- Python orders the keys `ks` as `rank` orders their ranks: `a < b` is the
comparison of the ranks and raises no exception, the lookup of a dictionary
takes two keys for the same key exactly when their ranks are equal, every key
can be hashed, and no two keys of the list have the same rank. -/
def RankedKeys {α : Type} [LinearOrder α] (rank : PyObj → α) (tagHash : Bool)
    (ks : List PyObj) : Prop :=
  (∀ a ∈ ks, ∀ b ∈ ks, pyLt a b = some (decide (rank a < rank b))) ∧
  (∀ a ∈ ks, ∀ b ∈ ks, (pySame a b || pyEq a b) = decide (rank a = rank b)) ∧
  (∀ a ∈ ks, pyHashable tagHash a = true) ∧
  (ks.map rank).Nodup

/-- The value of an `int` object. -/
def long_value : PyObj → Int
  | .long n => n
  | _ => 0

/-- The UTF-8 bytes of a `str` object. -/
def unicode_value : PyObj → List Nat
  | .unicode u => u
  | _ => []

/-- The objects `a` and `b` differ at most in the insertion order of
dictionaries in them, at any depth under lists, tuples, values of `Tag`
objects and values of dictionaries: a dictionary may hold its items in another
order when Python orders its keys (`RankedKeys`, for some ranking of the
keys). -/
inductive Reordered (tagHash : Bool) : PyObj → PyObj → Prop
  | refl (a : PyObj) : Reordered tagHash a a
  | trans (a b c : PyObj) (h1 : Reordered tagHash a b) (h2 : Reordered tagHash b c) :
    Reordered tagHash a c
  | list (xs ys : List PyObj) (hl : xs.length = ys.length)
    (h : ∀ p ∈ xs.zip ys, Reordered tagHash p.1 p.2) : Reordered tagHash (.list xs) (.list ys)
  | tuple (xs ys : List PyObj) (hl : xs.length = ys.length)
    (h : ∀ p ∈ xs.zip ys, Reordered tagHash p.1 p.2) :
    Reordered tagHash (.tuple xs) (.tuple ys)
  | tag (t v w : PyObj) (h : Reordered tagHash v w) : Reordered tagHash (.tag t v) (.tag t w)
  | values (kvs1 kvs2 : List (PyObj × PyObj)) (hk : kvs1.map Prod.fst = kvs2.map Prod.fst)
    (h : ∀ p ∈ kvs1.zip kvs2, Reordered tagHash p.1.2 p.2.2) :
    Reordered tagHash (.dict kvs1) (.dict kvs2)
  | order {α : Type} [LinearOrder α] (rank : PyObj → α) (kvs1 kvs2 : List (PyObj × PyObj))
    (hp : kvs1.Perm kvs2) (hk : RankedKeys rank tagHash (kvs1.map Prod.fst)) :
    Reordered tagHash (.dict kvs1) (.dict kvs2)

/-! # Theorems -/

/-! ## Bit arithmetic -/

theorem and_255 (x : Nat) : x &&& 255 = x % 256 := by
  simpa using Nat.and_pow_two_sub_one_eq_mod x 8

theorem and_31 (x : Nat) : x &&& 31 = x % 32 := by
  simpa using Nat.and_pow_two_sub_one_eq_mod x 5

theorem or_eq_add (k x y : Nat) (hx : 2 ^ k ∣ x) (hy : y < 2 ^ k) : x ||| y = x + y := by
  obtain ⟨a, rfl⟩ := hx
  exact (Nat.mul_add_lt_is_or hy a).symm

set_option maxRecDepth 100000 in
theorem and_224 (c : Nat) (hc : c < 256) : c &&& 224 = c / 32 * 32 := by
  revert c
  decide

theorem major_or (t i : Nat) (ht : t % 32 = 0) (hi : i < 32) : t ||| i = t + i :=
  or_eq_add 5 t i (Nat.dvd_of_mod_eq_zero ht) hi

theorem shl_or (k x b : Nat) (hb : b < 2 ^ k) : (x <<< k) ||| b = x * 2 ^ k + b := by
  rw [Nat.shiftLeft_eq]
  exact or_eq_add k _ _ ⟨x, by ring⟩ hb

/-- One round of the loop `aux = aux << 8; aux |= raw[si]` on a `uint64_t`. -/
theorem shift_or_step (x b : Nat) (hx : x < 2 ^ 56) (hb : b < 256) :
    ((x <<< 8) % 2 ^ 64) ||| b = x * 256 + b := by
  rw [Nat.shiftLeft_eq, Nat.mod_eq_of_lt (by omega)]
  exact or_eq_add 8 _ _ ⟨x, by ring⟩ (by omega)

theorem be64 (b0 b1 b2 b3 b4 b5 b6 b7 : Nat) (h0 : b0 < 256) (h1 : b1 < 256) (h2 : b2 < 256)
    (h3 : b3 < 256) (h4 : b4 < 256) (h5 : b5 < 256) (h6 : b6 < 256) (h7 : b7 < 256) :
    (List.range 8).foldl
        (fun aux si => ((aux <<< 8) % 2 ^ 64) ||| [b0, b1, b2, b3, b4, b5, b6, b7].getD si 0) 0
      = bigEndian [b0, b1, b2, b3, b4, b5, b6, b7] := by
  have hr : List.range 8 = [0, 1, 2, 3, 4, 5, 6, 7] := by decide
  rw [hr]
  simp only [List.foldl, List.getD_cons_zero, List.getD_cons_succ, bigEndian]
  rw [shift_or_step 0 b0 (by omega) h0]
  rw [shift_or_step _ b1 (by omega) h1]
  rw [shift_or_step _ b2 (by omega) h2]
  rw [shift_or_step _ b3 (by omega) h3]
  rw [shift_or_step _ b4 (by omega) h4]
  rw [shift_or_step _ b5 (by omega) h5]
  rw [shift_or_step _ b6 (by omega) h6]
  rw [shift_or_step _ b7 (by omega) h7]

theorem be32 (b0 b1 b2 b3 : Nat) (h1 : b1 < 256) (h2 : b2 < 256) (h3 : b3 < 256) :
    ((b0 <<< 24) ||| (b1 <<< 16) ||| (b2 <<< 8) ||| b3) = bigEndian [b0, b1, b2, b3] := by
  simp only [Nat.shiftLeft_eq, bigEndian, List.foldl]
  rw [or_eq_add 24 (b0 * 2 ^ 24) (b1 * 2 ^ 16) ⟨b0, by ring⟩ (by omega)]
  rw [or_eq_add 16 _ (b2 * 2 ^ 8) ⟨b0 * 2 ^ 8 + b1, by ring⟩ (by omega)]
  rw [or_eq_add 8 _ b3 ⟨b0 * 2 ^ 16 + b1 * 2 ^ 8 + b2, by ring⟩ (by omega)]
  ring

/-! ## The in-memory reader -/

theorem read1_over (pre : List Nat) (b : Nat) (suf : List Nat) :
    BufferReader_read1 (BufferReader.over pre (b :: suf))
      = .ok b (BufferReader.over (pre ++ [b]) suf) := by
  have h : ¬ ((suf.length : Int) + 1 ≤ 0) := by omega
  simp [BufferReader_read1, BufferReader.over, h]
  rw [List.getElem_append_right (by simp)]
  simp

theorem read1_over_nil (pre : List Nat) :
    BufferReader_read1 (BufferReader.over pre [])
      = .fail .lookupBufferExhausted (BufferReader.over pre []) := by
  simp [BufferReader_read1, BufferReader.over]

theorem read_over (pre bs suf : List Nat) (n : Int) (hn : n = bs.length) :
    BufferReader_read (BufferReader.over pre (bs ++ suf)) n
      = .ok bs (BufferReader.over (pre ++ bs) suf) := by
  subst hn
  simp [BufferReader_read, BufferReader.over]

theorem read_over_fail (pre suf : List Nat) (n : Int) (h : (suf.length : Int) < n) :
    BufferReader_read (BufferReader.over pre suf) n
      = .fail .valueBufferRead (BufferReader.over pre suf) := by
  have h2 : ¬ (n ≤ (suf.length : Int)) := by omega
  simp [BufferReader_read, BufferReader.over, h2]

/-! ## Header codec -/

theorem handle_info_bits_over (pre bs rest : List Nat) (info : Nat)
    (hb : ∀ b ∈ bs, b < 256) :
    (info ≤ 23 →
      handle_info_bits bufferReader (BufferReader.over pre (bs ++ rest)) info
        = .ok info (BufferReader.over pre (bs ++ rest))) ∧
    (info = 24 → bs.length = 1 →
      handle_info_bits bufferReader (BufferReader.over pre (bs ++ rest)) info
        = .ok (bigEndian bs) (BufferReader.over (pre ++ bs) rest)) ∧
    (info = 25 → bs.length = 2 →
      handle_info_bits bufferReader (BufferReader.over pre (bs ++ rest)) info
        = .ok (bigEndian bs) (BufferReader.over (pre ++ bs) rest)) ∧
    (info = 26 → bs.length = 4 →
      handle_info_bits bufferReader (BufferReader.over pre (bs ++ rest)) info
        = .ok (bigEndian bs) (BufferReader.over (pre ++ bs) rest)) ∧
    (info = 27 → bs.length = 8 →
      handle_info_bits bufferReader (BufferReader.over pre (bs ++ rest)) info
        = .ok (bigEndian bs) (BufferReader.over (pre ++ bs) rest)) := by
  refine ⟨?_, ?_, ?_, ?_, ?_⟩
  · intro h
    simp [handle_info_bits, h]
  · rintro rfl hl
    match bs, hl with
    | [b0], _ =>
      simp [handle_info_bits, CBOR_UINT8_FOLLOWS, bufferReader, read1_over, bigEndian]
  · rintro rfl hl
    match bs, hl, hb with
    | [b0, b1], _, hb =>
      have h1 : b1 < 256 := hb b1 (by simp)
      simp [handle_info_bits, CBOR_UINT8_FOLLOWS, CBOR_UINT16_FOLLOWS, bufferReader, read1_over,
        bigEndian]
      exact shl_or 8 b0 b1 h1
  · rintro rfl hl
    match bs, hl, hb with
    | [b0, b1, b2, b3], _, hb =>
      have h := read_over pre [b0, b1, b2, b3] rest 4 (by simp)
      simp only [handle_info_bits, CBOR_UINT8_FOLLOWS, CBOR_UINT16_FOLLOWS, CBOR_UINT32_FOLLOWS,
        CBOR_UINT64_FOLLOWS, bufferReader]
      simp only [show ¬ (26 ≤ 23) by decide, show ¬ (26 = 24) by decide,
        show ¬ (26 = 25) by decide, if_false, if_true]
      rw [h]
      simp only [List.getD_cons_zero, List.getD_cons_succ]
      rw [be32 b0 b1 b2 b3 (hb _ (by simp)) (hb _ (by simp)) (hb _ (by simp))]
  · rintro rfl hl
    match bs, hl, hb with
    | [b0, b1, b2, b3, b4, b5, b6, b7], _, hb =>
      have h := read_over pre [b0, b1, b2, b3, b4, b5, b6, b7] rest 8 (by simp)
      simp only [handle_info_bits, CBOR_UINT8_FOLLOWS, CBOR_UINT16_FOLLOWS, CBOR_UINT32_FOLLOWS,
        CBOR_UINT64_FOLLOWS, bufferReader]
      simp only [show ¬ (27 ≤ 23) by decide, show ¬ (27 = 24) by decide,
        show ¬ (27 = 25) by decide, show ¬ (27 = 26) by decide, if_false, if_true]
      rw [h]
      simp only
      rw [be64 b0 b1 b2 b3 b4 b5 b6 b7 (hb _ (by simp)) (hb _ (by simp)) (hb _ (by simp))
        (hb _ (by simp)) (hb _ (by simp)) (hb _ (by simp)) (hb _ (by simp)) (hb _ (by simp))]

theorem header_eq (t aux : Nat) :
    header t aux =
      if aux ≤ 23 then [(t ||| aux) % 256]
      else if aux ≤ 0xff then [(t ||| 24) % 256, aux % 256]
      else if aux ≤ 0xffff then [(t ||| 25) % 256, aux / 2 ^ 8 % 256, aux % 256]
      else if aux ≤ 0xffffffff then
        [(t ||| 26) % 256, aux / 2 ^ 24 % 256, aux / 2 ^ 16 % 256,
          aux / 2 ^ 8 % 256, aux % 256]
      else
        [(t ||| 27) % 256, aux / 2 ^ 56 % 256, aux / 2 ^ 48 % 256,
          aux / 2 ^ 40 % 256, aux / 2 ^ 32 % 256, aux / 2 ^ 24 % 256,
          aux / 2 ^ 16 % 256, aux / 2 ^ 8 % 256, aux % 256] := by
  unfold header emitted tag_aux_out tag_u64_out
  split_ifs <;>
    simp [store, and_255, Nat.shiftRight_eq_div_pow, CBOR_UINT8_FOLLOWS, CBOR_UINT16_FOLLOWS,
      CBOR_UINT32_FOLLOWS, CBOR_UINT64_FOLLOWS]

theorem tag_aux_out_emits (t aux : Nat) : Emits (tag_aux_out t aux) (header t aux) := by
  intro out pos
  rw [header_eq]
  unfold tag_aux_out tag_u64_out
  split_ifs <;> cases out <;>
    simp [store, placed, and_255, Nat.shiftRight_eq_div_pow, CBOR_UINT8_FOLLOWS,
      CBOR_UINT16_FOLLOWS, CBOR_UINT32_FOLLOWS, CBOR_UINT64_FOLLOWS]

theorem header_length (t aux : Nat) :
    (header t aux).length =
      if aux ≤ 23 then 1 else if aux ≤ 0xFF then 2 else if aux ≤ 0xFFFF then 3
      else if aux ≤ 0xFFFFFFFF then 5 else 9 := by
  rw [header_eq]
  split_ifs <;> rfl

/-- The first byte of a header: major type `t` and additional information `i`. -/
theorem first_byte (t i : Nat) (ht : IsMajorType t) (hi : i < 32) :
    (t ||| i) % 256 < 256 ∧ ((t ||| i) % 256) &&& CBOR_TYPE_MASK = t ∧
      ((t ||| i) % 256) &&& CBOR_INFO_BITS = i := by
  obtain ⟨h32, h256⟩ := ht
  rw [major_or t i h32 hi]
  have hlt : t + i < 256 := by omega
  rw [Nat.mod_eq_of_lt hlt]
  refine ⟨hlt, ?_, ?_⟩
  · show (t + i) &&& 224 = t
    rw [and_224 _ hlt]
    omega
  · show (t + i) &&& 31 = i
    rw [and_31]
    omega

theorem header_decode (t aux : Nat) (ht : IsMajorType t) (haux : aux < 2 ^ 64) :
    ∃ c tail info, header t aux = c :: tail ∧ c < 256 ∧ c &&& CBOR_TYPE_MASK = t ∧
      c &&& CBOR_INFO_BITS = info ∧ info ≤ 27 ∧ (aux ≤ 23 → info = aux) ∧
      (23 < aux → 24 ≤ info) ∧
      ∀ pre rest,
        handle_info_bits bufferReader (BufferReader.over (pre ++ [c]) (tail ++ rest)) info
          = .ok aux (BufferReader.over (pre ++ c :: tail) rest) := by
  rw [header_eq]
  split_ifs with h1 h2 h3 h4
  · obtain ⟨a, b, c⟩ := first_byte t aux ht (by omega)
    refine ⟨_, [], aux, rfl, a, b, c, by omega, fun _ => rfl, fun h => by omega, ?_⟩
    intro pre rest
    have := (handle_info_bits_over (pre ++ [(t ||| aux) % 256]) [] rest aux (by simp)).1 h1
    simpa using this
  · obtain ⟨a, b, c⟩ := first_byte t 24 ht (by omega)
    refine ⟨_, _, 24, rfl, a, b, c, by omega, fun h => by omega, fun _ => by omega, ?_⟩
    intro pre rest
    have := (handle_info_bits_over (pre ++ [(t ||| 24) % 256]) [aux % 256] rest 24
      (by simp; omega)).2.1 rfl rfl
    rw [this]
    simp [bigEndian]
    omega
  · obtain ⟨a, b, c⟩ := first_byte t 25 ht (by omega)
    refine ⟨_, _, 25, rfl, a, b, c, by omega, fun h => by omega, fun _ => by omega, ?_⟩
    intro pre rest
    have := (handle_info_bits_over (pre ++ [(t ||| 25) % 256]) [aux / 2 ^ 8 % 256, aux % 256]
      rest 25 (by simp; omega)).2.2.1 rfl rfl
    rw [this]
    simp [bigEndian]
    omega
  · obtain ⟨a, b, c⟩ := first_byte t 26 ht (by omega)
    refine ⟨_, _, 26, rfl, a, b, c, by omega, fun h => by omega, fun _ => by omega, ?_⟩
    intro pre rest
    have := (handle_info_bits_over (pre ++ [(t ||| 26) % 256])
      [aux / 2 ^ 24 % 256, aux / 2 ^ 16 % 256, aux / 2 ^ 8 % 256, aux % 256]
      rest 26 (by simp; omega)).2.2.2.1 rfl rfl
    rw [this]
    simp [bigEndian]
    omega
  · obtain ⟨a, b, c⟩ := first_byte t 27 ht (by omega)
    refine ⟨_, _, 27, rfl, a, b, c, by omega, fun h => by omega, fun _ => by omega, ?_⟩
    intro pre rest
    have := (handle_info_bits_over (pre ++ [(t ||| 27) % 256])
      [aux / 2 ^ 56 % 256, aux / 2 ^ 48 % 256, aux / 2 ^ 40 % 256, aux / 2 ^ 32 % 256,
        aux / 2 ^ 24 % 256, aux / 2 ^ 16 % 256, aux / 2 ^ 8 % 256, aux % 256]
      rest 27 (by simp; omega)).2.2.2.2 rfl rfl
    rw [this]
    simp [bigEndian]
    omega

/-- Claim C3: for every major type and every auxiliary value, `tag_aux_out`
writes the shortest header form that holds the value: 1 byte up to 23, 2 bytes
up to `0xFF`, 3 bytes up to `0xFFFF`, 5 bytes up to `0xFFFFFFFF` and 9 bytes
above; both passes advance the position by that number.  The integer 10 is
encoded as the single byte `0x0A`. -/
theorem tag_aux_out_shortest_form (H : Host) (cbor_type aux pos : Nat) (out : Option OutBuf)
    (sort_keys : Bool) :
    (header cbor_type aux).length =
        (if aux ≤ 23 then 1 else if aux ≤ 0xFF then 2 else if aux ≤ 0xFFFF then 3
          else if aux ≤ 0xFFFFFFFF then 5 else 9) ∧
      tag_aux_out cbor_type aux out pos =
        (out.map (fun log => log ++ placed pos (header cbor_type aux)),
          pos + (header cbor_type aux).length) ∧
      header CBOR_UINT 10 = [0x0A] ∧
      cbor_dumps H 1 (.long 10) sort_keys = some (.ok (.bytes [0x0A])) :=
  ⟨header_length cbor_type aux, tag_aux_out_emits cbor_type aux out pos, rfl, rfl⟩

/-- Claim C4: for every major type `t` and every 64-bit `aux`, the header
written by `tag_aux_out` starts with a byte whose `CBOR_TYPE_MASK` part is `t`,
and `handle_info_bits` on its `CBOR_INFO_BITS` part and the bytes that follow
gives back `aux` and stops exactly behind the header. -/
theorem header_roundtrip (t aux : Nat) (ht : IsMajorType t) (haux : aux < 2 ^ 64)
    (pre rest : List Nat) :
    ∃ c tail, header t aux = c :: tail ∧
      BufferReader_read1 (BufferReader.over pre (header t aux ++ rest))
        = .ok c (BufferReader.over (pre ++ [c]) (tail ++ rest)) ∧
      c &&& CBOR_TYPE_MASK = t ∧
      handle_info_bits bufferReader (BufferReader.over (pre ++ [c]) (tail ++ rest))
          (c &&& CBOR_INFO_BITS)
        = .ok aux (BufferReader.over (pre ++ header t aux) rest) := by
  obtain ⟨c, tail, info, hh, _, ht2, hi, _, _, _, hdec⟩ := header_decode t aux ht haux
  refine ⟨c, tail, hh, ?_, ht2, ?_⟩
  · rw [hh]
    exact read1_over pre c (tail ++ rest)
  · rw [hi, hh]
    exact hdec pre rest

theorem header_roundtrip_witness :
    IsMajorType 0x40 ∧ 1000 < 2 ^ 64 ∧
      ∃ c tail, header 0x40 1000 = c :: tail ∧
        BufferReader_read1 (BufferReader.over [] (header 0x40 1000 ++ [7]))
          = .ok c (BufferReader.over ([] ++ [c]) (tail ++ [7])) ∧
        c &&& CBOR_TYPE_MASK = 0x40 ∧
        handle_info_bits bufferReader (BufferReader.over ([] ++ [c]) (tail ++ [7]))
            (c &&& CBOR_INFO_BITS)
          = .ok 1000 (BufferReader.over ([] ++ header 0x40 1000) [7]) :=
  ⟨⟨by decide, by decide⟩, by decide,
    header_roundtrip 0x40 1000 ⟨by decide, by decide⟩ (by decide) [] [7]⟩

/-- Claim C5: `handle_info_bits` returns the additional information itself and
reads nothing when it is at most 23; for 24, 25, 26 and 27 it reads exactly
1, 2, 4 and 8 bytes and returns their big-endian value, whatever the bytes. -/
theorem handle_info_bits_big_endian (pre bs rest : List Nat) (info : Nat)
    (hb : ∀ b ∈ bs, b < 256) :
    (info ≤ 23 →
      handle_info_bits bufferReader (BufferReader.over pre (bs ++ rest)) info
        = .ok info (BufferReader.over pre (bs ++ rest))) ∧
    (info = 24 → bs.length = 1 →
      handle_info_bits bufferReader (BufferReader.over pre (bs ++ rest)) info
        = .ok (bigEndian bs) (BufferReader.over (pre ++ bs) rest)) ∧
    (info = 25 → bs.length = 2 →
      handle_info_bits bufferReader (BufferReader.over pre (bs ++ rest)) info
        = .ok (bigEndian bs) (BufferReader.over (pre ++ bs) rest)) ∧
    (info = 26 → bs.length = 4 →
      handle_info_bits bufferReader (BufferReader.over pre (bs ++ rest)) info
        = .ok (bigEndian bs) (BufferReader.over (pre ++ bs) rest)) ∧
    (info = 27 → bs.length = 8 →
      handle_info_bits bufferReader (BufferReader.over pre (bs ++ rest)) info
        = .ok (bigEndian bs) (BufferReader.over (pre ++ bs) rest)) :=
  handle_info_bits_over pre bs rest info hb

theorem handle_info_bits_big_endian_witness :
    (∀ b ∈ [0x01, 0xF4], b < 256) ∧
      handle_info_bits bufferReader (BufferReader.over [0x19] ([0x01, 0xF4] ++ [0x00])) 25
        = .ok 500 (BufferReader.over ([0x19] ++ [0x01, 0xF4]) [0x00]) :=
  ⟨by decide, (handle_info_bits_big_endian [0x19] [0x01, 0xF4] [0x00] 25 (by decide)).2.2.1
    rfl rfl⟩

/-! ## Decoding of integers -/

theorem type_info_of_or (t i : Nat) (ht : IsMajorType t) (hi : i < 32) :
    (t ||| i) &&& CBOR_TYPE_MASK = t ∧ (t ||| i) &&& CBOR_INFO_BITS = i := by
  obtain ⟨_, b, c⟩ := first_byte t i ht hi
  have hlt : (t ||| i) < 256 := by
    rw [major_or t i ht.1 hi]
    have := ht.1
    have := ht.2
    omega
  rw [Nat.mod_eq_of_lt hlt] at b c
  exact ⟨b, c⟩

theorem negint_small_eq (aux : Nat) (h : aux ≤ 0x7fffffffffffffff) :
    negint_small aux = -1 - (aux : Int) := by
  unfold negint_small toSsize
  have h1 : aux % 2 ^ 64 = aux := Nat.mod_eq_of_lt (by omega)
  rw [h1]
  have h2 : (2 ^ 64 - 1 + 2 ^ 64 - aux) % 2 ^ 64 = 2 ^ 64 - 1 - aux := by omega
  rw [h2]
  have h3 : (2 ^ 64 - 1 - aux) % 2 ^ 64 = 2 ^ 64 - 1 - aux := by omega
  rw [h3]
  have h4 : ¬ (2 ^ 64 - 1 - aux < 2 ^ 63) := by omega
  rw [if_neg h4]
  omega

theorem negint_decode {σ : Type} (H : Host) (R : Reader σ) (fuel : Nat) (rin rin2 : σ)
    (info aux : Nat) (hinfo : info < 32)
    (hh : handle_info_bits R rin info = .ok aux rin2) :
    inner_loads_c H R (fuel + 1) rin (CBOR_NEGINT ||| info) = .ok (.long (-1 - (aux : Int))) rin2 := by
  obtain ⟨hT, hI⟩ := type_info_of_or CBOR_NEGINT info ⟨by decide, by decide⟩ hinfo
  simp only [inner_loads_c, hT, hI, hh, Res.bind]
  simp only [CBOR_NEGINT, CBOR_7, CBOR_UINT, show ¬ ((0x20 : Nat) = 0xE0) by decide,
    show ¬ ((0x20 : Nat) = 0x00) by decide, false_and, if_false, if_true]
  split_ifs with h
  · rfl
  · rw [negint_small_eq aux (by omega)]


/-! ## The two passes of the encoder -/

theorem placed_append (pos : Nat) (a b : List Nat) :
    placed pos (a ++ b) = placed pos a ++ placed (pos + a.length) b := by
  induction a generalizing pos with
  | nil => simp [placed]
  | cons x a ih =>
    have := ih (pos + 1)
    rw [show pos + 1 + a.length = pos + (a.length + 1) by omega] at this
    simp [placed, this]

theorem placed_length (pos : Nat) (a : List Nat) : (placed pos a).length = a.length := by
  induction a generalizing pos with
  | nil => rfl
  | cons x a ih => simp [placed, ih]

theorem placed_fst (pos : Nat) (a : List Nat) :
    (placed pos a).map Prod.fst = List.range' pos a.length := by
  induction a generalizing pos with
  | nil => rfl
  | cons x a ih => simp [placed, ih, List.range']

theorem placed_snd (pos : Nat) (a : List Nat) : (placed pos a).map Prod.snd = a := by
  induction a generalizing pos with
  | nil => rfl
  | cons x a ih => simp [placed, ih]

theorem storeBytes_eq (out : Option OutBuf) (pos : Nat) (bs : List Nat) :
    storeBytes out pos bs = out.map (fun log => log ++ placed pos (bs.map (fun b => b % 256))) := by
  induction bs generalizing out pos with
  | nil => cases out <;> simp [storeBytes, placed]
  | cons b bs ih =>
    simp only [storeBytes, ih]
    cases out <;> simp [store, placed]

theorem readBack_placed_aux (bs pre junk : List Nat) (h : junk.length = bs.length) :
    (placed pre.length bs).foldl (fun mem w => mem.set w.1 w.2) (pre ++ junk) = pre ++ bs := by
  induction bs generalizing pre junk with
  | nil =>
    cases junk with
    | nil => rfl
    | cons j junk => simp at h
  | cons b bs ih =>
    cases junk with
    | nil => simp at h
    | cons j junk =>
      simp only [placed, List.foldl]
      have h1 : (pre ++ j :: junk).set pre.length b = (pre ++ [b]) ++ junk := by
        simp [List.set_append_right]
      rw [h1]
      have := ih (pre ++ [b]) junk (by simpa using h)
      simp only [List.length_append, List.length_singleton] at this
      rw [this]
      simp

theorem readBack_placed (bs : List Nat) : readBack (placed 0 bs) bs.length = bs := by
  have := readBack_placed_aux bs [] (List.replicate bs.length 0) (by simp)
  simpa [readBack] using this

theorem placed_all_lt (pos : Nat) (bs : List Nat) :
    (placed pos bs).all (fun w => decide (w.1 < pos + bs.length)) = true := by
  induction bs generalizing pos with
  | nil => rfl
  | cons b bs ih =>
    simp only [placed, List.all_cons, List.length_cons, Bool.and_eq_true, decide_eq_true_eq]
    refine ⟨by omega, ?_⟩
    have := ih (pos + 1)
    rw [show pos + 1 + bs.length = pos + (bs.length + 1) by omega] at this
    exact this


theorem Encodes.congr {f g : Option OutBuf → Nat → Res EncState Unit} {r : EncRes}
    (h : ∀ out pos, f out pos = g out pos) (hg : Encodes g r) : Encodes f r := by
  have : f = g := funext fun out => funext fun pos => h out pos
  rw [this]
  exact hg

theorem encodes_nil : Encodes (fun out pos => .ok () (out, pos)) (some (.ok [])) := by
  intro out pos
  cases out <;> simp [placed]

theorem encodes_fail (e : PyErr) : Encodes (fun out pos => .fail e (out, pos)) (some (.error e)) :=
  fun _ _ => ⟨_, rfl⟩

theorem encodes_of_emits (f : Option OutBuf → Nat → Option OutBuf × Nat) (bs : List Nat)
    (h : Emits f bs) : Encodes (fun out pos => .ok () (f out pos)) (some (.ok bs)) := by
  intro out pos
  simp only [h out pos]

theorem encodes_seq (f g : Option OutBuf → Nat → Res EncState Unit) (r1 r2 : EncRes)
    (hf : Encodes f r1) (hg : Encodes g r2) :
    Encodes (fun out pos => (f out pos).bind fun _ s => g s.1 s.2) (encSeq r1 r2) := by
  match r1, hf with
  | Option.none, hf =>
    intro out pos
    simp only [hf out pos, Res.bind]
  | some (.error e), hf =>
    intro out pos
    obtain ⟨s, hs⟩ := hf out pos
    exact ⟨s, by simp only [hs, Res.bind]⟩
  | some (.ok b1), hf =>
    match r2, hg with
    | Option.none, hg =>
      intro out pos
      simp only [hf out pos, Res.bind, hg _ _]
    | some (.error e), hg =>
      intro out pos
      obtain ⟨s, hs⟩ := hg (out.map (fun log => log ++ placed pos b1)) (pos + b1.length)
      exact ⟨s, by simp only [hf out pos, Res.bind, hs]⟩
    | some (.ok b2), hg =>
      intro out pos
      simp only [hf out pos, Res.bind, hg _ _]
      cases out <;> simp [placed_append, Nat.add_assoc]

theorem encodes_after_emits (f : Option OutBuf → Nat → Option OutBuf × Nat) (bs : List Nat)
    (g : Option OutBuf → Nat → Res EncState Unit) (r : EncRes)
    (hf : Emits f bs) (hg : Encodes g r) :
    Encodes (fun out pos => g (f out pos).1 (f out pos).2) (encSeq (some (.ok bs)) r) :=
  encodes_seq (fun out pos => .ok () (f out pos)) g _ _ (encodes_of_emits f bs hf) hg

theorem dumps_items_encodes (item : PyObj → Option OutBuf → Nat → Res EncState Unit)
    (eitem : PyObj → EncRes) (h : ∀ x, Encodes (item x) (eitem x)) (xs : List PyObj) :
    Encodes (dumps_items item xs) (encode_items eitem xs) := by
  induction xs with
  | nil => exact Encodes.congr (fun _ _ => rfl) encodes_nil
  | cons x xs ih =>
    exact Encodes.congr (fun _ _ => rfl) (encodes_seq (item x) (dumps_items item xs) _ _ (h x) ih)

theorem dumps_pairs_encodes (item : PyObj → Option OutBuf → Nat → Res EncState Unit)
    (eitem : PyObj → EncRes) (h : ∀ x, Encodes (item x) (eitem x))
    (kvs : List (PyObj × PyObj)) :
    Encodes (dumps_pairs item kvs) (encode_pairs eitem kvs) := by
  induction kvs with
  | nil => exact Encodes.congr (fun _ _ => rfl) encodes_nil
  | cons kv kvs ih =>
    exact Encodes.congr (fun _ _ => rfl)
      (encodes_seq (item kv.1) _ _ _ (h kv.1) (encodes_seq (item kv.2) _ _ _ (h kv.2) ih))

theorem dumps_sorted_encodes (H : Host)
    (item : PyObj → Option OutBuf → Nat → Res EncState Unit)
    (eitem : PyObj → EncRes) (h : ∀ x, Encodes (item x) (eitem x))
    (ob : List (PyObj × PyObj)) (keylist : List PyObj) :
    Encodes (dumps_sorted H item ob keylist) (encode_sorted H eitem ob keylist) := by
  induction keylist with
  | nil => exact Encodes.congr (fun _ _ => rfl) encodes_nil
  | cons key keylist ih =>
    cases hget : H.dict_get ob key with
    | none =>
      have e : encode_sorted H eitem ob (key :: keylist)
          = encSeq (eitem key) (some (.error .undefinedBehaviour)) := by
        simp only [encode_sorted, hget]
      rw [e]
      refine Encodes.congr (fun out pos => ?_)
        (encodes_seq (item key) (fun out pos => .fail .undefinedBehaviour (out, pos)) _ _
          (h key) (encodes_fail _))
      simp only [dumps_sorted, hget]
    | some val =>
      have e : encode_sorted H eitem ob (key :: keylist)
          = encSeq (eitem key) (encSeq (eitem val) (encode_sorted H eitem ob keylist)) := by
        simp only [encode_sorted, hget]
      rw [e]
      refine Encodes.congr (fun out pos => ?_)
        (encodes_seq (item key) _ _ _ (h key) (encodes_seq (item val) _ _ _ (h val) ih))
      simp only [dumps_sorted, hget]

theorem dumps_bignum_loop_length (n : Nat) (val : Int) (revbytes : List Nat) :
    (dumps_bignum_loop n val revbytes.length revbytes).1
      = (dumps_bignum_loop n val revbytes.length revbytes).2.length := by
  induction n generalizing val revbytes with
  | zero => rfl
  | succ n ih =>
    unfold dumps_bignum_loop
    split_ifs with h
    · have := ih (val / 256) (revbytes ++ [(val % 256).toNat])
      simpa using this
    · rfl

theorem dumps_bignum_emits (tag : Nat) (val : Int) :
    Emits (dumps_bignum tag val) (encode_bignum tag val) := by
  intro out pos
  have hl := dumps_bignum_loop_length 23 val []
  simp only [List.length_nil] at hl
  unfold dumps_bignum encode_bignum
  simp only [storeBytes_eq]
  cases out with
  | none => simp [store, hl]; omega
  | some log => simp [store, placed, hl, placed_append]; omega

theorem tag_u64_out_emits (t aux : Nat) :
    Emits (tag_u64_out t aux) (emitted (tag_u64_out t aux)) := by
  intro out pos
  unfold emitted tag_u64_out
  cases out <;> simp [store, placed]

theorem dumps_tag_long_encodes (item : PyObj → Option OutBuf → Nat → Res EncState Unit)
    (eitem : PyObj → EncRes) (h : ∀ x, Encodes (item x) (eitem x)) (n : Int) (v : PyObj) :
    Encodes
      (fun out pos =>
        if -(2 ^ 63 : Int) ≤ n ∧ n < 2 ^ 63 then
          if n ≥ 0 then item v (tag_aux_out CBOR_TAG n.toNat out pos).1
            (tag_aux_out CBOR_TAG n.toNat out pos).2
          else .fail .valueTagNegative (out, pos)
        else .fail .valueTagTooLarge (out, pos))
      (if -(2 ^ 63 : Int) ≤ n ∧ n < 2 ^ 63 then
        if n ≥ 0 then encSeq (some (.ok (header CBOR_TAG n.toNat))) (eitem v)
        else some (.error .valueTagNegative)
      else some (.error .valueTagTooLarge)) := by
  split_ifs with h1 h2
  · exact encodes_after_emits _ _ _ _ (tag_aux_out_emits CBOR_TAG n.toNat) (h v)
  · exact encodes_fail _
  · exact encodes_fail _

theorem dumps_tag_encodes (item : PyObj → Option OutBuf → Nat → Res EncState Unit)
    (eitem : PyObj → EncRes) (h : ∀ x, Encodes (item x) (eitem x)) (t v : PyObj) :
    Encodes (dumps_tag item t v) (encode_tag eitem t v) := by
  cases t with
  | long n => exact Encodes.congr (fun _ _ => rfl) (dumps_tag_long_encodes item eitem h n v)
  | bool b => exact Encodes.congr (fun _ _ => rfl) (dumps_tag_long_encodes item eitem h _ v)
  | _ => exact Encodes.congr (fun _ _ => rfl) encodes_nil

theorem inner_dumps_encodes (H : Host) (optp : EncodeOptions) (fuel : Nat) (ob : PyObj) :
    Encodes (inner_dumps H optp fuel ob) (encode H optp fuel ob) := by
  induction fuel generalizing ob with
  | zero => exact fun out pos => rfl
  | succ fuel ih =>
    cases ob with
    | none =>
      intro out pos
      cases out <;> simp [inner_dumps, store, placed]
    | bool b =>
      intro out pos
      cases out <;> simp [inner_dumps, store, placed]
    | long n =>
      simp only [encode]
      split_ifs with h1 h2 h3
      · refine Encodes.congr (fun out pos => ?_) (encodes_of_emits _ _ (tag_aux_out_emits _ _))
        simp only [inner_dumps, h1, h2, and_self, if_true]
      · refine Encodes.congr (fun out pos => ?_) (encodes_of_emits _ _ (tag_aux_out_emits _ _))
        simp only [inner_dumps, h1, h2, and_self, if_true, if_false]
      · refine Encodes.congr (fun out pos => ?_) (encodes_of_emits _ _ (dumps_bignum_emits _ _))
        simp only [inner_dumps, h1, h3, if_true, if_false]
      · refine Encodes.congr (fun out pos => ?_) (encodes_of_emits _ _ (dumps_bignum_emits _ _))
        simp only [inner_dumps, h1, h3, if_true, if_false]
    | float bits =>
      exact Encodes.congr (fun _ _ => rfl) (encodes_of_emits _ _ (tag_u64_out_emits _ _))
    | bytes b =>
      intro out pos
      simp only [inner_dumps, tag_aux_out_emits CBOR_BYTES b.length out pos, storeBytes_eq]
      cases out <;> simp [placed_append, Nat.add_assoc]
    | unicode u =>
      intro out pos
      simp only [inner_dumps, tag_aux_out_emits CBOR_TEXT u.length out pos, storeBytes_eq]
      cases out <;> simp [placed_append, Nat.add_assoc]
    | list xs =>
      simp only [encode]
      exact Encodes.congr (fun _ _ => rfl)
        (encodes_after_emits (tag_aux_out CBOR_ARRAY xs.length) _
          (dumps_items (inner_dumps H optp fuel) xs) _
          (tag_aux_out_emits CBOR_ARRAY xs.length) (dumps_items_encodes _ _ ih xs))
    | tuple xs =>
      simp only [encode]
      exact Encodes.congr (fun _ _ => rfl)
        (encodes_after_emits (tag_aux_out CBOR_ARRAY xs.length) _
          (dumps_items (inner_dumps H optp fuel) xs) _
          (tag_aux_out_emits CBOR_ARRAY xs.length) (dumps_items_encodes _ _ ih xs))
    | dict kvs =>
      simp only [encode]
      split_ifs with hs
      · refine Encodes.congr (fun out pos => ?_)
          (encodes_after_emits (tag_aux_out CBOR_MAP kvs.length) _
            (dumps_sorted H (inner_dumps H optp fuel) kvs (H.list_sort (kvs.map Prod.fst))) _
            (tag_aux_out_emits CBOR_MAP kvs.length) (dumps_sorted_encodes H _ _ ih kvs _))
        simp only [inner_dumps, dumps_dict, hs, if_true]
      · refine Encodes.congr (fun out pos => ?_)
          (encodes_after_emits (tag_aux_out CBOR_MAP kvs.length) _
            (dumps_pairs (inner_dumps H optp fuel) kvs) _
            (tag_aux_out_emits CBOR_MAP kvs.length) (dumps_pairs_encodes _ _ ih kvs))
        simp only [inner_dumps, dumps_dict, hs]
        rfl
    | tag t v =>
      simp only [encode]
      exact Encodes.congr (fun _ _ => rfl) (dumps_tag_encodes _ _ ih t v)
    | brokenTag hasTag => exact Encodes.congr (fun _ _ => rfl) (encodes_fail _)
    | other => exact Encodes.congr (fun _ _ => rfl) (encodes_fail _)


/-- With `sort_keys` off no list is sorted, and a pass of `inner_dumps` that
returns `0` leaves no exception set. -/
theorem dumps_error_pending_unsorted (H : Host) (fuel : Nat) (ob : PyObj) :
    dumps_error_pending H { sort_keys := false } fuel ob = false := by
  induction fuel generalizing ob with
  | zero => rfl
  | succ fuel ih =>
    cases ob with
    | tag t v => cases t <;> simp [dumps_error_pending, ih]
    | _ => simp [dumps_error_pending, ih]

/-- The outcome of `cbor_dumps` in terms of the bytes of `encode`. -/
theorem cbor_dumps_pending (H : Host) (fuel : Nat) (ob : PyObj) (sort_keys : Bool) :
    cbor_dumps H fuel ob sort_keys =
      match encode H { sort_keys := sort_keys } fuel ob with
      | some (.ok bs) =>
        if dumps_error_pending H { sort_keys := sort_keys } fuel ob then
          some (.error .systemResultWithError)
        else some (.ok (.bytes bs))
      | some (.error e) => some (.error e)
      | Option.none => Option.none := by
  have h := inner_dumps_encodes H { sort_keys := sort_keys } fuel ob
  unfold cbor_dumps
  match hr : encode H { sort_keys := sort_keys } fuel ob, h with
  | some (.ok bs), h =>
    simp only [h Option.none 0, h (some []) 0, Option.map, List.nil_append, Nat.zero_add]
    have := placed_all_lt 0 bs
    simp only [Nat.zero_add] at this
    simp only [this, if_true, readBack_placed]
  | some (.error e), h =>
    obtain ⟨s, hs⟩ := h Option.none 0
    simp only [hs]
  | Option.none, h =>
    simp only [h Option.none 0]

/-- The outcome of `cbor_dumps` when no sort fails. -/
theorem cbor_dumps_eq (H : Host) (fuel : Nat) (ob : PyObj) (sort_keys : Bool)
    (hp : dumps_error_pending H { sort_keys := sort_keys } fuel ob = false) :
    cbor_dumps H fuel ob sort_keys =
      match encode H { sort_keys := sort_keys } fuel ob with
      | some (.ok bs) => some (.ok (.bytes bs))
      | some (.error e) => some (.error e)
      | Option.none => Option.none := by
  rw [cbor_dumps_pending, hp]
  rfl

/-- Claim C2: for every object and every option setting, `inner_dumps` run as
the measure pass (`out = NULL`) and as the emit pass end the same way (both
succeed, both fail with the same error, or both exceed the fuel of the model),
and when they succeed the emit pass stores to the positions `0, 1, .., n - 1`,
to each exactly once and in this order, where `n` is the length the measure
pass returned; so no position `≥ n` is written. -/
theorem measure_emit_agree (H : Host) (optp : EncodeOptions) (fuel : Nat) (ob : PyObj) :
    match inner_dumps H optp fuel ob Option.none 0, inner_dumps H optp fuel ob (some []) 0 with
    | .ok _ s1, .ok _ s2 =>
      s1.1 = Option.none ∧ s2.2 = s1.2 ∧
        ∃ log, s2.1 = some log ∧ log.map Prod.fst = List.range s1.2
    | .fail e1 _, .fail e2 _ => e1 = e2
    | .timeout, .timeout => True
    | _, _ => False := by
  have h := inner_dumps_encodes H optp fuel ob
  match hr : encode H optp fuel ob, h with
  | some (.ok bs), h =>
    simp only [h Option.none 0, h (some []) 0, Option.map, List.nil_append, Nat.zero_add]
    refine ⟨trivial, trivial, _, rfl, ?_⟩
    rw [placed_fst, List.range_eq_range']
  | some (.error e), h =>
    obtain ⟨s1, hs1⟩ := h Option.none 0
    obtain ⟨s2, hs2⟩ := h (some []) 0
    simp only [hs1, hs2]
  | Option.none, h =>
    simp only [h Option.none 0, h (some []) 0]

/-! ## The decoder on well-formed input -/

@[simp] theorem bind_ok {σ α β : Type} (a : α) (s : σ) (f : α → σ → Res σ β) :
    (Res.ok a s).bind f = f a s := rfl

@[simp] theorem bind_fail {σ α β : Type} (e : PyErr) (s : σ) (f : α → σ → Res σ β) :
    (Res.fail e s : Res σ α).bind f = .fail e s := rfl

@[simp] theorem bind_timeout {σ α β : Type} (f : α → σ → Res σ β) :
    (Res.timeout : Res σ α).bind f = .timeout := rfl

@[simp] theorem bind_pending {σ α β : Type} (e : PyErr) (a : α) (s : σ)
    (f : α → σ → Res σ β) : (Res.pending e a s).bind f = (f a s).after e := rfl

@[simp] theorem after_ok {σ α : Type} (e : PyErr) (a : α) (s : σ) :
    (Res.ok a s).after e = .pending e a s := rfl

@[simp] theorem after_fail {σ α : Type} (e e2 : PyErr) (s : σ) :
    (Res.fail e2 s : Res σ α).after e
      = .fail (if e2 = .systemNullNoError then e else e2) s := rfl

@[simp] theorem after_timeout {σ α : Type} (e : PyErr) :
    (Res.timeout : Res σ α).after e = .timeout := rfl

@[simp] theorem after_pending {σ α : Type} (e e2 : PyErr) (a : α) (s : σ) :
    (Res.pending e2 a s).after e = .pending e2 a s := rfl

/-- A step that started with an exception set does not end with a value and
no exception. -/
theorem after_ne_ok {σ α : Type} (e : PyErr) (r : Res σ α) (a : α) (s : σ) :
    r.after e ≠ .ok a s := by
  cases r <;> simp [Res.after]

/-- Running out of fuel is the same with and without an exception set. -/
theorem after_eq_timeout {σ α : Type} (e : PyErr) (r : Res σ α) :
    r.after e = .timeout ↔ r = .timeout := by
  cases r <;> simp [Res.after]

theorem bufferReader_read1 (s : BufferReader) :
    bufferReader.read1 s = BufferReader_read1 s := rfl

theorem bufferReader_read (s : BufferReader) (n : Int) :
    bufferReader.read s n = BufferReader_read s n := rfl

theorem inner_loads_of_over (item : BufferReader → Nat → Res BufferReader PyObj)
    (pre : List Nat) (c : Nat) (suf : List Nat) :
    inner_loads_of bufferReader item (BufferReader.over pre (c :: suf))
      = item (BufferReader.over (pre ++ [c]) suf) c := by
  simp only [inner_loads_of, bufferReader_read1, read1_over, bind_ok]

theorem inner_loads_of_item (item : BufferReader → Nat → Res BufferReader PyObj)
    (b : List Nat) (v : PyObj) (h : ItemOk item b v) (pre rest : List Nat) :
    inner_loads_of bufferReader item (BufferReader.over pre (b ++ rest))
      = .ok v (BufferReader.over (pre ++ b) rest) := by
  obtain ⟨c, tail, rfl, _, hd⟩ := h
  rw [List.cons_append, inner_loads_of_over, hd]

/-- The bytes of a sequence of items. -/
theorem loads_var_items_ok (item : BufferReader → Nat → Res BufferReader PyObj)
    (items : List (List Nat × PyObj)) (hitems : ∀ p ∈ items, ItemOk item p.1 p.2)
    (n : Nat) (hn : items.length < n) (acc : List PyObj) (pre rest : List Nat) :
    ∃ s0 stail, (items.map Prod.fst).flatten ++ [CBOR_BREAK] = s0 :: stail ∧
      loads_var_items bufferReader item n (BufferReader.over (pre ++ [s0]) (stail ++ rest)) s0 acc
        = .ok (acc ++ items.map Prod.snd)
            (BufferReader.over (pre ++ ((items.map Prod.fst).flatten ++ [CBOR_BREAK])) rest) := by
  induction items generalizing n acc pre with
  | nil =>
    refine ⟨CBOR_BREAK, [], rfl, ?_⟩
    obtain ⟨n, rfl⟩ : ∃ m, n = m + 1 := ⟨n - 1, by simp at hn; omega⟩
    simp [loads_var_items]
  | cons p items ih =>
    obtain ⟨n, rfl⟩ : ∃ m, n = m + 1 := ⟨n - 1, by simp at hn; omega⟩
    obtain ⟨c, tail, hb, hc, hd⟩ := hitems p (by simp)
    obtain ⟨s0, stail, hs, hrec⟩ := ih (fun q hq => hitems q (by simp [hq])) n
      (by simp at hn; omega) (acc ++ [p.2]) (pre ++ p.1)
    refine ⟨c, tail ++ ((items.map Prod.fst).flatten ++ [CBOR_BREAK]), ?_, ?_⟩
    · simp [hb]
    · rw [loads_var_items]
      simp only [hc, ne_eq, not_false_eq_true, if_true]
      rw [List.append_assoc, hd, bind_ok, hs]
      simp only [bufferReader_read1, List.cons_append, read1_over, bind_ok]
      have := hrec
      simp only [List.append_assoc] at this ⊢
      rw [this]
      simp [hs]


theorem loads_array_items_ok (item : BufferReader → Nat → Res BufferReader PyObj)
    (items : List (List Nat × PyObj)) (hitems : ∀ p ∈ items, ItemOk item p.1 p.2)
    (aux n : Nat) (acc : List PyObj) (hn : items.length < n)
    (haux : acc.length + items.length = aux) (h32 : aux < 2 ^ 32) (pre rest : List Nat) :
    loads_array_items bufferReader item aux n
        (BufferReader.over pre ((items.map Prod.fst).flatten ++ rest)) acc.length (some acc)
      = .ok (.list (acc ++ items.map Prod.snd))
          (BufferReader.over (pre ++ (items.map Prod.fst).flatten) rest) := by
  induction items generalizing n acc pre with
  | nil =>
    obtain ⟨n, rfl⟩ : ∃ m, n = m + 1 := ⟨n - 1, by simp at hn; omega⟩
    have : ¬ (acc.length < aux) := by simp at haux; omega
    simp [loads_array_items, this]
  | cons p items ih =>
    obtain ⟨n, rfl⟩ : ∃ m, n = m + 1 := ⟨n - 1, by simp at hn; omega⟩
    have hlt : acc.length < aux := by simp at haux; omega
    have hrec := ih (fun q hq => hitems q (by simp [hq])) n (acc ++ [p.2])
      (by simp at hn; omega) (by simp at haux ⊢; omega) (pre ++ p.1)
    rw [loads_array_items]
    simp only [hlt, if_true, List.map_cons, List.flatten_cons, List.append_assoc]
    rw [inner_loads_of_item item p.1 p.2 (hitems p (by simp)), bind_ok]
    have hmod : (acc.length + 1) % 2 ^ 32 = (acc ++ [p.2]).length := by
      rw [Nat.mod_eq_of_lt (by omega)]
      simp
    have hset : list_set_item acc acc.length p.2 = acc ++ [p.2] := by
      simp [list_set_item]
    simp only [hmod, hset]
    rw [hrec]
    simp

theorem dict_set_item_ok {σ : Type} (H : Host) (out : List (PyObj × PyObj)) (k v : PyObj)
    (rin : σ) (h : H.dict_set_ok out k v = true) :
    dict_set_item H out k v rin = .ok (H.dict_set out k v) rin := by
  simp [dict_set_item, h]

theorem dict_set_item_refused {σ : Type} (H : Host) (out : List (PyObj × PyObj)) (k v : PyObj)
    (rin : σ) (h : H.dict_set_ok out k v = false) :
    dict_set_item H out k v rin = .pending .typeUnhashable (H.dict_set out k v) rin := by
  simp [dict_set_item, h]

theorem loads_kv_ok (H : Host) (item : BufferReader → Nat → Res BufferReader PyObj)
    (kb vb : List Nat) (k v : PyObj) (hk : ItemOk item kb k) (hv : ItemOk item vb v)
    (out : List (PyObj × PyObj)) (hok : H.dict_set_ok out k v = true) (pre rest : List Nat) :
    loads_kv H bufferReader item out (BufferReader.over pre (kb ++ vb ++ rest))
      = .ok (H.dict_set out k v) (BufferReader.over (pre ++ (kb ++ vb)) rest) := by
  unfold loads_kv
  rw [List.append_assoc, inner_loads_of_item item kb k hk, bind_ok,
    inner_loads_of_item item vb v hv, bind_ok, dict_set_item_ok _ _ _ _ _ hok]
  simp

/-- The bytes of a sequence of key/value pairs. -/
theorem loads_map_items_ok (H : Host) (item : BufferReader → Nat → Res BufferReader PyObj)
    (pairs : List ((List Nat × PyObj) × (List Nat × PyObj)))
    (hpairs : ∀ p ∈ pairs, ItemOk item p.1.1 p.1.2 ∧ ItemOk item p.2.1 p.2.2)
    (aux n i : Nat) (out : List (PyObj × PyObj))
    (hacc : dict_accepts H out (pairs.map fun p => (p.1.2, p.2.2)) = true)
    (hn : pairs.length < n)
    (haux : i + pairs.length = aux) (h32 : aux < 2 ^ 32) (pre rest : List Nat) :
    loads_map_items H bufferReader item aux n
        (BufferReader.over pre ((pairs.map fun p => p.1.1 ++ p.2.1).flatten ++ rest)) i out
      = .ok (.dict (dict_of H out (pairs.map fun p => (p.1.2, p.2.2))))
          (BufferReader.over (pre ++ (pairs.map fun p => p.1.1 ++ p.2.1).flatten) rest) := by
  induction pairs generalizing n i out pre with
  | nil =>
    obtain ⟨n, rfl⟩ : ∃ m, n = m + 1 := ⟨n - 1, by simp at hn; omega⟩
    have : ¬ (i < aux) := by simp at haux; omega
    simp [loads_map_items, this, dict_of]
  | cons p pairs ih =>
    obtain ⟨n, rfl⟩ : ∃ m, n = m + 1 := ⟨n - 1, by simp at hn; omega⟩
    have hlt : i < aux := by simp at haux; omega
    simp only [List.map_cons, dict_accepts, Bool.and_eq_true] at hacc
    have hrec := ih (fun q hq => hpairs q (by simp [hq])) n ((i + 1) % 2 ^ 32)
      (H.dict_set out p.1.2 p.2.2) hacc.2 (by simp at hn; omega)
      (by rw [Nat.mod_eq_of_lt (by omega)]; simp at haux; omega) (pre ++ (p.1.1 ++ p.2.1))
    rw [loads_map_items]
    simp only [hlt, if_true, List.map_cons, List.flatten_cons]
    rw [List.append_assoc (p.1.1 ++ p.2.1),
      loads_kv_ok H item p.1.1 p.2.1 p.1.2 p.2.2 (hpairs p (by simp)).1 (hpairs p (by simp)).2
        out hacc.1,
      bind_ok, hrec]
    simp [dict_of]

theorem loads_var_map_ok (H : Host) (item : BufferReader → Nat → Res BufferReader PyObj)
    (pairs : List ((List Nat × PyObj) × (List Nat × PyObj)))
    (hpairs : ∀ p ∈ pairs, ItemOk item p.1.1 p.1.2 ∧ ItemOk item p.2.1 p.2.2)
    (n : Nat) (hn : pairs.length < n) (out : List (PyObj × PyObj))
    (hacc : dict_accepts H out (pairs.map fun p => (p.1.2, p.2.2)) = true)
    (pre rest : List Nat) :
    ∃ s0 stail, (pairs.map fun p => p.1.1 ++ p.2.1).flatten ++ [CBOR_BREAK] = s0 :: stail ∧
      loads_var_map H bufferReader item n (BufferReader.over (pre ++ [s0]) (stail ++ rest)) s0 out
        = .ok (.dict (dict_of H out (pairs.map fun p => (p.1.2, p.2.2))))
            (BufferReader.over
              (pre ++ ((pairs.map fun p => p.1.1 ++ p.2.1).flatten ++ [CBOR_BREAK])) rest) := by
  induction pairs generalizing n out pre with
  | nil =>
    refine ⟨CBOR_BREAK, [], rfl, ?_⟩
    obtain ⟨n, rfl⟩ : ∃ m, n = m + 1 := ⟨n - 1, by simp at hn; omega⟩
    simp [loads_var_map, dict_of]
  | cons p pairs ih =>
    obtain ⟨n, rfl⟩ : ∃ m, n = m + 1 := ⟨n - 1, by simp at hn; omega⟩
    obtain ⟨⟨c, tail, hb, hc, hd⟩, hv⟩ := hpairs p (by simp)
    simp only [List.map_cons, dict_accepts, Bool.and_eq_true] at hacc
    obtain ⟨s0, stail, hs, hrec⟩ := ih (fun q hq => hpairs q (by simp [hq])) n
      (by simp at hn; omega) (H.dict_set out p.1.2 p.2.2) hacc.2 (pre ++ (p.1.1 ++ p.2.1))
    rw [hs] at hrec
    have e1 : (List.map (fun p => p.1.1 ++ p.2.1) (p :: pairs)).flatten ++ [CBOR_BREAK]
        = p.1.1 ++ (p.2.1 ++ (s0 :: stail)) := by
      simp [← hs]
    refine ⟨c, tail ++ (p.2.1 ++ (s0 :: stail)), ?_, ?_⟩
    · rw [e1, hb]
      rfl
    · rw [e1, loads_var_map]
      simp only [hc, ne_eq, not_false_eq_true, if_true]
      rw [List.append_assoc, hd, bind_ok, List.append_assoc,
        inner_loads_of_item item p.2.1 p.2.2 hv, bind_ok, dict_set_item_ok _ _ _ _ _ hacc.1,
        bind_ok]
      simp only [bufferReader_read1, List.cons_append, read1_over, bind_ok]
      simp only [List.append_assoc] at hrec ⊢
      rw [hrec]
      simp [dict_of]


theorem toSsize_of_lt (n : Nat) (h : n < 2 ^ 63) : toSsize n = (n : Int) := by
  unfold toSsize
  have h1 : n % 2 ^ 64 = n := Nat.mod_eq_of_lt (by omega)
  rw [h1, if_pos h]

theorem info_ne_break {c : Nat} (h : c &&& CBOR_INFO_BITS ≤ 27) : c ≠ CBOR_BREAK := by
  rintro rfl
  revert h
  decide

theorem bytes_ne_break {c : Nat} (h : c &&& CBOR_TYPE_MASK = CBOR_BYTES) : c ≠ CBOR_BREAK := by
  rintro rfl
  revert h
  decide

theorem loads_var_bytes_ok (chunks : List (List Nat × List Nat))
    (hchunks : ∀ p ∈ chunks, IsHeader CBOR_BYTES p.2.length p.1 ∧ p.2.length < 2 ^ 63)
    (n : Nat) (hn : chunks.length < n) (parts : List (List Nat)) (pre rest : List Nat) :
    ∃ s0 stail, (chunks.map fun p => p.1 ++ p.2).flatten ++ [CBOR_BREAK] = s0 :: stail ∧
      loads_var_bytes bufferReader n (BufferReader.over (pre ++ [s0]) (stail ++ rest)) s0 parts
        = .ok (.bytes (parts ++ chunks.map Prod.snd).flatten)
            (BufferReader.over
              (pre ++ ((chunks.map fun p => p.1 ++ p.2).flatten ++ [CBOR_BREAK])) rest) := by
  induction chunks generalizing n parts pre with
  | nil =>
    refine ⟨CBOR_BREAK, [], rfl, ?_⟩
    obtain ⟨n, rfl⟩ : ∃ m, n = m + 1 := ⟨n - 1, by simp at hn; omega⟩
    simp [loads_var_bytes]
  | cons p chunks ih =>
    obtain ⟨n, rfl⟩ : ∃ m, n = m + 1 := ⟨n - 1, by simp at hn; omega⟩
    obtain ⟨⟨c, tail, hb, hT, hI, hd⟩, hlen⟩ := hchunks p (by simp)
    obtain ⟨s0, stail, hs, hrec⟩ := ih (fun q hq => hchunks q (by simp [hq])) n
      (by simp at hn; omega) (parts ++ [p.2]) (pre ++ (p.1 ++ p.2))
    rw [hs] at hrec
    have e1 : (List.map (fun p => p.1 ++ p.2) (p :: chunks)).flatten ++ [CBOR_BREAK]
        = p.1 ++ (p.2 ++ (s0 :: stail)) := by
      simp [← hs]
    refine ⟨c, tail ++ (p.2 ++ (s0 :: stail)), ?_, ?_⟩
    · rw [e1, hb]
      rfl
    · rw [e1, loads_var_bytes]
      simp only [bytes_ne_break hT, ne_eq, not_false_eq_true, if_true, hT, not_true_eq_false,
        if_false]
      rw [List.append_assoc, hd, bind_ok, toSsize_of_lt _ hlen, List.append_assoc,
        bufferReader_read, read_over _ p.2 _ _ rfl, bind_ok]
      have hneg : ¬ ((p.2.length : Int) < 0) := by omega
      simp only [hneg, if_false, bufferReader_read1, List.cons_append, read1_over, bind_ok]
      simp only [List.append_assoc] at hrec ⊢
      rw [hrec]
      simp

theorem loads_bignum_loop_ok (bs : List Nat) (hb : ∀ b ∈ bs, b < 256) (out : Nat)
    (pre rest : List Nat) :
    loads_bignum_loop bufferReader bs.length (BufferReader.over pre (bs ++ rest)) out
      = .ok (.long ((bs.foldl (fun a b => a * 256 + b) out : Nat) : Int))
          (BufferReader.over (pre ++ bs) rest) := by
  induction bs generalizing out pre with
  | nil => simp [loads_bignum_loop]
  | cons b bs ih =>
    simp only [List.length_cons, loads_bignum_loop, bufferReader_read1, List.cons_append,
      read1_over, bind_ok, List.foldl_cons]
    rw [shl_or 8 out b (hb b (by simp)), ih (fun x hx => hb x (by simp [hx]))]
    simp


theorem handle_info_bits_above {σ : Type} (R : Reader σ) (rin : σ) (info : Nat)
    (h : 27 < info) : handle_info_bits R rin info = .ok 0 rin := by
  unfold handle_info_bits
  have h1 : ¬ (info ≤ 23) := by omega
  have h2 : ¬ (info = CBOR_UINT8_FOLLOWS) := by simp only [CBOR_UINT8_FOLLOWS]; omega
  have h3 : ¬ (info = CBOR_UINT16_FOLLOWS) := by simp only [CBOR_UINT16_FOLLOWS]; omega
  have h4 : ¬ (info = CBOR_UINT32_FOLLOWS) := by simp only [CBOR_UINT32_FOLLOWS]; omega
  have h5 : ¬ (info = CBOR_UINT64_FOLLOWS) := by simp only [CBOR_UINT64_FOLLOWS]; omega
  simp only [h1, h2, h3, h4, h5, if_false]

theorem itemOk_of_decodesTo (H : Host) (fuel : Nat) (b : List Nat) (v : PyObj)
    (h : DecodesTo H fuel b v) : ItemOk (inner_loads_c H bufferReader fuel) b v := by
  cases b with
  | nil =>
    have := h [] []
    simp [inner_loads, inner_loads_of, bufferReader_read1, read1_over_nil] at this
  | cons c tail =>
    refine ⟨c, tail, rfl, ?_, ?_⟩
    · rintro rfl
      have := h [] []
      rw [List.cons_append, inner_loads, inner_loads_of_over] at this
      cases fuel with
      | zero => simp [inner_loads_c] at this
      | succ fuel =>
        have h0 := handle_info_bits_above bufferReader
          (BufferReader.over ([] ++ [CBOR_BREAK]) (tail ++ [])) (CBOR_BREAK &&& CBOR_INFO_BITS)
          (by decide)
        have hT : CBOR_BREAK &&& CBOR_TYPE_MASK = CBOR_7 := by decide
        have hI : CBOR_BREAK &&& CBOR_INFO_BITS = 31 := by decide
        simp only [inner_loads_c, hT, h0, bind_ok] at this
        simp [hI, CBOR_7, CBOR_UINT, CBOR_NEGINT, CBOR_BYTES, CBOR_TEXT, CBOR_ARRAY, CBOR_MAP,
          CBOR_TAG, CBOR_UINT16_FOLLOWS, CBOR_UINT32_FOLLOWS, CBOR_UINT64_FOLLOWS] at this
    · intro pre rest
      have := h pre rest
      rw [List.cons_append, inner_loads, inner_loads_of_over] at this
      exact this

theorem decodesTo_of_itemOk (H : Host) (fuel : Nat) (b : List Nat) (v : PyObj)
    (h : ItemOk (inner_loads_c H bufferReader fuel) b v) : DecodesTo H fuel b v :=
  fun pre rest => inner_loads_of_item _ b v h pre rest

theorem decode_uint (H : Host) (fuel aux : Nat) (h : List Nat) (hh : IsHeader CBOR_UINT aux h) :
    ItemOk (inner_loads_c H bufferReader (fuel + 1)) h (.long aux) := by
  obtain ⟨c, tail, rfl, hT, hI, hd⟩ := hh
  refine ⟨c, tail, rfl, info_ne_break hI, fun pre rest => ?_⟩
  simp only [inner_loads_c, hT, hd, bind_ok]
  simp only [CBOR_UINT, CBOR_7, Nat.reduceEqDiff, false_and, if_false, if_true]

theorem decode_negint (H : Host) (fuel aux : Nat) (h : List Nat)
    (hh : IsHeader CBOR_NEGINT aux h) :
    ItemOk (inner_loads_c H bufferReader (fuel + 1)) h (.long (-1 - (aux : Int))) := by
  obtain ⟨c, tail, rfl, hT, hI, hd⟩ := hh
  refine ⟨c, tail, rfl, info_ne_break hI, fun pre rest => ?_⟩
  simp only [inner_loads_c, hT, hd, bind_ok]
  simp only [CBOR_UINT, CBOR_7, CBOR_NEGINT, Nat.reduceEqDiff, false_and, if_false, if_true]
  split_ifs with h
  · rfl
  · rw [negint_small_eq aux (by omega)]

theorem decode_bytes (H : Host) (fuel : Nat) (h p : List Nat)
    (hh : IsHeader CBOR_BYTES p.length h) (hp : p.length < 2 ^ 63) :
    ItemOk (inner_loads_c H bufferReader (fuel + 1)) (h ++ p) (.bytes p) := by
  obtain ⟨c, tail, rfl, hT, hI, hd⟩ := hh
  refine ⟨c, tail ++ p, rfl, info_ne_break hI, fun pre rest => ?_⟩
  have hne : ¬ (c &&& CBOR_INFO_BITS = CBOR_VAR_FOLLOWS) := by
    simp only [CBOR_VAR_FOLLOWS]; omega
  rw [List.append_assoc]
  simp only [inner_loads_c, hT, hd, bind_ok, hne]
  simp only [CBOR_UINT, CBOR_7, CBOR_NEGINT, CBOR_BYTES, Nat.reduceEqDiff, false_and, if_false,
    if_true]
  by_cases h0 : p.length = 0
  · have : p = [] := List.eq_nil_of_length_eq_zero h0
    subst this
    simp
  · simp only [h0, if_false, toSsize_of_lt _ hp, bufferReader_read, read_over _ p _ _ rfl,
      bind_ok]
    have hneg : ¬ ((p.length : Int) < 0) := by omega
    simp [hneg]

theorem decode_text (H : Host) (fuel : Nat) (h p : List Nat)
    (hh : IsHeader CBOR_TEXT p.length h) (hp : p.length < 2 ^ 63)
    (hv : p = [] ∨ H.utf8_valid p = true) :
    ItemOk (inner_loads_c H bufferReader (fuel + 1)) (h ++ p) (.unicode p) := by
  obtain ⟨c, tail, rfl, hT, hI, hd⟩ := hh
  refine ⟨c, tail ++ p, rfl, info_ne_break hI, fun pre rest => ?_⟩
  have hne : ¬ (c &&& CBOR_INFO_BITS = CBOR_VAR_FOLLOWS) := by
    simp only [CBOR_VAR_FOLLOWS]; omega
  rw [List.append_assoc]
  simp only [inner_loads_c, hT, hd, bind_ok, hne]
  simp only [CBOR_UINT, CBOR_7, CBOR_NEGINT, CBOR_BYTES, CBOR_TEXT, Nat.reduceEqDiff, false_and,
    if_false, if_true]
  by_cases h0 : p.length = 0
  · have : p = [] := List.eq_nil_of_length_eq_zero h0
    subst this
    simp
  · have hv2 : H.utf8_valid p = true := by
      rcases hv with rfl | hv
      · simp at h0
      · exact hv
    simp only [h0, if_false, toSsize_of_lt _ hp, bufferReader_read, read_over _ p _ _ rfl,
      bind_ok]
    have hneg : ¬ ((p.length : Int) < 0) := by omega
    simp [hneg, hv2]

theorem decode_array (H : Host) (fuel : Nat) (h : List Nat) (items : List (List Nat × PyObj))
    (hh : IsHeader CBOR_ARRAY items.length h) (h32 : items.length < 2 ^ 32)
    (hfuel : items.length ≤ fuel)
    (hitems : ∀ p ∈ items, ItemOk (inner_loads_c H bufferReader fuel) p.1 p.2) :
    ItemOk (inner_loads_c H bufferReader (fuel + 1)) (h ++ (items.map Prod.fst).flatten)
      (.list (items.map Prod.snd)) := by
  obtain ⟨c, tail, rfl, hT, hI, hd⟩ := hh
  refine ⟨c, tail ++ (items.map Prod.fst).flatten, rfl, info_ne_break hI, fun pre rest => ?_⟩
  have hne : ¬ (c &&& CBOR_INFO_BITS = CBOR_VAR_FOLLOWS) := by
    simp only [CBOR_VAR_FOLLOWS]; omega
  rw [List.append_assoc]
  simp only [inner_loads_c, hT, hd, bind_ok, hne]
  simp only [CBOR_UINT, CBOR_7, CBOR_NEGINT, CBOR_BYTES, CBOR_TEXT, CBOR_ARRAY, Nat.reduceEqDiff,
    false_and, if_false, if_true]
  have halloc : (0 ≤ toSsize items.length ∧ toSsize items.length ≤ (2 ^ 63 - 1) / 8) := by
    rw [toSsize_of_lt _ (by omega)]
    omega
  rw [if_pos halloc]
  have := loads_array_items_ok (inner_loads_c H bufferReader fuel) items hitems items.length
    (fuel + 1) [] (by omega) (by simp) h32 (pre ++ c :: tail) rest
  simp only [List.length_nil, List.nil_append] at this
  rw [this]
  simp

theorem decode_map (H : Host) (fuel : Nat) (h : List Nat)
    (pairs : List ((List Nat × PyObj) × (List Nat × PyObj)))
    (hh : IsHeader CBOR_MAP pairs.length h) (h32 : pairs.length < 2 ^ 32)
    (hfuel : pairs.length ≤ fuel)
    (hpairs : ∀ p ∈ pairs, ItemOk (inner_loads_c H bufferReader fuel) p.1.1 p.1.2 ∧
      ItemOk (inner_loads_c H bufferReader fuel) p.2.1 p.2.2)
    (hacc : dict_accepts H [] (pairs.map fun p => (p.1.2, p.2.2)) = true) :
    ItemOk (inner_loads_c H bufferReader (fuel + 1))
      (h ++ (pairs.map fun p => p.1.1 ++ p.2.1).flatten)
      (.dict (dict_of H [] (pairs.map fun p => (p.1.2, p.2.2)))) := by
  obtain ⟨c, tail, rfl, hT, hI, hd⟩ := hh
  refine ⟨c, tail ++ (pairs.map fun p => p.1.1 ++ p.2.1).flatten, rfl, info_ne_break hI,
    fun pre rest => ?_⟩
  have hne : ¬ (c &&& CBOR_INFO_BITS = CBOR_VAR_FOLLOWS) := by
    simp only [CBOR_VAR_FOLLOWS]; omega
  rw [List.append_assoc]
  simp only [inner_loads_c, hT, hd, bind_ok, hne]
  simp only [CBOR_UINT, CBOR_7, CBOR_NEGINT, CBOR_BYTES, CBOR_TEXT, CBOR_ARRAY, CBOR_MAP,
    Nat.reduceEqDiff, false_and, if_false, if_true]
  rw [loads_map_items_ok H (inner_loads_c H bufferReader fuel) pairs hpairs pairs.length
    (fuel + 1) 0 [] hacc (by omega) (by simp) h32 (pre ++ c :: tail) rest]
  simp

theorem decode_tag (H : Host) (fuel n : Nat) (h b : List Nat) (v : PyObj)
    (hh : IsHeader CBOR_TAG n h) (h2 : n ≠ 2) (h3 : n ≠ 3)
    (hitem : ItemOk (inner_loads_c H bufferReader fuel) b v) :
    ItemOk (inner_loads_c H bufferReader (fuel + 1)) (h ++ b) (.tag (.long n) v) := by
  obtain ⟨c, tail, rfl, hT, hI, hd⟩ := hh
  refine ⟨c, tail ++ b, rfl, info_ne_break hI, fun pre rest => ?_⟩
  rw [List.append_assoc]
  simp only [inner_loads_c, hT, hd, bind_ok]
  simp only [CBOR_UINT, CBOR_7, CBOR_NEGINT, CBOR_BYTES, CBOR_TEXT, CBOR_ARRAY, CBOR_MAP,
    CBOR_TAG, Nat.reduceEqDiff, false_and, if_false, if_true]
  simp only [loads_tag, CBOR_TAG_BIGNUM, CBOR_TAG_NEGBIGNUM, h2, h3, if_false]
  rw [inner_loads_of_item _ b v hitem, bind_ok]
  simp

/-! ## Integers beyond 64 bits -/

theorem map_mod_id (l : List Nat) (h : ∀ b ∈ l, b < 256) : l.map (fun b => b % 256) = l := by
  induction l with
  | nil => rfl
  | cons b l ih =>
    simp only [List.map_cons, ih (fun x hx => h x (by simp [hx])),
      Nat.mod_eq_of_lt (h b (by simp))]

/-- The value of a sequence of base-256 digits, least significant first. -/
theorem foldl_reverse_digits (ds : List Nat) :
    bigEndian ds.reverse = ds.foldr (fun d a => d + 256 * a) 0 := by
  unfold bigEndian
  rw [List.foldl_reverse]
  induction ds with
  | nil => rfl
  | cons d ds ih => simp only [List.foldr_cons, ih]; ring

theorem dumps_bignum_loop_digits (n m : Nat) (acc : List Nat)
    (hacc : acc.length ≤ 23) (hn : 23 ≤ n + acc.length) (hm : m < 256 ^ (23 - acc.length)) :
    ∃ ds, (dumps_bignum_loop n (m : Int) acc.length acc).2 = acc ++ ds ∧
      acc.length + ds.length ≤ 23 ∧
      (∀ d ∈ ds, d < 256) ∧ ds.foldr (fun d a => d + 256 * a) 0 = m := by
  induction n generalizing m acc with
  | zero =>
    have h23 : acc.length = 23 := by omega
    rw [h23] at hm
    simp at hm
    subst hm
    exact ⟨[], by simp [dumps_bignum_loop], by simpa using hacc, by simp, rfl⟩
  | succ n ih =>
    unfold dumps_bignum_loop
    by_cases hc : (m : Int) ≠ 0 ∧ acc.length < 23
    · rw [if_pos hc]
      have hdiv : ((m : Int) / 256) = ((m / 256 : Nat) : Int) := by norm_cast
      have hmod : ((m : Int) % 256).toNat = m % 256 := by omega
      rw [hdiv, hmod]
      have hlen : (acc ++ [m % 256]).length = acc.length + 1 := by simp
      have hm2 : m / 256 < 256 ^ (23 - (acc ++ [m % 256]).length) := by
        rw [hlen]
        have hpow : 256 ^ (23 - acc.length) = 256 * 256 ^ (23 - (acc.length + 1)) := by
          rw [← Nat.pow_succ']
          congr 1
          omega
        rw [hpow] at hm
        exact Nat.div_lt_of_lt_mul hm
      obtain ⟨ds, h1, h0, h2, h3⟩ := ih (m / 256) (acc ++ [m % 256]) (by rw [hlen]; omega)
        (by rw [hlen]; omega) hm2
      rw [hlen] at h1 h0
      refine ⟨(m % 256) :: ds, ?_, ?_, ?_, ?_⟩
      · rw [h1]; simp
      · simp only [List.length_cons]; omega
      · intro d hd
        rcases List.mem_cons.mp hd with rfl | hd
        · omega
        · exact h2 d hd
      · simp only [List.foldr_cons, h3]
        omega
    · rw [if_neg hc]
      have hm0 : m = 0 := by
        by_contra hne
        have h23 : acc.length = 23 := by
          by_contra hl
          exact hc ⟨by exact_mod_cast hne, by omega⟩
        rw [h23] at hm
        simp at hm
        exact hne hm
      subst hm0
      exact ⟨[], by simp, by simpa using hacc, by simp, rfl⟩

/-- The bytes `dumps_bignum` writes for a magnitude below `256 ^ 23`: the tag
byte, a byte string header with the number of digits, and the digits. -/
theorem encode_bignum_eq (tag m : Nat) (hm : m < 2 ^ 184) :
    ∃ bs, encode_bignum tag (m : Int)
        = [(CBOR_TAG ||| tag) % 256, (CBOR_BYTES ||| bs.length) % 256] ++ bs ∧
      bs.length ≤ 23 ∧ (∀ b ∈ bs, b < 256) ∧ bigEndian bs = m := by
  have hl := dumps_bignum_loop_length 23 (m : Int) []
  obtain ⟨ds, h1, h0, h2, h3⟩ := dumps_bignum_loop_digits 23 m [] (by simp) (by simp)
    (by simpa using (by omega : m < 256 ^ 23))
  simp only [List.length_nil, List.nil_append, Nat.zero_add] at hl h1 h0
  refine ⟨ds.reverse, ?_, by simpa using h0, ?_, ?_⟩
  · unfold encode_bignum
    simp only [hl, h1, List.length_reverse]
    rw [map_mod_id ds.reverse (fun b hb => h2 b (by simpa using hb))]
  · intro b hb
    exact h2 b (by simpa using hb)
  · rw [foldl_reverse_digits, h3]

theorem inner_loads_c_tag {σ : Type} (H : Host) (R : Reader σ) (fuel : Nat) (rin : σ) (c : Nat)
    (hT : c &&& CBOR_TYPE_MASK = CBOR_TAG) :
    inner_loads_c H R (fuel + 1) rin c =
      (handle_info_bits R rin (c &&& CBOR_INFO_BITS)).bind fun aux rin =>
        loads_tag R (inner_loads_c H R fuel) rin aux := by
  simp only [inner_loads_c, hT]
  simp only [CBOR_UINT, CBOR_7, CBOR_NEGINT, CBOR_BYTES, CBOR_TEXT, CBOR_ARRAY, CBOR_MAP,
    CBOR_TAG, Nat.reduceEqDiff, false_and, if_false, if_true]

/-- Decoding of tag 2 or 3 followed by a byte string of at most 23 bytes whose
header byte carries the length. -/
theorem decode_bignum (H : Host) (fuel tag : Nat) (bs : List Nat) (hlen : bs.length ≤ 23)
    (hb : ∀ b ∈ bs, b < 256) (htag : tag = 2 ∨ tag = 3) :
    ItemOk (inner_loads_c H bufferReader (fuel + 1))
      ([(CBOR_TAG ||| tag) % 256, (CBOR_BYTES ||| bs.length) % 256] ++ bs)
      (.long (if tag = 2 then (bigEndian bs : Int) else -1 - (bigEndian bs : Int))) := by
  have htag32 : tag < 32 := by omega
  obtain ⟨_, hT, hI⟩ := first_byte CBOR_TAG tag ⟨by decide, by decide⟩ htag32
  obtain ⟨_, hT2, hI2⟩ := first_byte CBOR_BYTES bs.length ⟨by decide, by decide⟩ (by omega)
  refine ⟨_, _, rfl, info_ne_break (by rw [hI]; omega), fun pre rest => ?_⟩
  have hh := (handle_info_bits_over (pre ++ [(CBOR_TAG ||| tag) % 256]) []
    ((CBOR_BYTES ||| bs.length) % 256 :: bs ++ rest) tag (by simp)).1 (by omega)
  simp only [List.nil_append, List.cons_append] at hh
  have hloop := loads_bignum_loop_ok bs hb 0
    (pre ++ [(CBOR_TAG ||| tag) % 256] ++ [(CBOR_BYTES ||| bs.length) % 256]) rest
  have hlt : bs.length < 24 := by omega
  rw [inner_loads_c_tag H bufferReader fuel _ _ hT, hI]
  simp only [List.cons_append, List.nil_append, List.append_eq, List.singleton_append]
  rw [hh, bind_ok]
  rcases htag with rfl | rfl
  · simp only [loads_tag, CBOR_TAG_BIGNUM, if_true, bufferReader_read1, read1_over, bind_ok,
      hT2, loads_bignum, hI2, hlt, hloop]
    simp [bigEndian]
  · simp only [loads_tag, CBOR_TAG_BIGNUM, CBOR_TAG_NEGBIGNUM, Nat.reduceEqDiff, if_false,
      if_true, bufferReader_read1, read1_over, bind_ok, hT2, loads_bignum, hI2, hlt, hloop]
    simp [bigEndian]

/-! ## The decoder by major type -/

theorem inner_loads_c_bytes {σ : Type} (H : Host) (R : Reader σ) (fuel : Nat) (rin : σ) (c : Nat)
    (hT : c &&& CBOR_TYPE_MASK = CBOR_BYTES) :
    inner_loads_c H R (fuel + 1) rin c =
      (handle_info_bits R rin (c &&& CBOR_INFO_BITS)).bind fun aux rin =>
        if c &&& CBOR_INFO_BITS = CBOR_VAR_FOLLOWS then
          (R.read1 rin).bind fun sc rin => loads_var_bytes R (fuel + 1) rin sc []
        else if aux = 0 then
          .ok (.bytes []) rin
        else
          (R.read rin (toSsize aux)).bind fun raw rin =>
            if toSsize aux < 0 then .fail .runtimeDecodingBytes rin
            else .ok (.bytes raw) rin := by
  simp only [inner_loads_c, hT]
  simp only [CBOR_UINT, CBOR_7, CBOR_NEGINT, CBOR_BYTES, CBOR_TEXT, CBOR_ARRAY, CBOR_MAP,
    CBOR_TAG, Nat.reduceEqDiff, false_and, if_false, if_true]

theorem inner_loads_c_text {σ : Type} (H : Host) (R : Reader σ) (fuel : Nat) (rin : σ) (c : Nat)
    (hT : c &&& CBOR_TYPE_MASK = CBOR_TEXT) :
    inner_loads_c H R (fuel + 1) rin c =
      (handle_info_bits R rin (c &&& CBOR_INFO_BITS)).bind fun aux rin =>
        if c &&& CBOR_INFO_BITS = CBOR_VAR_FOLLOWS then
          (R.read1 rin).bind fun sc rin =>
          (loads_var_items R (inner_loads_c H R fuel) (fuel + 1) rin sc []).bind fun parts rin =>
            match unicode_join parts with
            | some u => .ok (.unicode u) rin
            | Option.none => .fail .runtimeDecodingVarText rin
        else if aux = 0 then
          .ok (.unicode []) rin
        else
          (R.read rin (toSsize aux)).bind fun raw rin =>
            if toSsize aux < 0 then .fail .runtimeDecodingText rin
            else if H.utf8_valid raw then .ok (.unicode raw) rin
            else .fail .runtimeDecodingText rin := by
  simp only [inner_loads_c, hT]
  simp only [CBOR_UINT, CBOR_7, CBOR_NEGINT, CBOR_BYTES, CBOR_TEXT, CBOR_ARRAY, CBOR_MAP,
    CBOR_TAG, Nat.reduceEqDiff, false_and, if_false, if_true]

theorem inner_loads_c_array {σ : Type} (H : Host) (R : Reader σ) (fuel : Nat) (rin : σ) (c : Nat)
    (hT : c &&& CBOR_TYPE_MASK = CBOR_ARRAY) :
    inner_loads_c H R (fuel + 1) rin c =
      (handle_info_bits R rin (c &&& CBOR_INFO_BITS)).bind fun aux rin =>
        if c &&& CBOR_INFO_BITS = CBOR_VAR_FOLLOWS then
          (R.read1 rin).bind fun sc rin =>
          (loads_var_items R (inner_loads_c H R fuel) (fuel + 1) rin sc []).bind fun out rin =>
            .ok (.list out) rin
        else
          loads_array_items R (inner_loads_c H R fuel) aux (fuel + 1) rin 0
            (if 0 ≤ toSsize aux ∧ toSsize aux ≤ (2 ^ 63 - 1) / 8 then some [] else Option.none) := by
  simp only [inner_loads_c, hT]
  simp only [CBOR_UINT, CBOR_7, CBOR_NEGINT, CBOR_BYTES, CBOR_TEXT, CBOR_ARRAY, CBOR_MAP,
    CBOR_TAG, Nat.reduceEqDiff, false_and, if_false, if_true]

theorem inner_loads_c_map {σ : Type} (H : Host) (R : Reader σ) (fuel : Nat) (rin : σ) (c : Nat)
    (hT : c &&& CBOR_TYPE_MASK = CBOR_MAP) :
    inner_loads_c H R (fuel + 1) rin c =
      (handle_info_bits R rin (c &&& CBOR_INFO_BITS)).bind fun aux rin =>
        if c &&& CBOR_INFO_BITS = CBOR_VAR_FOLLOWS then
          (R.read1 rin).bind fun sc rin =>
            loads_var_map H R (inner_loads_c H R fuel) (fuel + 1) rin sc []
        else
          loads_map_items H R (inner_loads_c H R fuel) aux (fuel + 1) rin 0 [] := by
  simp only [inner_loads_c, hT]
  simp only [CBOR_UINT, CBOR_7, CBOR_NEGINT, CBOR_BYTES, CBOR_TEXT, CBOR_ARRAY, CBOR_MAP,
    CBOR_TAG, Nat.reduceEqDiff, false_and, if_false, if_true]

theorem inner_loads_c_uint {σ : Type} (H : Host) (R : Reader σ) (fuel : Nat) (rin : σ) (c : Nat)
    (hT : c &&& CBOR_TYPE_MASK = CBOR_UINT) :
    inner_loads_c H R (fuel + 1) rin c =
      (handle_info_bits R rin (c &&& CBOR_INFO_BITS)).bind fun aux rin =>
        .ok (.long aux) rin := by
  simp only [inner_loads_c, hT]
  simp only [CBOR_UINT, CBOR_7, CBOR_NEGINT, CBOR_BYTES, CBOR_TEXT, CBOR_ARRAY, CBOR_MAP,
    CBOR_TAG, Nat.reduceEqDiff, false_and, if_false, if_true]

theorem inner_loads_c_negint {σ : Type} (H : Host) (R : Reader σ) (fuel : Nat) (rin : σ)
    (c : Nat) (hT : c &&& CBOR_TYPE_MASK = CBOR_NEGINT) :
    inner_loads_c H R (fuel + 1) rin c =
      (handle_info_bits R rin (c &&& CBOR_INFO_BITS)).bind fun aux rin =>
        if aux > 0x7fffffffffffffff then .ok (.long (-1 - (aux : Int))) rin
        else .ok (.long (negint_small aux)) rin := by
  simp only [inner_loads_c, hT]
  simp only [CBOR_UINT, CBOR_7, CBOR_NEGINT, CBOR_BYTES, CBOR_TEXT, CBOR_ARRAY, CBOR_MAP,
    CBOR_TAG, Nat.reduceEqDiff, false_and, if_false, if_true]

theorem inner_loads_c_seven {σ : Type} (H : Host) (R : Reader σ) (fuel : Nat) (rin : σ) (c : Nat)
    (hT : c &&& CBOR_TYPE_MASK = CBOR_7) :
    inner_loads_c H R (fuel + 1) rin c =
      if c &&& CBOR_INFO_BITS = CBOR_UINT16_FOLLOWS then decodeFloat16 R rin
      else if c &&& CBOR_INFO_BITS = CBOR_UINT32_FOLLOWS then decodeFloat32 R rin
      else if c &&& CBOR_INFO_BITS = CBOR_UINT64_FOLLOWS then decodeFloat64 R rin
      else
        (handle_info_bits R rin (c &&& CBOR_INFO_BITS)).bind fun aux rin =>
          if aux = 20 then .ok (.bool false) rin
          else if aux = 21 then .ok (.bool true) rin
          else if aux = 22 then .ok .none rin
          else if aux = 23 then .ok .none rin
          else .fail .valueUnknownSection7 rin := by
  simp only [inner_loads_c, hT]
  simp only [CBOR_UINT, CBOR_7, CBOR_NEGINT, CBOR_BYTES, CBOR_TEXT, CBOR_ARRAY, CBOR_MAP,
    CBOR_TAG, Nat.reduceEqDiff, true_and, if_false, if_true]

/-- The major type of a byte is one of the eight of `cbor.h`. -/
theorem major_type_cases (c : Nat) (hc : c < 256) :
    c &&& CBOR_TYPE_MASK = CBOR_UINT ∨ c &&& CBOR_TYPE_MASK = CBOR_NEGINT ∨
    c &&& CBOR_TYPE_MASK = CBOR_BYTES ∨ c &&& CBOR_TYPE_MASK = CBOR_TEXT ∨
    c &&& CBOR_TYPE_MASK = CBOR_ARRAY ∨ c &&& CBOR_TYPE_MASK = CBOR_MAP ∨
    c &&& CBOR_TYPE_MASK = CBOR_TAG ∨ c &&& CBOR_TYPE_MASK = CBOR_7 := by
  have h := and_224 c hc
  simp only [CBOR_TYPE_MASK, CBOR_UINT, CBOR_7, CBOR_NEGINT, CBOR_BYTES, CBOR_TEXT, CBOR_ARRAY,
    CBOR_MAP, CBOR_TAG]
  omega

theorem decode_simple (H : Host) (fuel : Nat) (c : Nat) (v : PyObj)
    (hcv : (c = CBOR_FALSE % 256 ∧ v = .bool false) ∨ (c = CBOR_TRUE % 256 ∧ v = .bool true) ∨
      (c = CBOR_NULL % 256 ∧ v = .none)) :
    ItemOk (inner_loads_c H bufferReader (fuel + 1)) [c] v := by
  have key : c ≠ CBOR_BREAK ∧ c &&& CBOR_TYPE_MASK = CBOR_7 ∧ c &&& CBOR_INFO_BITS ≤ 23 ∧
      ((c &&& CBOR_INFO_BITS = 20 ∧ v = .bool false) ∨
       (c &&& CBOR_INFO_BITS = 21 ∧ v = .bool true) ∨
       (c &&& CBOR_INFO_BITS = 22 ∧ v = .none)) := by
    rcases hcv with ⟨rfl, rfl⟩ | ⟨rfl, rfl⟩ | ⟨rfl, rfl⟩
    · exact ⟨by decide, by decide, by decide, Or.inl ⟨by decide, rfl⟩⟩
    · exact ⟨by decide, by decide, by decide, Or.inr (Or.inl ⟨by decide, rfl⟩)⟩
    · exact ⟨by decide, by decide, by decide, Or.inr (Or.inr ⟨by decide, rfl⟩)⟩
  obtain ⟨hne, hT, hI, hv⟩ := key
  refine ⟨c, [], rfl, hne, fun pre rest => ?_⟩
  rw [inner_loads_c_seven H bufferReader fuel _ _ hT]
  have h1 : ¬ (c &&& CBOR_INFO_BITS = CBOR_UINT16_FOLLOWS) := by
    simp only [CBOR_UINT16_FOLLOWS]; omega
  have h2 : ¬ (c &&& CBOR_INFO_BITS = CBOR_UINT32_FOLLOWS) := by
    simp only [CBOR_UINT32_FOLLOWS]; omega
  have h3 : ¬ (c &&& CBOR_INFO_BITS = CBOR_UINT64_FOLLOWS) := by
    simp only [CBOR_UINT64_FOLLOWS]; omega
  simp only [h1, h2, h3, if_false]
  have hh : handle_info_bits bufferReader (BufferReader.over (pre ++ [c]) ([] ++ rest))
      (c &&& CBOR_INFO_BITS) = .ok (c &&& CBOR_INFO_BITS)
        (BufferReader.over (pre ++ [c]) ([] ++ rest)) := by
    simp only [handle_info_bits, hI, if_true]
  rw [hh, bind_ok]
  rcases hv with ⟨h, rfl⟩ | ⟨h, rfl⟩ | ⟨h, rfl⟩ <;> simp [h]

theorem decode_float64 (H : Host) (fuel bits : Nat) (hbits : bits < 2 ^ 64) :
    ItemOk (inner_loads_c H bufferReader (fuel + 1)) (emitted (tag_u64_out CBOR_7 bits))
      (.float bits) := by
  have he : emitted (tag_u64_out CBOR_7 bits) = (CBOR_7 ||| 27) % 256 ::
      [bits / 2 ^ 56 % 256, bits / 2 ^ 48 % 256, bits / 2 ^ 40 % 256, bits / 2 ^ 32 % 256,
        bits / 2 ^ 24 % 256, bits / 2 ^ 16 % 256, bits / 2 ^ 8 % 256, bits % 256] := by
    simp [emitted, tag_u64_out, store, and_255, Nat.shiftRight_eq_div_pow, CBOR_UINT64_FOLLOWS]
  rw [he]
  obtain ⟨_, hT, hI⟩ := first_byte CBOR_7 27 ⟨by decide, by decide⟩ (by decide)
  refine ⟨_, _, rfl, info_ne_break (by rw [hI]), fun pre rest => ?_⟩
  rw [inner_loads_c_seven H bufferReader fuel _ _ hT, hI]
  simp only [CBOR_UINT16_FOLLOWS, CBOR_UINT32_FOLLOWS, CBOR_UINT64_FOLLOWS, Nat.reduceEqDiff,
    if_false, if_true]
  unfold decodeFloat64
  rw [bufferReader_read, read_over _ _ _ 8 (by simp), bind_ok]
  rw [be64 _ _ _ _ _ _ _ _ (by omega) (by omega) (by omega) (by omega) (by omega) (by omega)
    (by omega) (by omega)]
  have : bigEndian [bits / 2 ^ 56 % 256, bits / 2 ^ 48 % 256, bits / 2 ^ 40 % 256,
      bits / 2 ^ 32 % 256, bits / 2 ^ 24 % 256, bits / 2 ^ 16 % 256, bits / 2 ^ 8 % 256,
      bits % 256] = bits := by
    simp only [bigEndian, List.foldl]
    omega
  rw [this]
  simp

/-! ## Encoding followed by decoding -/

theorem encSeq_ok (r1 r2 : EncRes) (b : List Nat) (h : encSeq r1 r2 = some (.ok b)) :
    ∃ b1 b2, r1 = some (.ok b1) ∧ r2 = some (.ok b2) ∧ b = b1 ++ b2 := by
  match r1, r2, h with
  | some (.ok b1), some (.ok b2), h =>
    simp only [encSeq, Option.some.injEq, Except.ok.injEq] at h
    exact ⟨b1, b2, rfl, rfl, h.symm⟩
  | some (.ok b1), some (.error e), h => simp [encSeq] at h
  | some (.ok b1), Option.none, h => simp [encSeq] at h
  | some (.error e), _, h => simp [encSeq] at h
  | Option.none, _, h => simp [encSeq] at h

theorem encode_items_ok (item : PyObj → EncRes) (xs : List PyObj) (bs : List Nat)
    (h : encode_items item xs = some (.ok bs)) :
    ∃ items : List (List Nat × PyObj), items.map Prod.snd = xs ∧
      (items.map Prod.fst).flatten = bs ∧ ∀ p ∈ items, item p.2 = some (.ok p.1) := by
  induction xs generalizing bs with
  | nil =>
    simp only [encode_items, Option.some.injEq, Except.ok.injEq] at h
    exact ⟨[], rfl, by simp [h], by simp⟩
  | cons x xs ih =>
    obtain ⟨b1, b2, h1, h2, rfl⟩ := encSeq_ok _ _ _ h
    obtain ⟨items, hi1, hi2, hi3⟩ := ih b2 h2
    refine ⟨(b1, x) :: items, by simp [hi1], by simp [hi2], ?_⟩
    intro p hp
    rcases List.mem_cons.mp hp with rfl | hp
    · exact h1
    · exact hi3 p hp

theorem encode_pairs_ok (item : PyObj → EncRes) (kvs : List (PyObj × PyObj)) (bs : List Nat)
    (h : encode_pairs item kvs = some (.ok bs)) :
    ∃ pairs : List ((List Nat × PyObj) × (List Nat × PyObj)),
      pairs.map (fun p => (p.1.2, p.2.2)) = kvs ∧
      (pairs.map fun p => p.1.1 ++ p.2.1).flatten = bs ∧
      ∀ p ∈ pairs, item p.1.2 = some (.ok p.1.1) ∧ item p.2.2 = some (.ok p.2.1) := by
  induction kvs generalizing bs with
  | nil =>
    simp only [encode_pairs, Option.some.injEq, Except.ok.injEq] at h
    exact ⟨[], rfl, by simp [h], by simp⟩
  | cons kv kvs ih =>
    obtain ⟨b1, b23, h1, h23, rfl⟩ := encSeq_ok _ _ _ h
    obtain ⟨b2, b3, h2, h3, rfl⟩ := encSeq_ok _ _ _ h23
    obtain ⟨pairs, hi1, hi2, hi3⟩ := ih b3 h3
    refine ⟨((b1, kv.1), (b2, kv.2)) :: pairs, by simp [hi1], by simp [hi2], ?_⟩
    intro p hp
    rcases List.mem_cons.mp hp with rfl | hp
    · exact ⟨h1, h2⟩
    · exact hi3 p hp

theorem isHeader_header (t aux : Nat) (ht : IsMajorType t) (haux : aux < 2 ^ 64) :
    IsHeader t aux (header t aux) := by
  obtain ⟨c, tail, info, hh, _, hT, hI, hle, _, _, hd⟩ := header_decode t aux ht haux
  refine ⟨c, tail, hh, hT, by omega, fun pre rest => ?_⟩
  rw [hI, hh]
  exact hd pre rest

theorem header_ne_nil (t aux : Nat) : 1 ≤ (header t aux).length := by
  rw [header_length]
  split_ifs <;> omega

theorem ItemOk.length_pos {item : BufferReader → Nat → Res BufferReader PyObj} {b : List Nat}
    {v : PyObj} (h : ItemOk item b v) : 1 ≤ b.length := by
  obtain ⟨c, tail, rfl, _, _⟩ := h
  simp

theorem length_le_flatten (l : List (List Nat)) (x : List Nat) (hx : x ∈ l) :
    x.length ≤ l.flatten.length := by
  induction l with
  | nil => simp at hx
  | cons y l ih =>
    rcases List.mem_cons.mp hx with rfl | hx
    · simp
    · have := ih hx
      simp only [List.flatten_cons, List.length_append]
      omega

theorem length_le_flatten_length (l : List (List Nat)) (h : ∀ x ∈ l, 1 ≤ x.length) :
    l.length ≤ l.flatten.length := by
  induction l with
  | nil => simp
  | cons y l ih =>
    have h1 := h y (by simp)
    have h2 := ih (fun x hx => h x (by simp [hx]))
    simp only [List.flatten_cons, List.length_append, List.length_cons]
    omega


theorem roundtrip_item (H : Host) (optp : EncodeOptions) (hs : optp.sort_keys = false)
    (efuel : Nat) :
    ∀ (v : PyObj) (b : List Nat), Storable H v → encode H optp efuel v = some (.ok b) →
      ∀ dfuel, b.length ≤ dfuel → ItemOk (inner_loads_c H bufferReader dfuel) b v := by
  induction efuel with
  | zero =>
    intro v b _ he
    simp [encode] at he
  | succ efuel ih =>
    intro v b hv he dfuel hd
    cases hv with
    | none =>
      simp only [encode, Option.some.injEq, Except.ok.injEq] at he
      subst he
      obtain ⟨f, rfl⟩ : ∃ f, dfuel = f + 1 := ⟨dfuel - 1, by simp at hd; omega⟩
      exact decode_simple H f _ _ (Or.inr (Or.inr ⟨rfl, rfl⟩))
    | bool x =>
      simp only [encode, Option.some.injEq, Except.ok.injEq] at he
      subst he
      obtain ⟨f, rfl⟩ : ∃ f, dfuel = f + 1 := ⟨dfuel - 1, by simp at hd; omega⟩
      cases x
      · exact decode_simple H f _ _ (Or.inl ⟨rfl, rfl⟩)
      · exact decode_simple H f _ _ (Or.inr (Or.inl ⟨rfl, rfl⟩))
    | long n hlo hhi =>
      simp only [encode] at he
      split_ifs at he with h1 h2 h3
      · simp only [Option.some.injEq, Except.ok.injEq] at he
        subst he
        obtain ⟨f, rfl⟩ : ∃ f, dfuel = f + 1 :=
          ⟨dfuel - 1, by have := header_ne_nil CBOR_UINT n.toNat; omega⟩
        have := decode_uint H f n.toNat _
          (isHeader_header CBOR_UINT n.toNat ⟨by decide, by decide⟩ (by omega))
        rwa [Int.toNat_of_nonneg h2] at this
      · simp only [Option.some.injEq, Except.ok.injEq] at he
        subst he
        obtain ⟨f, rfl⟩ : ∃ f, dfuel = f + 1 :=
          ⟨dfuel - 1, by have := header_ne_nil CBOR_NEGINT (-1 - n).toNat; omega⟩
        have := decode_negint H f (-1 - n).toNat _
          (isHeader_header CBOR_NEGINT (-1 - n).toNat ⟨by decide, by decide⟩ (by omega))
        rw [Int.toNat_of_nonneg (by omega)] at this
        rwa [show -1 - (-1 - n) = n by omega] at this
      · simp only [Option.some.injEq, Except.ok.injEq] at he
        subst he
        have hm : ((-1 - n).toNat : Int) = -1 - n := Int.toNat_of_nonneg (by omega)
        obtain ⟨bs, hb1, hb2, hb3, hb4⟩ := encode_bignum_eq CBOR_TAG_NEGBIGNUM (-1 - n).toNat
          (by omega)
        rw [hm] at hb1
        rw [hb1] at hd ⊢
        obtain ⟨f, rfl⟩ : ∃ f, dfuel = f + 1 := ⟨dfuel - 1, by simp at hd; omega⟩
        have := decode_bignum H f CBOR_TAG_NEGBIGNUM bs hb2 hb3 (Or.inr rfl)
        rw [hb4, hm] at this
        simpa [CBOR_TAG_NEGBIGNUM] using this
      · simp only [Option.some.injEq, Except.ok.injEq] at he
        subst he
        have hm : (n.toNat : Int) = n := Int.toNat_of_nonneg (by omega)
        obtain ⟨bs, hb1, hb2, hb3, hb4⟩ := encode_bignum_eq CBOR_TAG_BIGNUM n.toNat (by omega)
        rw [hm] at hb1
        rw [hb1] at hd ⊢
        obtain ⟨f, rfl⟩ : ∃ f, dfuel = f + 1 := ⟨dfuel - 1, by simp at hd; omega⟩
        have := decode_bignum H f CBOR_TAG_BIGNUM bs hb2 hb3 (Or.inl rfl)
        rw [hb4, hm] at this
        simpa [CBOR_TAG_BIGNUM] using this
    | float bits hbits =>
      simp only [encode, Option.some.injEq, Except.ok.injEq] at he
      subst he
      have h := decode_float64 H (dfuel - 1) bits hbits
      have hpos := h.length_pos
      obtain ⟨f, rfl⟩ : ∃ f, dfuel = f + 1 := ⟨dfuel - 1, by omega⟩
      exact h
    | bytes p hb hl =>
      simp only [encode, Option.some.injEq, Except.ok.injEq] at he
      subst he
      rw [map_mod_id p hb] at hd ⊢
      obtain ⟨f, rfl⟩ : ∃ f, dfuel = f + 1 :=
        ⟨dfuel - 1, by have := header_ne_nil CBOR_BYTES p.length; simp at hd; omega⟩
      exact decode_bytes H f _ p
        (isHeader_header CBOR_BYTES p.length ⟨by decide, by decide⟩ (by omega)) hl
    | unicode p hb hl hv =>
      simp only [encode, Option.some.injEq, Except.ok.injEq] at he
      subst he
      rw [map_mod_id p hb] at hd ⊢
      obtain ⟨f, rfl⟩ : ∃ f, dfuel = f + 1 :=
        ⟨dfuel - 1, by have := header_ne_nil CBOR_TEXT p.length; simp at hd; omega⟩
      exact decode_text H f _ p
        (isHeader_header CBOR_TEXT p.length ⟨by decide, by decide⟩ (by omega)) hl hv
    | list xs hl hx =>
      simp only [encode] at he
      obtain ⟨b1, b2, h1, h2, rfl⟩ := encSeq_ok _ _ _ he
      simp only [Option.some.injEq, Except.ok.injEq] at h1
      subst h1
      obtain ⟨items, hi1, hi2, hi3⟩ := encode_items_ok _ _ _ h2
      subst hi1 hi2
      have hh := header_ne_nil CBOR_ARRAY items.length
      simp only [List.length_append, List.length_map] at hd
      obtain ⟨f, rfl⟩ : ∃ f, dfuel = f + 1 := ⟨dfuel - 1, by omega⟩
      have hitems : ∀ p ∈ items, ItemOk (inner_loads_c H bufferReader f) p.1 p.2 := by
        intro p hp
        refine ih p.2 p.1 (hx p.2 (List.mem_map_of_mem _ hp)) (hi3 p hp) f ?_
        have := length_le_flatten (items.map Prod.fst) p.1 (List.mem_map_of_mem _ hp)
        omega
      have hlen : items.length ≤ f := by
        have := length_le_flatten_length (items.map Prod.fst) (by
          intro x hx2
          obtain ⟨p, hp, rfl⟩ := List.mem_map.mp hx2
          exact (hitems p hp).length_pos)
        simp only [List.length_map] at this
        omega
      simp only [List.length_map] at hl
      have := decode_array H f (header CBOR_ARRAY items.length) items
        (isHeader_header CBOR_ARRAY items.length ⟨by decide, by decide⟩ (by omega)) hl hlen hitems
      simpa using this
    | dict kvs hl hk hv hacc hdict =>
      simp only [encode, hs] at he
      obtain ⟨b1, b2, h1, h2, rfl⟩ := encSeq_ok _ _ _ he
      simp only [Option.some.injEq, Except.ok.injEq] at h1
      subst h1
      obtain ⟨pairs, hi1, hi2, hi3⟩ := encode_pairs_ok _ _ _ h2
      subst hi1 hi2
      have hh := header_ne_nil CBOR_MAP pairs.length
      simp only [List.length_append, List.length_map] at hd
      obtain ⟨f, rfl⟩ : ∃ f, dfuel = f + 1 := ⟨dfuel - 1, by omega⟩
      have hpairs : ∀ p ∈ pairs, ItemOk (inner_loads_c H bufferReader f) p.1.1 p.1.2 ∧
          ItemOk (inner_loads_c H bufferReader f) p.2.1 p.2.2 := by
        intro p hp
        have hmem : (p.1.2, p.2.2) ∈ pairs.map (fun p => (p.1.2, p.2.2)) :=
          List.mem_map_of_mem _ hp
        have hle := length_le_flatten (pairs.map fun p => p.1.1 ++ p.2.1) (p.1.1 ++ p.2.1)
          (List.mem_map_of_mem _ hp)
        simp only [List.length_append] at hle
        exact ⟨ih p.1.2 p.1.1 (hk _ hmem) (hi3 p hp).1 f (by omega),
          ih p.2.2 p.2.1 (hv _ hmem) (hi3 p hp).2 f (by omega)⟩
      have hlen : pairs.length ≤ f := by
        have := length_le_flatten_length (pairs.map fun p => p.1.1 ++ p.2.1) (by
          intro x hx2
          obtain ⟨p, hp, rfl⟩ := List.mem_map.mp hx2
          have := (hpairs p hp).1.length_pos
          simp only [List.length_append]
          omega)
        simp only [List.length_map] at this
        omega
      simp only [List.length_map] at hl
      have := decode_map H f (header CBOR_MAP pairs.length) pairs
        (isHeader_header CBOR_MAP pairs.length ⟨by decide, by decide⟩ (by omega)) hl hlen hpairs
        hacc
      rw [hdict] at this
      simpa using this
    | tag n v h0 hhi h2 h3 hv =>
      simp only [encode, encode_tag] at he
      have hr : -(2 ^ 63 : Int) ≤ n ∧ n < 2 ^ 63 := ⟨by omega, hhi⟩
      simp only [hr, and_self, if_true, ge_iff_le, h0] at he
      obtain ⟨b1, b2, h1, hb2, rfl⟩ := encSeq_ok _ _ _ he
      simp only [Option.some.injEq, Except.ok.injEq] at h1
      subst h1
      have hh := header_ne_nil CBOR_TAG n.toNat
      obtain ⟨f, rfl⟩ : ∃ f, dfuel = f + 1 := ⟨dfuel - 1, by simp at hd; omega⟩
      simp only [List.length_append] at hd
      have := decode_tag H f n.toNat (header CBOR_TAG n.toNat) b2 v
        (isHeader_header CBOR_TAG n.toNat ⟨by decide, by decide⟩ (by omega)) (by omega) (by omega)
        (ih v b2 hv hb2 f (by omega))
      rwa [Int.toNat_of_nonneg h0] at this

theorem encode_items_total (item : Nat → PyObj → EncRes) (xs : List PyObj)
    (h : ∀ x ∈ xs, ∃ fuel0 b, ∀ fuel, fuel0 ≤ fuel → item fuel x = some (.ok b)) :
    ∃ fuel0 bs, ∀ fuel, fuel0 ≤ fuel → encode_items (item fuel) xs = some (.ok bs) := by
  induction xs with
  | nil => exact ⟨0, [], fun _ _ => rfl⟩
  | cons x xs ih =>
    obtain ⟨f1, b1, h1⟩ := h x (by simp)
    obtain ⟨f2, b2, h2⟩ := ih (fun y hy => h y (by simp [hy]))
    refine ⟨max f1 f2, b1 ++ b2, fun fuel hf => ?_⟩
    simp only [encode_items, h1 fuel (by omega), h2 fuel (by omega), encSeq]

theorem encode_pairs_total (item : Nat → PyObj → EncRes) (kvs : List (PyObj × PyObj))
    (hk : ∀ kv ∈ kvs, ∃ fuel0 b, ∀ fuel, fuel0 ≤ fuel → item fuel kv.1 = some (.ok b))
    (hv : ∀ kv ∈ kvs, ∃ fuel0 b, ∀ fuel, fuel0 ≤ fuel → item fuel kv.2 = some (.ok b)) :
    ∃ fuel0 bs, ∀ fuel, fuel0 ≤ fuel → encode_pairs (item fuel) kvs = some (.ok bs) := by
  induction kvs with
  | nil => exact ⟨0, [], fun _ _ => rfl⟩
  | cons kv kvs ih =>
    obtain ⟨f1, b1, h1⟩ := hk kv (by simp)
    obtain ⟨f2, b2, h2⟩ := hv kv (by simp)
    obtain ⟨f3, b3, h3⟩ := ih (fun y hy => hk y (by simp [hy])) (fun y hy => hv y (by simp [hy]))
    refine ⟨max f1 (max f2 f3), b1 ++ (b2 ++ b3), fun fuel hf => ?_⟩
    simp only [encode_pairs, h1 fuel (by omega), h2 fuel (by omega), h3 fuel (by omega), encSeq]

theorem encode_total (H : Host) (optp : EncodeOptions) (hs : optp.sort_keys = false)
    (v : PyObj) (hv : Storable H v) :
    ∃ fuel0 b, ∀ fuel, fuel0 ≤ fuel → encode H optp fuel v = some (.ok b) := by
  induction hv with
  | none =>
    exact ⟨1, _, fun fuel hf => by
      obtain ⟨f, rfl⟩ : ∃ f, fuel = f + 1 := ⟨fuel - 1, by omega⟩
      rfl⟩
  | bool b =>
    exact ⟨1, _, fun fuel hf => by
      obtain ⟨f, rfl⟩ : ∃ f, fuel = f + 1 := ⟨fuel - 1, by omega⟩
      rfl⟩
  | long n hlo hhi =>
    have h1 : ∃ b, encode H optp 1 (.long n) = some (.ok b) := by
      simp only [encode]
      split_ifs <;> exact ⟨_, rfl⟩
    obtain ⟨b, hb⟩ := h1
    refine ⟨1, b, fun fuel hf => ?_⟩
    obtain ⟨f, rfl⟩ : ∃ f, fuel = f + 1 := ⟨fuel - 1, by omega⟩
    rw [← hb]
    simp only [encode]
  | float bits h =>
    exact ⟨1, _, fun fuel hf => by
      obtain ⟨f, rfl⟩ : ∃ f, fuel = f + 1 := ⟨fuel - 1, by omega⟩
      rfl⟩
  | bytes b hb hl =>
    exact ⟨1, _, fun fuel hf => by
      obtain ⟨f, rfl⟩ : ∃ f, fuel = f + 1 := ⟨fuel - 1, by omega⟩
      rfl⟩
  | unicode u hb hl hv =>
    exact ⟨1, _, fun fuel hf => by
      obtain ⟨f, rfl⟩ : ∃ f, fuel = f + 1 := ⟨fuel - 1, by omega⟩
      rfl⟩
  | list xs hl hx ih =>
    obtain ⟨f0, bs, h⟩ := encode_items_total (encode H optp) xs ih
    refine ⟨f0 + 1, header CBOR_ARRAY xs.length ++ bs, fun fuel hf => ?_⟩
    obtain ⟨f, rfl⟩ : ∃ f, fuel = f + 1 := ⟨fuel - 1, by omega⟩
    simp only [encode, h f (by omega), encSeq]
  | dict kvs hl hk hv ha hd ihk ihv =>
    obtain ⟨f0, bs, h⟩ := encode_pairs_total (encode H optp) kvs ihk ihv
    refine ⟨f0 + 1, header CBOR_MAP kvs.length ++ bs, fun fuel hf => ?_⟩
    obtain ⟨f, rfl⟩ : ∃ f, fuel = f + 1 := ⟨fuel - 1, by omega⟩
    simp only [encode, hs, h f (by omega), encSeq]
    rfl
  | tag n v h0 hhi h2 h3 hv ih =>
    obtain ⟨f0, bv, h⟩ := ih
    refine ⟨f0 + 1, header CBOR_TAG n.toNat ++ bv, fun fuel hf => ?_⟩
    obtain ⟨f, rfl⟩ : ∃ f, fuel = f + 1 := ⟨fuel - 1, by omega⟩
    have hr : -(2 ^ 63 : Int) ≤ n ∧ n < 2 ^ 63 := ⟨by omega, hhi⟩
    simp only [encode, encode_tag, hr, and_self, if_true, ge_iff_le, h0, h f (by omega), encSeq]


theorem cbor_loads_of_itemOk (H : Host) (fuel : Nat) (b : List Nat) (v : PyObj)
    (h : ItemOk (inner_loads_c H bufferReader fuel) b v) :
    cbor_loads H fuel (.bytes b) = some (.ok v) := by
  have hpos := h.length_pos
  have hd := decodesTo_of_itemOk H fuel b v h [] []
  have hne : ¬ (b.length = 0) := by omega
  have hr : ({ raw := b, len := (b.length : Int), pos := 0 } : BufferReader)
      = BufferReader.over [] (b ++ []) := by
    simp [BufferReader.over]
  simp only [cbor_loads, NewBufferReader, hne, if_false, hr, hd]

/-- Claim C1, counterexample: a `Tag` object with tag number 2 around an empty
byte string is encoded as the bytes `C2 40`, which decode to the integer `0`,
not to the `Tag` object. -/
theorem roundtrip_fails_on_bignum_tag :
    cbor_dumps refHost 2 (.tag (.long 2) (.bytes [])) false = some (.ok (.bytes [0xC2, 0x40])) ∧
      cbor_loads refHost 2 (.bytes [0xC2, 0x40]) = some (.ok (.long 0)) ∧
      PyObj.long 0 ≠ .tag (.long 2) (.bytes []) :=
  ⟨rfl, rfl, fun h => PyObj.noConfusion h⟩

/-- Claim C7: for every auxiliary value that a NEGINT header carries (that
`handle_info_bits` returns for its additional information), in every header
form and for every reader, decoding yields the integer `-1 - aux`; this
includes the values above `2 ^ 63 - 1`, whose result is below the signed
64-bit range. -/
theorem negint_decodes {σ : Type} (H : Host) (R : Reader σ) (fuel : Nat) (rin rin2 : σ)
    (info aux : Nat) (hinfo : info < 32)
    (hh : handle_info_bits R rin info = .ok aux rin2) :
    inner_loads_c H R (fuel + 1) rin (CBOR_NEGINT ||| info)
      = .ok (.long (-1 - (aux : Int))) rin2 :=
  negint_decode H R fuel rin rin2 info aux hinfo hh

theorem negint_decodes_witness :
    27 < 32 ∧
      handle_info_bits bufferReader
          (BufferReader.over [0x3B] [0xFF, 0xFF, 0xFF, 0xFF, 0xFF, 0xFF, 0xFF, 0xFF]) 27
        = .ok (2 ^ 64 - 1)
            (BufferReader.over [0x3B, 0xFF, 0xFF, 0xFF, 0xFF, 0xFF, 0xFF, 0xFF, 0xFF] []) ∧
      inner_loads_c refHost bufferReader (0 + 1)
          (BufferReader.over [0x3B] [0xFF, 0xFF, 0xFF, 0xFF, 0xFF, 0xFF, 0xFF, 0xFF])
          (CBOR_NEGINT ||| 27)
        = .ok (.long (-1 - ((2 ^ 64 - 1 : Nat) : Int)))
            (BufferReader.over [0x3B, 0xFF, 0xFF, 0xFF, 0xFF, 0xFF, 0xFF, 0xFF, 0xFF] []) :=
  ⟨by decide, rfl, negint_decodes refHost bufferReader 0 _ _ 27 (2 ^ 64 - 1) (by decide) rfl⟩

theorem and_mask_mask (c : Nat) : (c &&& CBOR_TYPE_MASK) &&& CBOR_TYPE_MASK = c &&& CBOR_TYPE_MASK := by
  rw [Nat.and_assoc, Nat.and_self]

theorem and_mask_info (c : Nat) : (c &&& CBOR_TYPE_MASK) &&& CBOR_INFO_BITS = 0 := by
  rw [Nat.and_assoc]
  have : CBOR_TYPE_MASK &&& CBOR_INFO_BITS = 0 := by decide
  rw [this, Nat.and_zero]

theorem reserved_info_zero {σ : Type} (H : Host) (R : Reader σ) (fuel : Nat) (rin : σ) (c : Nat)
    (hc : c &&& CBOR_INFO_BITS = 28 ∨ c &&& CBOR_INFO_BITS = 29 ∨ c &&& CBOR_INFO_BITS = 30) :
    inner_loads_c H R fuel rin c = inner_loads_c H R fuel rin (c &&& CBOR_TYPE_MASK) := by
  cases fuel with
  | zero => rfl
  | succ fuel =>
    have h1 : handle_info_bits R rin (c &&& CBOR_INFO_BITS) = .ok 0 rin :=
      handle_info_bits_above R rin _ (by omega)
    have h2 : handle_info_bits R rin 0 = .ok 0 rin := by simp [handle_info_bits]
    have n1 : ¬ (c &&& CBOR_INFO_BITS = CBOR_UINT16_FOLLOWS) := by
      simp only [CBOR_UINT16_FOLLOWS]; omega
    have n2 : ¬ (c &&& CBOR_INFO_BITS = CBOR_UINT32_FOLLOWS) := by
      simp only [CBOR_UINT32_FOLLOWS]; omega
    have n3 : ¬ (c &&& CBOR_INFO_BITS = CBOR_UINT64_FOLLOWS) := by
      simp only [CBOR_UINT64_FOLLOWS]; omega
    have n4 : ¬ (c &&& CBOR_INFO_BITS = CBOR_VAR_FOLLOWS) := by
      simp only [CBOR_VAR_FOLLOWS]; omega
    have m1 : ¬ (0 = CBOR_UINT16_FOLLOWS) := by decide
    have m2 : ¬ (0 = CBOR_UINT32_FOLLOWS) := by decide
    have m3 : ¬ (0 = CBOR_UINT64_FOLLOWS) := by decide
    have m4 : ¬ (0 = CBOR_VAR_FOLLOWS) := by decide
    simp only [inner_loads_c, and_mask_mask, and_mask_info, h1, h2, bind_ok, n1, n2, n3, n4, m1,
      m2, m3, m4, and_false, if_false]

/-- Claim C6, as amended: a header byte whose additional information is 28,
29 or 30 is not rejected; `handle_info_bits` reads nothing and yields `0`, and
the item is decoded exactly as the header byte of the same major type with
additional information `0`.  So the integer types yield `0` and `-1`, the
string types the empty byte string and the empty text string, the array and
the map type the empty list and the empty dictionary, the tag type decodes the
item that follows and yields a `Tag` object with tag number `0` around it
(and fails where that item fails), and major type 7 fails with the
unknown-marker error of major type 7. -/
theorem reserved_info_decodes_as_zero {σ : Type} (H : Host) (R : Reader σ) (fuel : Nat)
    (rin : σ) (c : Nat)
    (hc : c &&& CBOR_INFO_BITS = 28 ∨ c &&& CBOR_INFO_BITS = 29 ∨ c &&& CBOR_INFO_BITS = 30) :
    handle_info_bits R rin (c &&& CBOR_INFO_BITS) = .ok 0 rin ∧
      inner_loads_c H R fuel rin c = inner_loads_c H R fuel rin (c &&& CBOR_TYPE_MASK) ∧
      (c &&& CBOR_TYPE_MASK = CBOR_UINT →
        inner_loads_c H R (fuel + 1) rin c = .ok (.long 0) rin) ∧
      (c &&& CBOR_TYPE_MASK = CBOR_NEGINT →
        inner_loads_c H R (fuel + 1) rin c = .ok (.long (-1)) rin) ∧
      (c &&& CBOR_TYPE_MASK = CBOR_BYTES →
        inner_loads_c H R (fuel + 1) rin c = .ok (.bytes []) rin) ∧
      (c &&& CBOR_TYPE_MASK = CBOR_TEXT →
        inner_loads_c H R (fuel + 1) rin c = .ok (.unicode []) rin) ∧
      (c &&& CBOR_TYPE_MASK = CBOR_ARRAY →
        inner_loads_c H R (fuel + 1) rin c = .ok (.list []) rin) ∧
      (c &&& CBOR_TYPE_MASK = CBOR_MAP →
        inner_loads_c H R (fuel + 1) rin c = .ok (.dict []) rin) ∧
      (c &&& CBOR_TYPE_MASK = CBOR_TAG →
        inner_loads_c H R (fuel + 1) rin c
          = (inner_loads H R fuel rin).bind fun out rin => .ok (.tag (.long 0) out) rin) ∧
      (c &&& CBOR_TYPE_MASK = CBOR_7 →
        inner_loads_c H R (fuel + 1) rin c = .fail .valueUnknownSection7 rin) := by
  have h1 : handle_info_bits R rin (c &&& CBOR_INFO_BITS) = .ok 0 rin :=
    handle_info_bits_above R rin _ (by omega)
  have n4 : ¬ (c &&& CBOR_INFO_BITS = CBOR_VAR_FOLLOWS) := by
    simp only [CBOR_VAR_FOLLOWS]; omega
  refine ⟨h1, reserved_info_zero H R fuel rin c hc, fun hT => ?_, fun hT => ?_, fun hT => ?_,
    fun hT => ?_, fun hT => ?_, fun hT => ?_, fun hT => ?_, fun hT => ?_⟩
  · rw [inner_loads_c_uint H R fuel rin c hT, h1, bind_ok]
    rfl
  · rw [inner_loads_c_negint H R fuel rin c hT, h1, bind_ok]
    rfl
  · rw [inner_loads_c_bytes H R fuel rin c hT, h1, bind_ok, if_neg n4, if_pos rfl]
  · rw [inner_loads_c_text H R fuel rin c hT, h1, bind_ok, if_neg n4, if_pos rfl]
  · rw [inner_loads_c_array H R fuel rin c hT, h1, bind_ok, if_neg n4]
    rfl
  · rw [inner_loads_c_map H R fuel rin c hT, h1, bind_ok, if_neg n4]
    rfl
  · rw [inner_loads_c_tag H R fuel rin c hT, h1, bind_ok]
    rfl
  · rw [inner_loads_c_seven H R fuel rin c hT, h1, bind_ok]
    have n1 : ¬ (c &&& CBOR_INFO_BITS = CBOR_UINT16_FOLLOWS) := by
      simp only [CBOR_UINT16_FOLLOWS]; omega
    have n2 : ¬ (c &&& CBOR_INFO_BITS = CBOR_UINT32_FOLLOWS) := by
      simp only [CBOR_UINT32_FOLLOWS]; omega
    have n3 : ¬ (c &&& CBOR_INFO_BITS = CBOR_UINT64_FOLLOWS) := by
      simp only [CBOR_UINT64_FOLLOWS]; omega
    simp [n1, n2, n3]

theorem reserved_info_decodes_as_zero_witness :
    (0xDC &&& CBOR_INFO_BITS = 28 ∨ 0xDC &&& CBOR_INFO_BITS = 29 ∨
        0xDC &&& CBOR_INFO_BITS = 30) ∧
      0xDC &&& CBOR_TYPE_MASK = CBOR_TAG ∧
      (inner_loads_c refHost bufferReader (1 + 1) (BufferReader.over [0xDC] [0x01]) 0xDC
        = (inner_loads refHost bufferReader 1 (BufferReader.over [0xDC] [0x01])).bind
            fun out rin => .ok (.tag (.long 0) out) rin) ∧
      inner_loads_c refHost bufferReader (1 + 1) (BufferReader.over [0xDC] [0x01]) 0xDC
        = .ok (.tag (.long 0) (.long 1)) (BufferReader.over [0xDC, 0x01] []) :=
  ⟨by decide, by decide,
    (reserved_info_decodes_as_zero refHost bufferReader 1 (BufferReader.over [0xDC] [0x01]) 0xDC
      (by decide)).2.2.2.2.2.2.2.2.1 (by decide),
    rfl⟩

/-- The byte `DC`, a tag header with the additional information 28, alone in
the buffer: the decoder asks for the item of tag `0` and fails at the end of
the buffer; followed by the byte `01` it yields `Tag(0, 1)`. -/
theorem reserved_info_tag_reads_on :
    cbor_loads refHost 2 (.bytes [0xDC]) = some (.error .lookupBufferExhausted) ∧
    cbor_loads refHost 2 (.bytes [0xDC, 0x01]) = some (.ok (.tag (.long 0) (.long 1))) :=
  ⟨rfl, rfl⟩

/-- Claim C6, counterexample: the single byte `0x1C` (major type 0, additional
information 28) decodes to the integer `0`; no error is raised. -/
theorem reserved_info_accepted :
    cbor_loads refHost 1 (.bytes [0x1C]) = some (.ok (.long 0)) := rfl

/-- Claim C8, at the failing input: the nine bytes `5B FF FF FF FF FF FF FF F6`
are a byte string header that declares `2 ^ 64 - 10` bytes, with nothing left
in the buffer.  The length reaches `BufferReader_read` as `-10`; the read
succeeds, the cursor moves from offset 9 to offset -1, before the buffer, and
ten bytes count as left.  The decoding then fails with the RuntimeError of the
BYTES case, not with the ValueError of the reader. -/
theorem buffer_read_negative_length :
    handle_info_bits bufferReader
        (BufferReader.over [0x5B] [0xFF, 0xFF, 0xFF, 0xFF, 0xFF, 0xFF, 0xFF, 0xF6]) 27
      = .ok (2 ^ 64 - 10)
          (BufferReader.over [0x5B, 0xFF, 0xFF, 0xFF, 0xFF, 0xFF, 0xFF, 0xFF, 0xF6] []) ∧
    toSsize (2 ^ 64 - 10) = -10 ∧
    BufferReader_read
        (BufferReader.over [0x5B, 0xFF, 0xFF, 0xFF, 0xFF, 0xFF, 0xFF, 0xFF, 0xF6] []) (-10)
      = .ok [] { raw := [0x5B, 0xFF, 0xFF, 0xFF, 0xFF, 0xFF, 0xFF, 0xFF, 0xF6],
                 len := 10, pos := -1 } ∧
    cbor_loads refHost 1 (.bytes [0x5B, 0xFF, 0xFF, 0xFF, 0xFF, 0xFF, 0xFF, 0xFF, 0xF6])
      = some (.error .runtimeDecodingBytes) :=
  ⟨rfl, rfl, rfl, rfl⟩

/-! ## Termination of the in-memory decoder -/

theorem progress_extend {α : Type} {pre used rest : List Nat} {r : Res BufferReader α}
    (h : Progress (pre ++ used) rest r) : Progress pre (used ++ rest) r := by
  match r, h with
  | .ok a s, h =>
    obtain ⟨u2, r2, h1, h2⟩ := h
    exact ⟨used ++ u2, r2, by simp [h1], by simp [h2]⟩
  | .fail e s, _ => trivial
  | .pending e a s, h =>
    obtain ⟨u2, r2, h1, h2⟩ := h
    exact ⟨used ++ u2, r2, by simp [h1], by simp [h2]⟩

theorem progress_after {α : Type} {pre suf : List Nat} {r : Res BufferReader α} (e : PyErr)
    (h : Progress pre suf r) : Progress pre suf (r.after e) := by
  match r, h with
  | .ok a s, h => exact h
  | .fail e s, _ => trivial
  | .pending e a s, h => exact h

theorem progress_bind {α β : Type} {pre suf : List Nat} {r : Res BufferReader α}
    {f : α → BufferReader → Res BufferReader β} (hr : Progress pre suf r)
    (hf : ∀ a used rest, suf = used ++ rest →
      Progress (pre ++ used) rest (f a (BufferReader.over (pre ++ used) rest))) :
    Progress pre suf (r.bind f) := by
  match r, hr with
  | .ok a s, hr =>
    obtain ⟨used, rest, h1, h2⟩ := hr
    subst h1 h2
    exact progress_extend (hf a used rest rfl)
  | .fail e s, _ => trivial
  | .pending e a s, hr =>
    obtain ⟨used, rest, h1, h2⟩ := hr
    subst h1 h2
    exact progress_after e (progress_extend (hf a used rest rfl))

theorem progress_ok {α : Type} (pre suf : List Nat) (a : α) :
    Progress pre suf (.ok a (BufferReader.over pre suf)) :=
  ⟨[], suf, rfl, by simp⟩

theorem progress_dict_set_item (H : Host) (out : List (PyObj × PyObj)) (k v : PyObj)
    (pre suf : List Nat) :
    Progress pre suf (dict_set_item H out k v (BufferReader.over pre suf)) := by
  unfold dict_set_item
  split_ifs
  · exact ⟨[], suf, rfl, by simp⟩
  · exact ⟨[], suf, rfl, by simp⟩

theorem progress_fail {α : Type} (pre suf : List Nat) (e : PyErr) (s : BufferReader) :
    Progress pre suf (.fail e s : Res BufferReader α) := trivial

theorem progress_read1 (pre suf : List Nat) :
    Progress pre suf (bufferReader.read1 (BufferReader.over pre suf)) := by
  cases suf with
  | nil => rw [bufferReader_read1, read1_over_nil]; trivial
  | cons b rest => rw [bufferReader_read1, read1_over]; exact ⟨[b], rest, rfl, rfl⟩

theorem progress_read (pre suf : List Nat) (n : Int) (hn : 0 ≤ n) :
    Progress pre suf (bufferReader.read (BufferReader.over pre suf) n) := by
  rw [bufferReader_read]
  by_cases h : n ≤ suf.length
  · have hs : suf = suf.take n.toNat ++ suf.drop n.toNat := (List.take_append_drop _ _).symm
    have hl : n = ((suf.take n.toNat).length : Int) := by
      rw [List.length_take]
      omega
    have := read_over pre (suf.take n.toNat) (suf.drop n.toNat) n hl
    rw [← hs] at this
    rw [this]
    exact ⟨_, _, hs, rfl⟩
  · rw [read_over_fail pre suf n (by omega)]
    trivial

/-- A read of `toSsize aux` bytes that is followed by the test for a negative
size. -/
theorem progress_read_guard {β : Type} (pre suf : List Nat) (n : Int) (e : PyErr)
    (k : List Nat → BufferReader → Res BufferReader β)
    (hk : ∀ raw used rest, suf = used ++ rest →
      Progress (pre ++ used) rest (k raw (BufferReader.over (pre ++ used) rest))) :
    Progress pre suf ((bufferReader.read (BufferReader.over pre suf) n).bind fun raw rin =>
      if n < 0 then .fail e rin else k raw rin) := by
  by_cases hn : n < 0
  · have : BufferReader_read (BufferReader.over pre suf) n
        = .ok (((BufferReader.over pre suf).raw.drop (BufferReader.over pre suf).pos.toNat).take
            n.toNat)
          { BufferReader.over pre suf with
            pos := (BufferReader.over pre suf).pos + n,
            len := (BufferReader.over pre suf).len - n } := by
      have hle : n ≤ (BufferReader.over pre suf).len := by
        simp only [BufferReader.over]
        omega
      simp only [BufferReader_read, hle, if_true]
    rw [bufferReader_read, this, bind_ok, if_pos hn]
    trivial
  · refine progress_bind (progress_read pre suf n (by omega)) (fun raw used rest hs => ?_)
    rw [if_neg hn]
    exact hk raw used rest hs

theorem handle_info_bits_bind {σ : Type} (R : Reader σ) (rin : σ) (info : Nat) :
    handle_info_bits R rin info =
      if info ≤ 23 then .ok info rin
      else if info = CBOR_UINT8_FOLLOWS then (R.read1 rin).bind fun taux rin => .ok taux rin
      else if info = CBOR_UINT16_FOLLOWS then
        (R.read1 rin).bind fun hibyte rin =>
        (R.read1 rin).bind fun lobyte rin => .ok ((hibyte <<< 8) ||| lobyte) rin
      else if info = CBOR_UINT32_FOLLOWS then
        (R.read rin 4).bind fun raw rin =>
          .ok (((raw.getD 0 0) <<< 24) ||| ((raw.getD 1 0) <<< 16) |||
            ((raw.getD 2 0) <<< 8) ||| (raw.getD 3 0)) rin
      else if info = CBOR_UINT64_FOLLOWS then
        (R.read rin 8).bind fun raw rin =>
          .ok ((List.range 8).foldl
            (fun aux si => ((aux <<< 8) % 2 ^ 64) ||| raw.getD si 0) 0) rin
      else .ok 0 rin := by
  unfold handle_info_bits
  split_ifs
  · rfl
  · cases R.read1 rin <;> rfl
  · cases h : R.read1 rin with
    | ok a s => simp only [bind_ok]; cases R.read1 s <;> rfl
    | fail e s => rfl
    | timeout => rfl
    | pending e a s => rfl
  · cases R.read rin 4 <;> rfl
  · cases R.read rin 8 <;> rfl
  · rfl

theorem progress_handle_info_bits (pre suf : List Nat) (info : Nat) :
    Progress pre suf (handle_info_bits bufferReader (BufferReader.over pre suf) info) := by
  rw [handle_info_bits_bind]
  split_ifs
  · exact progress_ok pre suf _
  · exact progress_bind (progress_read1 pre suf) (fun a used rest _ => progress_ok _ _ _)
  · exact progress_bind (progress_read1 pre suf)
      (fun a used rest _ => progress_bind (progress_read1 _ _)
        (fun a2 used2 rest2 _ => progress_ok _ _ _))
  · exact progress_bind (progress_read pre suf 4 (by omega))
      (fun a used rest _ => progress_ok _ _ _)
  · exact progress_bind (progress_read pre suf 8 (by omega))
      (fun a used rest _ => progress_ok _ _ _)
  · exact progress_ok pre suf _

theorem progress_decodeFloat16 (pre suf : List Nat) :
    Progress pre suf (decodeFloat16 bufferReader (BufferReader.over pre suf)) :=
  progress_bind (progress_read1 pre suf)
    (fun _ _ _ _ => progress_bind (progress_read1 _ _)
      (fun _ _ _ _ => progress_ok _ _ _))

theorem progress_decodeFloat32 (pre suf : List Nat) :
    Progress pre suf (decodeFloat32 bufferReader (BufferReader.over pre suf)) :=
  progress_bind (progress_read pre suf 4 (by omega)) (fun a used rest _ => progress_ok _ _ _)

theorem progress_decodeFloat64 (pre suf : List Nat) :
    Progress pre suf (decodeFloat64 bufferReader (BufferReader.over pre suf)) :=
  progress_bind (progress_read pre suf 8 (by omega)) (fun a used rest _ => progress_ok _ _ _)

theorem length_of_split {suf used rest : List Nat} (h : suf = used ++ rest) :
    rest.length ≤ suf.length := by
  subst h
  simp

theorem progress_inner_loads_of (item : BufferReader → Nat → Res BufferReader PyObj)
    (f : Nat) (pre suf : List Nat)
    (hitem : ∀ pre2 suf2 c, suf2.length < f →
      Progress pre2 suf2 (item (BufferReader.over pre2 suf2) c))
    (hs : suf.length ≤ f) :
    Progress pre suf (inner_loads_of bufferReader item (BufferReader.over pre suf)) := by
  cases suf with
  | nil =>
    simp only [inner_loads_of, bufferReader_read1, read1_over_nil, bind_fail]
    trivial
  | cons b rest =>
    rw [inner_loads_of_over]
    exact progress_extend (hitem (pre ++ [b]) rest b (by simp at hs; omega))

theorem progress_loads_var_bytes (n : Nat) (pre suf : List Nat) (sc : Nat)
    (parts : List (List Nat)) (hn : suf.length < n) :
    Progress pre suf (loads_var_bytes bufferReader n (BufferReader.over pre suf) sc parts) := by
  induction n generalizing pre suf sc parts with
  | zero => omega
  | succ n ih =>
    rw [loads_var_bytes]
    dsimp only
    split_ifs
    · exact progress_fail _ _ _ _
    · refine progress_bind (progress_handle_info_bits pre suf _) (fun saux u1 r1 h1 => ?_)
      refine progress_read_guard _ _ _ _ _ (fun blob u2 r2 h2 => ?_)
      have hl1 := length_of_split h1
      have hl2 := length_of_split h2
      cases r2 with
      | nil =>
        simp only [bufferReader_read1, read1_over_nil, bind_fail]
        trivial
      | cons b r3 =>
        simp only [bufferReader_read1, read1_over, bind_ok]
        have := ih (pre ++ u1 ++ u2 ++ [b]) r3 b (parts ++ [blob]) (by simp at hl2; omega)
        exact progress_extend this
    · exact progress_ok _ _ _


theorem progress_loads_var_items (item : BufferReader → Nat → Res BufferReader PyObj)
    (f : Nat)
    (hitem : ∀ pre2 suf2 c, suf2.length < f →
      Progress pre2 suf2 (item (BufferReader.over pre2 suf2) c))
    (n : Nat) (pre suf : List Nat) (sc : Nat) (parts : List PyObj)
    (hn : suf.length < n) (hf : suf.length < f) :
    Progress pre suf (loads_var_items bufferReader item n (BufferReader.over pre suf) sc parts) := by
  induction n generalizing pre suf sc parts with
  | zero => omega
  | succ n ih =>
    rw [loads_var_items]
    split_ifs
    · refine progress_bind (hitem pre suf sc hf) (fun v u1 r1 h1 => ?_)
      have hl1 := length_of_split h1
      cases r1 with
      | nil =>
        simp only [bufferReader_read1, read1_over_nil, bind_fail]
        trivial
      | cons b r2 =>
        simp only [bufferReader_read1, read1_over, bind_ok]
        have := ih (pre ++ u1 ++ [b]) r2 b (parts ++ [v]) (by simp at hl1; omega)
          (by simp at hl1; omega)
        exact progress_extend this
    · exact progress_ok _ _ _

theorem progress_loads_array_items (item : BufferReader → Nat → Res BufferReader PyObj)
    (f : Nat)
    (hitem : ∀ pre2 suf2 c, suf2.length < f →
      Progress pre2 suf2 (item (BufferReader.over pre2 suf2) c))
    (aux n : Nat) (pre suf : List Nat) (i : Nat) (out : Option (List PyObj))
    (hn : suf.length < n) (hf : suf.length ≤ f) :
    Progress pre suf
      (loads_array_items bufferReader item aux n (BufferReader.over pre suf) i out) := by
  induction n generalizing pre suf i out with
  | zero => omega
  | succ n ih =>
    simp only [loads_array_items]
    split_ifs
    · cases suf with
      | nil =>
        simp only [inner_loads_of, bufferReader_read1, read1_over_nil, bind_fail]
        trivial
      | cons b r0 =>
        rw [inner_loads_of_over]
        refine @progress_extend _ pre [b] r0 _ ?_
        refine progress_bind (hitem (pre ++ [b]) r0 b (by simp at hf; omega))
          (fun v u1 r1 h1 => ?_)
        have hl1 := length_of_split h1
        cases out with
        | none => exact progress_fail _ _ _ _
        | some l =>
          exact ih _ _ _ _ (by simp at hn; omega) (by simp at hf; omega)
    · cases out with
      | none => exact progress_fail _ _ _ _
      | some l => exact progress_ok _ _ _

theorem progress_loads_kv (H : Host) (item : BufferReader → Nat → Res BufferReader PyObj)
    (f : Nat)
    (hitem : ∀ pre2 suf2 c, suf2.length < f →
      Progress pre2 suf2 (item (BufferReader.over pre2 suf2) c))
    (out : List (PyObj × PyObj)) (pre suf : List Nat) (hf : suf.length ≤ f) :
    Progress pre suf (loads_kv H bufferReader item out (BufferReader.over pre suf)) := by
  unfold loads_kv
  refine progress_bind (progress_inner_loads_of item f pre suf hitem hf) (fun k u1 r1 h1 => ?_)
  have hl1 := length_of_split h1
  refine progress_bind (progress_inner_loads_of item f _ r1 hitem (by omega))
    (fun v u2 r2 h2 => ?_)
  exact progress_dict_set_item _ _ _ _ _ _

theorem advances_after {α : Type} {pre suf : List Nat} {r : Res BufferReader α} (e : PyErr)
    (h : Advances pre suf r) : Advances pre suf (r.after e) := by
  match r, h with
  | .ok a s, h => exact h
  | .fail e s, _ => trivial
  | .pending e a s, h => exact h

theorem advances_of_progress {α : Type} {pre used rest : List Nat} {r : Res BufferReader α}
    (hu : 1 ≤ used.length) (h : Progress (pre ++ used) rest r) :
    Advances pre (used ++ rest) r := by
  match r, h with
  | .ok a s, h =>
    obtain ⟨u2, r2, h1, h2⟩ := h
    exact ⟨used ++ u2, r2, by simp [h1], by simp; omega, by simp [h2]⟩
  | .fail e s, _ => trivial
  | .pending e a s, h =>
    obtain ⟨u2, r2, h1, h2⟩ := h
    exact ⟨used ++ u2, r2, by simp [h1], by simp; omega, by simp [h2]⟩

theorem progress_of_advances {α : Type} {pre suf : List Nat} {r : Res BufferReader α}
    (h : Advances pre suf r) : Progress pre suf r := by
  match r, h with
  | .ok a s, h =>
    obtain ⟨u, r, h1, _, h2⟩ := h
    exact ⟨u, r, h1, h2⟩
  | .fail e s, _ => trivial
  | .pending e a s, h =>
    obtain ⟨u, r, h1, _, h2⟩ := h
    exact ⟨u, r, h1, h2⟩

/-- A step that advances, followed by a step that comes to an end, advances. -/
theorem advances_bind {α β : Type} {pre suf : List Nat} {r : Res BufferReader α}
    {f : α → BufferReader → Res BufferReader β} (hr : Advances pre suf r)
    (hf : ∀ a used rest, suf = used ++ rest →
      Progress (pre ++ used) rest (f a (BufferReader.over (pre ++ used) rest))) :
    Advances pre suf (r.bind f) := by
  match r, hr with
  | .ok a s, hr =>
    obtain ⟨used, rest, h1, hpos, h2⟩ := hr
    subst h1 h2
    exact advances_of_progress hpos (hf a used rest rfl)
  | .fail e s, _ => trivial
  | .pending e a s, hr =>
    obtain ⟨used, rest, h1, hpos, h2⟩ := hr
    subst h1 h2
    exact advances_after e (advances_of_progress hpos (hf a used rest rfl))

/-- An `inner_loads` that yields a value consumes at least the header byte. -/
theorem advances_inner_loads_of (item : BufferReader → Nat → Res BufferReader PyObj)
    (f : Nat)
    (hitem : ∀ pre2 suf2 c, suf2.length < f →
      Progress pre2 suf2 (item (BufferReader.over pre2 suf2) c))
    (pre suf : List Nat) (hf : suf.length ≤ f) :
    Advances pre suf (inner_loads_of bufferReader item (BufferReader.over pre suf)) := by
  cases suf with
  | nil =>
    simp only [inner_loads_of, bufferReader_read1, read1_over_nil, bind_fail]
    trivial
  | cons b r0 =>
    rw [inner_loads_of_over]
    have hp := hitem (pre ++ [b]) r0 b (by simp at hf; omega)
    exact @advances_of_progress _ pre [b] r0 _ (by simp) hp

theorem advances_loads_kv (H : Host) (item : BufferReader → Nat → Res BufferReader PyObj)
    (f : Nat)
    (hitem : ∀ pre2 suf2 c, suf2.length < f →
      Progress pre2 suf2 (item (BufferReader.over pre2 suf2) c))
    (out : List (PyObj × PyObj)) (pre suf : List Nat) (hf : suf.length ≤ f) :
    Advances pre suf (loads_kv H bufferReader item out (BufferReader.over pre suf)) := by
  unfold loads_kv
  refine advances_bind (advances_inner_loads_of item f hitem pre suf hf) (fun k u1 r1 h1 => ?_)
  have hl1 := length_of_split h1
  refine progress_bind (progress_inner_loads_of item f _ r1 hitem (by omega))
    (fun v u2 r2 h2 => ?_)
  exact progress_dict_set_item _ _ _ _ _ _

/-- A successful `inner_loads` consumes at least the header byte. -/
theorem inner_loads_of_shorter (item : BufferReader → Nat → Res BufferReader PyObj)
    (f : Nat)
    (hitem : ∀ pre2 suf2 c, suf2.length < f →
      Progress pre2 suf2 (item (BufferReader.over pre2 suf2) c))
    (pre suf : List Nat) (hf : suf.length ≤ f) (v : PyObj) (s : BufferReader)
    (h : inner_loads_of bufferReader item (BufferReader.over pre suf) = .ok v s) :
    ∃ used rest, suf = used ++ rest ∧ 1 ≤ used.length ∧
      s = BufferReader.over (pre ++ used) rest := by
  have := advances_inner_loads_of item f hitem pre suf hf
  rw [h] at this
  exact this

theorem loads_kv_shorter (H : Host) (item : BufferReader → Nat → Res BufferReader PyObj)
    (f : Nat)
    (hitem : ∀ pre2 suf2 c, suf2.length < f →
      Progress pre2 suf2 (item (BufferReader.over pre2 suf2) c))
    (out out2 : List (PyObj × PyObj)) (pre suf : List Nat) (hf : suf.length ≤ f)
    (s : BufferReader)
    (h : loads_kv H bufferReader item out (BufferReader.over pre suf) = .ok out2 s) :
    ∃ used rest, suf = used ++ rest ∧ 1 ≤ used.length ∧
      s = BufferReader.over (pre ++ used) rest := by
  have := advances_loads_kv H item f hitem out pre suf hf
  rw [h] at this
  exact this

theorem progress_loads_map_items (H : Host)
    (item : BufferReader → Nat → Res BufferReader PyObj) (f : Nat)
    (hitem : ∀ pre2 suf2 c, suf2.length < f →
      Progress pre2 suf2 (item (BufferReader.over pre2 suf2) c))
    (aux n : Nat) (pre suf : List Nat) (i : Nat) (out : List (PyObj × PyObj))
    (hn : suf.length < n) (hf : suf.length ≤ f) :
    Progress pre suf
      (loads_map_items H bufferReader item aux n (BufferReader.over pre suf) i out) := by
  induction n generalizing pre suf i out with
  | zero => omega
  | succ n ih =>
    rw [loads_map_items]
    split_ifs
    · have hadv := advances_loads_kv H item f hitem out pre suf hf
      cases hk : loads_kv H bufferReader item out (BufferReader.over pre suf) with
      | timeout =>
        rw [hk] at hadv
        exact hadv.elim
      | fail e s => simp only [bind_fail]; trivial
      | ok out2 s =>
        rw [hk] at hadv
        obtain ⟨u1, r1, h1, hpos, rfl⟩ := hadv
        simp only [bind_ok]
        subst h1
        refine progress_extend ?_
        simp only [List.length_append] at hn hf
        exact ih _ _ _ _ (by omega) (by omega)
      | pending e out2 s =>
        rw [hk] at hadv
        obtain ⟨u1, r1, h1, hpos, rfl⟩ := hadv
        simp only [bind_pending]
        subst h1
        refine progress_after e (progress_extend ?_)
        simp only [List.length_append] at hn hf
        exact ih _ _ _ _ (by omega) (by omega)
    · exact progress_ok _ _ _

theorem progress_loads_var_map (H : Host)
    (item : BufferReader → Nat → Res BufferReader PyObj) (f : Nat)
    (hitem : ∀ pre2 suf2 c, suf2.length < f →
      Progress pre2 suf2 (item (BufferReader.over pre2 suf2) c))
    (n : Nat) (pre suf : List Nat) (sc : Nat) (out : List (PyObj × PyObj))
    (hn : suf.length < n) (hf : suf.length < f) :
    Progress pre suf
      (loads_var_map H bufferReader item n (BufferReader.over pre suf) sc out) := by
  induction n generalizing pre suf sc out with
  | zero => omega
  | succ n ih =>
    rw [loads_var_map]
    split_ifs
    · refine progress_bind (hitem pre suf sc hf) (fun k u1 r1 h1 => ?_)
      have hl1 := length_of_split h1
      refine progress_bind (progress_inner_loads_of item f _ r1 hitem (by omega))
        (fun v u2 r2 h2 => ?_)
      have hl2 := length_of_split h2
      refine progress_bind (progress_dict_set_item _ _ _ _ _ _) (fun out2 u3 r3 h3 => ?_)
      have hl3 := length_of_split h3
      cases r3 with
      | nil =>
        simp only [bufferReader_read1, read1_over_nil, bind_fail]
        trivial
      | cons b r4 =>
        simp only [bufferReader_read1, read1_over, bind_ok]
        have := ih (pre ++ u1 ++ u2 ++ u3 ++ [b]) r4 b out2
          (by simp at hl2 hl3; omega) (by simp at hl2 hl3; omega)
        exact progress_extend this
    · exact progress_ok _ _ _

theorem progress_loads_bignum_loop (k : Nat) (pre suf : List Nat) (out : Nat) :
    Progress pre suf (loads_bignum_loop bufferReader k (BufferReader.over pre suf) out) := by
  induction k generalizing pre suf out with
  | zero => exact progress_ok _ _ _
  | succ k ih =>
    rw [loads_bignum_loop]
    exact progress_bind (progress_read1 pre suf) (fun cb u r _ => ih _ _ _)

theorem progress_loads_bignum (pre suf : List Nat) (c : Nat) :
    Progress pre suf (loads_bignum bufferReader (BufferReader.over pre suf) c) := by
  unfold loads_bignum
  dsimp only
  split_ifs
  · exact progress_loads_bignum_loop _ _ _ _
  · exact progress_fail _ _ _ _

theorem progress_loads_tag (item : BufferReader → Nat → Res BufferReader PyObj) (f : Nat)
    (hitem : ∀ pre2 suf2 c, suf2.length < f →
      Progress pre2 suf2 (item (BufferReader.over pre2 suf2) c))
    (pre suf : List Nat) (aux : Nat) (hf : suf.length ≤ f) :
    Progress pre suf (loads_tag bufferReader item (BufferReader.over pre suf) aux) := by
  unfold loads_tag
  split_ifs
  · refine progress_bind (progress_read1 pre suf) (fun sc u r _ => ?_)
    split_ifs
    · exact progress_loads_bignum _ _ _
    · exact progress_fail _ _ _ _
  · refine progress_bind (progress_read1 pre suf) (fun sc u r _ => ?_)
    split_ifs
    · refine progress_bind (progress_loads_bignum _ _ _) (fun out u2 r2 _ => ?_)
      cases out <;> first | exact progress_ok _ _ _ | exact progress_fail _ _ _ _
    · exact progress_fail _ _ _ _
  · refine progress_bind (progress_inner_loads_of item f pre suf hitem hf)
      (fun out u r _ => progress_ok _ _ _)


theorem progress_read1_then {β : Type} (pre suf : List Nat)
    (k : Nat → BufferReader → Res BufferReader β)
    (hk : ∀ b rest, suf = b :: rest →
      Progress (pre ++ [b]) rest (k b (BufferReader.over (pre ++ [b]) rest))) :
    Progress pre suf ((bufferReader.read1 (BufferReader.over pre suf)).bind k) := by
  cases suf with
  | nil =>
    simp only [bufferReader_read1, read1_over_nil, bind_fail]
    trivial
  | cons b rest =>
    simp only [bufferReader_read1, read1_over, bind_ok]
    exact progress_extend (hk b rest rfl)

theorem major_type_cases_all (c : Nat) :
    c &&& CBOR_TYPE_MASK = CBOR_UINT ∨ c &&& CBOR_TYPE_MASK = CBOR_NEGINT ∨
    c &&& CBOR_TYPE_MASK = CBOR_BYTES ∨ c &&& CBOR_TYPE_MASK = CBOR_TEXT ∨
    c &&& CBOR_TYPE_MASK = CBOR_ARRAY ∨ c &&& CBOR_TYPE_MASK = CBOR_MAP ∨
    c &&& CBOR_TYPE_MASK = CBOR_TAG ∨ c &&& CBOR_TYPE_MASK = CBOR_7 := by
  have h1 : c &&& CBOR_TYPE_MASK = (c % 256) &&& CBOR_TYPE_MASK := by
    have e : CBOR_TYPE_MASK = 255 &&& CBOR_TYPE_MASK := by decide
    rw [← and_255 c, Nat.and_assoc, ← e]
  rw [h1]
  exact major_type_cases (c % 256) (Nat.mod_lt _ (by decide))

theorem progress_inner_loads_c (H : Host) (fuel : Nat) :
    ∀ pre suf c, suf.length < fuel →
      Progress pre suf (inner_loads_c H bufferReader fuel (BufferReader.over pre suf) c) := by
  induction fuel with
  | zero => intro pre suf c h; omega
  | succ f ih =>
    intro pre suf c hlen
    rcases major_type_cases_all c with hT | hT | hT | hT | hT | hT | hT | hT
    · rw [inner_loads_c_uint H _ f _ c hT]
      exact progress_bind (progress_handle_info_bits pre suf _)
        (fun aux u r h => progress_ok _ _ _)
    · rw [inner_loads_c_negint H _ f _ c hT]
      refine progress_bind (progress_handle_info_bits pre suf _) (fun aux u r h => ?_)
      split_ifs <;> exact progress_ok _ _ _
    · rw [inner_loads_c_bytes H _ f _ c hT]
      refine progress_bind (progress_handle_info_bits pre suf _) (fun aux u r h => ?_)
      have hl := length_of_split h
      by_cases hv : c &&& CBOR_INFO_BITS = CBOR_VAR_FOLLOWS
      · simp only [if_pos hv]
        refine progress_read1_then _ _ _ (fun b r2 h2 => ?_)
        subst h2
        exact progress_loads_var_bytes _ _ _ _ _ (by simp at hl; omega)
      · simp only [if_neg hv]
        by_cases h0 : aux = 0
        · simp only [if_pos h0]
          exact progress_ok _ _ _
        · simp only [if_neg h0]
          exact progress_read_guard _ _ _ _ _ (fun raw u2 r2 _ => progress_ok _ _ _)
    · rw [inner_loads_c_text H _ f _ c hT]
      refine progress_bind (progress_handle_info_bits pre suf _) (fun aux u r h => ?_)
      have hl := length_of_split h
      by_cases hv : c &&& CBOR_INFO_BITS = CBOR_VAR_FOLLOWS
      · simp only [if_pos hv]
        refine progress_read1_then _ _ _ (fun b r2 h2 => ?_)
        subst h2
        refine progress_bind (progress_loads_var_items _ f ih _ _ _ _ _
          (by simp at hl; omega) (by simp at hl; omega)) (fun parts u3 r3 _ => ?_)
        cases unicode_join parts with
        | none => exact progress_fail _ _ _ _
        | some x => exact progress_ok _ _ _
      · simp only [if_neg hv]
        by_cases h0 : aux = 0
        · simp only [if_pos h0]
          exact progress_ok _ _ _
        · simp only [if_neg h0]
          refine progress_read_guard _ _ _ _ _ (fun raw u2 r2 _ => ?_)
          split_ifs
          · exact progress_ok _ _ _
          · exact progress_fail _ _ _ _
    · rw [inner_loads_c_array H _ f _ c hT]
      refine progress_bind (progress_handle_info_bits pre suf _) (fun aux u r h => ?_)
      have hl := length_of_split h
      split_ifs
      · refine progress_read1_then _ _ _ (fun b r2 h2 => ?_)
        subst h2
        exact progress_bind (progress_loads_var_items _ f ih _ _ _ _ _
          (by simp at hl; omega) (by simp at hl; omega)) (fun parts u3 r3 _ => progress_ok _ _ _)
      · exact progress_loads_array_items _ f ih _ _ _ _ _ _ (by omega) (by omega)
      · exact progress_loads_array_items _ f ih _ _ _ _ _ _ (by omega) (by omega)
    · rw [inner_loads_c_map H _ f _ c hT]
      refine progress_bind (progress_handle_info_bits pre suf _) (fun aux u r h => ?_)
      have hl := length_of_split h
      split_ifs
      · refine progress_read1_then _ _ _ (fun b r2 h2 => ?_)
        subst h2
        exact progress_loads_var_map H _ f ih _ _ _ _ _ (by simp at hl; omega)
          (by simp at hl; omega)
      · exact progress_loads_map_items H _ f ih _ _ _ _ _ _ (by omega) (by omega)
    · rw [inner_loads_c_tag H _ f _ c hT]
      refine progress_bind (progress_handle_info_bits pre suf _) (fun aux u r h => ?_)
      have hl := length_of_split h
      exact progress_loads_tag _ f ih _ _ _ (by omega)
    · rw [inner_loads_c_seven H _ f _ c hT]
      split_ifs
      · exact progress_decodeFloat16 _ _
      · exact progress_decodeFloat32 _ _
      · exact progress_decodeFloat64 _ _
      · refine progress_bind (progress_handle_info_bits pre suf _) (fun aux u r h => ?_)
        split_ifs <;> first | exact progress_ok _ _ _ | exact progress_fail _ _ _ _

/-- The in-memory decoder comes to an end when the fuel is at least the number
of bytes left. -/
theorem progress_inner_loads (H : Host) (fuel : Nat) (pre suf : List Nat)
    (h : suf.length ≤ fuel) :
    Progress pre suf (inner_loads H bufferReader fuel (BufferReader.over pre suf)) :=
  progress_inner_loads_of _ fuel pre suf (progress_inner_loads_c H fuel) h

/-! ## Indefinite-length strings, arrays and maps -/

theorem notText_after {σ : Type} (e : PyErr) (r : Res σ PyObj) (h : NotText r) :
    NotText (r.after e) := by
  cases r with
  | ok a s => exact h
  | fail e s => trivial
  | timeout => trivial
  | pending e a s => exact h

theorem notText_bind {σ α : Type} (r : Res σ α) (f : α → σ → Res σ PyObj)
    (hf : ∀ a s, NotText (f a s)) : NotText (r.bind f) := by
  cases r with
  | ok a s => exact hf a s
  | fail e s => trivial
  | timeout => trivial
  | pending e a s => exact notText_after e _ (hf a s)

theorem notText_loads_var_bytes {σ : Type} (R : Reader σ) (n : Nat) :
    ∀ rin sc parts, NotText (loads_var_bytes R n rin sc parts) := by
  induction n with
  | zero => intro rin sc parts; trivial
  | succ n ih =>
    intro rin sc parts
    rw [loads_var_bytes]
    by_cases hb : sc ≠ CBOR_BREAK
    · simp only [if_pos hb]
      by_cases ht : sc &&& CBOR_TYPE_MASK ≠ CBOR_BYTES
      · simp only [if_pos ht]
        trivial
      · simp only [if_neg ht]
        refine notText_bind _ _ (fun saux s => notText_bind _ _ (fun blob s => ?_))
        by_cases hs : toSsize saux < 0
        · simp only [if_pos hs]
          trivial
        · simp only [if_neg hs]
          exact notText_bind _ _ (fun sc s => ih _ _ _)
    · simp only [if_neg hb]
      intro u hu
      cases hu

theorem notText_loads_array_items {σ : Type} (R : Reader σ) (item : σ → Nat → Res σ PyObj)
    (aux n : Nat) : ∀ rin i out, NotText (loads_array_items R item aux n rin i out) := by
  induction n with
  | zero => intro rin i out; trivial
  | succ n ih =>
    intro rin i out
    simp only [loads_array_items]
    by_cases hi : i < aux
    · simp only [if_pos hi]
      refine notText_bind _ _ (fun v s => ?_)
      cases out with
      | none => trivial
      | some l => exact ih _ _ _
    · simp only [if_neg hi]
      cases out with
      | none => trivial
      | some l =>
        intro u hu
        cases hu

theorem notText_loads_map_items {σ : Type} (H : Host) (R : Reader σ)
    (item : σ → Nat → Res σ PyObj) (aux n : Nat) :
    ∀ rin i out, NotText (loads_map_items H R item aux n rin i out) := by
  induction n with
  | zero => intro rin i out; trivial
  | succ n ih =>
    intro rin i out
    simp only [loads_map_items]
    by_cases hi : i < aux
    · simp only [if_pos hi]
      exact notText_bind _ _ (fun v s => ih _ _ _)
    · simp only [if_neg hi]
      intro u hu
      cases hu

theorem notText_loads_var_map {σ : Type} (H : Host) (R : Reader σ)
    (item : σ → Nat → Res σ PyObj) (n : Nat) :
    ∀ rin sc out, NotText (loads_var_map H R item n rin sc out) := by
  induction n with
  | zero => intro rin sc out; trivial
  | succ n ih =>
    intro rin sc out
    simp only [loads_var_map]
    by_cases hb : sc ≠ CBOR_BREAK
    · simp only [if_pos hb]
      exact notText_bind _ _ (fun k s => notText_bind _ _ (fun v s =>
        notText_bind _ _ (fun out s => notText_bind _ _ (fun sc s => ih _ _ _))))
    · simp only [if_neg hb]
      intro u hu
      cases hu

theorem notText_loads_bignum_loop {σ : Type} (R : Reader σ) (k : Nat) :
    ∀ rin out, NotText (loads_bignum_loop R k rin out) := by
  induction k with
  | zero =>
    intro rin out u hu
    cases hu
  | succ k ih =>
    intro rin out
    simp only [loads_bignum_loop]
    exact notText_bind _ _ (fun cb s => ih _ _)

theorem notText_loads_bignum {σ : Type} (R : Reader σ) (rin : σ) (c : Nat) :
    NotText (loads_bignum R rin c) := by
  simp only [loads_bignum]
  split_ifs
  · exact notText_loads_bignum_loop R _ _ _
  · trivial

theorem notText_loads_tag {σ : Type} (R : Reader σ) (item : σ → Nat → Res σ PyObj) (rin : σ)
    (aux : Nat) : NotText (loads_tag R item rin aux) := by
  simp only [loads_tag]
  by_cases h2 : aux = CBOR_TAG_BIGNUM
  · simp only [if_pos h2]
    refine notText_bind _ _ (fun sc s => ?_)
    split_ifs
    · exact notText_loads_bignum R _ _
    · trivial
  · simp only [if_neg h2]
    by_cases h3 : aux = CBOR_TAG_NEGBIGNUM
    · simp only [if_pos h3]
      refine notText_bind _ _ (fun sc s => ?_)
      split_ifs
      · refine notText_bind _ _ (fun out s => ?_)
        cases out <;> first | trivial | (intro u hu; cases hu)
      · trivial
    · simp only [if_neg h3]
      refine notText_bind _ _ (fun out s => ?_)
      intro u hu
      cases hu

/-- An item whose header byte has another major type than text string never
decodes to a `str` object. -/
theorem notText_inner_loads_c {σ : Type} (H : Host) (R : Reader σ) (fuel : Nat) (rin : σ)
    (c : Nat) (hT : c &&& CBOR_TYPE_MASK ≠ CBOR_TEXT) : NotText (inner_loads_c H R fuel rin c) := by
  cases fuel with
  | zero => trivial
  | succ f =>
    rcases major_type_cases_all c with h | h | h | h | h | h | h | h
    · rw [inner_loads_c_uint H _ f _ c h]
      refine notText_bind _ _ (fun aux s => ?_)
      intro u hu
      cases hu
    · rw [inner_loads_c_negint H _ f _ c h]
      refine notText_bind _ _ (fun aux s => ?_)
      split_ifs <;> (intro u hu; cases hu)
    · rw [inner_loads_c_bytes H _ f _ c h]
      refine notText_bind _ _ (fun aux s => ?_)
      by_cases hv : c &&& CBOR_INFO_BITS = CBOR_VAR_FOLLOWS
      · simp only [if_pos hv]
        exact notText_bind _ _ (fun sc s => notText_loads_var_bytes R _ _ _ _)
      · simp only [if_neg hv]
        by_cases h0 : aux = 0
        · simp only [if_pos h0]
          intro u hu
          cases hu
        · simp only [if_neg h0]
          refine notText_bind _ _ (fun raw s => ?_)
          split_ifs
          · trivial
          · intro u hu
            cases hu
    · exact absurd h hT
    · rw [inner_loads_c_array H _ f _ c h]
      refine notText_bind _ _ (fun aux s => ?_)
      by_cases hv : c &&& CBOR_INFO_BITS = CBOR_VAR_FOLLOWS
      · simp only [if_pos hv]
        refine notText_bind _ _ (fun sc s => notText_bind _ _ (fun out s => ?_))
        intro u hu
        cases hu
      · simp only [if_neg hv]
        exact notText_loads_array_items R _ _ _ _ _ _
    · rw [inner_loads_c_map H _ f _ c h]
      refine notText_bind _ _ (fun aux s => ?_)
      by_cases hv : c &&& CBOR_INFO_BITS = CBOR_VAR_FOLLOWS
      · simp only [if_pos hv]
        exact notText_bind _ _ (fun sc s => notText_loads_var_map H R _ _ _ _ _)
      · simp only [if_neg hv]
        exact notText_loads_map_items H R _ _ _ _ _ _
    · rw [inner_loads_c_tag H _ f _ c h]
      exact notText_bind _ _ (fun aux s => notText_loads_tag R _ _ _)
    · rw [inner_loads_c_seven H _ f _ c h]
      split_ifs
      · exact notText_bind _ _ (fun a s => notText_bind _ _ (fun b s => by
          intro u hu
          cases hu))
      · exact notText_bind _ _ (fun a s => by
          intro u hu
          cases hu)
      · exact notText_bind _ _ (fun a s => by
          intro u hu
          cases hu)
      · refine notText_bind _ _ (fun aux s => ?_)
        split_ifs <;> first | trivial | (intro u hu; cases hu)

theorem read_over_zero (pre suf : List Nat) :
    BufferReader_read (BufferReader.over pre suf) 0 = .ok [] (BufferReader.over pre suf) := by
  have h := read_over pre [] suf 0 rfl
  simpa using h

theorem toSsize_zero : toSsize 0 = 0 := by
  simpa using toSsize_of_lt 0 (by decide)

/-- The loop of an indefinite-length byte string walks over accepted chunks,
one iteration each, and collects their payloads in order. -/
theorem loads_var_bytes_chunks (chunks : List (List Nat × List Nat))
    (hchunks : ∀ p ∈ chunks, IsChunk p) (n : Nat) (parts : List (List Nat)) (pre : List Nat)
    (s1 : Nat) (rest : List Nat) :
    ∃ s0 stail, (chunks.map fun p => p.1 ++ p.2).flatten ++ s1 :: rest = s0 :: stail ∧
      loads_var_bytes bufferReader (chunks.length + n) (BufferReader.over (pre ++ [s0]) stail)
          s0 parts
        = loads_var_bytes bufferReader n
            (BufferReader.over (pre ++ ((chunks.map fun p => p.1 ++ p.2).flatten ++ [s1])) rest)
            s1 (parts ++ chunks.map Prod.snd) := by
  induction chunks generalizing parts pre with
  | nil =>
    refine ⟨s1, rest, rfl, ?_⟩
    simp
  | cons p chunks ih =>
    obtain ⟨s0, stail, hs, hrec⟩ := ih (fun q hq => hchunks q (by simp [hq]))
      (parts ++ [p.2]) (pre ++ (p.1 ++ p.2))
    have e1 : (List.map (fun p => p.1 ++ p.2) (p :: chunks)).flatten ++ s1 :: rest
        = p.1 ++ (p.2 ++ (s0 :: stail)) := by
      simp [← hs]
    have efuel : (p :: chunks).length + n = (chunks.length + n) + 1 := by
      simp only [List.length_cons]
      omega
    rcases hchunks p (by simp) with ⟨⟨c, tail, hb, hT, hI, hd⟩, hlen⟩ | ⟨c, hb, hT, hI, hp2⟩
    · refine ⟨c, tail ++ (p.2 ++ (s0 :: stail)), ?_, ?_⟩
      · rw [e1, hb]
        rfl
      · rw [efuel, loads_var_bytes]
        simp only [bytes_ne_break hT, ne_eq, not_false_eq_true, if_true, hT, not_true_eq_false,
          if_false]
        rw [hd, bind_ok, toSsize_of_lt _ hlen,
          bufferReader_read, read_over _ p.2 _ _ rfl, bind_ok]
        have hneg : ¬ ((p.2.length : Int) < 0) := by omega
        simp only [hneg, if_false, bufferReader_read1, read1_over, bind_ok]
        simp only [List.append_assoc] at hrec ⊢
        rw [hrec]
        simp
    · refine ⟨c, s0 :: stail, ?_, ?_⟩
      · rw [e1, hb, hp2]
        rfl
      · rw [efuel, loads_var_bytes]
        simp only [bytes_ne_break hT, ne_eq, not_false_eq_true, if_true, hT, not_true_eq_false,
          if_false]
        rw [handle_info_bits_above _ _ _ hI, bind_ok, toSsize_zero, bufferReader_read,
          read_over_zero, bind_ok]
        simp only [lt_self_iff_false, if_false, bufferReader_read1, read1_over, bind_ok]
        rw [hb, hp2] at hrec
        simp only [List.append_assoc, List.append_nil, List.singleton_append] at hrec ⊢
        rw [hrec]
        simp [hb, hp2]

/-- The loop of an indefinite-length text string or array walks over
well-formed items, one iteration each, and collects their values in order. -/
theorem loads_var_items_chunks (item : BufferReader → Nat → Res BufferReader PyObj)
    (items : List (List Nat × PyObj)) (hitems : ∀ p ∈ items, ItemOk item p.1 p.2)
    (n : Nat) (acc : List PyObj) (pre : List Nat) (s1 : Nat) (rest : List Nat) :
    ∃ s0 stail, (items.map Prod.fst).flatten ++ s1 :: rest = s0 :: stail ∧
      loads_var_items bufferReader item (items.length + n) (BufferReader.over (pre ++ [s0]) stail)
          s0 acc
        = loads_var_items bufferReader item n
            (BufferReader.over (pre ++ ((items.map Prod.fst).flatten ++ [s1])) rest)
            s1 (acc ++ items.map Prod.snd) := by
  induction items generalizing acc pre with
  | nil =>
    refine ⟨s1, rest, rfl, ?_⟩
    simp
  | cons p items ih =>
    obtain ⟨c, tail, hb, hc, hd⟩ := hitems p (by simp)
    obtain ⟨s0, stail, hs, hrec⟩ := ih (fun q hq => hitems q (by simp [hq]))
      (acc ++ [p.2]) (pre ++ p.1)
    have e1 : (List.map Prod.fst (p :: items)).flatten ++ s1 :: rest
        = p.1 ++ (s0 :: stail) := by
      simp [← hs]
    have efuel : (p :: items).length + n = (items.length + n) + 1 := by
      simp only [List.length_cons]
      omega
    refine ⟨c, tail ++ (s0 :: stail), ?_, ?_⟩
    · rw [e1, hb]
      rfl
    · rw [efuel, loads_var_items]
      simp only [hc, ne_eq, not_false_eq_true, if_true]
      rw [hd, bind_ok]
      simp only [bufferReader_read1, read1_over, bind_ok]
      simp only [List.append_assoc] at hrec ⊢
      rw [hrec]
      simp

theorem isFail_of_progress {α : Type} {pre suf : List Nat} {r : Res BufferReader α}
    (hp : Progress pre suf r) (hn : r.returns = false) : r.isFail = true := by
  cases r with
  | ok a s => cases hn
  | fail e s => rfl
  | timeout => exact hp.elim
  | pending e a s => cases hn

theorem isOk_of_returns {σ α : Type} {r : Res σ α} (hn : r.returns = false) :
    r.isOk = false := by
  cases r with
  | ok a s => cases hn
  | fail e s => rfl
  | timeout => rfl
  | pending e a s => rfl

theorem returned_after {σ α : Type} (e : PyErr) (r : Res σ α) :
    (r.after e).returned = r.returned := by
  cases r <;> rfl

theorem returns_after {σ α : Type} (e : PyErr) (r : Res σ α) :
    (r.after e).returns = r.returns := by
  cases r <;> rfl

theorem returned_of_ok {σ α : Type} {r : Res σ α} {a : α} {s : σ} (h : r = .ok a s) :
    r.returned = some (a, s) := by
  rw [h]
  rfl

/-- A sequence of two steps that returns a value is made of two steps that
return a value. -/
theorem bind_returned {σ α β : Type} (r : Res σ α) (f : α → σ → Res σ β) (x : β × σ)
    (h : (r.bind f).returned = some x) :
    ∃ a s, r.returned = some (a, s) ∧ (f a s).returned = some x := by
  cases r with
  | ok a s => exact ⟨a, s, rfl, h⟩
  | fail e s => cases h
  | timeout => cases h
  | pending e a s =>
    rw [bind_pending, returned_after] at h
    exact ⟨a, s, rfl, h⟩

theorem bind_returns_false {σ α β : Type} (r : Res σ α) (f : α → σ → Res σ β)
    (hf : ∀ a s, r.returned = some (a, s) → (f a s).returns = false) :
    (r.bind f).returns = false := by
  cases r with
  | ok a s => exact hf a s rfl
  | fail e s => rfl
  | timeout => rfl
  | pending e a s =>
    rw [bind_pending, returns_after]
    exact hf a s rfl

theorem notText_returned {σ : Type} {r : Res σ PyObj} {v : PyObj} {s : σ} (h : NotText r)
    (hr : r.returned = some (v, s)) : ∀ u, v ≠ .unicode u := by
  cases r with
  | ok a s =>
    cases hr
    exact h
  | fail e s => cases hr
  | timeout => cases hr
  | pending e a s =>
    cases hr
    exact h

theorem loads_var_items_extends {σ : Type} (R : Reader σ) (item : σ → Nat → Res σ PyObj)
    (n : Nat) : ∀ rin sc acc parts r,
      (loads_var_items R item n rin sc acc).returned = some (parts, r) →
        ∃ more, parts = acc ++ more := by
  induction n with
  | zero =>
    intro rin sc acc parts r h
    cases h
  | succ n ih =>
    intro rin sc acc parts r h
    rw [loads_var_items] at h
    by_cases hb : sc ≠ CBOR_BREAK
    · simp only [if_pos hb] at h
      obtain ⟨v, s, -, h⟩ := bind_returned _ _ _ h
      obtain ⟨sc2, s2, -, h⟩ := bind_returned _ _ _ h
      obtain ⟨more, hm⟩ := ih _ _ _ _ _ h
      exact ⟨v :: more, by simp [hm]⟩
    · simp only [if_neg hb] at h
      cases h
      exact ⟨[], by simp⟩

theorem unicode_join_none (acc : List PyObj) (v : PyObj) (more : List PyObj)
    (hv : ∀ u, v ≠ .unicode u) : unicode_join (acc ++ v :: more) = Option.none := by
  induction acc with
  | nil =>
    cases v with
    | unicode u => exact absurd rfl (hv u)
    | _ => rfl
  | cons a acc ih =>
    cases a with
    | unicode u => simp [unicode_join, ih]
    | _ => rfl

theorem unicode_join_map (texts : List (List Nat)) :
    unicode_join (texts.map PyObj.unicode) = some texts.flatten := by
  induction texts with
  | nil => rfl
  | cons t texts ih => simp [unicode_join, ih]

/-- An indefinite-length byte string of accepted chunks decodes to the
concatenation of the payloads. -/
theorem decode_bytes_indef (H : Host) (fuel : Nat) (chunks : List (List Nat × List Nat))
    (hchunks : ∀ p ∈ chunks, IsChunk p) (hfuel : chunks.length ≤ fuel) :
    ItemOk (inner_loads_c H bufferReader (fuel + 1))
      (0x5F :: ((chunks.map fun p => p.1 ++ p.2).flatten ++ [CBOR_BREAK]))
      (.bytes (chunks.map Prod.snd).flatten) := by
  refine ⟨0x5F, _, rfl, by decide, fun pre rest => ?_⟩
  have hT : 0x5F &&& CBOR_TYPE_MASK = CBOR_BYTES := by decide
  have hI : 0x5F &&& CBOR_INFO_BITS = CBOR_VAR_FOLLOWS := by decide
  rw [inner_loads_c_bytes H _ fuel _ _ hT, hI, handle_info_bits_above _ _ _ (by decide),
    bind_ok, if_pos rfl]
  obtain ⟨n, hn⟩ : ∃ n, fuel + 1 = chunks.length + (n + 1) := ⟨fuel - chunks.length, by omega⟩
  obtain ⟨s0, stail, hs, hrec⟩ := loads_var_bytes_chunks chunks hchunks (n + 1) []
    (pre ++ [0x5F]) CBOR_BREAK rest
  have e : ((chunks.map fun p => p.1 ++ p.2).flatten ++ [CBOR_BREAK]) ++ rest = s0 :: stail := by
    simpa using hs
  rw [e, bufferReader_read1, read1_over, bind_ok, hn, hrec, loads_var_bytes]
  simp

/-- In an indefinite-length byte string, after accepted chunks, a header byte
of another major type ends the decoding with the ValueError of the loop. -/
theorem bytes_chunk_mismatch (H : Host) (fuel : Nat) (chunks : List (List Nat × List Nat))
    (hchunks : ∀ p ∈ chunks, IsChunk p) (hfuel : chunks.length ≤ fuel)
    (c : Nat) (hc : c ≠ CBOR_BREAK) (hT : c &&& CBOR_TYPE_MASK ≠ CBOR_BYTES)
    (pre rest : List Nat) :
    inner_loads H bufferReader (fuel + 1)
        (BufferReader.over pre (0x5F :: ((chunks.map fun p => p.1 ++ p.2).flatten ++ c :: rest)))
      = .fail .valueExpectedSubBytes
          (BufferReader.over
            (pre ++ 0x5F :: ((chunks.map fun p => p.1 ++ p.2).flatten ++ [c])) rest) := by
  have hT5 : 0x5F &&& CBOR_TYPE_MASK = CBOR_BYTES := by decide
  have hI : 0x5F &&& CBOR_INFO_BITS = CBOR_VAR_FOLLOWS := by decide
  rw [inner_loads, inner_loads_of_over, inner_loads_c_bytes H _ fuel _ _ hT5, hI,
    handle_info_bits_above _ _ _ (by decide), bind_ok, if_pos rfl]
  obtain ⟨n, hn⟩ : ∃ n, fuel + 1 = chunks.length + (n + 1) := ⟨fuel - chunks.length, by omega⟩
  obtain ⟨s0, stail, hs, hrec⟩ := loads_var_bytes_chunks chunks hchunks (n + 1) []
    (pre ++ [0x5F]) c rest
  rw [hs, bufferReader_read1, read1_over, bind_ok, hn, hrec, loads_var_bytes]
  simp [hc, hT]

/-- An indefinite-length text string whose chunks are items that decode to
`str` objects (definite-length text strings, or again indefinite-length text
strings) decodes to the concatenation. -/
theorem decode_text_indef (H : Host) (fuel : Nat) (items : List (List Nat × List Nat))
    (hitems : ∀ p ∈ items, ItemOk (inner_loads_c H bufferReader fuel) p.1 (.unicode p.2))
    (hfuel : items.length ≤ fuel) :
    ItemOk (inner_loads_c H bufferReader (fuel + 1))
      (0x7F :: ((items.map Prod.fst).flatten ++ [CBOR_BREAK]))
      (.unicode (items.map Prod.snd).flatten) := by
  refine ⟨0x7F, _, rfl, by decide, fun pre rest => ?_⟩
  have hT : 0x7F &&& CBOR_TYPE_MASK = CBOR_TEXT := by decide
  have hI : 0x7F &&& CBOR_INFO_BITS = CBOR_VAR_FOLLOWS := by decide
  rw [inner_loads_c_text H _ fuel _ _ hT, hI, handle_info_bits_above _ _ _ (by decide),
    bind_ok, if_pos rfl]
  obtain ⟨s0, stail, hs, hrec⟩ := loads_var_items_ok (inner_loads_c H bufferReader fuel)
    (items.map fun p => (p.1, PyObj.unicode p.2))
    (by
      intro q hq
      obtain ⟨p, hp, rfl⟩ := List.mem_map.mp hq
      exact hitems p hp)
    (fuel + 1) (by simp; omega) [] (pre ++ [0x7F]) rest
  have e1 : (items.map fun p => (p.1, PyObj.unicode p.2)).map Prod.fst = items.map Prod.fst := by
    simp [List.map_map, Function.comp_def]
  have e2 : (items.map fun p => (p.1, PyObj.unicode p.2)).map Prod.snd
      = (items.map Prod.snd).map PyObj.unicode := by
    simp [List.map_map, Function.comp_def]
  rw [e1, e2] at hrec
  rw [e1] at hs
  have e : ((items.map Prod.fst).flatten ++ [CBOR_BREAK]) ++ rest = s0 :: (stail ++ rest) := by
    rw [hs]
    rfl
  rw [e, bufferReader_read1, read1_over, bind_ok, hrec, bind_ok, List.nil_append,
    unicode_join_map]
  simp

/-- In an indefinite-length text string, after well-formed items, an item of
another major type never lets the decoding return a value. -/
theorem text_chunk_mismatch (H : Host) (fuel : Nat) (items : List (List Nat × PyObj))
    (hitems : ∀ p ∈ items, ItemOk (inner_loads_c H bufferReader fuel) p.1 p.2)
    (hfuel : items.length ≤ fuel)
    (c : Nat) (hc : c ≠ CBOR_BREAK) (hT : c &&& CBOR_TYPE_MASK ≠ CBOR_TEXT)
    (pre rest : List Nat) :
    (inner_loads H bufferReader (fuel + 1)
        (BufferReader.over pre (0x7F :: ((items.map Prod.fst).flatten ++ c :: rest)))).returns
      = false := by
  have hT7 : 0x7F &&& CBOR_TYPE_MASK = CBOR_TEXT := by decide
  have hI : 0x7F &&& CBOR_INFO_BITS = CBOR_VAR_FOLLOWS := by decide
  rw [inner_loads, inner_loads_of_over, inner_loads_c_text H _ fuel _ _ hT7, hI,
    handle_info_bits_above _ _ _ (by decide), bind_ok, if_pos rfl]
  obtain ⟨n, hn⟩ : ∃ n, fuel + 1 = items.length + (n + 1) := ⟨fuel - items.length, by omega⟩
  obtain ⟨s0, stail, hs, hrec⟩ := loads_var_items_chunks (inner_loads_c H bufferReader fuel)
    items hitems (n + 1) [] (pre ++ [0x7F]) c rest
  rw [hs, bufferReader_read1, read1_over, bind_ok, hn, hrec, loads_var_items]
  simp only [hc, ne_eq, not_false_eq_true, if_true, List.nil_append]
  refine bind_returns_false _ _ (fun parts s hparts => ?_)
  have hjoin : unicode_join parts = Option.none := by
    obtain ⟨v, s1, h1, hparts⟩ := bind_returned _ _ _ hparts
    obtain ⟨sc2, s2, -, hparts⟩ := bind_returned _ _ _ hparts
    have hv : ∀ u, v ≠ .unicode u :=
      notText_returned (notText_inner_loads_c H bufferReader fuel
        (BufferReader.over (pre ++ [0x7F] ++ ((items.map Prod.fst).flatten ++ [c])) rest) c hT)
        h1
    obtain ⟨more, hm⟩ := loads_var_items_extends _ _ _ _ _ _ _ _ hparts
    rw [hm, List.append_assoc]
    exact unicode_join_none _ v more hv
  rw [hjoin]
  rfl

/-- An indefinite-length array of well-formed items decodes to the list of
their values. -/
theorem decode_array_indef (H : Host) (fuel : Nat) (items : List (List Nat × PyObj))
    (hitems : ∀ p ∈ items, ItemOk (inner_loads_c H bufferReader fuel) p.1 p.2)
    (hfuel : items.length ≤ fuel) :
    ItemOk (inner_loads_c H bufferReader (fuel + 1))
      (0x9F :: ((items.map Prod.fst).flatten ++ [CBOR_BREAK]))
      (.list (items.map Prod.snd)) := by
  refine ⟨0x9F, _, rfl, by decide, fun pre rest => ?_⟩
  have hT : 0x9F &&& CBOR_TYPE_MASK = CBOR_ARRAY := by decide
  have hI : 0x9F &&& CBOR_INFO_BITS = CBOR_VAR_FOLLOWS := by decide
  rw [inner_loads_c_array H _ fuel _ _ hT, hI, handle_info_bits_above _ _ _ (by decide),
    bind_ok, if_pos rfl]
  obtain ⟨s0, stail, hs, hrec⟩ := loads_var_items_ok (inner_loads_c H bufferReader fuel)
    items hitems (fuel + 1) (by omega) [] (pre ++ [0x9F]) rest
  have e : ((items.map Prod.fst).flatten ++ [CBOR_BREAK]) ++ rest = s0 :: (stail ++ rest) := by
    rw [hs]
    rfl
  rw [e, bufferReader_read1, read1_over, bind_ok, hrec, bind_ok]
  simp

/-- An indefinite-length map of well-formed keys and values decodes to the
dictionary of the pairs, inserted in order. -/
theorem decode_map_indef (H : Host) (fuel : Nat)
    (pairs : List ((List Nat × PyObj) × (List Nat × PyObj)))
    (hpairs : ∀ p ∈ pairs, ItemOk (inner_loads_c H bufferReader fuel) p.1.1 p.1.2 ∧
      ItemOk (inner_loads_c H bufferReader fuel) p.2.1 p.2.2)
    (hacc : dict_accepts H [] (pairs.map fun p => (p.1.2, p.2.2)) = true)
    (hfuel : pairs.length ≤ fuel) :
    ItemOk (inner_loads_c H bufferReader (fuel + 1))
      (0xBF :: ((pairs.map fun p => p.1.1 ++ p.2.1).flatten ++ [CBOR_BREAK]))
      (.dict (dict_of H [] (pairs.map fun p => (p.1.2, p.2.2)))) := by
  refine ⟨0xBF, _, rfl, by decide, fun pre rest => ?_⟩
  have hT : 0xBF &&& CBOR_TYPE_MASK = CBOR_MAP := by decide
  have hI : 0xBF &&& CBOR_INFO_BITS = CBOR_VAR_FOLLOWS := by decide
  rw [inner_loads_c_map H _ fuel _ _ hT, hI, handle_info_bits_above _ _ _ (by decide),
    bind_ok, if_pos rfl]
  obtain ⟨s0, stail, hs, hrec⟩ := loads_var_map_ok H (inner_loads_c H bufferReader fuel)
    pairs hpairs (fuel + 1) (by omega) [] hacc (pre ++ [0xBF]) rest
  have e : ((pairs.map fun p => p.1.1 ++ p.2.1).flatten ++ [CBOR_BREAK]) ++ rest
      = s0 :: (stail ++ rest) := by
    rw [hs]
    rfl
  rw [e, bufferReader_read1, read1_over, bind_ok, hrec]
  simp

/-- Claim C9, as amended.  In an indefinite-length byte string, after chunks
the loop accepts, a header byte of another major type (and other than the
break byte) ends the decoding with the ValueError of the loop; in an
indefinite-length text string, after chunks that decode to `str` objects, an
item of another major type makes the decoding fail, whatever follows (by the
item itself, by the end of the input, or when the parts are joined).  A chunk
of the same major type whose header is itself indefinite-length is accepted:
in a byte string it is one of the chunks the loop accepts, without payload,
and in a text string it is one of the items that decode to a `str` object, a
nested indefinite-length text string; both strings decode to the
concatenation of the payloads. -/
theorem indefinite_string_chunks (H : Host) (fuel : Nat)
    (chunks : List (List Nat × List Nat)) (hchunks : ∀ p ∈ chunks, IsChunk p)
    (items : List (List Nat × List Nat))
    (hitems : ∀ p ∈ items, ItemOk (inner_loads_c H bufferReader fuel) p.1 (.unicode p.2))
    (c : Nat) (hc : c ≠ CBOR_BREAK) (pre rest : List Nat)
    (hcf : chunks.length ≤ fuel)
    (hif : (items.map Prod.fst).flatten.length + rest.length + 1 ≤ fuel) :
    (c &&& CBOR_TYPE_MASK ≠ CBOR_BYTES →
      inner_loads H bufferReader (fuel + 1)
          (BufferReader.over pre
            (0x5F :: ((chunks.map fun p => p.1 ++ p.2).flatten ++ c :: rest)))
        = .fail .valueExpectedSubBytes
            (BufferReader.over
              (pre ++ 0x5F :: ((chunks.map fun p => p.1 ++ p.2).flatten ++ [c])) rest)) ∧
    (c &&& CBOR_TYPE_MASK ≠ CBOR_TEXT →
      (inner_loads H bufferReader (fuel + 1)
          (BufferReader.over pre (0x7F :: ((items.map Prod.fst).flatten ++ c :: rest)))).isFail
        = true) ∧
    DecodesTo H (fuel + 1) (0x5F :: ((chunks.map fun p => p.1 ++ p.2).flatten ++ [CBOR_BREAK]))
      (.bytes (chunks.map Prod.snd).flatten) ∧
    DecodesTo H (fuel + 1) (0x7F :: ((items.map Prod.fst).flatten ++ [CBOR_BREAK]))
      (.unicode (items.map Prod.snd).flatten) := by
  have hitems2 : ∀ q ∈ items.map (fun p => (p.1, PyObj.unicode p.2)),
      ItemOk (inner_loads_c H bufferReader fuel) q.1 q.2 := by
    intro q hq
    obtain ⟨p, hp, rfl⟩ := List.mem_map.mp hq
    exact hitems p hp
  have e1 : (items.map fun p => (p.1, PyObj.unicode p.2)).map Prod.fst = items.map Prod.fst := by
    simp [List.map_map, Function.comp_def]
  have hlen : items.length ≤ (items.map Prod.fst).flatten.length := by
    have := length_le_flatten_length (items.map Prod.fst) (by
      intro x hx
      obtain ⟨p, hp, rfl⟩ := List.mem_map.mp hx
      exact (hitems p hp).length_pos)
    simpa using this
  refine ⟨fun hT => bytes_chunk_mismatch H fuel chunks hchunks hcf c hc hT pre rest,
    fun hT => ?_,
    decodesTo_of_itemOk H _ _ _ (decode_bytes_indef H fuel chunks hchunks hcf),
    decodesTo_of_itemOk H _ _ _ (decode_text_indef H fuel items hitems (by omega))⟩
  have hno := text_chunk_mismatch H fuel _ hitems2 (by simp; omega) c hc hT pre rest
  rw [e1] at hno
  exact isFail_of_progress (progress_inner_loads H (fuel + 1) pre _ (by
    simp only [List.length_cons, List.length_append]
    omega)) hno

theorem indefinite_string_chunks_witness :
    (∀ p ∈ [([0x41], [0x61]), ([0x5F], []), ([0x41], [0x62])], IsChunk p) ∧
    (∀ p ∈ [([0x61, 0x61], [0x61]), ([0x7F, 0x61, 0x62, 0xFF], [0x62])],
      ItemOk (inner_loads_c refHost bufferReader 19) p.1 (.unicode p.2)) ∧
    (0x01 &&& CBOR_TYPE_MASK ≠ CBOR_BYTES →
      inner_loads refHost bufferReader (19 + 1)
          (BufferReader.over [] [0x5F, 0x41, 0x61, 0x5F, 0x41, 0x62, 0x01, 0xFF])
        = .fail .valueExpectedSubBytes
            (BufferReader.over [0x5F, 0x41, 0x61, 0x5F, 0x41, 0x62, 0x01] [0xFF])) ∧
    (0x01 &&& CBOR_TYPE_MASK ≠ CBOR_TEXT →
      (inner_loads refHost bufferReader (19 + 1)
          (BufferReader.over []
            [0x7F, 0x61, 0x61, 0x7F, 0x61, 0x62, 0xFF, 0x01, 0xFF])).isFail = true) ∧
    DecodesTo refHost (19 + 1) [0x5F, 0x41, 0x61, 0x5F, 0x41, 0x62, 0xFF] (.bytes [0x61, 0x62]) ∧
    DecodesTo refHost (19 + 1) [0x7F, 0x61, 0x61, 0x7F, 0x61, 0x62, 0xFF, 0xFF]
      (.unicode [0x61, 0x62]) :=
  have hchunks : ∀ p ∈ [([0x41], [0x61]), ([0x5F], []), ([0x41], [0x62])], IsChunk p := by
    intro p hp
    simp only [List.mem_cons, List.mem_singleton, List.not_mem_nil, or_false] at hp
    rcases hp with rfl | rfl | rfl
    · exact Or.inl ⟨isHeader_header CBOR_BYTES 1 ⟨by decide, by decide⟩ (by decide), by decide⟩
    · exact Or.inr ⟨0x5F, rfl, by decide, by decide, rfl⟩
    · exact Or.inl ⟨isHeader_header CBOR_BYTES 1 ⟨by decide, by decide⟩ (by decide), by decide⟩
  have hitems : ∀ p ∈ [([0x61, 0x61], [0x61]), ([0x7F, 0x61, 0x62, 0xFF], [0x62])],
      ItemOk (inner_loads_c refHost bufferReader 19) p.1 (.unicode p.2) := by
    intro p hp
    simp only [List.mem_cons, List.mem_singleton, List.not_mem_nil, or_false] at hp
    rcases hp with rfl | rfl
    · exact decode_text refHost 18 [0x61] [0x61]
        (isHeader_header CBOR_TEXT 1 ⟨by decide, by decide⟩ (by decide)) (by decide) (Or.inr rfl)
    · exact decode_text_indef refHost 18 [([0x61, 0x62], [0x62])]
        (by
          intro q hq
          simp only [List.mem_singleton] at hq
          subst hq
          exact decode_text refHost 17 [0x61] [0x62]
            (isHeader_header CBOR_TEXT 1 ⟨by decide, by decide⟩ (by decide)) (by decide) (Or.inr rfl))
        (by decide)
  ⟨hchunks, hitems,
    indefinite_string_chunks refHost 19 _ hchunks _ hitems 0x01 (by decide) [] [0xFF]
      (by decide) (by decide)⟩

/-- Claim C9, counterexample: inside the indefinite-length byte string
`5F 41 61 5F 41 62 FF` the second chunk header `5F` is itself
indefinite-length, and the decoding returns `b"ab"`; inside the
indefinite-length text string `7F 61 61 7F 61 62 FF FF` the second chunk
`7F 61 62 FF` is itself indefinite-length, and the decoding returns `"ab"`.
Neither decoding fails. -/
theorem indefinite_chunk_accepted :
    cbor_loads refHost 5 (.bytes [0x5F, 0x41, 0x61, 0x5F, 0x41, 0x62, 0xFF])
      = some (.ok (.bytes [0x61, 0x62])) ∧
    cbor_loads refHost 5 (.bytes [0x7F, 0x61, 0x61, 0x7F, 0x61, 0x62, 0xFF, 0xFF])
      = some (.ok (.unicode [0x61, 0x62])) :=
  ⟨rfl, rfl⟩

theorem cbor_loads_fail (H : Host) (fuel : Nat) (b : List Nat) (hb : 1 ≤ b.length) (e : PyErr)
    (s : BufferReader) (h : inner_loads H bufferReader fuel (BufferReader.over [] b) = .fail e s) :
    cbor_loads H fuel (.bytes b) = some (.error e) := by
  have hne : ¬ (b.length = 0) := by omega
  have hr : ({ raw := b, len := (b.length : Int), pos := 0 } : BufferReader)
      = BufferReader.over [] b := by
    simp [BufferReader.over]
  simp only [cbor_loads, NewBufferReader, hne, if_false, hr, h]

/-- With a count of `2 ^ 32` or more the loop of a definite-length array never
ends by itself: the counter `i` stays below `2 ^ 32`. -/
theorem loads_array_items_never_ok {σ : Type} (R : Reader σ) (item : σ → Nat → Res σ PyObj)
    (aux : Nat) (haux : 2 ^ 32 ≤ aux) (n : Nat) :
    ∀ rin i out, i < 2 ^ 32 → (loads_array_items R item aux n rin i out).returns = false := by
  induction n with
  | zero =>
    intro rin i out hi
    rfl
  | succ n ih =>
    intro rin i out hi
    have hlt : i < aux := by omega
    simp only [loads_array_items, if_pos hlt]
    refine bind_returns_false _ _ (fun v s _ => ?_)
    cases out with
    | none => rfl
    | some l => exact ih _ _ _ (Nat.mod_lt _ (by decide))

/-- With a count of `2 ^ 32` or more the loop of a definite-length map never
ends by itself. -/
theorem loads_map_items_never_ok {σ : Type} (H : Host) (R : Reader σ)
    (item : σ → Nat → Res σ PyObj) (aux : Nat) (haux : 2 ^ 32 ≤ aux) (n : Nat) :
    ∀ rin i out, i < 2 ^ 32 → (loads_map_items H R item aux n rin i out).returns = false := by
  induction n with
  | zero =>
    intro rin i out hi
    rfl
  | succ n ih =>
    intro rin i out hi
    have hlt : i < aux := by omega
    simp only [loads_map_items, if_pos hlt]
    exact bind_returns_false _ _ (fun v s _ => ih _ _ _ (Nat.mod_lt _ (by decide)))

/-- With a count of `2 ^ 32` or more the loop of a definite-length array walks
over well-formed items, one iteration each, with a counter that wraps at
`2 ^ 32`. -/
theorem loads_array_items_wraps (item : BufferReader → Nat → Res BufferReader PyObj)
    (items : List (List Nat × PyObj)) (hitems : ∀ p ∈ items, ItemOk item p.1 p.2)
    (aux : Nat) (haux : 2 ^ 32 ≤ aux) (n : Nat) (rest : List Nat) :
    ∀ (i : Nat), i < 2 ^ 32 → ∀ (acc : List PyObj) (pre : List Nat),
      ∃ acc2, loads_array_items bufferReader item aux (items.length + n)
          (BufferReader.over pre ((items.map Prod.fst).flatten ++ rest)) i (some acc)
        = loads_array_items bufferReader item aux n
            (BufferReader.over (pre ++ (items.map Prod.fst).flatten) rest)
            ((i + items.length) % 2 ^ 32) (some acc2) := by
  induction items with
  | nil =>
    intro i hi acc pre
    refine ⟨acc, ?_⟩
    have e : (i + ([] : List (List Nat × PyObj)).length) % 2 ^ 32 = i := by
      simpa using Nat.mod_eq_of_lt hi
    rw [e]
    simp
  | cons p items ih =>
    intro i hi acc pre
    have hlt : i < aux := by omega
    obtain ⟨acc2, hrec⟩ := ih (fun q hq => hitems q (by simp [hq])) ((i + 1) % 2 ^ 32)
      (Nat.mod_lt _ (by decide)) (list_set_item acc i p.2) (pre ++ p.1)
    have efuel : (p :: items).length + n = (items.length + n) + 1 := by
      simp only [List.length_cons]
      omega
    have eidx : ((i + 1) % 2 ^ 32 + items.length) % 2 ^ 32
        = (i + (p :: items).length) % 2 ^ 32 := by
      simp only [List.length_cons]
      omega
    refine ⟨acc2, ?_⟩
    rw [efuel, loads_array_items]
    simp only [hlt, if_true, List.map_cons, List.flatten_cons, List.append_assoc]
    rw [inner_loads_of_item item p.1 p.2 (hitems p (by simp)), bind_ok]
    rw [hrec, eidx, List.append_assoc]

/-- A definite-length array header that carries a count of `2 ^ 32` or more,
followed by exactly that many well-formed items: the decoding fails at the
end of the input, with the error of the reader. -/
theorem definite_array_wraps (H : Host) (fuel : Nat) (h : List Nat)
    (items : List (List Nat × PyObj))
    (hh : IsHeader CBOR_ARRAY items.length h) (h32 : 2 ^ 32 ≤ items.length)
    (h60 : items.length < 2 ^ 60) (hfuel : items.length ≤ fuel)
    (hitems : ∀ p ∈ items, ItemOk (inner_loads_c H bufferReader fuel) p.1 p.2)
    (pre : List Nat) :
    inner_loads H bufferReader (fuel + 1)
        (BufferReader.over pre (h ++ (items.map Prod.fst).flatten))
      = .fail .lookupBufferExhausted
          (BufferReader.over (pre ++ (h ++ (items.map Prod.fst).flatten)) []) := by
  obtain ⟨c, tail, rfl, hT, hI, hd⟩ := hh
  have hne : ¬ (c &&& CBOR_INFO_BITS = CBOR_VAR_FOLLOWS) := by
    simp only [CBOR_VAR_FOLLOWS]; omega
  have halloc : (0 ≤ toSsize items.length ∧ toSsize items.length ≤ (2 ^ 63 - 1) / 8) := by
    rw [toSsize_of_lt _ (by omega)]
    omega
  have hd2 := hd pre ((items.map Prod.fst).flatten ++ [])
  rw [inner_loads, List.cons_append, inner_loads_of_over,
    inner_loads_c_array H _ fuel _ _ hT]
  rw [← List.append_nil (tail ++ (items.map Prod.fst).flatten), List.append_assoc, hd2, bind_ok,
    if_neg hne, if_pos halloc]
  obtain ⟨n, hn⟩ : ∃ n, fuel + 1 = items.length + (n + 1) := ⟨fuel - items.length, by omega⟩
  obtain ⟨acc2, hw⟩ := loads_array_items_wraps (inner_loads_c H bufferReader fuel) items hitems
    items.length h32 (n + 1) [] 0 (by decide) [] (pre ++ c :: tail)
  have hlt : (0 + items.length) % 2 ^ 32 < items.length :=
    Nat.lt_of_lt_of_le (Nat.mod_lt _ (by decide)) h32
  rw [hn, hw, loads_array_items, if_pos hlt, inner_loads_of, bufferReader_read1, read1_over_nil]
  simp [Res.bind]

theorem flatten_replicate_singleton (k : Nat) (b : Nat) (v : PyObj) :
    ((List.replicate k ([b], v)).map Prod.fst).flatten = List.replicate k b := by
  induction k with
  | zero => rfl
  | succ k ih => simp [List.replicate_succ, ih]

/-- For every count `k` from `2 ^ 32` on, `k` items `00` decode to a list of
`k` zeros in the indefinite-length form, and the definite-length array with
the same items fails. -/
theorem array_of_zeros (H : Host) (k : Nat) (h32 : 2 ^ 32 ≤ k) (h60 : k < 2 ^ 60) (fuel : Nat)
    (hfuel : k ≤ fuel) :
    cbor_loads H (fuel + 2) (.bytes (0x9F :: (List.replicate k 0x00 ++ [CBOR_BREAK])))
      = some (.ok (.list (List.replicate k (.long 0)))) ∧
    cbor_loads H (fuel + 2) (.bytes (header CBOR_ARRAY k ++ List.replicate k 0x00))
      = some (.error .lookupBufferExhausted) := by
  have hitem : ∀ p ∈ List.replicate k ([0x00], PyObj.long 0),
      ItemOk (inner_loads_c H bufferReader (fuel + 1)) p.1 p.2 := by
    intro p hp
    obtain ⟨_, rfl⟩ := List.mem_replicate.mp hp
    exact decode_uint H fuel 0 [0x00] (isHeader_header CBOR_UINT 0 ⟨by decide, by decide⟩
      (by decide))
  have hlen : (List.replicate k ([0x00], PyObj.long 0)).length = k := List.length_replicate _ _
  constructor
  · have h1 := decode_array_indef H (fuel + 1) (List.replicate k ([0x00], PyObj.long 0)) hitem
      (by rw [hlen]; omega)
    rw [flatten_replicate_singleton, List.map_replicate] at h1
    exact cbor_loads_of_itemOk H (fuel + 2) _ _ h1
  · have hh : IsHeader CBOR_ARRAY (List.replicate k ([0x00], PyObj.long 0)).length
        (header CBOR_ARRAY k) := by
      rw [hlen]
      exact isHeader_header CBOR_ARRAY k ⟨by decide, by decide⟩ (by omega)
    have h2 := definite_array_wraps H (fuel + 1) (header CBOR_ARRAY k)
      (List.replicate k ([0x00], PyObj.long 0)) hh (by rw [hlen]; exact h32)
      (by rw [hlen]; exact h60) (by rw [hlen]; omega) hitem []
    rw [flatten_replicate_singleton] at h2
    exact cbor_loads_fail H (fuel + 2) _ (by
      have := header_ne_nil CBOR_ARRAY k
      simp only [List.length_append]
      omega) _ _ h2

/-- Claim C10, at the failing input: the byte `9F`, `2 ^ 32` bytes `00` and the
break byte `FF` decode to the list of `2 ^ 32` zeros, while the definite-length
array with the same items, the header `9B 00 00 00 01 00 00 00 00` followed by
the same `2 ^ 32` bytes `00`, does not decode to that list: the loop counter,
an `unsigned int`, wraps to `0` and stays below the count, the loop asks for
an item more, and the decoding fails with the error of the exhausted
buffer. -/
theorem definite_array_count_wraps :
    header CBOR_ARRAY (2 ^ 32) = [0x9B, 0x00, 0x00, 0x00, 0x01, 0x00, 0x00, 0x00, 0x00] ∧
    cbor_loads refHost (2 ^ 32 + 2) (.bytes (0x9F :: (List.replicate (2 ^ 32) 0x00 ++ [CBOR_BREAK])))
      = some (.ok (.list (List.replicate (2 ^ 32) (.long 0)))) ∧
    cbor_loads refHost (2 ^ 32 + 2)
        (.bytes (header CBOR_ARRAY (2 ^ 32) ++ List.replicate (2 ^ 32) 0x00))
      = some (.error .lookupBufferExhausted) :=
  ⟨by rw [header_eq]; decide, array_of_zeros refHost (2 ^ 32) (Nat.le_refl _) (by decide) (2 ^ 32) (Nat.le_refl _)⟩

/-- Below `2 ^ 32` entries the indefinite-length and the definite-length form
of an array, and of a map with keys the dictionary accepts, decode to the same
value. -/
theorem indefinite_collections_agree (H : Host) (fuel : Nat)
    (items : List (List Nat × PyObj))
    (hitems : ∀ p ∈ items, ItemOk (inner_loads_c H bufferReader fuel) p.1 p.2)
    (pairs : List ((List Nat × PyObj) × (List Nat × PyObj)))
    (hpairs : ∀ p ∈ pairs, ItemOk (inner_loads_c H bufferReader fuel) p.1.1 p.1.2 ∧
      ItemOk (inner_loads_c H bufferReader fuel) p.2.1 p.2.2)
    (ha hm : List Nat) (hha : IsHeader CBOR_ARRAY items.length ha)
    (hhm : IsHeader CBOR_MAP pairs.length hm)
    (ha32 : items.length < 2 ^ 32) (hm32 : pairs.length < 2 ^ 32)
    (hacc : dict_accepts H [] (pairs.map fun p => (p.1.2, p.2.2)) = true)
    (hfa : items.length ≤ fuel) (hfm : pairs.length ≤ fuel) :
    (DecodesTo H (fuel + 1) (0x9F :: ((items.map Prod.fst).flatten ++ [CBOR_BREAK]))
        (.list (items.map Prod.snd)) ∧
      DecodesTo H (fuel + 1) (ha ++ (items.map Prod.fst).flatten) (.list (items.map Prod.snd))) ∧
    (DecodesTo H (fuel + 1) (0xBF :: ((pairs.map fun p => p.1.1 ++ p.2.1).flatten ++ [CBOR_BREAK]))
        (.dict (dict_of H [] (pairs.map fun p => (p.1.2, p.2.2)))) ∧
      DecodesTo H (fuel + 1) (hm ++ (pairs.map fun p => p.1.1 ++ p.2.1).flatten)
        (.dict (dict_of H [] (pairs.map fun p => (p.1.2, p.2.2))))) :=
  ⟨⟨decodesTo_of_itemOk H _ _ _ (decode_array_indef H fuel items hitems hfa),
      decodesTo_of_itemOk H _ _ _ (decode_array H fuel ha items hha ha32 hfa hitems)⟩,
    ⟨decodesTo_of_itemOk H _ _ _ (decode_map_indef H fuel pairs hpairs hacc hfm),
      decodesTo_of_itemOk H _ _ _ (decode_map H fuel hm pairs hhm hm32 hfm hpairs hacc)⟩⟩

/-- The indefinite-length byte or text string of definite-length chunks decodes
to the same value as the definite-length string whose payload is the
concatenation of the payloads of the chunks, in their order (for a text
string, the host accepting each chunk and the concatenation as UTF-8). -/
theorem indefinite_strings_agree (H : Host) (fuel : Nat)
    (chunks : List (List Nat × List Nat))
    (hchunks : ∀ p ∈ chunks, IsHeader CBOR_BYTES p.2.length p.1 ∧ p.2.length < 2 ^ 63)
    (texts : List (List Nat × List Nat))
    (htexts : ∀ p ∈ texts, IsHeader CBOR_TEXT p.2.length p.1 ∧ p.2.length < 2 ^ 63 ∧
      (p.2 = [] ∨ H.utf8_valid p.2 = true))
    (hb ht : List Nat)
    (hhb : IsHeader CBOR_BYTES (chunks.map Prod.snd).flatten.length hb)
    (hht : IsHeader CBOR_TEXT (texts.map Prod.snd).flatten.length ht)
    (hlb : (chunks.map Prod.snd).flatten.length < 2 ^ 63)
    (hlt : (texts.map Prod.snd).flatten.length < 2 ^ 63)
    (hcat : (texts.map Prod.snd).flatten = [] ∨ H.utf8_valid (texts.map Prod.snd).flatten = true)
    (hfb : chunks.length ≤ fuel) (hft : texts.length ≤ fuel) :
    (DecodesTo H (fuel + 1) (0x5F :: ((chunks.map fun p => p.1 ++ p.2).flatten ++ [CBOR_BREAK]))
        (.bytes (chunks.map Prod.snd).flatten) ∧
      DecodesTo H (fuel + 1) (hb ++ (chunks.map Prod.snd).flatten)
        (.bytes (chunks.map Prod.snd).flatten)) ∧
    (DecodesTo H (fuel + 2) (0x7F :: ((texts.map fun p => p.1 ++ p.2).flatten ++ [CBOR_BREAK]))
        (.unicode (texts.map Prod.snd).flatten) ∧
      DecodesTo H (fuel + 2) (ht ++ (texts.map Prod.snd).flatten)
        (.unicode (texts.map Prod.snd).flatten)) := by
  have h1 := decode_bytes_indef H fuel chunks (fun p hp => Or.inl (hchunks p hp)) hfb
  have h2 := decode_bytes H fuel hb _ hhb hlb
  have h3 := decode_text_indef H (fuel + 1) (texts.map fun p => (p.1 ++ p.2, p.2))
    (by
      intro q hq
      obtain ⟨p, hp, rfl⟩ := List.mem_map.mp hq
      obtain ⟨x, y, z⟩ := htexts p hp
      exact decode_text H fuel p.1 p.2 x y z)
    (by simp; omega)
  have e1 : (texts.map fun p => (p.1 ++ p.2, p.2)).map Prod.fst
      = texts.map fun p => p.1 ++ p.2 := by
    simp [List.map_map, Function.comp_def]
  have e2 : (texts.map fun p => (p.1 ++ p.2, p.2)).map Prod.snd = texts.map Prod.snd := by
    simp [List.map_map, Function.comp_def]
  rw [e1, e2] at h3
  have h4 := decode_text H (fuel + 1) ht _ hht hlt hcat
  exact ⟨⟨decodesTo_of_itemOk H _ _ _ h1, decodesTo_of_itemOk H _ _ _ h2⟩,
    ⟨decodesTo_of_itemOk H _ _ _ h3, decodesTo_of_itemOk H _ _ _ h4⟩⟩

/-! ## Definite-length arrays and maps with large counts -/

/-- A definite-length array header that carries a count of `2 ^ 32` or more
never lets the decoding return a value, whatever follows it. -/
theorem definite_array_never_ok (H : Host) (fuel aux : Nat) (h : List Nat)
    (hh : IsHeader CBOR_ARRAY aux h) (h32 : 2 ^ 32 ≤ aux) (pre rest : List Nat) :
    (inner_loads H bufferReader fuel (BufferReader.over pre (h ++ rest))).returns = false := by
  obtain ⟨c, tail, rfl, hT, hI, hd⟩ := hh
  have hne : ¬ (c &&& CBOR_INFO_BITS = CBOR_VAR_FOLLOWS) := by
    simp only [CBOR_VAR_FOLLOWS]; omega
  rw [inner_loads, List.cons_append, inner_loads_of_over]
  cases fuel with
  | zero => rfl
  | succ f =>
    rw [inner_loads_c_array H _ f _ _ hT, hd, bind_ok, if_neg hne]
    exact loads_array_items_never_ok _ _ aux h32 _ _ _ _ (by decide)

/-- A definite-length map header that carries a count of `2 ^ 32` or more
never lets the decoding return a value, whatever follows it. -/
theorem definite_map_never_ok (H : Host) (fuel aux : Nat) (h : List Nat)
    (hh : IsHeader CBOR_MAP aux h) (h32 : 2 ^ 32 ≤ aux) (pre rest : List Nat) :
    (inner_loads H bufferReader fuel (BufferReader.over pre (h ++ rest))).returns = false := by
  obtain ⟨c, tail, rfl, hT, hI, hd⟩ := hh
  have hne : ¬ (c &&& CBOR_INFO_BITS = CBOR_VAR_FOLLOWS) := by
    simp only [CBOR_VAR_FOLLOWS]; omega
  rw [inner_loads, List.cons_append, inner_loads_of_over]
  cases fuel with
  | zero => rfl
  | succ f =>
    rw [inner_loads_c_map H _ f _ _ hT, hd, bind_ok, if_neg hne]
    exact loads_map_items_never_ok H _ _ aux h32 _ _ _ _ (by decide)

theorem header_array_wrap :
    header CBOR_ARRAY (2 ^ 32) = [0x9B, 0x00, 0x00, 0x00, 0x01, 0x00, 0x00, 0x00, 0x00] := by
  rw [header_eq]
  decide

/-- Claim C11, at the failing input: the header `9B 00 00 00 01 00 00 00 00`
of a definite-length array of `2 ^ 32` items, followed by any bytes at all (the
`2 ^ 32` well-formed items among them): the decoding never returns a list, and
with fuel for every byte of the input it fails.  The `unsigned int` counter of
the loop wraps to `0` before it reaches the count. -/
theorem definite_array_large_count :
    header CBOR_ARRAY (2 ^ 32) = [0x9B, 0x00, 0x00, 0x00, 0x01, 0x00, 0x00, 0x00, 0x00] ∧
    (∀ (H : Host) (fuel : Nat) (pre rest : List Nat),
      (inner_loads H bufferReader fuel
        (BufferReader.over pre (header CBOR_ARRAY (2 ^ 32) ++ rest))).isOk = false) ∧
    ∀ (H : Host) (k : Nat) (pre rest : List Nat),
      (inner_loads H bufferReader (rest.length + 9 + k)
        (BufferReader.over pre (header CBOR_ARRAY (2 ^ 32) ++ rest))).isFail = true := by
  have hh : IsHeader CBOR_ARRAY (2 ^ 32) (header CBOR_ARRAY (2 ^ 32)) :=
    isHeader_header CBOR_ARRAY (2 ^ 32) ⟨by decide, by decide⟩ (by decide)
  have hl : (header CBOR_ARRAY (2 ^ 32)).length = 9 := by
    rw [header_array_wrap]
    rfl
  refine ⟨header_array_wrap, fun H fuel pre rest =>
    isOk_of_returns (definite_array_never_ok H fuel _ _ hh (Nat.le_refl _) pre rest),
    fun H k pre rest => ?_⟩
  exact isFail_of_progress
    (progress_inner_loads H _ pre _ (by
      rw [List.length_append, hl]
      omega))
    (definite_array_never_ok H _ _ _ hh (Nat.le_refl _) pre rest)

/-- Claim C12, as amended: a definite-length map header that carries a count
below `2 ^ 32`, followed by that many well-formed key/value pairs whose keys
the dictionary accepts (`PyDict_SetItem` returns `0` for each of them, hypothesis
`hacc`), decodes to the dictionary that results from inserting the pairs in
wire order into an empty dictionary of the host, `dict_of H []` (one
`PyDict_SetItem` per pair).  When the host keeps the keys apart and in
insertion order, this is the list of the pairs in wire order; a pair whose key
the host finds equal to an earlier key is not kept as a pair of its own. -/
theorem definite_map_inserts (H : Host) (fuel : Nat) (h : List Nat)
    (pairs : List ((List Nat × PyObj) × (List Nat × PyObj)))
    (hh : IsHeader CBOR_MAP pairs.length h) (h32 : pairs.length < 2 ^ 32)
    (hfuel : pairs.length ≤ fuel)
    (hpairs : ∀ p ∈ pairs, ItemOk (inner_loads_c H bufferReader fuel) p.1.1 p.1.2 ∧
      ItemOk (inner_loads_c H bufferReader fuel) p.2.1 p.2.2)
    (hacc : dict_accepts H [] (pairs.map fun p => (p.1.2, p.2.2)) = true) :
    DecodesTo H (fuel + 1) (h ++ (pairs.map fun p => p.1.1 ++ p.2.1).flatten)
      (.dict ((pairs.map fun p => (p.1.2, p.2.2)).foldl
        (fun d kv => H.dict_set d kv.1 kv.2) [])) ∧
    (dict_of H [] (pairs.map fun p => (p.1.2, p.2.2)) = (pairs.map fun p => (p.1.2, p.2.2)) →
      DecodesTo H (fuel + 1) (h ++ (pairs.map fun p => p.1.1 ++ p.2.1).flatten)
        (.dict (pairs.map fun p => (p.1.2, p.2.2)))) := by
  have hd := decodesTo_of_itemOk H _ _ _ (decode_map H fuel h pairs hh h32 hfuel hpairs hacc)
  refine ⟨hd, fun he => ?_⟩
  rw [he] at hd
  exact hd

theorem definite_map_inserts_witness :
    IsHeader CBOR_MAP
      [(([0x01], PyObj.long 1), ([0x02], PyObj.long 2)),
        (([0x01], PyObj.long 1), ([0x03], PyObj.long 3))].length [0xA2] ∧
    (∀ p ∈ [(([0x01], PyObj.long 1), ([0x02], PyObj.long 2)),
        (([0x01], PyObj.long 1), ([0x03], PyObj.long 3))],
      ItemOk (inner_loads_c refHost bufferReader 2) p.1.1 p.1.2 ∧
        ItemOk (inner_loads_c refHost bufferReader 2) p.2.1 p.2.2) ∧
    dict_accepts refHost [] [(.long 1, .long 2), (.long 1, .long 3)] = true ∧
    DecodesTo refHost (2 + 1) [0xA2, 0x01, 0x02, 0x01, 0x03] (.dict [(.long 1, .long 3)]) :=
  have hh : IsHeader CBOR_MAP
      [(([0x01], PyObj.long 1), ([0x02], PyObj.long 2)),
        (([0x01], PyObj.long 1), ([0x03], PyObj.long 3))].length [0xA2] :=
    isHeader_header CBOR_MAP 2 ⟨by decide, by decide⟩ (by decide)
  have hu : ∀ n : Nat, n ≤ 23 → ItemOk (inner_loads_c refHost bufferReader 2) [n] (.long n) :=
    fun n hn => decode_uint refHost 1 n [n] (by
      have := isHeader_header CBOR_UINT n ⟨by decide, by decide⟩ (by omega)
      rw [header_eq, if_pos hn] at this
      have e : (CBOR_UINT ||| n) % 256 = n := by
        simp only [CBOR_UINT, Nat.zero_or]
        omega
      rw [e] at this
      exact this)
  have hpairs : ∀ p ∈ [(([0x01], PyObj.long 1), ([0x02], PyObj.long 2)),
        (([0x01], PyObj.long 1), ([0x03], PyObj.long 3))],
      ItemOk (inner_loads_c refHost bufferReader 2) p.1.1 p.1.2 ∧
        ItemOk (inner_loads_c refHost bufferReader 2) p.2.1 p.2.2 := by
    intro p hp
    simp only [List.mem_cons, List.mem_singleton, List.not_mem_nil, or_false] at hp
    rcases hp with rfl | rfl
    · exact ⟨hu 1 (by decide), hu 2 (by decide)⟩
    · exact ⟨hu 1 (by decide), hu 3 (by decide)⟩
  ⟨hh, hpairs, rfl,
    (definite_map_inserts refHost 2 [0xA2] _ hh (by decide) (by decide) hpairs rfl).1⟩

/-- Claim C12, counterexample: the map `A2 01 02 01 03` carries the pairs
`(1, 2)` and `(1, 3)`; it decodes to a dictionary with the one entry
`1: 3`. -/
theorem duplicate_key_replaced :
    cbor_loads refHost 3 (.bytes [0xA2, 0x01, 0x02, 0x01, 0x03])
      = some (.ok (.dict [(.long 1, .long 3)])) := rfl

/-! ## Tags -/

/-- After a header of tag 2 or 3 the decoder reads one byte `sc` and, when
`sc` is a byte string header, hands it to `loads_bignum`. -/
theorem loads_after_bignum_tag (H : Host) (fuel tag : Nat) (h : List Nat)
    (hh : IsHeader CBOR_TAG tag h) (htag : tag = 2 ∨ tag = 3) (sc : Nat)
    (pre rest : List Nat) :
    inner_loads H bufferReader (fuel + 1) (BufferReader.over pre (h ++ sc :: rest))
      = if sc &&& CBOR_TYPE_MASK = CBOR_BYTES then
          if tag = 2 then loads_bignum bufferReader (BufferReader.over (pre ++ (h ++ [sc])) rest) sc
          else
            (loads_bignum bufferReader (BufferReader.over (pre ++ (h ++ [sc])) rest) sc).bind
              fun out rin =>
                match out with
                | .long n => .ok (.long (-1 - n)) rin
                | _ => .fail .undefinedBehaviour rin
        else
          .fail (if tag = 2 then .valueBignumNotBytes else .valueNegbignumNotBytes)
            (BufferReader.over (pre ++ (h ++ [sc])) rest) := by
  obtain ⟨c, tail, rfl, hT, hI, hd⟩ := hh
  have hd2 := hd pre (sc :: rest)
  have e : pre ++ c :: tail ++ [sc] = pre ++ (c :: tail ++ [sc]) := by simp
  rw [inner_loads, List.cons_append, inner_loads_of_over, inner_loads_c_tag H _ fuel _ _ hT,
    hd2, bind_ok]
  rcases htag with rfl | rfl
  · simp only [loads_tag, CBOR_TAG_BIGNUM, if_true, bufferReader_read1, read1_over, bind_ok, e]
  · simp only [loads_tag, CBOR_TAG_BIGNUM, CBOR_TAG_NEGBIGNUM, Nat.reduceEqDiff, if_false,
      if_true, bufferReader_read1, read1_over, bind_ok, e]

/-- Claim C13, as amended: a header of tag 2, in any of its forms, followed by
a byte string whose header is the single byte `0x40 + len(b)` (additional
information `len(b)`, at most 23) and by the payload `b`, decodes to the
integer whose big-endian base-256 digits are the bytes of `b` (`0` for the
empty `b`); a header of tag 3 gives `-1` minus that integer.  A byte string
header in one of the longer forms (additional information 24 and more) is not
read: the decoding fails with the NotImplementedError of `loads_bignum`. -/
theorem bignum_decodes (H : Host) (fuel tag : Nat) (h : List Nat)
    (hh : IsHeader CBOR_TAG tag h) (htag : tag = 2 ∨ tag = 3)
    (b : List Nat) (hlen : b.length ≤ 23) (hb : ∀ x ∈ b, x < 256) :
    DecodesTo H (fuel + 1) (h ++ (CBOR_BYTES ||| b.length) % 256 :: b)
      (.long (if tag = 2 then (bigEndian b : Int) else -1 - (bigEndian b : Int))) ∧
    ∀ (sc : Nat) (pre rest : List Nat),
      sc &&& CBOR_TYPE_MASK = CBOR_BYTES → 24 ≤ sc &&& CBOR_INFO_BITS →
      inner_loads H bufferReader (fuel + 1) (BufferReader.over pre (h ++ sc :: rest))
        = .fail .notImplementedBiggerBignum (BufferReader.over (pre ++ (h ++ [sc])) rest) := by
  constructor
  · intro pre rest
    obtain ⟨_, hT2, hI2⟩ := first_byte CBOR_BYTES b.length ⟨by decide, by decide⟩ (by omega)
    have hlt : b.length < 24 := by omega
    have hloop := loads_bignum_loop_ok b hb 0
      (pre ++ (h ++ [(CBOR_BYTES ||| b.length) % 256])) rest
    have e : (h ++ (CBOR_BYTES ||| b.length) % 256 :: b) ++ rest
        = h ++ (CBOR_BYTES ||| b.length) % 256 :: (b ++ rest) := by simp
    rw [e, loads_after_bignum_tag H fuel tag h hh htag, if_pos hT2]
    simp only [loads_bignum, hI2, hlt, if_true, hloop, bind_ok]
    rcases htag with rfl | rfl
    · simp [bigEndian]
    · simp [bigEndian]
  · intro sc pre rest hT hI
    have hge : ¬ (sc &&& CBOR_INFO_BITS < 24) := by omega
    rw [loads_after_bignum_tag H fuel tag h hh htag, if_pos hT]
    simp only [loads_bignum, hge, if_false]
    rcases htag with rfl | rfl
    · rfl
    · rfl

theorem bignum_decodes_witness :
    IsHeader CBOR_TAG 3 [0xD8, 0x03] ∧ (∀ x ∈ [0x01, 0x00], x < 256) ∧
    DecodesTo refHost (1 + 1) [0xD8, 0x03, 0x42, 0x01, 0x00] (.long (-257)) ∧
    inner_loads refHost bufferReader (1 + 1)
        (BufferReader.over [] [0xD8, 0x03, 0x58, 0x01, 0x07])
      = .fail .notImplementedBiggerBignum (BufferReader.over [0xD8, 0x03, 0x58] [0x01, 0x07]) :=
  have hh : IsHeader CBOR_TAG 3 [0xD8, 0x03] := by
    refine ⟨0xD8, [0x03], rfl, by decide, by decide, fun pre rest => ?_⟩
    have := (handle_info_bits_over (pre ++ [0xD8]) [0x03] rest 24 (by decide)).2.1 rfl rfl
    simpa [bigEndian] using this
  have hb : ∀ x ∈ [0x01, 0x00], x < 256 := by decide
  ⟨hh, hb,
    (bignum_decodes refHost 1 3 [0xD8, 0x03] hh (Or.inr rfl) [0x01, 0x00] (by decide) hb).1,
    (bignum_decodes refHost 1 3 [0xD8, 0x03] hh (Or.inr rfl) [0x01, 0x00] (by decide) hb).2
      0x58 [] [0x01, 0x07] (by decide) (by decide)⟩

/-- Claim C13, counterexample: tag 2 followed by the byte string `58 01 07`,
the one byte `07` with its length in the one-byte form of the header, does not
decode to the integer 7; the decoding fails with NotImplementedError. -/
theorem bignum_long_header_refused :
    cbor_loads refHost 3 (.bytes [0xC2, 0x58, 0x01, 0x07])
      = some (.error .notImplementedBiggerBignum) := rfl

/-- Claim C14: a header of tag 2 or tag 3, in any of its forms, followed by an
item whose first byte has another major type than byte string fails with the
ValueError of `loads_tag`, and followed by the first byte `5F` of an
indefinite-length byte string fails with the NotImplementedError of
`loads_bignum`; in both cases the decoding ends right behind that byte and no
value is returned. -/
theorem bignum_shape_errors (H : Host) (fuel tag : Nat) (h : List Nat)
    (hh : IsHeader CBOR_TAG tag h) (htag : tag = 2 ∨ tag = 3)
    (sc : Nat) (pre rest : List Nat) :
    (sc &&& CBOR_TYPE_MASK ≠ CBOR_BYTES →
      inner_loads H bufferReader (fuel + 1) (BufferReader.over pre (h ++ sc :: rest))
        = .fail (if tag = 2 then .valueBignumNotBytes else .valueNegbignumNotBytes)
            (BufferReader.over (pre ++ (h ++ [sc])) rest)) ∧
    (sc = CBOR_BYTES ||| CBOR_VAR_FOLLOWS →
      inner_loads H bufferReader (fuel + 1) (BufferReader.over pre (h ++ sc :: rest))
        = .fail .notImplementedBiggerBignum (BufferReader.over (pre ++ (h ++ [sc])) rest)) := by
  constructor
  · intro hT
    rw [loads_after_bignum_tag H fuel tag h hh htag, if_neg hT]
  · intro hsc
    subst hsc
    have hT : (CBOR_BYTES ||| CBOR_VAR_FOLLOWS) &&& CBOR_TYPE_MASK = CBOR_BYTES := by decide
    have hge : ¬ ((CBOR_BYTES ||| CBOR_VAR_FOLLOWS) &&& CBOR_INFO_BITS < 24) := by decide
    rw [loads_after_bignum_tag H fuel tag h hh htag, if_pos hT]
    simp only [loads_bignum, hge, if_false]
    rcases htag with rfl | rfl
    · rfl
    · rfl

theorem bignum_shape_errors_witness :
    IsHeader CBOR_TAG 2 [0xC2] ∧ 0x61 &&& CBOR_TYPE_MASK ≠ CBOR_BYTES ∧
    0x5F = CBOR_BYTES ||| CBOR_VAR_FOLLOWS ∧
    inner_loads refHost bufferReader (1 + 1) (BufferReader.over [] [0xC2, 0x61, 0x41])
      = .fail .valueBignumNotBytes (BufferReader.over [0xC2, 0x61] [0x41]) ∧
    inner_loads refHost bufferReader (1 + 1) (BufferReader.over [] [0xC2, 0x5F, 0x41, 0x07, 0xFF])
      = .fail .notImplementedBiggerBignum (BufferReader.over [0xC2, 0x5F] [0x41, 0x07, 0xFF]) :=
  have hh : IsHeader CBOR_TAG 2 [0xC2] :=
    isHeader_header CBOR_TAG 2 ⟨by decide, by decide⟩ (by decide)
  ⟨hh, by decide, by decide,
    (bignum_shape_errors refHost 1 2 [0xC2] hh (Or.inl rfl) 0x61 [] [0x41]).1 (by decide),
    (bignum_shape_errors refHost 1 2 [0xC2] hh (Or.inl rfl) 0x5F [] [0x41, 0x07, 0xFF]).2
      (by decide)⟩

/-- Claim C15: a tag header that carries a tag number `n` other than 2 and 3,
in any of its forms (so for every 64-bit `n`), followed by a well-formed item
that decodes to `v`, decodes to the object `Tag(n, v)`; a tag header at the
end of the input fails with the error of the exhausted reader. -/
theorem tag_wraps_item (H : Host) (fuel n : Nat) (h b : List Nat) (v : PyObj)
    (hh : IsHeader CBOR_TAG n h) (h2 : n ≠ 2) (h3 : n ≠ 3)
    (hitem : ItemOk (inner_loads_c H bufferReader fuel) b v) :
    DecodesTo H (fuel + 1) (h ++ b) (.tag (.long n) v) ∧
    ∀ pre : List Nat,
      inner_loads H bufferReader (fuel + 1) (BufferReader.over pre h)
        = .fail .lookupBufferExhausted (BufferReader.over (pre ++ h) []) := by
  refine ⟨decodesTo_of_itemOk H _ _ _ (decode_tag H fuel n h b v hh h2 h3 hitem), fun pre => ?_⟩
  obtain ⟨c, tail, rfl, hT, hI, hd⟩ := hh
  have hd2 := hd pre []
  rw [List.append_nil] at hd2
  rw [inner_loads, inner_loads_of_over, inner_loads_c_tag H _ fuel _ _ hT, hd2, bind_ok]
  simp only [loads_tag, CBOR_TAG_BIGNUM, CBOR_TAG_NEGBIGNUM, h2, h3, if_false, inner_loads_of,
    bufferReader_read1, read1_over_nil, bind_fail]

theorem tag_wraps_item_witness :
    IsHeader CBOR_TAG (2 ^ 64 - 1) (header CBOR_TAG (2 ^ 64 - 1)) ∧
    2 ^ 64 - 1 ≠ 2 ∧ 2 ^ 64 - 1 ≠ 3 ∧
    ItemOk (inner_loads_c refHost bufferReader 1) [0x05] (.long 5) ∧
    DecodesTo refHost (1 + 1) (header CBOR_TAG (2 ^ 64 - 1) ++ [0x05])
      (.tag (.long ((2 ^ 64 - 1 : Nat) : Int)) (.long 5)) ∧
    ∀ pre : List Nat,
      inner_loads refHost bufferReader (1 + 1)
          (BufferReader.over pre (header CBOR_TAG (2 ^ 64 - 1)))
        = .fail .lookupBufferExhausted
            (BufferReader.over (pre ++ header CBOR_TAG (2 ^ 64 - 1)) []) :=
  have hh : IsHeader CBOR_TAG (2 ^ 64 - 1) (header CBOR_TAG (2 ^ 64 - 1)) :=
    isHeader_header CBOR_TAG (2 ^ 64 - 1) ⟨by decide, by decide⟩ (by decide)
  have h2 : 2 ^ 64 - 1 ≠ 2 := by decide
  have h3 : 2 ^ 64 - 1 ≠ 3 := by decide
  have hitem : ItemOk (inner_loads_c refHost bufferReader 1) [0x05] (.long 5) :=
    decode_uint refHost 0 5 [0x05] (isHeader_header CBOR_UINT 5 ⟨by decide, by decide⟩ (by decide))
  ⟨hh, h2, h3, hitem, tag_wraps_item refHost 1 (2 ^ 64 - 1) _ [0x05] (.long 5) hh h2 h3 hitem⟩

/-! ## Simple values -/

/-- Claim C16, as amended: under major type 7 and an additional information
other than the float widths 25, 26 and 27, the auxiliary value that
`handle_info_bits` yields decides: 20 gives `False`, 21 gives `True`, 22 and
23 both give `None` (there is no value for `undefined` apart from the one for
`null`), and every other auxiliary value fails with the ValueError of the
unknown section 7 marker. -/
theorem simple_values (H : Host) {σ : Type} (R : Reader σ) (fuel : Nat) (rin rin2 : σ)
    (c aux : Nat) (hT : c &&& CBOR_TYPE_MASK = CBOR_7)
    (h25 : c &&& CBOR_INFO_BITS ≠ 25) (h26 : c &&& CBOR_INFO_BITS ≠ 26)
    (h27 : c &&& CBOR_INFO_BITS ≠ 27)
    (haux : handle_info_bits R rin (c &&& CBOR_INFO_BITS) = .ok aux rin2) :
    inner_loads_c H R (fuel + 1) rin c =
      if aux = 20 then .ok (.bool false) rin2
      else if aux = 21 then .ok (.bool true) rin2
      else if aux = 22 ∨ aux = 23 then .ok .none rin2
      else .fail .valueUnknownSection7 rin2 := by
  rw [inner_loads_c_seven H R fuel rin c hT, haux, bind_ok]
  simp only [CBOR_UINT16_FOLLOWS, CBOR_UINT32_FOLLOWS, CBOR_UINT64_FOLLOWS, h25, h26, h27,
    if_false]
  by_cases a20 : aux = 20
  · simp [a20]
  · by_cases a21 : aux = 21
    · simp [a21]
    · by_cases a22 : aux = 22
      · simp [a22]
      · by_cases a23 : aux = 23
        · simp [a23]
        · simp [a20, a21, a22, a23]

theorem simple_values_witness :
    0xF7 &&& CBOR_TYPE_MASK = CBOR_7 ∧ 0xF7 &&& CBOR_INFO_BITS ≠ 25 ∧
    0xF7 &&& CBOR_INFO_BITS ≠ 26 ∧ 0xF7 &&& CBOR_INFO_BITS ≠ 27 ∧
    handle_info_bits bufferReader (BufferReader.over [0xF7] []) (0xF7 &&& CBOR_INFO_BITS)
      = .ok 23 (BufferReader.over [0xF7] []) ∧
    inner_loads_c refHost bufferReader (0 + 1) (BufferReader.over [0xF7] []) 0xF7
      = .ok .none (BufferReader.over [0xF7] []) :=
  ⟨by decide, by decide, by decide, by decide, rfl,
    simple_values refHost bufferReader 0 (BufferReader.over [0xF7] [])
      (BufferReader.over [0xF7] []) 0xF7 23 (by decide) (by decide) (by decide) (by decide) rfl⟩

/-- Claim C16, counterexample: the byte `F7` (undefined) decodes to `None`,
the very value that the byte `F6` (null) decodes to. -/
theorem undefined_is_none :
    cbor_loads refHost 1 (.bytes [0xF7]) = some (.ok .none) ∧
    cbor_loads refHost 1 (.bytes [0xF6]) = some (.ok .none) :=
  ⟨rfl, rfl⟩

/-! ## Half-precision floats -/

theorem floor_log2_fold (x : Nat) (hx : 0 < x) (n : Nat) :
    2 ^ ((List.range n).foldl (fun k i => if 2 ^ i ≤ x then i else k) 0) ≤ x ∧
    (∀ i, i < n → 2 ^ i ≤ x →
      i ≤ (List.range n).foldl (fun k i => if 2 ^ i ≤ x then i else k) 0) ∧
    (List.range n).foldl (fun k i => if 2 ^ i ≤ x then i else k) 0 ≤ n := by
  induction n with
  | zero =>
    refine ⟨by simpa using hx, fun i hi => by omega, by simp⟩
  | succ n ih =>
    obtain ⟨h1, h2, h3⟩ := ih
    rw [List.range_succ, List.foldl_append]
    simp only [List.foldl_cons, List.foldl_nil]
    by_cases hn : 2 ^ n ≤ x
    · rw [if_pos hn]
      refine ⟨hn, fun i hi _ => by omega, by omega⟩
    · rw [if_neg hn]
      refine ⟨h1, fun i hi h2i => ?_, by omega⟩
      by_cases hin : i = n
      · subst hin
        exact absurd h2i hn
      · exact h2 i (by omega) h2i

theorem doubleValue_of_fields (E F : Nat) (hE : E < 2048) (hF : F < 2 ^ 52) :
    (E * 2 ^ 52 + F) / 2 ^ 63 % 2 = 0 ∧ (E * 2 ^ 52 + F) / 2 ^ 52 % 2048 = E ∧
    (E * 2 ^ 52 + F) % 2 ^ 52 = F := by
  refine ⟨?_, ?_, ?_⟩ <;> omega

theorem pow_split (k : Nat) (hk : k ≤ 52) : 2 ^ k * 2 ^ (52 - k) = 2 ^ 52 := by
  rw [← Nat.pow_add]
  congr 1
  omega

/-- The library function `ldexp` on the arguments of `decodeFloat16`: the
result is a finite positive pattern that stands for `x * 2 ^ e`. -/
theorem ldexp_value (x : Nat) (e : Int) (hx : x < 2 ^ 11) (he1 : -24 ≤ e) (he2 : e ≤ 5) :
    ldexp x e < 2 ^ 63 ∧ ldexp x e / 2 ^ 52 % 2048 ≠ 2047 ∧
    doubleValue (ldexp x e) = (x : ℚ) * (2 : ℚ) ^ e := by
  by_cases h0 : x = 0
  · subst h0
    have hz : ldexp 0 e = 0 := by simp [ldexp]
    rw [hz]
    refine ⟨by decide, by decide, ?_⟩
    simp [doubleValue]
  · obtain ⟨h1, h2, h3⟩ := floor_log2_fold x (by omega) 53
    have hdef : ldexp x e
        = (1023 + (((List.range 53).foldl (fun k i => if 2 ^ i ≤ x then i else k) 0 : Nat) : Int)
            + e).toNat * 2 ^ 52
          + (x - 2 ^ ((List.range 53).foldl (fun k i => if 2 ^ i ≤ x then i else k) 0))
            * 2 ^ (52 - (List.range 53).foldl (fun k i => if 2 ^ i ≤ x then i else k) 0) := by
      simp only [ldexp, h0, if_false]
    generalize (List.range 53).foldl (fun k i => if 2 ^ i ≤ x then i else k) 0 = k at h1 h2 h3 hdef
    have hk : k ≤ 10 := by
      by_contra hc
      have : 2 ^ 11 ≤ 2 ^ k := Nat.pow_le_pow_right (by decide) (by omega)
      omega
    have hup : x < 2 ^ (k + 1) := by
      by_contra hc
      have := h2 (k + 1) (by omega) (by omega)
      omega
    obtain ⟨E, hE⟩ : ∃ E : Nat, (E : Int) = 1023 + (k : Int) + e := ⟨(1023 + (k : Int) + e).toNat,
      Int.toNat_of_nonneg (by omega)⟩
    have hEt : (1023 + (k : Int) + e).toNat = E := by
      rw [← hE]
      exact Int.toNat_natCast E
    have hE1 : 1 ≤ E := by omega
    have hE2 : E < 2047 := by omega
    have hps := pow_split k (by omega)
    have hsub : x - 2 ^ k < 2 ^ k := by
      rw [Nat.pow_succ] at hup
      omega
    have hF : (x - 2 ^ k) * 2 ^ (52 - k) < 2 ^ 52 := by
      rw [← hps]
      exact Nat.mul_lt_mul_of_pos_right hsub (Nat.pow_pos (by decide))
    have hsum : 2 ^ 52 + (x - 2 ^ k) * 2 ^ (52 - k) = x * 2 ^ (52 - k) := by
      rw [← hps, ← Nat.add_mul]
      congr 1
      omega
    obtain ⟨f1, f2, f3⟩ := doubleValue_of_fields E _ (by omega) hF
    rw [hdef, hEt]
    refine ⟨?_, by rw [f2]; omega, ?_⟩
    · have : E * 2 ^ 52 + (x - 2 ^ k) * 2 ^ (52 - k) < 2047 * 2 ^ 52 + 2 ^ 52 := by
        have : E * 2 ^ 52 ≤ 2046 * 2 ^ 52 := Nat.mul_le_mul_right _ (by omega)
        omega
      omega
    · have hE0 : ¬ (E = 0) := by omega
      simp only [doubleValue, f1, f2, f3, hE0, if_false, Nat.zero_ne_one, one_mul]
      rw [hsum]
      have hz : ((E : ℤ) - 1075) = e - ((52 - k : Nat) : ℤ) := by
        rw [hE]
        omega
      rw [hz, zpow_sub₀ (by norm_num : (2 : ℚ) ≠ 0), zpow_natCast]
      push_cast
      field_simp
      ring

theorem doubleValue_negate (bits : Nat) (h : bits < 2 ^ 63) :
    negate bits / 2 ^ 63 % 2 = 1 ∧ negate bits / 2 ^ 52 % 2048 = bits / 2 ^ 52 % 2048 ∧
    doubleValue (negate bits) = - doubleValue bits := by
  have hn : negate bits = bits + 2 ^ 63 := by
    simp only [negate, h, if_true]
  have a1 : (bits + 2 ^ 63) / 2 ^ 63 % 2 = 1 := by omega
  have a2 : (bits + 2 ^ 63) / 2 ^ 52 % 2048 = bits / 2 ^ 52 % 2048 := by omega
  have a3 : (bits + 2 ^ 63) % 2 ^ 52 = bits % 2 ^ 52 := by omega
  have a4 : bits / 2 ^ 63 % 2 = 0 := by omega
  rw [hn]
  refine ⟨a1, a2, ?_⟩
  simp only [doubleValue, a1, a2, a3, a4, if_true, Nat.zero_ne_one, if_false]
  ring

theorem float16_fields (hi lo : Nat) (hlo : lo < 256) :
    (hi >>> 2) &&& 0x1f ≤ 31 ∧ ((hi &&& 0x3) <<< 8) ||| lo < 1024 := by
  constructor
  · have := Nat.and_pow_two_sub_one_eq_mod (hi >>> 2) 5
    have e : (hi >>> 2) &&& 0x1f = (hi >>> 2) % 2 ^ 5 := by simpa using this
    rw [e]
    have := Nat.mod_lt (hi >>> 2) (by decide : 0 < 2 ^ 5)
    omega
  · have := Nat.and_pow_two_sub_one_eq_mod hi 2
    have e : hi &&& 0x3 = hi % 2 ^ 2 := by simpa using this
    rw [e, shl_or 8 _ lo hlo]
    have := Nat.mod_lt hi (by decide : 0 < 2 ^ 2)
    omega

/-- The magnitude that `decodeFloat16` computes from the exponent field and
the mantissa field. -/
theorem float16_magnitude (exp mant : Nat) (hexp : exp ≤ 31) (hmant : mant < 1024) :
    (if exp = 0 then ldexp mant (-24)
      else if exp ≠ 31 then ldexp (mant + 1024) ((exp : Int) - 25)
      else if mant = 0 then INFINITY else NAN) < 2 ^ 63 ∧
    (exp = 0 → ldexp mant (-24) / 2 ^ 52 % 2048 ≠ 2047 ∧
      doubleValue (ldexp mant (-24)) = (mant : ℚ) * (2 : ℚ) ^ (-24 : ℤ)) ∧
    (1 ≤ exp → exp ≤ 30 → ldexp (mant + 1024) ((exp : Int) - 25) / 2 ^ 52 % 2048 ≠ 2047 ∧
      doubleValue (ldexp (mant + 1024) ((exp : Int) - 25))
        = ((mant : ℚ) + 1024) * (2 : ℚ) ^ ((exp : ℤ) - 25)) := by
  have ha := ldexp_value mant (-24) (by omega) (by omega) (by omega)
  refine ⟨?_, fun _ => ⟨ha.2.1, ha.2.2⟩, fun h1 h30 => ?_⟩
  · by_cases h0 : exp = 0
    · rw [if_pos h0]
      exact ha.1
    · rw [if_neg h0]
      by_cases h31 : exp ≠ 31
      · rw [if_pos h31]
        exact (ldexp_value (mant + 1024) ((exp : Int) - 25) (by omega) (by omega) (by omega)).1
      · rw [if_neg h31]
        split_ifs <;> decide
  · have hb := ldexp_value (mant + 1024) ((exp : Int) - 25) (by omega) (by omega) (by omega)
    refine ⟨hb.2.1, ?_⟩
    rw [hb.2.2]
    push_cast
    ring

/-- Claim C17: for every first byte `hi` and second byte `lo`, with `exp` and `mant` as
`decodeFloat16` cuts them out, `decodeFloat16` consumes the two bytes and
returns a float whose sign bit is set exactly when `hi & 0x80` is, and whose
value is `mant * 2 ^ -24` for `exp = 0`, `(mant + 1024) * 2 ^ (exp - 25)` for
`exp` from 1 to 30 (finite patterns, the value taken with the sign), and whose
pattern is that of `INFINITY` for `exp = 31`, `mant = 0` and that of `NAN` for
`exp = 31`, `mant ≠ 0` (with the sign bit flipped when `hi & 0x80` is set).
The bytes `3C 00` give the pattern of `1.0` and the bytes `7E 00` that of
`NAN`. -/
theorem decodeFloat16_value (hi lo : Nat) (hlo : lo < 256)
    (exp mant : Nat) (hexp : exp = (hi >>> 2) &&& 0x1f)
    (hmant : mant = ((hi &&& 0x3) <<< 8) ||| lo) (pre rest : List Nat) :
    (∃ bits, decodeFloat16 bufferReader (BufferReader.over pre (hi :: lo :: rest))
        = .ok (.float bits) (BufferReader.over (pre ++ [hi, lo]) rest) ∧
      bits < 2 ^ 64 ∧
      bits / 2 ^ 63 % 2 = (if hi &&& 0x80 ≠ 0 then 1 else 0) ∧
      (exp = 0 → bits / 2 ^ 52 % 2048 ≠ 2047 ∧
        doubleValue bits
          = (if hi &&& 0x80 ≠ 0 then -1 else 1) * ((mant : ℚ) * (2 : ℚ) ^ (-24 : ℤ))) ∧
      (1 ≤ exp → exp ≤ 30 → bits / 2 ^ 52 % 2048 ≠ 2047 ∧
        doubleValue bits
          = (if hi &&& 0x80 ≠ 0 then -1 else 1) *
              (((mant : ℚ) + 1024) * (2 : ℚ) ^ ((exp : ℤ) - 25))) ∧
      (exp = 31 → mant = 0 →
        bits = if hi &&& 0x80 ≠ 0 then negate INFINITY else INFINITY) ∧
      (exp = 31 → mant ≠ 0 → bits = if hi &&& 0x80 ≠ 0 then negate NAN else NAN)) ∧
    decodeFloat16 bufferReader (BufferReader.over [] [0x3C, 0x00])
      = .ok (.float 0x3FF0000000000000) (BufferReader.over [0x3C, 0x00] []) ∧
    doubleValue 0x3FF0000000000000 = 1 ∧
    decodeFloat16 bufferReader (BufferReader.over [] [0x7E, 0x00])
      = .ok (.float NAN) (BufferReader.over [0x7E, 0x00] []) := by
  obtain ⟨he, hm⟩ := float16_fields hi lo hlo
  rw [← hexp] at he
  rw [← hmant] at hm
  obtain ⟨m1, m2, m3⟩ := float16_magnitude exp mant he hm
  have hrun : decodeFloat16 bufferReader (BufferReader.over pre (hi :: lo :: rest))
      = .ok (.float (if hi &&& 0x80 ≠ 0 then
            negate (if exp = 0 then ldexp mant (-24)
              else if exp ≠ 31 then ldexp (mant + 1024) ((exp : Int) - 25)
              else if mant = 0 then INFINITY else NAN)
          else (if exp = 0 then ldexp mant (-24)
              else if exp ≠ 31 then ldexp (mant + 1024) ((exp : Int) - 25)
              else if mant = 0 then INFINITY else NAN)))
          (BufferReader.over (pre ++ [hi, lo]) rest) := by
    subst hexp hmant
    simp only [decodeFloat16, bufferReader_read1, read1_over, bind_ok, List.append_assoc,
      List.singleton_append]
  refine ⟨⟨_, hrun, ?_⟩, rfl, ?_, rfl⟩
  · generalize hV : (if exp = 0 then ldexp mant (-24)
        else if exp ≠ 31 then ldexp (mant + 1024) ((exp : Int) - 25)
        else if mant = 0 then INFINITY else NAN) = V at m1
    obtain ⟨n1, n2, n3⟩ := doubleValue_negate V m1
    have hnV : negate V = V + 2 ^ 63 := by simp only [negate, m1, if_true]
    by_cases hs : hi &&& 0x80 ≠ 0
    · simp only [if_pos hs]
      refine ⟨by omega, n1, fun h0 => ?_, fun h1 h30 => ?_, fun h31 hm0 => ?_, fun h31 hm0 => ?_⟩
      · have hv : V = ldexp mant (-24) := by rw [← hV, if_pos h0]
        rw [n2, n3, hv]
        refine ⟨(m2 h0).1, ?_⟩
        rw [(m2 h0).2]
        ring
      · have hv : V = ldexp (mant + 1024) ((exp : Int) - 25) := by
          rw [← hV, if_neg (by omega), if_pos (by omega)]
        rw [n2, n3, hv]
        refine ⟨(m3 h1 h30).1, ?_⟩
        rw [(m3 h1 h30).2]
        ring
      · rw [← hV, if_neg (by omega), if_neg (by omega), if_pos hm0]
      · rw [← hV, if_neg (by omega), if_neg (by omega), if_neg hm0]
    · simp only [if_neg hs]
      refine ⟨by omega, by omega, fun h0 => ?_, fun h1 h30 => ?_, fun h31 hm0 => ?_,
        fun h31 hm0 => ?_⟩
      · have hv : V = ldexp mant (-24) := by rw [← hV, if_pos h0]
        rw [hv]
        refine ⟨(m2 h0).1, ?_⟩
        rw [(m2 h0).2]
        ring
      · have hv : V = ldexp (mant + 1024) ((exp : Int) - 25) := by
          rw [← hV, if_neg (by omega), if_pos (by omega)]
        rw [hv]
        refine ⟨(m3 h1 h30).1, ?_⟩
        rw [(m3 h1 h30).2]
        ring
      · rw [← hV, if_neg (by omega), if_neg (by omega), if_pos hm0]
      · rw [← hV, if_neg (by omega), if_neg (by omega), if_neg hm0]
  · simp [doubleValue]
    norm_num

theorem decodeFloat16_value_witness :
    (0x01 : Nat) < 256 ∧ 0 = (0x80 >>> 2) &&& 0x1f ∧ 1 = ((0x80 &&& 0x3) <<< 8) ||| 0x01 ∧
    ∃ bits, decodeFloat16 bufferReader (BufferReader.over [] [0x80, 0x01])
        = .ok (.float bits) (BufferReader.over [0x80, 0x01] []) ∧
      bits / 2 ^ 63 % 2 = 1 ∧ bits / 2 ^ 52 % 2048 ≠ 2047 ∧
      doubleValue bits = -1 * (((1 : Nat) : ℚ) * (2 : ℚ) ^ (-24 : ℤ)) :=
  ⟨by decide, by decide, by decide,
    match (decodeFloat16_value 0x80 0x01 (by decide) 0 1 (by decide) (by decide) [] []).1 with
    | ⟨bits, h1, _, hs, h0, _⟩ => ⟨bits, h1, hs, (h0 rfl).1, (h0 rfl).2⟩⟩

/-! ## Floats, encoded and decoded -/

theorem emitted_float (bits : Nat) :
    emitted (tag_u64_out CBOR_7 bits) =
      [0xFB, bits / 2 ^ 56 % 256, bits / 2 ^ 48 % 256, bits / 2 ^ 40 % 256, bits / 2 ^ 32 % 256,
        bits / 2 ^ 24 % 256, bits / 2 ^ 16 % 256, bits / 2 ^ 8 % 256, bits % 256] := by
  simp [emitted, tag_u64_out, store, and_255, Nat.shiftRight_eq_div_pow, CBOR_UINT64_FOLLOWS,
    CBOR_7]

/-- Claim C18: every float, of any 64-bit pattern `bits`, is encoded as nine
bytes, the byte `FB` and the eight bytes of `bits` from the most significant
to the least significant; `decodeFloat64` on these eight bytes returns the
float with the pattern `bits`, and so does `loads` on the nine bytes. -/
theorem float_nine_bytes (H : Host) (fuel bits : Nat) (hbits : bits < 2 ^ 64)
    (sort_keys : Bool) (pre rest : List Nat) :
    cbor_dumps H (fuel + 1) (.float bits) sort_keys
      = some (.ok (.bytes [0xFB, bits / 2 ^ 56 % 256, bits / 2 ^ 48 % 256, bits / 2 ^ 40 % 256,
          bits / 2 ^ 32 % 256, bits / 2 ^ 24 % 256, bits / 2 ^ 16 % 256, bits / 2 ^ 8 % 256,
          bits % 256])) ∧
    decodeFloat64 bufferReader
        (BufferReader.over pre
          ([bits / 2 ^ 56 % 256, bits / 2 ^ 48 % 256, bits / 2 ^ 40 % 256, bits / 2 ^ 32 % 256,
            bits / 2 ^ 24 % 256, bits / 2 ^ 16 % 256, bits / 2 ^ 8 % 256, bits % 256] ++ rest))
      = .ok (.float bits)
          (BufferReader.over
            (pre ++ [bits / 2 ^ 56 % 256, bits / 2 ^ 48 % 256, bits / 2 ^ 40 % 256,
              bits / 2 ^ 32 % 256, bits / 2 ^ 24 % 256, bits / 2 ^ 16 % 256, bits / 2 ^ 8 % 256,
              bits % 256]) rest) ∧
    cbor_loads H (fuel + 1)
        (.bytes [0xFB, bits / 2 ^ 56 % 256, bits / 2 ^ 48 % 256, bits / 2 ^ 40 % 256,
          bits / 2 ^ 32 % 256, bits / 2 ^ 24 % 256, bits / 2 ^ 16 % 256, bits / 2 ^ 8 % 256,
          bits % 256])
      = some (.ok (.float bits)) := by
  refine ⟨?_, ?_, ?_⟩
  · rw [cbor_dumps_eq H (fuel + 1) (.float bits) sort_keys rfl]
    simp only [encode, emitted_float]
  · unfold decodeFloat64
    rw [bufferReader_read, read_over _ _ _ 8 (by simp), bind_ok]
    rw [be64 _ _ _ _ _ _ _ _ (by omega) (by omega) (by omega) (by omega) (by omega) (by omega)
      (by omega) (by omega)]
    have : bigEndian [bits / 2 ^ 56 % 256, bits / 2 ^ 48 % 256, bits / 2 ^ 40 % 256,
        bits / 2 ^ 32 % 256, bits / 2 ^ 24 % 256, bits / 2 ^ 16 % 256, bits / 2 ^ 8 % 256,
        bits % 256] = bits := by
      simp only [bigEndian, List.foldl]
      omega
    rw [this]
  · have h := decode_float64 H fuel bits hbits
    rw [emitted_float] at h
    exact cbor_loads_of_itemOk H (fuel + 1) _ _ h

theorem float_nine_bytes_witness :
    0x3FF0000000000000 < 2 ^ 64 ∧
    cbor_dumps refHost (0 + 1) (.float 0x3FF0000000000000) false
      = some (.ok (.bytes [0xFB, 0x3F, 0xF0, 0, 0, 0, 0, 0, 0])) ∧
    decodeFloat64 bufferReader (BufferReader.over [0xFB] [0x3F, 0xF0, 0, 0, 0, 0, 0, 0])
      = .ok (.float 0x3FF0000000000000)
          (BufferReader.over [0xFB, 0x3F, 0xF0, 0, 0, 0, 0, 0, 0] []) ∧
    cbor_loads refHost (0 + 1) (.bytes [0xFB, 0x3F, 0xF0, 0, 0, 0, 0, 0, 0])
      = some (.ok (.float 0x3FF0000000000000)) :=
  ⟨by decide, float_nine_bytes refHost 0 0x3FF0000000000000 (by decide) false [0xFB] []⟩

/-! ## Integers, encoded -/

theorem dumps_bignum_loop_le (n : Nat) :
    ∀ (val : Int) (k : Nat) (acc : List Nat), k ≤ 23 → (dumps_bignum_loop n val k acc).1 ≤ 23 := by
  induction n with
  | zero =>
    intro val k acc hk
    exact hk
  | succ n ih =>
    intro val k acc hk
    unfold dumps_bignum_loop
    by_cases hc : val ≠ 0 ∧ k < 23
    · rw [if_pos hc]
      exact ih _ _ _ (by omega)
    · rw [if_neg hc]
      exact hk

/-- The bytes `dumps_bignum` writes, for every value: the tag byte, the header
byte of a byte string of at most 23 bytes, and that many bytes. -/
theorem encode_bignum_shape (tag : Nat) (val : Int) :
    ∃ payload, encode_bignum tag val
        = [(CBOR_TAG ||| tag) % 256, (CBOR_BYTES ||| payload.length) % 256] ++ payload ∧
      payload.length ≤ 23 := by
  have hl := dumps_bignum_loop_length 23 val []
  have hle := dumps_bignum_loop_le 23 val 0 [] (by omega)
  simp only [List.length_nil] at hl
  refine ⟨(dumps_bignum_loop 23 val 0 []).2.reverse.map (fun b => b % 256), ?_, ?_⟩
  · unfold encode_bignum
    simp only [hl, List.length_map, List.length_reverse]
  · simp only [List.length_map, List.length_reverse, ← hl]
    exact hle

/-- Claim C19: for every integer `n` the encoder writes a UINT header that
carries `n` when `0 ≤ n < 2 ^ 63`, a NEGINT header that carries `-1 - n` when
`-2 ^ 63 ≤ n < 0`, the bignum form of tag 2 on `n` when `2 ^ 63 ≤ n` and the
bignum form of tag 3 on `-1 - n` when `n < -2 ^ 63`; a bignum form is the tag
byte, the header byte of a byte string of at most 23 bytes and these bytes.
So `2 ^ 63` and `2 ^ 64 - 1` are written in the bignum form of tag 2, with
eight bytes. -/
theorem integer_forms :
    (∀ (H : Host) (fuel : Nat) (n : Int) (sort_keys : Bool),
      cbor_dumps H (fuel + 1) (.long n) sort_keys
        = some (.ok (.bytes (
            if 0 ≤ n ∧ n < 2 ^ 63 then header CBOR_UINT n.toNat
            else if -(2 ^ 63) ≤ n ∧ n < 0 then header CBOR_NEGINT (-1 - n).toNat
            else if 2 ^ 63 ≤ n then encode_bignum CBOR_TAG_BIGNUM n
            else encode_bignum CBOR_TAG_NEGBIGNUM (-1 - n))))) ∧
    (∀ (tag : Nat) (val : Int), ∃ payload,
      encode_bignum tag val
        = [(CBOR_TAG ||| tag) % 256, (CBOR_BYTES ||| payload.length) % 256] ++ payload ∧
      payload.length ≤ 23) ∧
    cbor_dumps refHost 1 (.long (2 ^ 63)) false
      = some (.ok (.bytes [0xC2, 0x48, 0x80, 0, 0, 0, 0, 0, 0, 0])) ∧
    cbor_dumps refHost 1 (.long (2 ^ 64 - 1)) false
      = some (.ok (.bytes [0xC2, 0x48, 0xFF, 0xFF, 0xFF, 0xFF, 0xFF, 0xFF, 0xFF, 0xFF])) := by
  refine ⟨fun H fuel n sort_keys => ?_, encode_bignum_shape, rfl, rfl⟩
  rw [cbor_dumps_eq H (fuel + 1) (.long n) sort_keys rfl]
  by_cases h1 : 0 ≤ n ∧ n < 2 ^ 63
  · have h2 : -(2 ^ 63 : Int) ≤ n ∧ n < 2 ^ 63 := ⟨by omega, h1.2⟩
    rw [if_pos h1]
    simp only [encode, h2, and_self, if_true, ge_iff_le, h1.1]
  · rw [if_neg h1]
    by_cases h2 : -(2 ^ 63 : Int) ≤ n ∧ n < 0
    · have h3 : -(2 ^ 63 : Int) ≤ n ∧ n < 2 ^ 63 := ⟨h2.1, by omega⟩
      have h4 : ¬ (0 ≤ n) := by omega
      rw [if_pos h2]
      simp only [encode, h3, and_self, if_true, ge_iff_le, h4, if_false]
    · have h3 : ¬ (-(2 ^ 63 : Int) ≤ n ∧ n < 2 ^ 63) := by omega
      rw [if_neg h2]
      by_cases h4 : (2 : Int) ^ 63 ≤ n
      · have h5 : ¬ (n < 0) := by omega
        rw [if_pos h4]
        simp only [encode, h3, if_false, h5]
      · have h5 : n < 0 := by omega
        rw [if_neg h4]
        simp only [encode, h3, if_false, h5, if_true]

/-- The loop of `dumps_bignum` on a magnitude below `256 ^ 23`: the digits it
collects, least significant first, end in a non-zero digit. -/
theorem dumps_bignum_loop_last (n m : Nat) (acc : List Nat)
    (hacc : acc.length ≤ 23) (hn : 23 ≤ n + acc.length) (hm : m < 256 ^ (23 - acc.length)) :
    ∃ ds, (dumps_bignum_loop n (m : Int) acc.length acc).2 = acc ++ ds ∧
      ds.foldr (fun d a => d + 256 * a) 0 = m ∧ ∀ d ∈ ds.getLast?, d ≠ 0 := by
  induction n generalizing m acc with
  | zero =>
    have h23 : acc.length = 23 := by omega
    rw [h23] at hm
    simp at hm
    subst hm
    exact ⟨[], by simp [dumps_bignum_loop], rfl, by simp⟩
  | succ n ih =>
    unfold dumps_bignum_loop
    by_cases hc : (m : Int) ≠ 0 ∧ acc.length < 23
    · rw [if_pos hc]
      have hdiv : ((m : Int) / 256) = ((m / 256 : Nat) : Int) := by norm_cast
      have hmod : ((m : Int) % 256).toNat = m % 256 := by omega
      rw [hdiv, hmod]
      have hlen : (acc ++ [m % 256]).length = acc.length + 1 := by simp
      have hm2 : m / 256 < 256 ^ (23 - (acc ++ [m % 256]).length) := by
        rw [hlen]
        have hpow : 256 ^ (23 - acc.length) = 256 * 256 ^ (23 - (acc.length + 1)) := by
          rw [← Nat.pow_succ']
          congr 1
          omega
        rw [hpow] at hm
        exact Nat.div_lt_of_lt_mul hm
      obtain ⟨ds, h1, h3, h4⟩ := ih (m / 256) (acc ++ [m % 256]) (by rw [hlen]; omega)
        (by rw [hlen]; omega) hm2
      rw [hlen] at h1
      have hm0 : m ≠ 0 := by exact_mod_cast hc.1
      refine ⟨(m % 256) :: ds, ?_, ?_, ?_⟩
      · rw [h1]; simp
      · simp only [List.foldr_cons, h3]
        omega
      · cases ds with
        | nil =>
          simp only [List.foldr_nil] at h3
          intro d hd
          simp only [List.getLast?_singleton, Option.mem_def, Option.some.injEq] at hd
          omega
        | cons d0 ds0 =>
          intro d hd
          rw [List.getLast?_cons_cons] at hd
          exact h4 d hd
    · rw [if_neg hc]
      have hm0 : m = 0 := by
        by_contra hne
        have h23 : acc.length = 23 := by
          by_contra hl
          exact hc ⟨by exact_mod_cast hne, by omega⟩
        rw [h23] at hm
        simp at hm
        exact hne hm
      subst hm0
      exact ⟨[], by simp, rfl, by simp⟩

theorem digits_lt (ds : List Nat) (h : ∀ d ∈ ds, d < 256) :
    ds.foldr (fun d a => d + 256 * a) 0 < 256 ^ ds.length := by
  induction ds with
  | nil => simp
  | cons d ds ih =>
    have h1 := h d (by simp)
    have h2 := ih (fun x hx => h x (by simp [hx]))
    simp only [List.foldr_cons, List.length_cons, Nat.pow_succ]
    omega

theorem digits_ge (ds : List Nat) (hne : ds ≠ []) (hlast : ∀ d ∈ ds.getLast?, d ≠ 0) :
    256 ^ (ds.length - 1) ≤ ds.foldr (fun d a => d + 256 * a) 0 := by
  induction ds with
  | nil => exact absurd rfl hne
  | cons d ds ih =>
    cases ds with
    | nil =>
      have := hlast d (by simp)
      simp only [List.length_singleton, Nat.sub_self, Nat.pow_zero, List.foldr_cons,
        List.foldr_nil]
      omega
    | cons d0 ds0 =>
      have h2 := ih (by simp) (fun x hx => hlast x (by rw [List.getLast?_cons_cons]; exact hx))
      simp only [List.length_cons, Nat.add_sub_cancel] at h2 ⊢
      rw [List.foldr_cons, Nat.pow_succ]
      omega

/-- Below `256 ^ 23` the byte string that `dumps_bignum` writes for the
magnitude `m` is its shortest big-endian form: the bytes are the base-256
digits of `m`, their number is the least `k` with `m < 256 ^ k`, and the first
byte is not zero. -/
theorem bignum_minimal (tag m : Nat) (hm : m < 2 ^ 184) :
    ∃ bs, encode_bignum tag (m : Int)
        = [(CBOR_TAG ||| tag) % 256, (CBOR_BYTES ||| bs.length) % 256] ++ bs ∧
      (∀ b ∈ bs, b < 256) ∧ bigEndian bs = m ∧ m < 256 ^ bs.length ∧
      (∀ k, m < 256 ^ k → bs.length ≤ k) ∧ ∀ b ∈ bs.head?, b ≠ 0 := by
  have hl := dumps_bignum_loop_length 23 (m : Int) []
  obtain ⟨ds, h1, h0, h2, h3⟩ := dumps_bignum_loop_digits 23 m [] (by simp) (by simp)
    (by simpa using (by omega : m < 256 ^ 23))
  obtain ⟨ds2, g1, _, g3⟩ := dumps_bignum_loop_last 23 m [] (by simp) (by simp)
    (by simpa using (by omega : m < 256 ^ 23))
  simp only [List.length_nil, List.nil_append, Nat.zero_add] at hl h1 h0 g1
  have hds : ds2 = ds := by rw [← g1, h1]
  subst hds
  have hlt := digits_lt ds2 h2
  rw [h3] at hlt
  refine ⟨ds2.reverse, ?_, ?_, ?_, ?_, ?_, ?_⟩
  · unfold encode_bignum
    simp only [hl, h1, List.length_reverse]
    rw [map_mod_id ds2.reverse (fun b hb => h2 b (by simpa using hb))]
  · intro b hb
    exact h2 b (by simpa using hb)
  · rw [foldl_reverse_digits, h3]
  · simpa using hlt
  · intro k hk
    rw [List.length_reverse]
    by_contra hc
    have hne : ds2 ≠ [] := by
      intro he
      subst he
      simp at hc
    have hge := digits_ge ds2 hne g3
    rw [h3] at hge
    have : 256 ^ k ≤ 256 ^ (ds2.length - 1) := Nat.pow_le_pow_right (by decide) (by omega)
    omega
  · intro b hb
    rw [List.head?_reverse] at hb
    exact g3 b hb

set_option maxRecDepth 100000 in
/-- Claim C20, at the failing input: the integer `2 ^ 184`, the least
magnitude of 24 base-256 digits, is written as tag 2 and a byte string of 23
bytes, all of them zero: the most significant digit `01` is left out, the
length is not the least `k` with `m < 256 ^ k`, the first byte is zero, and
the bytes read back as the integer `0`. -/
theorem bignum_truncated :
    cbor_dumps refHost 1 (.long (2 ^ 184)) false
      = some (.ok (.bytes [0xC2, 0x57, 0, 0, 0, 0, 0, 0, 0, 0, 0, 0, 0, 0, 0, 0, 0, 0, 0, 0, 0,
          0, 0, 0, 0])) ∧
    cbor_loads refHost 2
        (.bytes [0xC2, 0x57, 0, 0, 0, 0, 0, 0, 0, 0, 0, 0, 0, 0, 0, 0, 0, 0, 0, 0, 0, 0, 0, 0, 0])
      = some (.ok (.long 0)) ∧
    ¬ ((2 : Nat) ^ 184 < 256 ^ 23) :=
  ⟨rfl, rfl, by decide⟩

/-! ## Closed examples of the encoder -/

set_option maxRecDepth 100000 in
/-- Claim C21, as amended: the integer `-(2 ^ 64)` is written as tag 3 and a
byte string of the eight bytes `FF`, the magnitude `-1 - n = 2 ^ 64 - 1`, and
these bytes decode to `-(2 ^ 64)`; the payload `01 00 00 00 00 00 00 00 00`
under tag 3 is what the integer `-(2 ^ 64) - 1` is written as and decodes
from. -/
theorem neg_two_pow_64_encoding :
    cbor_dumps refHost 1 (.long (-(2 ^ 64))) false
      = some (.ok (.bytes [0xC3, 0x48, 0xFF, 0xFF, 0xFF, 0xFF, 0xFF, 0xFF, 0xFF, 0xFF])) ∧
    cbor_loads refHost 2 (.bytes [0xC3, 0x48, 0xFF, 0xFF, 0xFF, 0xFF, 0xFF, 0xFF, 0xFF, 0xFF])
      = some (.ok (.long (-(2 ^ 64)))) ∧
    cbor_dumps refHost 1 (.long (-(2 ^ 64) - 1)) false
      = some (.ok (.bytes [0xC3, 0x49, 0x01, 0, 0, 0, 0, 0, 0, 0, 0])) ∧
    cbor_loads refHost 2 (.bytes [0xC3, 0x49, 0x01, 0, 0, 0, 0, 0, 0, 0, 0])
      = some (.ok (.long (-(2 ^ 64) - 1))) :=
  ⟨rfl, rfl, rfl, rfl⟩

set_option maxRecDepth 100000 in
/-- Claim C21, counterexample: the bytes written for `-(2 ^ 64)` are not tag 3
with the payload `01 00 00 00 00 00 00 00 00`. -/
theorem neg_two_pow_64_payload :
    cbor_dumps refHost 1 (.long (-(2 ^ 64))) false
      ≠ some (.ok (.bytes [0xC3, 0x49, 0x01, 0, 0, 0, 0, 0, 0, 0, 0])) := by
  have h : cbor_dumps refHost 1 (.long (-(2 ^ 64))) false
      = some (.ok (.bytes [0xC3, 0x48, 0xFF, 0xFF, 0xFF, 0xFF, 0xFF, 0xFF, 0xFF, 0xFF])) := rfl
  rw [h]
  intro hc
  have h2 := PyObj.bytes.inj (Except.ok.inj (Option.some.inj hc))
  exact absurd h2 (by decide)

/-! ## Maps and tags, encoded -/

theorem encode_of_cbor_dumps (H : Host) (fuel : Nat) (ob : PyObj) (sort_keys : Bool)
    (b : List Nat) (h : cbor_dumps H fuel ob sort_keys = some (.ok (.bytes b))) :
    encode H { sort_keys := sort_keys } fuel ob = some (.ok b) := by
  rw [cbor_dumps_pending] at h
  cases hr : encode H { sort_keys := sort_keys } fuel ob with
  | none =>
    rw [hr] at h
    simp at h
  | some r =>
    cases r with
    | ok bs =>
      rw [hr] at h
      dsimp only at h
      by_cases hc : dumps_error_pending H { sort_keys := sort_keys } fuel ob = true
      · simp [hc] at h
      · have hc2 : dumps_error_pending H { sort_keys := sort_keys } fuel ob = false := by
          simpa using hc
        rw [hc2] at h
        simp only [Bool.false_eq_true, if_false, Option.some.injEq, Except.ok.injEq,
          PyObj.bytes.injEq] at h
        rw [h]
    | error e =>
      rw [hr] at h
      simp at h

/-- When `cbor_dumps` returns bytes, no exception was left set. -/
theorem clean_of_cbor_dumps (H : Host) (fuel : Nat) (ob : PyObj) (sort_keys : Bool)
    (b : List Nat) (h : cbor_dumps H fuel ob sort_keys = some (.ok (.bytes b))) :
    dumps_error_pending H { sort_keys := sort_keys } fuel ob = false := by
  rw [cbor_dumps_pending] at h
  cases hr : encode H { sort_keys := sort_keys } fuel ob with
  | none =>
    rw [hr] at h
    simp at h
  | some r =>
    cases r with
    | ok bs =>
      rw [hr] at h
      dsimp only at h
      by_cases hc : dumps_error_pending H { sort_keys := sort_keys } fuel ob = true
      · simp [hc] at h
      · simpa using hc
    | error e =>
      rw [hr] at h
      simp at h

theorem encode_pairs_of (item : PyObj → EncRes)
    (pairs : List ((List Nat × PyObj) × (List Nat × PyObj)))
    (hp : ∀ p ∈ pairs, item p.1.2 = some (.ok p.1.1) ∧ item p.2.2 = some (.ok p.2.1)) :
    encode_pairs item (pairs.map fun p => (p.1.2, p.2.2))
      = some (.ok (pairs.map fun p => p.1.1 ++ p.2.1).flatten) := by
  induction pairs with
  | nil => rfl
  | cons p pairs ih =>
    obtain ⟨h1, h2⟩ := hp p (by simp)
    simp only [List.map_cons, encode_pairs, h1, h2, ih (fun q hq => hp q (by simp [hq])), encSeq,
      List.flatten_cons, List.append_assoc]

theorem encode_sorted_of (H : Host) (item : PyObj → EncRes) (kvs : List (PyObj × PyObj))
    (pairs : List ((List Nat × PyObj) × (List Nat × PyObj)))
    (hget : ∀ p ∈ pairs, H.dict_get kvs p.1.2 = some p.2.2)
    (hp : ∀ p ∈ pairs, item p.1.2 = some (.ok p.1.1) ∧ item p.2.2 = some (.ok p.2.1)) :
    encode_sorted H item kvs (pairs.map fun p => p.1.2)
      = some (.ok (pairs.map fun p => p.1.1 ++ p.2.1).flatten) := by
  induction pairs with
  | nil => rfl
  | cons p pairs ih =>
    obtain ⟨h1, h2⟩ := hp p (by simp)
    have hg := hget p (by simp)
    simp only [List.map_cons, encode_sorted, h1, h2, hg,
      ih (fun q hq => hget q (by simp [hq])) (fun q hq => hp q (by simp [hq])), encSeq,
      List.flatten_cons, List.append_assoc]

/-- Claim C22: with `sort_keys` off, a dictionary of `n` items whose keys and
values are encodable is written as the MAP header that carries `n`, followed,
for each item in the iteration order of the dictionary (its insertion order),
by the bytes of the key and then the bytes of the value. -/
theorem unsorted_map_encoding (H : Host) (fuel : Nat)
    (pairs : List ((List Nat × PyObj) × (List Nat × PyObj)))
    (hp : ∀ p ∈ pairs, cbor_dumps H fuel p.1.2 false = some (.ok (.bytes p.1.1)) ∧
      cbor_dumps H fuel p.2.2 false = some (.ok (.bytes p.2.1))) :
    cbor_dumps H (fuel + 1) (.dict (pairs.map fun p => (p.1.2, p.2.2))) false
      = some (.ok (.bytes (header CBOR_MAP pairs.length
          ++ (pairs.map fun p => p.1.1 ++ p.2.1).flatten))) := by
  have he := encode_pairs_of (encode H { sort_keys := false } fuel) pairs
    (fun p hq => ⟨encode_of_cbor_dumps H fuel _ false _ (hp p hq).1,
      encode_of_cbor_dumps H fuel _ false _ (hp p hq).2⟩)
  rw [cbor_dumps_eq _ _ _ _ (dumps_error_pending_unsorted _ _ _)]
  simp only [encode, List.length_map, Bool.false_eq_true, if_false, he, encSeq]

theorem unsorted_map_encoding_witness :
    (∀ p ∈ [(([0x61, 0x62], PyObj.unicode [0x62]), ([0x01], PyObj.long 1)),
        (([0x61, 0x61], PyObj.unicode [0x61]), ([0x02], PyObj.long 2))],
      cbor_dumps refHost 1 p.1.2 false = some (.ok (.bytes p.1.1)) ∧
        cbor_dumps refHost 1 p.2.2 false = some (.ok (.bytes p.2.1))) ∧
    cbor_dumps refHost (1 + 1)
        (.dict [(.unicode [0x62], .long 1), (.unicode [0x61], .long 2)]) false
      = some (.ok (.bytes [0xA2, 0x61, 0x62, 0x01, 0x61, 0x61, 0x02])) :=
  have hp : ∀ p ∈ [(([0x61, 0x62], PyObj.unicode [0x62]), ([0x01], PyObj.long 1)),
        (([0x61, 0x61], PyObj.unicode [0x61]), ([0x02], PyObj.long 2))],
      cbor_dumps refHost 1 p.1.2 false = some (.ok (.bytes p.1.1)) ∧
        cbor_dumps refHost 1 p.2.2 false = some (.ok (.bytes p.2.1)) := by
    intro p hq
    simp only [List.mem_cons, List.mem_singleton, List.not_mem_nil, or_false] at hq
    rcases hq with rfl | rfl
    · exact ⟨rfl, rfl⟩
    · exact ⟨rfl, rfl⟩
  ⟨hp, unsorted_map_encoding refHost 1 _ hp⟩

/-- Claim C23, counterexample: with `sort_keys` on, the dictionary
`{10: 1, -1: 0}` is written with the key `-1` (the byte `20`) before the key
`10` (the byte `0A`): in the order of the integers, which is the descending
order of the encoded keys. -/
theorem sorted_by_value_not_bytes :
    cbor_dumps refHost 2 (.dict [(.long 10, .long 1), (.long (-1), .long 0)]) true
      = some (.ok (.bytes [0xA2, 0x20, 0x00, 0x0A, 0x01])) ∧
    cbor_dumps refHost 1 (.long (-1)) true = some (.ok (.bytes [0x20])) ∧
    cbor_dumps refHost 1 (.long 10) true = some (.ok (.bytes [0x0A])) ∧
    (0x0A : Nat) < 0x20 :=
  ⟨rfl, rfl, rfl, by decide⟩

/-- Claim C25, as amended: a `Tag` object whose tag number is an integer `n`
with `0 ≤ n < 2 ^ 63` and whose value is encodable is written as the TAG
header that carries `n`, followed by the bytes of the value; a tag number
from `2 ^ 63` on is refused with the ValueError of the too large tag
number. -/
theorem tag_encoding (H : Host) (fuel : Nat) (n : Int) (v : PyObj) (sort_keys : Bool) :
    (∀ bv, 0 ≤ n → n < 2 ^ 63 → cbor_dumps H fuel v sort_keys = some (.ok (.bytes bv)) →
      cbor_dumps H (fuel + 1) (.tag (.long n) v) sort_keys
        = some (.ok (.bytes (header CBOR_TAG n.toNat ++ bv)))) ∧
    (2 ^ 63 ≤ n →
      cbor_dumps H (fuel + 1) (.tag (.long n) v) sort_keys = some (.error .valueTagTooLarge)) := by
  constructor
  · intro bv h0 h63 hv
    have he := encode_of_cbor_dumps H fuel v sort_keys bv hv
    have hr : -(2 ^ 63 : Int) ≤ n ∧ n < 2 ^ 63 := ⟨by omega, h63⟩
    rw [cbor_dumps_eq H (fuel + 1) (.tag (.long n) v) sort_keys
      (clean_of_cbor_dumps H fuel v sort_keys bv hv)]
    simp only [encode, encode_tag, hr, and_self, if_true, ge_iff_le, h0, he, encSeq]
  · intro h63
    have hr : ¬ (-(2 ^ 63 : Int) ≤ n ∧ n < 2 ^ 63) := by omega
    rw [cbor_dumps_pending]
    simp only [encode, encode_tag, hr, if_false]

theorem tag_encoding_witness :
    (0 : Int) ≤ 2 ^ 63 - 1 ∧ (2 ^ 63 - 1 : Int) < 2 ^ 63 ∧
    cbor_dumps refHost 1 (.long 5) false = some (.ok (.bytes [0x05])) ∧
    cbor_dumps refHost (1 + 1) (.tag (.long (2 ^ 63 - 1)) (.long 5)) false
      = some (.ok (.bytes (header CBOR_TAG (2 ^ 63 - 1 : Int).toNat ++ [0x05]))) ∧
    (2 : Int) ^ 63 ≤ 2 ^ 63 ∧
    cbor_dumps refHost (1 + 1) (.tag (.long (2 ^ 63)) (.long 5)) false
      = some (.error .valueTagTooLarge) :=
  ⟨by decide, by decide, rfl,
    (tag_encoding refHost 1 (2 ^ 63 - 1) (.long 5) false).1 [0x05] (by decide) (by decide) rfl,
    by decide,
    (tag_encoding refHost 1 (2 ^ 63) (.long 5) false).2 (by decide)⟩

/-- Claim C25, counterexample: the object `Tag(2 ^ 63, 0)`, with a tag number
of the value model, is not encoded; `dumps` raises the ValueError of the too
large tag number. -/
theorem large_tag_refused :
    cbor_dumps refHost 2 (.tag (.long (2 ^ 63)) (.long 0)) false
      = some (.error .valueTagTooLarge) := rfl


theorem encSeq_ne_none (r1 r2 : EncRes) (h1 : r1 ≠ Option.none) (h2 : r2 ≠ Option.none) :
    encSeq r1 r2 ≠ Option.none := by
  match r1, r2, h1, h2 with
  | some (.ok b1), some (.ok b2), _, _ => simp [encSeq]
  | some (.ok b1), some (.error e), _, _ => simp [encSeq]
  | some (.error e), _, _, _ => simp [encSeq]

theorem encode_items_ne_none (item : PyObj → EncRes) (xs : List PyObj)
    (h : ∀ x ∈ xs, item x ≠ Option.none) : encode_items item xs ≠ Option.none := by
  induction xs with
  | nil => simp [encode_items]
  | cons x xs ih =>
    simp only [encode_items]
    exact encSeq_ne_none _ _ (h x (by simp)) (ih (fun y hy => h y (by simp [hy])))

theorem encode_pairs_ne_none (item : PyObj → EncRes) (kvs : List (PyObj × PyObj))
    (h : ∀ kv ∈ kvs, item kv.1 ≠ Option.none ∧ item kv.2 ≠ Option.none) :
    encode_pairs item kvs ≠ Option.none := by
  induction kvs with
  | nil => simp [encode_pairs]
  | cons kv kvs ih =>
    simp only [encode_pairs]
    exact encSeq_ne_none _ _ (h kv (by simp)).1
      (encSeq_ne_none _ _ (h kv (by simp)).2 (ih (fun y hy => h y (by simp [hy]))))

theorem encode_tag_ne_none (item : PyObj → EncRes) (t v : PyObj) (hv : item v ≠ Option.none) :
    encode_tag item t v ≠ Option.none := by
  cases t with
  | long n =>
    simp only [encode_tag]
    split_ifs <;> first | exact encSeq_ne_none _ _ (by simp) hv | simp
  | bool b =>
    simp only [encode_tag]
    split_ifs <;> first | exact encSeq_ne_none _ _ (by simp) hv | simp
  | _ => simp [encode_tag]

theorem encode_tag_long_ok (item : PyObj → EncRes) (n : Int) (v : PyObj) (b : List Nat)
    (h : encode_tag item (.long n) v = some (.ok b)) : ∃ bv, item v = some (.ok bv) := by
  simp only [encode_tag] at h
  split_ifs at h
  · obtain ⟨b1, b2, _, h2, _⟩ := encSeq_ok _ _ _ h
    exact ⟨b2, h2⟩
  · simp at h
  · simp at h

theorem encode_tag_bool_ok (item : PyObj → EncRes) (t : Bool) (v : PyObj) (b : List Nat)
    (h : encode_tag item (.bool t) v = some (.ok b)) : ∃ bv, item v = some (.ok bv) := by
  simp only [encode_tag] at h
  split_ifs at h
  all_goals first | (simp at h; done) | skip
  all_goals
    obtain ⟨b1, b2, _, h2, _⟩ := encSeq_ok _ _ _ h
    exact ⟨b2, h2⟩

/-- With `sort_keys` off the encoder comes to an end on every object: a fuel
of the size of the object is enough. -/
theorem encode_terminates (H : Host) (fuel : Nat) :
    ∀ ob : PyObj, sizeOf ob ≤ fuel → encode H { sort_keys := false } fuel ob ≠ Option.none := by
  induction fuel with
  | zero =>
    intro ob h
    cases ob <;> simp at h
  | succ f ih =>
    intro ob h
    cases ob with
    | none => simp [encode]
    | bool b => simp [encode]
    | long n =>
      simp only [encode]
      split_ifs <;> simp
    | float bits => simp [encode]
    | bytes b => simp [encode]
    | unicode u => simp [encode]
    | brokenTag t => simp [encode]
    | other => simp [encode]
    | list xs =>
      simp only [encode]
      refine encSeq_ne_none _ _ (by simp) (encode_items_ne_none _ _ (fun x hx => ih x ?_))
      have := List.sizeOf_lt_of_mem hx
      simp only [PyObj.list.sizeOf_spec] at h
      omega
    | tuple xs =>
      simp only [encode]
      refine encSeq_ne_none _ _ (by simp) (encode_items_ne_none _ _ (fun x hx => ih x ?_))
      have := List.sizeOf_lt_of_mem hx
      simp only [PyObj.tuple.sizeOf_spec] at h
      omega
    | dict kvs =>
      simp only [encode, Bool.false_eq_true, if_false]
      refine encSeq_ne_none _ _ (by simp) (encode_pairs_ne_none _ _ (fun kv hkv => ?_))
      have h1 := List.sizeOf_lt_of_mem hkv
      have h2 : sizeOf kv = 1 + sizeOf kv.1 + sizeOf kv.2 := by
        cases kv
        simp
      simp only [PyObj.dict.sizeOf_spec] at h
      exact ⟨ih _ (by omega), ih _ (by omega)⟩
    | tag t v =>
      simp only [encode]
      simp only [PyObj.tag.sizeOf_spec] at h
      exact encode_tag_ne_none _ t v (ih v (by omega))

theorem encode_items_mem_ok (item : PyObj → EncRes) (xs : List PyObj) (bs : List Nat)
    (h : encode_items item xs = some (.ok bs)) (x : PyObj) (hx : x ∈ xs) :
    ∃ b, item x = some (.ok b) := by
  obtain ⟨items, h1, _, h3⟩ := encode_items_ok item xs bs h
  rw [← h1] at hx
  obtain ⟨p, hp, rfl⟩ := List.mem_map.mp hx
  exact ⟨p.1, h3 p hp⟩

theorem encode_pairs_mem_ok (item : PyObj → EncRes) (kvs : List (PyObj × PyObj))
    (bs : List Nat) (h : encode_pairs item kvs = some (.ok bs)) (kv : PyObj × PyObj)
    (hkv : kv ∈ kvs) : (∃ b, item kv.1 = some (.ok b)) ∧ ∃ b, item kv.2 = some (.ok b) := by
  obtain ⟨pairs, h1, _, h3⟩ := encode_pairs_ok item kvs bs h
  rw [← h1] at hkv
  obtain ⟨p, hp, rfl⟩ := List.mem_map.mp hkv
  exact ⟨⟨p.1.1, (h3 p hp).1⟩, ⟨p.2.1, (h3 p hp).2⟩⟩

/-- With `sort_keys` off the encoder never returns bytes for an object that
holds an unsupported object. -/
theorem encode_unsupported (H : Host) (ob : PyObj) (h : HasUnsupported ob) :
    ∀ (fuel : Nat) (b : List Nat), encode H { sort_keys := false } fuel ob ≠ some (.ok b) := by
  induction h with
  | other =>
    intro fuel b
    cases fuel <;> simp [encode]
  | list xs x hx _ ih =>
    intro fuel b hb
    cases fuel with
    | zero => simp [encode] at hb
    | succ f =>
      simp only [encode] at hb
      obtain ⟨b1, b2, _, h2, _⟩ := encSeq_ok _ _ _ hb
      obtain ⟨bx, hbx⟩ := encode_items_mem_ok _ _ _ h2 x hx
      exact ih f bx hbx
  | tuple xs x hx _ ih =>
    intro fuel b hb
    cases fuel with
    | zero => simp [encode] at hb
    | succ f =>
      simp only [encode] at hb
      obtain ⟨b1, b2, _, h2, _⟩ := encSeq_ok _ _ _ hb
      obtain ⟨bx, hbx⟩ := encode_items_mem_ok _ _ _ h2 x hx
      exact ih f bx hbx
  | key kvs kv hkv _ ih =>
    intro fuel b hb
    cases fuel with
    | zero => simp [encode] at hb
    | succ f =>
      simp only [encode, Bool.false_eq_true, if_false] at hb
      obtain ⟨b1, b2, _, h2, _⟩ := encSeq_ok _ _ _ hb
      obtain ⟨⟨bx, hbx⟩, _⟩ := encode_pairs_mem_ok _ _ _ h2 kv hkv
      exact ih f bx hbx
  | value kvs kv hkv _ ih =>
    intro fuel b hb
    cases fuel with
    | zero => simp [encode] at hb
    | succ f =>
      simp only [encode, Bool.false_eq_true, if_false] at hb
      obtain ⟨b1, b2, _, h2, _⟩ := encSeq_ok _ _ _ hb
      obtain ⟨_, ⟨bx, hbx⟩⟩ := encode_pairs_mem_ok _ _ _ h2 kv hkv
      exact ih f bx hbx
  | tag n v _ ih =>
    intro fuel b hb
    cases fuel with
    | zero => simp [encode] at hb
    | succ f =>
      simp only [encode] at hb
      obtain ⟨bv, hbv⟩ := encode_tag_long_ok _ n v b hb
      exact ih f bv hbv
  | tagBool t v _ ih =>
    intro fuel b hb
    cases fuel with
    | zero => simp [encode] at hb
    | succ f =>
      simp only [encode] at hb
      obtain ⟨bv, hbv⟩ := encode_tag_bool_ok _ t v b hb
      exact ih f bv hbv

/-- With `sort_keys` off, `dumps` of an object that holds an unsupported
object, under `Tag` objects with integer tag numbers only, raises an error and
returns no bytes. -/
theorem dumps_unsupported (H : Host) (ob : PyObj) (h : HasUnsupported ob) (fuel : Nat)
    (hfuel : sizeOf ob ≤ fuel) : ∃ e, cbor_dumps H fuel ob false = some (.error e) := by
  have h1 := encode_unsupported H ob h fuel
  have h2 := encode_terminates H fuel ob hfuel
  rw [cbor_dumps_eq _ _ _ _ (dumps_error_pending_unsorted _ _ _)]
  cases hr : encode H { sort_keys := false } fuel ob with
  | none => exact absurd hr h2
  | some r =>
    cases r with
    | ok b => exact absurd hr (h1 b)
    | error e => exact ⟨e, rfl⟩

/-- Claim C26, at the failing input: the list `[1, Tag("x", object()), 2]`
holds an unsupported object as the value of a `Tag` object whose tag number is
a string.  `dumps` raises no error: it returns the three bytes `83 01 02`, an
array header for three items followed by two items, and `loads` of these bytes
fails.  `dumps` of the `Tag` object alone returns the empty byte string. -/
theorem unsupported_under_tag_accepted :
    cbor_dumps refHost 3 (.list [.long 1, .tag (.unicode [0x78]) .other, .long 2]) false
      = some (.ok (.bytes [0x83, 0x01, 0x02])) ∧
    cbor_loads refHost 3 (.bytes [0x83, 0x01, 0x02]) = some (.error .lookupBufferExhausted) ∧
    cbor_dumps refHost 2 (.tag (.unicode [0x78]) .other) false = some (.ok (.bytes [])) :=
  ⟨rfl, rfl, rfl⟩

/-! ## Truncated arrays and maps -/

/-- The loop of a definite-length array walks over well-formed items, one
iteration each, as long as the counter stays below the count. -/
theorem loads_array_items_steps (item : BufferReader → Nat → Res BufferReader PyObj)
    (items : List (List Nat × PyObj)) (hitems : ∀ p ∈ items, ItemOk item p.1 p.2)
    (aux n : Nat) (rest : List Nat) :
    ∀ (i : Nat), i < 2 ^ 32 → (∀ j, j < items.length → (i + j) % 2 ^ 32 < aux) →
      ∀ (acc : List PyObj) (pre : List Nat),
      ∃ acc2, loads_array_items bufferReader item aux (items.length + n)
          (BufferReader.over pre ((items.map Prod.fst).flatten ++ rest)) i (some acc)
        = loads_array_items bufferReader item aux n
            (BufferReader.over (pre ++ (items.map Prod.fst).flatten) rest)
            ((i + items.length) % 2 ^ 32) (some acc2) := by
  induction items with
  | nil =>
    intro i hi _ acc pre
    refine ⟨acc, ?_⟩
    have e : (i + ([] : List (List Nat × PyObj)).length) % 2 ^ 32 = i := by
      simpa using Nat.mod_eq_of_lt hi
    rw [e]
    simp
  | cons p items ih =>
    intro i hi hlt acc pre
    have hi0 : i < aux := by
      have := hlt 0 (by simp)
      rw [Nat.add_zero, Nat.mod_eq_of_lt hi] at this
      exact this
    obtain ⟨acc2, hrec⟩ := ih (fun q hq => hitems q (by simp [hq])) ((i + 1) % 2 ^ 32)
      (Nat.mod_lt _ (by decide))
      (fun j hj => by
        have := hlt (j + 1) (by simp only [List.length_cons]; omega)
        have e : ((i + 1) % 2 ^ 32 + j) % 2 ^ 32 = (i + (j + 1)) % 2 ^ 32 := by omega
        rw [e]
        exact this)
      (list_set_item acc i p.2) (pre ++ p.1)
    have efuel : (p :: items).length + n = (items.length + n) + 1 := by
      simp only [List.length_cons]
      omega
    have eidx : ((i + 1) % 2 ^ 32 + items.length) % 2 ^ 32
        = (i + (p :: items).length) % 2 ^ 32 := by
      simp only [List.length_cons]
      omega
    refine ⟨acc2, ?_⟩
    rw [efuel, loads_array_items]
    simp only [hi0, if_true, List.map_cons, List.flatten_cons, List.append_assoc]
    rw [inner_loads_of_item item p.1 p.2 (hitems p (by simp)), bind_ok]
    rw [hrec, eidx, List.append_assoc]

/-- The loop of a definite-length map walks over well-formed pairs with keys
that the dictionary accepts, one iteration each, as long as the counter stays
below the count. -/
theorem loads_map_items_steps (H : Host) (item : BufferReader → Nat → Res BufferReader PyObj)
    (pairs : List ((List Nat × PyObj) × (List Nat × PyObj)))
    (hpairs : ∀ p ∈ pairs, ItemOk item p.1.1 p.1.2 ∧ ItemOk item p.2.1 p.2.2)
    (aux n : Nat) (rest : List Nat) :
    ∀ (i : Nat), i < 2 ^ 32 → (∀ j, j < pairs.length → (i + j) % 2 ^ 32 < aux) →
      ∀ (out : List (PyObj × PyObj)) (pre : List Nat),
      dict_accepts H out (pairs.map fun p => (p.1.2, p.2.2)) = true →
      loads_map_items H bufferReader item aux (pairs.length + n)
          (BufferReader.over pre ((pairs.map fun p => p.1.1 ++ p.2.1).flatten ++ rest)) i out
        = loads_map_items H bufferReader item aux n
            (BufferReader.over (pre ++ (pairs.map fun p => p.1.1 ++ p.2.1).flatten) rest)
            ((i + pairs.length) % 2 ^ 32) (dict_of H out (pairs.map fun p => (p.1.2, p.2.2))) := by
  induction pairs with
  | nil =>
    intro i hi _ out pre _
    have e : (i + ([] : List ((List Nat × PyObj) × (List Nat × PyObj))).length) % 2 ^ 32 = i := by
      simpa using Nat.mod_eq_of_lt hi
    rw [e]
    simp [dict_of]
  | cons p pairs ih =>
    intro i hi hlt out pre hacc
    simp only [List.map_cons, dict_accepts, Bool.and_eq_true] at hacc
    have hi0 : i < aux := by
      have := hlt 0 (by simp)
      rw [Nat.add_zero, Nat.mod_eq_of_lt hi] at this
      exact this
    have hrec := ih (fun q hq => hpairs q (by simp [hq])) ((i + 1) % 2 ^ 32)
      (Nat.mod_lt _ (by decide))
      (fun j hj => by
        have := hlt (j + 1) (by simp only [List.length_cons]; omega)
        have e : ((i + 1) % 2 ^ 32 + j) % 2 ^ 32 = (i + (j + 1)) % 2 ^ 32 := by omega
        rw [e]
        exact this)
      (H.dict_set out p.1.2 p.2.2) (pre ++ (p.1.1 ++ p.2.1)) hacc.2
    have efuel : (p :: pairs).length + n = (pairs.length + n) + 1 := by
      simp only [List.length_cons]
      omega
    have eidx : ((i + 1) % 2 ^ 32 + pairs.length) % 2 ^ 32
        = (i + (p :: pairs).length) % 2 ^ 32 := by
      simp only [List.length_cons]
      omega
    rw [efuel, loads_map_items]
    simp only [hi0, if_true, List.map_cons, List.flatten_cons, List.append_assoc]
    have hkv := loads_kv_ok H item p.1.1 p.2.1 p.1.2 p.2.2 (hpairs p (by simp)).1
      (hpairs p (by simp)).2 out hacc.1 pre ((pairs.map fun p => p.1.1 ++ p.2.1).flatten ++ rest)
    simp only [List.append_assoc] at hkv
    rw [hkv, bind_ok, hrec, eidx]
    simp [dict_of]

theorem index_below (aux k : Nat) (hk : k < aux) : (0 + k) % 2 ^ 32 < aux := by
  have := Nat.mod_lt k (by decide : 0 < 2 ^ 32)
  have := Nat.mod_le k (2 ^ 32)
  omega

/-- A definite-length array header that carries a count below `2 ^ 60`,
followed by fewer well-formed items than the count and then the end of the
buffer: the decoding fails with the error of the exhausted buffer. -/
theorem truncated_array (H : Host) (fuel aux : Nat) (h : List Nat)
    (hh : IsHeader CBOR_ARRAY aux h) (items : List (List Nat × PyObj))
    (hitems : ∀ p ∈ items, ItemOk (inner_loads_c H bufferReader fuel) p.1 p.2)
    (hk : items.length < aux) (h60 : aux < 2 ^ 60) (hfuel : items.length ≤ fuel)
    (pre : List Nat) :
    inner_loads H bufferReader (fuel + 1)
        (BufferReader.over pre (h ++ (items.map Prod.fst).flatten))
      = .fail .lookupBufferExhausted
          (BufferReader.over (pre ++ (h ++ (items.map Prod.fst).flatten)) []) := by
  obtain ⟨c, tail, rfl, hT, hI, hd⟩ := hh
  have hne : ¬ (c &&& CBOR_INFO_BITS = CBOR_VAR_FOLLOWS) := by
    simp only [CBOR_VAR_FOLLOWS]; omega
  have halloc : (0 ≤ toSsize aux ∧ toSsize aux ≤ (2 ^ 63 - 1) / 8) := by
    rw [toSsize_of_lt _ (by omega)]
    omega
  have hd2 := hd pre ((items.map Prod.fst).flatten ++ [])
  rw [inner_loads, List.cons_append, inner_loads_of_over,
    inner_loads_c_array H _ fuel _ _ hT]
  rw [← List.append_nil (tail ++ (items.map Prod.fst).flatten), List.append_assoc, hd2, bind_ok,
    if_neg hne, if_pos halloc]
  obtain ⟨n, hn⟩ : ∃ n, fuel + 1 = items.length + (n + 1) := ⟨fuel - items.length, by omega⟩
  obtain ⟨acc2, hw⟩ := loads_array_items_steps (inner_loads_c H bufferReader fuel) items hitems
    aux (n + 1) [] 0 (by decide) (fun j hj => index_below aux j (by omega)) [] (pre ++ c :: tail)
  rw [hn, hw, loads_array_items, if_pos (index_below aux _ hk), inner_loads_of,
    bufferReader_read1, read1_over_nil]
  simp [Res.bind]

/-- A definite-length map header, followed by fewer well-formed pairs than its
count, with keys that the dictionary accepts, and then the end of the buffer:
the decoding fails with the error of the exhausted buffer. -/
theorem truncated_map (H : Host) (fuel aux : Nat) (h : List Nat)
    (hh : IsHeader CBOR_MAP aux h)
    (pairs : List ((List Nat × PyObj) × (List Nat × PyObj)))
    (hpairs : ∀ p ∈ pairs, ItemOk (inner_loads_c H bufferReader fuel) p.1.1 p.1.2 ∧
      ItemOk (inner_loads_c H bufferReader fuel) p.2.1 p.2.2)
    (hacc : dict_accepts H [] (pairs.map fun p => (p.1.2, p.2.2)) = true)
    (hk : pairs.length < aux) (hfuel : pairs.length ≤ fuel) (pre : List Nat) :
    inner_loads H bufferReader (fuel + 1)
        (BufferReader.over pre (h ++ (pairs.map fun p => p.1.1 ++ p.2.1).flatten))
      = .fail .lookupBufferExhausted
          (BufferReader.over (pre ++ (h ++ (pairs.map fun p => p.1.1 ++ p.2.1).flatten)) []) := by
  obtain ⟨c, tail, rfl, hT, hI, hd⟩ := hh
  have hne : ¬ (c &&& CBOR_INFO_BITS = CBOR_VAR_FOLLOWS) := by
    simp only [CBOR_VAR_FOLLOWS]; omega
  have hd2 := hd pre ((pairs.map fun p => p.1.1 ++ p.2.1).flatten ++ [])
  rw [inner_loads, List.cons_append, inner_loads_of_over,
    inner_loads_c_map H _ fuel _ _ hT]
  rw [← List.append_nil (tail ++ (pairs.map fun p => p.1.1 ++ p.2.1).flatten), List.append_assoc,
    hd2, bind_ok, if_neg hne]
  obtain ⟨n, hn⟩ : ∃ n, fuel + 1 = pairs.length + (n + 1) := ⟨fuel - pairs.length, by omega⟩
  have hw := loads_map_items_steps H (inner_loads_c H bufferReader fuel) pairs hpairs
    aux (n + 1) [] 0 (by decide) (fun j hj => index_below aux j (by omega)) [] (pre ++ c :: tail)
    hacc
  rw [hn, hw, loads_map_items, if_pos (index_below aux _ hk), loads_kv, inner_loads_of,
    bufferReader_read1, read1_over_nil]
  simp [Res.bind]

/-- Claim C27, at the failing input: the header `9B 10 00 00 00 00 00 00 00`
of a definite-length array of `2 ^ 60` items followed by the single item `00`.
`PyList_New` returns NULL for this size, the first item is decoded, and
`PyList_SetItem` is called on the NULL list: the decoding does not end with a
read error.  (The buffer that holds only the map header `A2` does fail with
the error of the exhausted buffer.) -/
theorem truncated_array_null_list :
    cbor_loads refHost 2 (.bytes [0x9B, 0x10, 0x00, 0x00, 0x00, 0x00, 0x00, 0x00, 0x00, 0x00])
      = some (.error .undefinedBehaviour) ∧
    cbor_loads refHost 1 (.bytes [0xA2]) = some (.error .lookupBufferExhausted) :=
  ⟨rfl, rfl⟩

/-! ## Sorted keys and the insertion order -/

theorem encode_items_congr (item : PyObj → EncRes) :
    ∀ (xs ys : List PyObj), xs.length = ys.length →
      (∀ p ∈ xs.zip ys, item p.1 = item p.2) → encode_items item xs = encode_items item ys := by
  intro xs
  induction xs with
  | nil =>
    intro ys hl _
    cases ys with
    | nil => rfl
    | cons y ys => simp at hl
  | cons x xs ih =>
    intro ys hl h
    cases ys with
    | nil => simp at hl
    | cons y ys =>
      have h1 := h (x, y) (by simp)
      simp only at h1
      simp only [encode_items, h1,
        ih ys (by simpa using hl) (fun p hp => h p (by simp [hp]))]

theorem encode_sorted_congr (H : Host) (item : PyObj → EncRes)
    (kvs1 kvs2 : List (PyObj × PyObj)) (f g : PyObj → PyObj) (keys : List PyObj)
    (hf : ∀ k ∈ keys, H.dict_get kvs1 k = some (f k))
    (hg : ∀ k ∈ keys, H.dict_get kvs2 k = some (g k))
    (h : ∀ k ∈ keys, item (f k) = item (g k)) :
    encode_sorted H item kvs1 keys = encode_sorted H item kvs2 keys := by
  induction keys with
  | nil => rfl
  | cons k keys ih =>
    simp only [encode_sorted, hf k (by simp), hg k (by simp), h k (by simp),
      ih (fun q hq => hf q (by simp [hq])) (fun q hq => hg q (by simp [hq]))
        (fun q hq => h q (by simp [hq]))]

/-- Claim C24, counterexample: the dictionaries `{1.0: 0, nan: 1}` and
`{nan: 1, 1.0: 0}` hold the same two items.  No key is less than the other, so
the list sort leaves each key list as it is, and with `sort_keys` on the two
dictionaries are written in their insertion orders, as different bytes. -/
theorem nan_key_keeps_insertion_order :
    refHost.list_sort [.float 0x3FF0000000000000, .float 0x7FF8000000000000]
      = [.float 0x3FF0000000000000, .float 0x7FF8000000000000] ∧
    refHost.list_sort [.float 0x7FF8000000000000, .float 0x3FF0000000000000]
      = [.float 0x7FF8000000000000, .float 0x3FF0000000000000] ∧
    cbor_dumps refHost 2
        (.dict [(.float 0x3FF0000000000000, .long 0), (.float 0x7FF8000000000000, .long 1)]) true
      = some (.ok (.bytes [0xA2, 0xFB, 0x3F, 0xF0, 0, 0, 0, 0, 0, 0, 0x00,
          0xFB, 0x7F, 0xF8, 0, 0, 0, 0, 0, 0, 0x01])) ∧
    cbor_dumps refHost 2
        (.dict [(.float 0x7FF8000000000000, .long 1), (.float 0x3FF0000000000000, .long 0)]) true
      = some (.ok (.bytes [0xA2, 0xFB, 0x7F, 0xF8, 0, 0, 0, 0, 0, 0, 0x01,
          0xFB, 0x3F, 0xF0, 0, 0, 0, 0, 0, 0, 0x00])) :=
  ⟨rfl, rfl, rfl, rfl⟩

/-! ## Stream readers -/

theorem bytesStream_read_eof (n : Int) (hn : 0 ≤ n) :
    bytesStream.read [] n = (.bytes [], []) := by
  simp [bytesStream, not_lt.mpr hn]

theorem bytesStream_read_short (s : List Nat) (n : Int) (hn : (s.length : Int) ≤ n) :
    bytesStream.read s n = (.bytes s, []) := by
  have h0 : ¬ n < 0 := by omega
  have h1 : s.length ≤ n.toNat := by omega
  simp [bytesStream, h0, List.take_of_length_le h1, List.drop_of_length_le h1]

/-- At the end of the input the loop of `ObjectReader_read` calls `read` again
and again: no fuel is enough. -/
theorem objectReader_loop_at_eof (len : Int) (fuel : Nat) :
    ∀ (thiz : ObjectReader (List Nat)) (rtotal : Int) (dst : Option (List Nat)),
      thiz.ob = [] → 0 ≤ rtotal → rtotal < len →
      ObjectReader_read_loop bytesStream len fuel thiz rtotal dst = .timeout := by
  induction fuel with
  | zero =>
    intro thiz rtotal dst _ _ hlt
    unfold ObjectReader_read_loop
    simp [hlt]
  | succ n ih =>
    intro thiz rtotal dst hob h0 hlt
    unfold ObjectReader_read_loop
    rw [if_pos hlt, hob, bytesStream_read_eof _ (by omega)]
    have h1 : ¬ ((([] : List Nat).length : Int) > len - rtotal) := by simp; omega
    have h2 : ¬ ((([] : List Nat).length : Int) = len) := by simp; omega
    simp only [if_neg h1, if_neg h2]
    exact ih _ _ _ rfl (by simpa using h0) (by simpa using hlt)

/-- A request for more bytes than the stream holds never comes back. -/
theorem objectReader_read_short (s : List Nat) (len : Int) (hlen : (s.length : Int) < len)
    (fuel : Nat) (thiz : ObjectReader (List Nat)) (hob : thiz.ob = s) :
    ObjectReader_read bytesStream fuel thiz len = .timeout := by
  unfold ObjectReader_read
  cases fuel with
  | zero =>
    unfold ObjectReader_read_loop
    have : (0 : Int) < len := by omega
    simp [this]
  | succ n =>
    unfold ObjectReader_read_loop
    have hpos : (0 : Int) < len := by omega
    rw [if_pos hpos, hob, sub_zero, bytesStream_read_short s len (by omega)]
    have h1 : ¬ ((s.length : Int) > len - 0) := by omega
    have h2 : ¬ ((s.length : Int) = len) := by omega
    simp only [sub_zero] at h1
    simp only [if_neg h1, if_neg h2]
    exact objectReader_loop_at_eof len n _ _ _ rfl (by omega) (by omega)

/-- A request that the stream can satisfy returns the bytes asked for. -/
theorem objectReader_read_full (s rest : List Nat) (hs : s ≠ []) (fuel : Nat)
    (thiz : ObjectReader (List Nat)) (hob : thiz.ob = s ++ rest) :
    ObjectReader_read bytesStream (fuel + 1) thiz s.length
      = .ok s { thiz with ob := rest, read_count := thiz.read_count + s.length } := by
  unfold ObjectReader_read ObjectReader_read_loop
  have hpos : (0 : Int) < s.length := by
    cases s with
    | nil => exact absurd rfl hs
    | cons a t => simp
  have hr : bytesStream.read (s ++ rest) (s.length : Int) = (.bytes s, rest) := by
    have h0 : ¬ ((s.length : Int) < 0) := by omega
    simp [bytesStream, h0]
  rw [if_pos hpos, hob, sub_zero, hr]
  simp

theorem fileReader_read_new (fin : List Nat) (len : Int) (hlen : 0 < len) (fuel : Nat) :
    FileReader_read fuel (NewFileReader fin) len
      = FileReader_read_loop fuel
          { fin := fin, dst := true, dst_size := len, read_count := 0 } len 0 [] := by
  simp [FileReader_read, NewFileReader, hlen]

theorem fileReader_loop_eof (n : Nat) (thiz : FileReader) (len rtotal : Int) (buf : List Nat)
    (hf : thiz.fin = []) :
    FileReader_read_loop (n + 1) thiz len rtotal buf
      = .fail .valueFileShort { thiz with dst := false, dst_size := 0 } := by
  simp [FileReader_read_loop, fread, hf]

theorem fileReader_loop_step (n : Nat) (thiz : FileReader) (len rtotal : Int)
    (buf got rest : List Nat) (hf : fread thiz.fin len = (got, rest)) (hgot : got ≠ [])
    (hd : thiz.dst = true) (hroom : rtotal + got.length ≤ thiz.dst_size) :
    FileReader_read_loop (n + 1) thiz len rtotal buf
      = if rtotal + got.length ≥ len - got.length then
          .ok (buf ++ got)
            { thiz with fin := rest, read_count := thiz.read_count + got.length }
        else
          FileReader_read_loop n
            { thiz with fin := rest, read_count := thiz.read_count + got.length }
            (len - got.length) (rtotal + got.length) (buf ++ got) := by
  have h0 : ¬ ((got.length : Int) = 0) := by
    cases got with
    | nil => exact absurd rfl hgot
    | cons a t => simp; omega
  have h1 : ¬ (thiz.dst = false ∨ rtotal + (got.length : Int) > thiz.dst_size) := by
    simp [hd]; omega
  have h2 : ¬ (thiz.dst = false) := by simp [hd]
  rw [FileReader_read_loop]
  simp only [hf, if_neg h0, if_neg h1, if_neg h2]

/-- Function `FileReader_read` on a fresh reader, by the number of bytes left
in the file: all `len` bytes when the file holds them; an error when it holds
less than half of them; and otherwise the bytes of the file, fewer than
`len`, returned as if the read was complete. -/
theorem fileReader_read_cases (fin : List Nat) (len : Nat) (hlen : 0 < len)
    (hsz : len < 2 ^ 63) (fuel : Nat) :
    (len ≤ fin.length →
      FileReader_read (fuel + 2) (NewFileReader fin) len
        = .ok (fin.take len)
            { fin := fin.drop len, dst := true, dst_size := len, read_count := len }) ∧
    (fin.length < len → len ≤ 2 * fin.length →
      FileReader_read (fuel + 2) (NewFileReader fin) len
        = .ok fin { fin := [], dst := true, dst_size := len, read_count := fin.length }) ∧
    (2 * fin.length < len →
      FileReader_read (fuel + 2) (NewFileReader fin) len
        = .fail .valueFileShort
            { fin := [], dst := false, dst_size := 0, read_count := fin.length }) := by
  have hmod : ((len : Int) % 2 ^ 64).toNat = len := by
    have : (len : Int) % 2 ^ 64 = len := Int.emod_eq_of_lt (by omega) (by omega)
    rw [this]; simp
  have hf : ∀ rc : Int, fread ({ fin := fin, dst := true, dst_size := len, read_count := rc } :
      FileReader).fin len = (fin.take len, fin.drop len) := by
    intro rc; simp only [fread, hmod]
  rw [fileReader_read_new fin len (by omega) (fuel + 2)]
  refine ⟨fun h => ?_, fun h1 h2 => ?_, fun h => ?_⟩
  · have hl : (fin.take len).length = len := by simp; omega
    have hne : fin.take len ≠ [] := by
      intro e; rw [e] at hl; simp at hl; omega
    rw [fileReader_loop_step _ _ _ _ _ _ _ (hf 0) hne rfl (by simp [hl])]
    simp [hl]
  · have ht : fin.take len = fin := List.take_of_length_le (by omega)
    have hd : fin.drop len = [] := List.drop_of_length_le (by omega)
    have hne : fin ≠ [] := by
      intro e; rw [e] at h1 h2; simp at h2; omega
    have hf2 := hf 0
    rw [ht, hd] at hf2
    rw [fileReader_loop_step _ _ _ _ _ _ _ hf2 hne rfl (by simp; omega)]
    have : (0 : Int) + fin.length ≥ len - fin.length := by omega
    rw [if_pos this]
    simp
  · have ht : fin.take len = fin := List.take_of_length_le (by omega)
    have hd : fin.drop len = [] := List.drop_of_length_le (by omega)
    by_cases hz : fin = []
    · subst hz
      rw [fileReader_loop_eof _ _ _ _ _ rfl]
      simp
    · have hf2 := hf 0
      rw [ht, hd] at hf2
      rw [fileReader_loop_step _ _ _ _ _ _ _ hf2 hz rfl (by simp; omega)]
      have : ¬ ((0 : Int) + fin.length ≥ len - fin.length) := by omega
      rw [if_neg this, fileReader_loop_eof _ _ _ _ _ rfl]
      simp

theorem objectReader_read1_byte (b : Nat) (s : List Nat) (thiz : ObjectReader (List Nat))
    (hob : thiz.ob = b :: s) :
    ObjectReader_read1 bytesStream thiz
      = .ok b { thiz with ob := s, read_count := thiz.read_count + 1 } := by
  simp [ObjectReader_read1, bytesStream, hob]

theorem objectReader_read1_eof (thiz : ObjectReader (List Nat)) (hob : thiz.ob = []) :
    ObjectReader_read1 bytesStream thiz = .fail .valueGotNothing1 thiz := by
  cases thiz with
  | mk ob rc ext =>
    simp only at hob
    subst hob
    simp [ObjectReader_read1, bytesStream]

/-- A stream at its end before the first byte: `cbor_load` raises `EOFError`. -/
theorem cbor_load_empty (H : Host) (fuel : Nat) :
    cbor_load H bytesStream fuel [] = some (.error .eofReadNothing) := by
  have h1 : ObjectReader_read1 bytesStream (NewObjectReader [])
      = .fail .valueGotNothing1 (NewObjectReader []) := objectReader_read1_eof _ rfl
  simp only [cbor_load, inner_loads, inner_loads_of, objectReader, h1, Res.bind]
  simp [NewObjectReader]

/-- A stream that ends inside the payload of a byte string: `cbor_load` does
not return. -/
theorem cbor_load_truncated_bytes (H : Host) (fuel : Nat) :
    cbor_load H bytesStream fuel [0x42, 0x01] = Option.none := by
  have h1 : ObjectReader_read1 bytesStream (NewObjectReader [0x42, 0x01])
      = .ok 0x42 ⟨[0x01], 1, false⟩ := rfl
  cases fuel with
  | zero =>
    simp only [cbor_load, inner_loads, inner_loads_of, objectReader, h1, Res.bind, inner_loads_c]
  | succ n =>
    have h2 := inner_loads_c_bytes H (objectReader bytesStream (n + 1)) n
      (⟨[0x01], 1, false⟩ : ObjectReader (List Nat)) 0x42 (by decide)
    have h3 : (0x42 &&& CBOR_INFO_BITS) = 2 := by decide
    have h4 := objectReader_read_short [0x01] 2 (by decide) (n + 1)
      (⟨[0x01], 1, false⟩ : ObjectReader (List Nat)) rfl
    have h5 : toSsize 2 = 2 := by decide
    have h6 : handle_info_bits (objectReader bytesStream (n + 1))
        (⟨[0x01], 1, false⟩ : ObjectReader (List Nat)) 2 = .ok 2 ⟨[0x01], 1, false⟩ := by
      simp [handle_info_bits]
    have h7 : (objectReader bytesStream (n + 1)).read
        (⟨[0x01], 1, false⟩ : ObjectReader (List Nat)) 2 = .timeout := h4
    rw [h3, h6] at h2
    simp only [Res.bind, CBOR_VAR_FOLLOWS, h5, h7] at h2
    simp only [Nat.reduceEqDiff, if_false] at h2
    have h8 : (objectReader bytesStream (n + 1)).read1 (NewObjectReader [0x42, 0x01])
        = .ok 0x42 ⟨[0x01], 1, false⟩ := h1
    simp only [cbor_load, inner_loads, inner_loads_of, h8, Res.bind, h2]

/-- Claim C29, failing input: on a file with six bytes left, `FileReader_read`
asked for ten bytes returns the buffer after the first `fread`, with six bytes
read into it: the test `rtotal >= len` compares the bytes read with the bytes
still missing (`6 >= 4`).  With four bytes left the same request fails. -/
theorem fileReader_short_buffer :
    FileReader_read 2 (NewFileReader [1, 2, 3, 4, 5, 6]) 10
      = .ok [1, 2, 3, 4, 5, 6] { fin := [], dst := true, dst_size := 10, read_count := 6 } ∧
    FileReader_read 2 (NewFileReader [1, 2, 3, 4]) 10
      = .fail .valueFileShort { fin := [], dst := false, dst_size := 0, read_count := 4 } :=
  ⟨(fileReader_read_cases [1, 2, 3, 4, 5, 6] 10 (by decide) (by decide) 0).2.1
      (by decide) (by decide),
    (fileReader_read_cases [1, 2, 3, 4] 10 (by decide) (by decide) 0).2.2 (by decide)⟩

/-- Claim C30, failing input: on a stream over the bytes `s`, a call of
`ObjectReader_read` for more bytes than `s` holds gets the empty byte string
from `read` at the end of the input and calls `read` again, without end: the
model runs out of fuel whatever the fuel is. -/
theorem objectReader_read_never_ends (s : List Nat) (k fuel : Nat) :
    ObjectReader_read bytesStream fuel (NewObjectReader s) ((s.length : Int) + 1 + k)
      = .timeout :=
  objectReader_read_short s _ (by omega) fuel _ rfl

/-! ## Invariants of a decoding run -/

theorem keeps_after {σ α : Type} {P : σ → Prop} {Q : PyErr → Prop} {r : Res σ α} (e : PyErr)
    (he : Q e) (hr : Keeps P Q r) : Keeps P Q (r.after e) := by
  match r, hr with
  | .ok a s, hr => exact ⟨hr, he⟩
  | .fail e2 s, hr =>
    refine ⟨hr.1, ?_⟩
    by_cases h : e2 = .systemNullNoError
    · rw [if_pos h]
      exact he
    · rw [if_neg h]
      exact hr.2
  | .timeout, _ => trivial
  | .pending e2 a s, hr => exact hr

theorem keeps_bind {σ α β : Type} {P : σ → Prop} {Q : PyErr → Prop} {r : Res σ α}
    {f : α → σ → Res σ β} (hr : Keeps P Q r) (hf : ∀ a s, P s → Keeps P Q (f a s)) :
    Keeps P Q (r.bind f) := by
  match r, hr with
  | .ok a s, hr => exact hf a s hr
  | .fail e s, hr => exact hr
  | .timeout, _ => trivial
  | .pending e a s, hr => exact keeps_after e hr.2 (hf a s hr.1)

theorem keeps_ok {σ α : Type} {P : σ → Prop} {Q : PyErr → Prop} (a : α) (s : σ) (h : P s) :
    Keeps P Q (.ok a s : Res σ α) := h

theorem keeps_fail {σ α : Type} {P : σ → Prop} {Q : PyErr → Prop} (e : PyErr) (s : σ)
    (h : P s) (hQ : ∀ e ∈ decoderErrors, Q e) (he : e ∈ decoderErrors) :
    Keeps P Q (.fail e s : Res σ α) := ⟨h, hQ e he⟩

theorem keeps_handle_info_bits {σ : Type} (R : Reader σ) (P : σ → Prop) (Q : PyErr → Prop)
    (h1 : ∀ s, P s → Keeps P Q (R.read1 s)) (hn : ∀ s n, P s → Keeps P Q (R.read s n))
    (rin : σ) (info : Nat) (h : P rin) : Keeps P Q (handle_info_bits R rin info) := by
  rw [handle_info_bits_bind]
  split_ifs
  · exact keeps_ok _ _ h
  · exact keeps_bind (h1 rin h) (fun a s hs => keeps_ok _ _ hs)
  · exact keeps_bind (h1 rin h)
      (fun a s hs => keeps_bind (h1 s hs) (fun a2 s2 hs2 => keeps_ok _ _ hs2))
  · exact keeps_bind (hn rin 4 h) (fun a s hs => keeps_ok _ _ hs)
  · exact keeps_bind (hn rin 8 h) (fun a s hs => keeps_ok _ _ hs)
  · exact keeps_ok _ _ h

theorem keeps_inner_loads_of {σ : Type} (R : Reader σ) (P : σ → Prop) (Q : PyErr → Prop)
    (h1 : ∀ s, P s → Keeps P Q (R.read1 s))
    (item : σ → Nat → Res σ PyObj) (hitem : ∀ s c, P s → Keeps P Q (item s c))
    (rin : σ) (h : P rin) : Keeps P Q (inner_loads_of R item rin) :=
  keeps_bind (h1 rin h) (fun c s hs => hitem s c hs)

theorem keeps_loads_var_bytes {σ : Type} (R : Reader σ) (P : σ → Prop) (Q : PyErr → Prop)
    (hQ : ∀ e ∈ decoderErrors, Q e)
    (h1 : ∀ s, P s → Keeps P Q (R.read1 s)) (hn : ∀ s n, P s → Keeps P Q (R.read s n))
    (n : Nat) : ∀ (rin : σ) (sc : Nat) (parts : List (List Nat)), P rin →
      Keeps P Q (loads_var_bytes R n rin sc parts) := by
  induction n with
  | zero => intro rin sc parts _; trivial
  | succ n ih =>
    intro rin sc parts h
    rw [loads_var_bytes]
    dsimp only
    split_ifs
    · exact keeps_fail _ _ h hQ (by decide)
    · refine keeps_bind (keeps_handle_info_bits R P Q h1 hn rin _ h) (fun saux s hs => ?_)
      refine keeps_bind (hn s _ hs) (fun blob s2 hs2 => ?_)
      split_ifs
      · exact keeps_fail _ _ hs2 hQ (by decide)
      · exact keeps_bind (h1 s2 hs2) (fun sc2 s3 hs3 => ih s3 sc2 _ hs3)
    · exact keeps_ok _ _ h

theorem keeps_loads_var_items {σ : Type} (R : Reader σ) (P : σ → Prop) (Q : PyErr → Prop)
    (h1 : ∀ s, P s → Keeps P Q (R.read1 s))
    (item : σ → Nat → Res σ PyObj) (hitem : ∀ s c, P s → Keeps P Q (item s c))
    (n : Nat) : ∀ (rin : σ) (sc : Nat) (parts : List PyObj), P rin →
      Keeps P Q (loads_var_items R item n rin sc parts) := by
  induction n with
  | zero => intro rin sc parts _; trivial
  | succ n ih =>
    intro rin sc parts h
    rw [loads_var_items]
    split_ifs
    · refine keeps_bind (hitem rin sc h) (fun v s hs => ?_)
      exact keeps_bind (h1 s hs) (fun sc2 s2 hs2 => ih s2 sc2 _ hs2)
    · exact keeps_ok _ _ h

theorem keeps_loads_array_items {σ : Type} (R : Reader σ) (P : σ → Prop) (Q : PyErr → Prop)
    (hQ : ∀ e ∈ decoderErrors, Q e)
    (h1 : ∀ s, P s → Keeps P Q (R.read1 s))
    (item : σ → Nat → Res σ PyObj) (hitem : ∀ s c, P s → Keeps P Q (item s c))
    (aux n : Nat) : ∀ (rin : σ) (i : Nat) (out : Option (List PyObj)), P rin →
      Keeps P Q (loads_array_items R item aux n rin i out) := by
  induction n with
  | zero => intro rin i out _; trivial
  | succ n ih =>
    intro rin i out h
    simp only [loads_array_items]
    split_ifs
    · refine keeps_bind (keeps_inner_loads_of R P Q h1 item hitem rin h) (fun v s hs => ?_)
      cases out with
      | none => exact keeps_fail _ _ hs hQ (by decide)
      | some l => exact ih s _ _ hs
    · cases out with
      | none => exact keeps_fail _ _ h hQ (by decide)
      | some l => exact keeps_ok _ _ h

theorem keeps_dict_set_item {σ : Type} (H : Host) (P : σ → Prop) (Q : PyErr → Prop)
    (hQ : ∀ e ∈ decoderErrors, Q e) (out : List (PyObj × PyObj)) (k v : PyObj) (rin : σ)
    (h : P rin) : Keeps P Q (dict_set_item H out k v rin) := by
  unfold dict_set_item
  split_ifs
  · exact h
  · exact ⟨h, hQ _ (by decide)⟩

theorem keeps_loads_kv {σ : Type} (H : Host) (R : Reader σ) (P : σ → Prop) (Q : PyErr → Prop)
    (hQ : ∀ e ∈ decoderErrors, Q e)
    (h1 : ∀ s, P s → Keeps P Q (R.read1 s))
    (item : σ → Nat → Res σ PyObj) (hitem : ∀ s c, P s → Keeps P Q (item s c))
    (out : List (PyObj × PyObj)) (rin : σ) (h : P rin) :
    Keeps P Q (loads_kv H R item out rin) := by
  unfold loads_kv
  refine keeps_bind (keeps_inner_loads_of R P Q h1 item hitem rin h) (fun k s hs => ?_)
  refine keeps_bind (keeps_inner_loads_of R P Q h1 item hitem s hs) (fun v s2 hs2 => ?_)
  exact keeps_dict_set_item H P Q hQ _ _ _ _ hs2

theorem keeps_loads_map_items {σ : Type} (H : Host) (R : Reader σ) (P : σ → Prop)
    (Q : PyErr → Prop) (hQ : ∀ e ∈ decoderErrors, Q e)
    (h1 : ∀ s, P s → Keeps P Q (R.read1 s))
    (item : σ → Nat → Res σ PyObj) (hitem : ∀ s c, P s → Keeps P Q (item s c))
    (aux n : Nat) : ∀ (rin : σ) (i : Nat) (out : List (PyObj × PyObj)), P rin →
      Keeps P Q (loads_map_items H R item aux n rin i out) := by
  induction n with
  | zero => intro rin i out _; trivial
  | succ n ih =>
    intro rin i out h
    rw [loads_map_items]
    split_ifs
    · exact keeps_bind (keeps_loads_kv H R P Q hQ h1 item hitem out rin h)
        (fun out2 s hs => ih s _ _ hs)
    · exact keeps_ok _ _ h

theorem keeps_loads_var_map {σ : Type} (H : Host) (R : Reader σ) (P : σ → Prop)
    (Q : PyErr → Prop) (hQ : ∀ e ∈ decoderErrors, Q e)
    (h1 : ∀ s, P s → Keeps P Q (R.read1 s))
    (item : σ → Nat → Res σ PyObj) (hitem : ∀ s c, P s → Keeps P Q (item s c))
    (n : Nat) : ∀ (rin : σ) (sc : Nat) (out : List (PyObj × PyObj)), P rin →
      Keeps P Q (loads_var_map H R item n rin sc out) := by
  induction n with
  | zero => intro rin sc out _; trivial
  | succ n ih =>
    intro rin sc out h
    rw [loads_var_map]
    split_ifs
    · refine keeps_bind (hitem rin sc h) (fun k s hs => ?_)
      refine keeps_bind (keeps_inner_loads_of R P Q h1 item hitem s hs) (fun v s2 hs2 => ?_)
      refine keeps_bind (keeps_dict_set_item H P Q hQ _ _ _ _ hs2) (fun out2 s3 hs3 => ?_)
      exact keeps_bind (h1 s3 hs3) (fun sc2 s4 hs4 => ih s4 sc2 _ hs4)
    · exact keeps_ok _ _ h

theorem keeps_loads_bignum_loop {σ : Type} (R : Reader σ) (P : σ → Prop) (Q : PyErr → Prop)
    (h1 : ∀ s, P s → Keeps P Q (R.read1 s)) (k : Nat) :
    ∀ (rin : σ) (out : Nat), P rin → Keeps P Q (loads_bignum_loop R k rin out) := by
  induction k with
  | zero => intro rin out h; exact keeps_ok _ _ h
  | succ k ih =>
    intro rin out h
    rw [loads_bignum_loop]
    exact keeps_bind (h1 rin h) (fun cb s hs => ih s _ hs)

theorem keeps_loads_bignum {σ : Type} (R : Reader σ) (P : σ → Prop) (Q : PyErr → Prop)
    (hQ : ∀ e ∈ decoderErrors, Q e) (h1 : ∀ s, P s → Keeps P Q (R.read1 s))
    (rin : σ) (c : Nat) (h : P rin) : Keeps P Q (loads_bignum R rin c) := by
  unfold loads_bignum
  dsimp only
  split_ifs
  · exact keeps_loads_bignum_loop R P Q h1 _ rin _ h
  · exact keeps_fail _ _ h hQ (by decide)

theorem keeps_loads_tag {σ : Type} (R : Reader σ) (P : σ → Prop) (Q : PyErr → Prop)
    (hQ : ∀ e ∈ decoderErrors, Q e) (h1 : ∀ s, P s → Keeps P Q (R.read1 s))
    (item : σ → Nat → Res σ PyObj) (hitem : ∀ s c, P s → Keeps P Q (item s c))
    (rin : σ) (aux : Nat) (h : P rin) : Keeps P Q (loads_tag R item rin aux) := by
  unfold loads_tag
  split_ifs
  · refine keeps_bind (h1 rin h) (fun sc s hs => ?_)
    split_ifs
    · exact keeps_loads_bignum R P Q hQ h1 s sc hs
    · exact keeps_fail _ _ hs hQ (by decide)
  · refine keeps_bind (h1 rin h) (fun sc s hs => ?_)
    split_ifs
    · refine keeps_bind (keeps_loads_bignum R P Q hQ h1 s sc hs) (fun out s2 hs2 => ?_)
      cases out <;> first | exact keeps_ok _ _ hs2 | exact keeps_fail _ _ hs2 hQ (by decide)
    · exact keeps_fail _ _ hs hQ (by decide)
  · exact keeps_bind (keeps_inner_loads_of R P Q h1 item hitem rin h)
      (fun out s hs => keeps_ok _ _ hs)

theorem keeps_read_guard {σ β : Type} (R : Reader σ) (P : σ → Prop) (Q : PyErr → Prop)
    (hQ : ∀ e ∈ decoderErrors, Q e) (hn : ∀ s n, P s → Keeps P Q (R.read s n))
    (rin : σ) (n : Int) (e : PyErr) (he : e ∈ decoderErrors)
    (k : List Nat → σ → Res σ β) (hk : ∀ raw s, P s → Keeps P Q (k raw s)) (h : P rin) :
    Keeps P Q ((R.read rin n).bind fun raw rin => if n < 0 then .fail e rin else k raw rin) := by
  refine keeps_bind (hn rin n h) (fun raw s hs => ?_)
  split_ifs
  · exact keeps_fail _ _ hs hQ he
  · exact hk raw s hs

/-- A property of the reader state that every call of the reader keeps holds
in the state in which the decoder ends, and the exception of a failed run is
one of the reader or one of `decoderErrors`. -/
theorem keeps_inner_loads_c {σ : Type} (H : Host) (R : Reader σ) (P : σ → Prop)
    (Q : PyErr → Prop) (hQ : ∀ e ∈ decoderErrors, Q e)
    (h1 : ∀ s, P s → Keeps P Q (R.read1 s)) (hn : ∀ s n, P s → Keeps P Q (R.read s n))
    (fuel : Nat) : ∀ (rin : σ) (c : Nat), P rin → Keeps P Q (inner_loads_c H R fuel rin c) := by
  induction fuel with
  | zero => intro rin c _; trivial
  | succ f ih =>
    intro rin c h
    have hib := fun s info hs => keeps_handle_info_bits R P Q h1 hn s info hs
    rcases major_type_cases_all c with hT | hT | hT | hT | hT | hT | hT | hT
    · rw [inner_loads_c_uint H _ f _ c hT]
      exact keeps_bind (hib rin _ h) (fun aux s hs => keeps_ok _ _ hs)
    · rw [inner_loads_c_negint H _ f _ c hT]
      refine keeps_bind (hib rin _ h) (fun aux s hs => ?_)
      split_ifs <;> exact keeps_ok _ _ hs
    · rw [inner_loads_c_bytes H _ f _ c hT]
      refine keeps_bind (hib rin _ h) (fun aux s hs => ?_)
      by_cases hv : c &&& CBOR_INFO_BITS = CBOR_VAR_FOLLOWS
      · simp only [if_pos hv]
        exact keeps_bind (h1 s hs)
          (fun sc s2 hs2 => keeps_loads_var_bytes R P Q hQ h1 hn _ s2 sc _ hs2)
      · simp only [if_neg hv]
        by_cases h0 : aux = 0
        · simp only [if_pos h0]
          exact keeps_ok _ _ hs
        · simp only [if_neg h0]
          exact keeps_read_guard R P Q hQ hn s _ _ (by decide) _
            (fun raw s2 hs2 => keeps_ok _ _ hs2) hs
    · rw [inner_loads_c_text H _ f _ c hT]
      refine keeps_bind (hib rin _ h) (fun aux s hs => ?_)
      by_cases hv : c &&& CBOR_INFO_BITS = CBOR_VAR_FOLLOWS
      · simp only [if_pos hv]
        refine keeps_bind (h1 s hs) (fun sc s2 hs2 => ?_)
        refine keeps_bind (keeps_loads_var_items R P Q h1 _ ih _ s2 sc _ hs2)
          (fun parts s3 hs3 => ?_)
        cases unicode_join parts with
        | none => exact keeps_fail _ _ hs3 hQ (by decide)
        | some x => exact keeps_ok _ _ hs3
      · simp only [if_neg hv]
        by_cases h0 : aux = 0
        · simp only [if_pos h0]
          exact keeps_ok _ _ hs
        · simp only [if_neg h0]
          refine keeps_read_guard R P Q hQ hn s _ _ (by decide) _ (fun raw s2 hs2 => ?_) hs
          split_ifs
          · exact keeps_ok _ _ hs2
          · exact keeps_fail _ _ hs2 hQ (by decide)
    · rw [inner_loads_c_array H _ f _ c hT]
      refine keeps_bind (hib rin _ h) (fun aux s hs => ?_)
      split_ifs
      · refine keeps_bind (h1 s hs) (fun sc s2 hs2 => ?_)
        exact keeps_bind (keeps_loads_var_items R P Q h1 _ ih _ s2 sc _ hs2)
          (fun parts s3 hs3 => keeps_ok _ _ hs3)
      · exact keeps_loads_array_items R P Q hQ h1 _ ih _ _ s _ _ hs
      · exact keeps_loads_array_items R P Q hQ h1 _ ih _ _ s _ _ hs
    · rw [inner_loads_c_map H _ f _ c hT]
      refine keeps_bind (hib rin _ h) (fun aux s hs => ?_)
      split_ifs
      · exact keeps_bind (h1 s hs)
          (fun sc s2 hs2 => keeps_loads_var_map H R P Q hQ h1 _ ih _ s2 sc _ hs2)
      · exact keeps_loads_map_items H R P Q hQ h1 _ ih _ _ s _ _ hs
    · rw [inner_loads_c_tag H _ f _ c hT]
      refine keeps_bind (hib rin _ h) (fun aux s hs => ?_)
      exact keeps_loads_tag R P Q hQ h1 _ ih s _ hs
    · rw [inner_loads_c_seven H _ f _ c hT]
      split_ifs
      · exact keeps_bind (h1 rin h)
          (fun a s hs => keeps_bind (h1 s hs) (fun a2 s2 hs2 => keeps_ok _ _ hs2))
      · exact keeps_bind (hn rin 4 h) (fun a s hs => keeps_ok _ _ hs)
      · exact keeps_bind (hn rin 8 h) (fun a s hs => keeps_ok _ _ hs)
      · refine keeps_bind (hib rin _ h) (fun aux s hs => ?_)
        split_ifs <;> first | exact keeps_ok _ _ hs | exact keeps_fail _ _ hs hQ (by decide)

/-! ## The byte count of an `ObjectReader` -/

theorem objectReader_read1_keeps {τ : Type} (S : Stream τ) (k : Int)
    (thiz : ObjectReader τ) (h : k ≤ thiz.read_count) :
    Keeps (fun r : ObjectReader τ => k ≤ r.read_count) (fun e => e ≠ .eofReadNothing)
      (ObjectReader_read1 S thiz) := by
  unfold ObjectReader_read1
  rcases hr : S.read thiz.ob 1 with ⟨res, ob⟩
  cases res with
  | raised => exact ⟨h, by decide⟩
  | notBytes => exact ⟨h, by decide⟩
  | bytes b =>
    have hb : k ≤ thiz.read_count + (b.length : Int) := by omega
    dsimp only
    split_ifs
    · exact ⟨hb, by decide⟩
    · exact hb
    · exact ⟨hb, by decide⟩

theorem objectReader_read_loop_keeps {τ : Type} (S : Stream τ) (k : Int) (len : Int)
    (fuel : Nat) : ∀ (thiz : ObjectReader τ) (rtotal : Int) (dst : Option (List Nat)),
      k ≤ thiz.read_count →
      Keeps (fun r : ObjectReader τ => k ≤ r.read_count) (fun e => e ≠ .eofReadNothing)
        (ObjectReader_read_loop S len fuel thiz rtotal dst) := by
  have hdst : ∀ (thiz : ObjectReader τ) (dst : Option (List Nat)), k ≤ thiz.read_count →
      Keeps (fun r : ObjectReader τ => k ≤ r.read_count) (fun e => e ≠ .eofReadNothing)
        (ObjectReader_read_dst thiz dst) := by
    intro thiz dst h
    cases dst with
    | none => exact ⟨h, by decide⟩
    | some d => exact h
  induction fuel with
  | zero =>
    intro thiz rtotal dst h
    rw [ObjectReader_read_loop]
    split_ifs
    · trivial
    · exact hdst thiz dst h
  | succ n ih =>
    intro thiz rtotal dst h
    rw [ObjectReader_read_loop]
    split_ifs
    · rcases hr : S.read thiz.ob (len - rtotal) with ⟨res, ob⟩
      cases res with
      | raised => exact ⟨h, by decide⟩
      | notBytes => exact ⟨h, by decide⟩
      | bytes b =>
        have hb : k ≤ thiz.read_count + (b.length : Int) := by omega
        dsimp only
        split_ifs
        · exact ⟨hb, by decide⟩
        · exact hb
        · exact ih _ _ _ hb
    · exact hdst thiz dst h

theorem decoderErrors_not_eof : ∀ e ∈ decoderErrors, e ≠ PyErr.eofReadNothing := by
  decide

/-- Once the stream has handed over the first byte, the byte count of the
reader is at least one in every state the decoder ends in, and the exception
of a failed run is not `EOFError`. -/
theorem objectReader_counts {τ : Type} (H : Host) (S : Stream τ) (rfuel fuel : Nat)
    (rin : ObjectReader τ) (c : Nat) (h : 1 ≤ rin.read_count) :
    Keeps (fun r : ObjectReader τ => 1 ≤ r.read_count) (fun e => e ≠ .eofReadNothing)
      (inner_loads_c H (objectReader S rfuel) fuel rin c) :=
  keeps_inner_loads_c H (objectReader S rfuel) _ _ decoderErrors_not_eof
    (fun s hs => objectReader_read1_keeps S 1 s hs)
    (fun s n hs => objectReader_read_loop_keeps S 1 n rfuel s 0 Option.none hs)
    fuel rin c h

/-- Function `cbor_load` raises `EOFError` exactly when the first call
`read(1)` of the stream returns the empty byte string or an object that is not
`bytes`; in particular not when the stream has handed over a byte. -/
theorem cbor_load_eof_iff {τ : Type} (H : Host) (S : Stream τ) (fuel : Nat) (ob : τ) :
    cbor_load H S fuel ob = some (.error .eofReadNothing) ↔
      ((S.read ob 1).1 = .bytes [] ∨ (S.read ob 1).1 = .notBytes) := by
  unfold cbor_load inner_loads inner_loads_of
  dsimp only
  have hr1 : (objectReader S fuel).read1 (NewObjectReader ob)
      = ObjectReader_read1 S (NewObjectReader ob) := rfl
  rw [hr1]
  unfold ObjectReader_read1
  rcases hr : S.read (NewObjectReader ob).ob 1 with ⟨res, ob2⟩
  have hr2 : S.read ob 1 = (res, ob2) := hr
  rw [hr2]
  cases res with
  | raised => simp [Res.bind]
  | notBytes => simp [Res.bind, NewObjectReader]
  | bytes b =>
    match b with
    | [] => simp [Res.bind, NewObjectReader]
    | [x] =>
      simp only [Res.bind, NewObjectReader, List.length_singleton, Nat.cast_one, zero_add,
        gt_iff_lt, lt_self_iff_false, if_false, if_true]
      have hk := objectReader_counts H S fuel fuel
        ({ ob := ob2, read_count := 1, exception_is_external := false } : ObjectReader τ)
        ([x].getD 0 0) (by simp)
      cases hd : inner_loads_c H (objectReader S fuel) fuel
          ({ ob := ob2, read_count := 1, exception_is_external := false } : ObjectReader τ)
          ([x].getD 0 0) with
      | ok v s => simp
      | timeout => simp
      | pending e v s => simp
      | fail e s =>
        rw [hd] at hk
        obtain ⟨hc, he⟩ := hk
        have hc2 : ¬ (s.read_count = 0) := by
          have hc3 : 1 ≤ s.read_count := hc
          omega
        simp [hc2, he]
    | x :: y :: t =>
      have hlen : ((x :: y :: t).length : Int) > 1 := by
        simp only [List.length_cons]
        omega
      simp only [Res.bind, NewObjectReader, if_pos hlen]
      have : ¬ ((t.length : Int) + 1 + 1 = 0) := by omega
      simp [this]

/-- On a stream over a byte string, `cbor_load` raises `EOFError` exactly when
the byte string is empty. -/
theorem cbor_load_eof_bytes (H : Host) (fuel : Nat) (s : List Nat) :
    cbor_load H bytesStream fuel s = some (.error .eofReadNothing) ↔ s = [] := by
  rw [cbor_load_eof_iff]
  cases s with
  | nil => simp [bytesStream]
  | cons b t => simp [bytesStream]

/-- Claim C28, failing input: from a stream that holds the bytes `42 01`, the
header of a byte string of two bytes and one byte of it, `cbor_load` never
returns, whatever the fuel, and so reports no truncation error.  On a stream
over a byte string it raises `EOFError` exactly when the byte string is empty,
and from a stream that ends inside a header (`18` and no argument byte) it
raises the `ValueError` of `ObjectReader_read1`. -/
theorem load_truncated_payload_hangs (H : Host) :
    (∀ fuel : Nat, cbor_load H bytesStream fuel [0x42, 0x01] = Option.none) ∧
    (∀ (fuel : Nat) (s : List Nat),
      cbor_load H bytesStream fuel s = some (.error .eofReadNothing) ↔ s = []) ∧
    cbor_load H bytesStream 1 [0x18] = some (.error .valueGotNothing1) :=
  ⟨cbor_load_truncated_bytes H, cbor_load_eof_bytes H, rfl⟩

/-! ## Integers, encoded and decoded -/

theorem encode_long_ok (H : Host) (optp : EncodeOptions) (fuel : Nat) (n : Int) :
    ∃ b, encode H optp (fuel + 1) (.long n) = some (.ok b) := by
  simp only [encode]
  split_ifs <;> exact ⟨_, rfl⟩

/-- The bytes written for an integer from `-2 ^ 184` to `2 ^ 184 - 1` are an
item that decodes to the integer. -/
theorem long_item (H : Host) (optp : EncodeOptions) (efuel dfuel : Nat) (n : Int)
    (hlo : -(2 ^ 184 : Int) ≤ n) (hhi : n < 2 ^ 184) (b : List Nat)
    (he : encode H optp (efuel + 1) (.long n) = some (.ok b)) :
    ItemOk (inner_loads_c H bufferReader (dfuel + 1)) b (.long n) := by
  simp only [encode] at he
  split_ifs at he with h1 h2 h3
  · simp only [Option.some.injEq, Except.ok.injEq] at he
    subst he
    have := decode_uint H dfuel n.toNat _
      (isHeader_header CBOR_UINT n.toNat ⟨by decide, by decide⟩ (by omega))
    rwa [Int.toNat_of_nonneg h2] at this
  · simp only [Option.some.injEq, Except.ok.injEq] at he
    subst he
    have := decode_negint H dfuel (-1 - n).toNat _
      (isHeader_header CBOR_NEGINT (-1 - n).toNat ⟨by decide, by decide⟩ (by omega))
    rw [Int.toNat_of_nonneg (by omega)] at this
    rwa [show -1 - (-1 - n) = n by omega] at this
  · simp only [Option.some.injEq, Except.ok.injEq] at he
    subst he
    have hm : ((-1 - n).toNat : Int) = -1 - n := Int.toNat_of_nonneg (by omega)
    obtain ⟨bs, hb1, hb2, hb3, hb4⟩ := encode_bignum_eq CBOR_TAG_NEGBIGNUM (-1 - n).toNat
      (by omega)
    rw [hm] at hb1
    rw [hb1]
    have := decode_bignum H dfuel CBOR_TAG_NEGBIGNUM bs hb2 hb3 (Or.inr rfl)
    rw [hb4, hm] at this
    simpa [CBOR_TAG_NEGBIGNUM] using this
  · simp only [Option.some.injEq, Except.ok.injEq] at he
    subst he
    have hm : (n.toNat : Int) = n := Int.toNat_of_nonneg (by omega)
    obtain ⟨bs, hb1, hb2, hb3, hb4⟩ := encode_bignum_eq CBOR_TAG_BIGNUM n.toNat (by omega)
    rw [hm] at hb1
    rw [hb1]
    have := decode_bignum H dfuel CBOR_TAG_BIGNUM bs hb2 hb3 (Or.inl rfl)
    rw [hb4, hm] at this
    simpa [CBOR_TAG_BIGNUM] using this

theorem long_roundtrip (H : Host) (n : Int) (hlo : -(2 ^ 184 : Int) ≤ n) (hhi : n < 2 ^ 184)
    (sort_keys : Bool) (efuel dfuel : Nat) :
    ∃ b, cbor_dumps H (efuel + 1) (.long n) sort_keys = some (.ok (.bytes b)) ∧
      cbor_loads H (dfuel + 1) (.bytes b) = some (.ok (.long n)) := by
  obtain ⟨b, hb⟩ := encode_long_ok H { sort_keys := sort_keys } efuel n
  refine ⟨b, ?_, ?_⟩
  · rw [cbor_dumps_eq H (efuel + 1) (.long n) sort_keys rfl, hb]
  · exact cbor_loads_of_itemOk H (dfuel + 1) b (.long n)
      (long_item H { sort_keys := sort_keys } efuel dfuel n hlo hhi b hb)

/-- Claim C33: for every integer `n` with `-2 ^ 184 ≤ n < 2 ^ 184`, `dumps`
returns bytes (with any option setting and any fuel of at least one), and
`loads` on these bytes returns `n` (with any fuel of at least one). -/
theorem integer_roundtrip (H : Host) (n : Int) (hlo : -(2 ^ 184 : Int) ≤ n)
    (hhi : n < 2 ^ 184) (sort_keys : Bool) (efuel dfuel : Nat) :
    ∃ b, cbor_dumps H (efuel + 1) (.long n) sort_keys = some (.ok (.bytes b)) ∧
      cbor_loads H (dfuel + 1) (.bytes b) = some (.ok (.long n)) :=
  long_roundtrip H n hlo hhi sort_keys efuel dfuel

set_option maxRecDepth 100000 in
theorem integer_roundtrip_witness :
    (-(2 ^ 184 : Int) ≤ -(2 ^ 184) ∧ -(2 ^ 184 : Int) < 2 ^ 184) ∧
    (∃ b, cbor_dumps refHost 1 (.long (-(2 ^ 184))) false = some (.ok (.bytes b)) ∧
      cbor_loads refHost 1 (.bytes b) = some (.ok (.long (-(2 ^ 184))))) ∧
    cbor_dumps refHost 1 (.long (-(2 ^ 184))) false
      = some (.ok (.bytes [0xC3, 0x57, 0xFF, 0xFF, 0xFF, 0xFF, 0xFF, 0xFF, 0xFF, 0xFF, 0xFF,
          0xFF, 0xFF, 0xFF, 0xFF, 0xFF, 0xFF, 0xFF, 0xFF, 0xFF, 0xFF, 0xFF, 0xFF, 0xFF, 0xFF])) :=
  ⟨⟨by decide, by decide⟩,
    integer_roundtrip refHost (-(2 ^ 184)) (by decide) (by decide) false 0 0, rfl⟩

/-! ## Bytes written by a successful encoding -/

theorem encode_bignum_length (tag : Nat) (val : Int) : 1 ≤ (encode_bignum tag val).length := by
  obtain ⟨p, hp, _⟩ := encode_bignum_shape tag val
  rw [hp]
  simp

theorem encSeq_header_length (t aux : Nat) (r : EncRes) (b : List Nat)
    (h : encSeq (some (.ok (header t aux))) r = some (.ok b)) : 1 ≤ b.length := by
  obtain ⟨b1, b2, h1, _, rfl⟩ := encSeq_ok _ _ _ h
  simp only [Option.some.injEq, Except.ok.injEq] at h1
  subst h1
  have := header_ne_nil t aux
  simp only [List.length_append]
  omega

/-- A successful encoding of an object that is not a `Tag` object with a tag
number other than an integer has at least one byte. -/
theorem encode_nonempty (H : Host) (optp : EncodeOptions) (fuel : Nat) (ob : PyObj)
    (b : List Nat)
    (hob : ∀ t v, ob = .tag t v → (∃ n, t = .long n) ∨ ∃ x, t = .bool x)
    (h : encode H optp fuel ob = some (.ok b)) : 1 ≤ b.length := by
  cases fuel with
  | zero => simp [encode] at h
  | succ f =>
    cases ob with
    | none =>
      simp only [encode, Option.some.injEq, Except.ok.injEq] at h
      subst h; simp
    | bool x =>
      simp only [encode, Option.some.injEq, Except.ok.injEq] at h
      subst h; simp
    | long n =>
      simp only [encode] at h
      split_ifs at h
      all_goals
        simp only [Option.some.injEq, Except.ok.injEq] at h
        subst h
      · exact header_ne_nil _ _
      · exact header_ne_nil _ _
      · exact encode_bignum_length _ _
      · exact encode_bignum_length _ _
    | float bits =>
      simp only [encode, Option.some.injEq, Except.ok.injEq] at h
      subst h
      rw [emitted_float]
      simp
    | bytes p =>
      simp only [encode, Option.some.injEq, Except.ok.injEq] at h
      subst h
      have := header_ne_nil CBOR_BYTES p.length
      simp only [List.length_append]
      omega
    | unicode p =>
      simp only [encode, Option.some.injEq, Except.ok.injEq] at h
      subst h
      have := header_ne_nil CBOR_TEXT p.length
      simp only [List.length_append]
      omega
    | list xs =>
      simp only [encode] at h
      exact encSeq_header_length _ _ _ _ h
    | tuple xs =>
      simp only [encode] at h
      exact encSeq_header_length _ _ _ _ h
    | dict kvs =>
      simp only [encode] at h
      exact encSeq_header_length _ _ _ _ h
    | tag t v =>
      simp only [encode] at h
      rcases hob t v rfl with ⟨n, rfl⟩ | ⟨x, rfl⟩
      · simp only [encode_tag] at h
        split_ifs at h
        · exact encSeq_header_length _ _ _ _ h
        · simp at h
        · simp at h
      · simp only [encode_tag] at h
        split_ifs at h
        all_goals first | (simp at h; done) | skip
        all_goals exact encSeq_header_length _ _ _ _ h
    | brokenTag hasTag => simp [encode] at h
    | other => simp [encode] at h

/-- A successful run of `inner_dumps` on an object that is not a `Tag` object
with a tag number other than an integer moves the position forward. -/
theorem inner_dumps_advances (H : Host) (optp : EncodeOptions) (fuel : Nat) (ob : PyObj)
    (hob : ∀ t v, ob = .tag t v → (∃ n, t = .long n) ∨ ∃ x, t = .bool x)
    (out : Option OutBuf) (pos : Nat) (s : EncState)
    (h : inner_dumps H optp fuel ob out pos = .ok () s) : pos < s.2 := by
  have he := inner_dumps_encodes H optp fuel ob
  match hr : encode H optp fuel ob, he with
  | some (.ok bs), he =>
    have h2 := he out pos
    rw [h] at h2
    simp only [Res.ok.injEq, true_and] at h2
    have := encode_nonempty H optp fuel ob bs hob hr
    rw [h2]
    simp only
    omega
  | some (.error e), he =>
    obtain ⟨s2, hs2⟩ := he out pos
    rw [h] at hs2
    simp at hs2
  | Option.none, he =>
    have h2 := he out pos
    rw [h] at h2
    simp at h2

/-- Claim C34, failing input: on the object `Tag(None, 0)`, whose tag number
is not an integer, `inner_dumps` succeeds in the measure pass and in the emit
pass without a store and without moving the position, and `dumps` returns the
empty byte string. -/
theorem tag_without_number_writes_nothing :
    inner_dumps refHost { sort_keys := false } 2 (.tag .none (.long 0)) Option.none 0
      = .ok () (Option.none, 0) ∧
    inner_dumps refHost { sort_keys := false } 2 (.tag .none (.long 0)) (some []) 0
      = .ok () (some [], 0) ∧
    cbor_dumps refHost 2 (.tag .none (.long 0)) false = some (.ok (.bytes [])) :=
  ⟨rfl, rfl, rfl⟩

/-! ## Two runs of the decoder side by side -/

theorem follows_ok {σ1 σ2 α : Type} {E : PyErr → Prop} {Rel : σ1 → σ2 → Prop} (a : α)
    (s1 : σ1) (s2 : σ2) (h : Rel s1 s2) :
    Follows E Rel (.ok a s1 : Res σ1 α) (.ok a s2 : Res σ2 α) :=
  Or.inl ⟨s1, rfl, h⟩

theorem follows_fail {σ1 σ2 α : Type} {E : PyErr → Prop} {Rel : σ1 → σ2 → Prop}
    (r1 : Res σ1 α) (e : PyErr) (s2 : σ2) :
    Follows E Rel r1 (.fail e s2 : Res σ2 α) := trivial

theorem follows_of_fail {σ1 σ2 α : Type} {E : PyErr → Prop} {Rel : σ1 → σ2 → Prop}
    (e : PyErr) (s : σ1) (he : E e) (r2 : Res σ2 α) :
    Follows E Rel (.fail e s : Res σ1 α) r2 := by
  cases r2 with
  | ok a s2 => exact Or.inr ⟨e, s, rfl, he⟩
  | fail e2 s2 => trivial
  | timeout => trivial
  | pending e2 a s2 => trivial

/-- A step that started with an exception set yields no value for another run
to follow. -/
theorem follows_after {σ1 σ2 α : Type} {E : PyErr → Prop} {Rel : σ1 → σ2 → Prop}
    (r1 : Res σ1 α) (e : PyErr) (r2 : Res σ2 α) : Follows E Rel r1 (r2.after e) := by
  cases r2 <;> trivial

theorem follows_bind {σ1 σ2 α β : Type} {E : PyErr → Prop} {Rel : σ1 → σ2 → Prop}
    {r1 : Res σ1 α} {r2 : Res σ2 α} {f1 : α → σ1 → Res σ1 β} {f2 : α → σ2 → Res σ2 β}
    (hr : Follows E Rel r1 r2)
    (hf : ∀ a s1 s2, Rel s1 s2 → Follows E Rel (f1 a s1) (f2 a s2)) :
    Follows E Rel (r1.bind f1) (r2.bind f2) := by
  cases r2 with
  | ok a s2 =>
    rcases hr with ⟨s1, rfl, hrel⟩ | ⟨e, s, rfl, he⟩
    · exact hf a s1 s2 hrel
    · exact follows_of_fail e s he _
  | fail e s2 => trivial
  | timeout => trivial
  | pending e a s2 => exact follows_after _ e _

theorem follows_handle_info_bits {σ1 σ2 : Type} (R1 : Reader σ1) (R2 : Reader σ2)
    (E : PyErr → Prop) (Rel : σ1 → σ2 → Prop)
    (h1 : ∀ s1 s2, Rel s1 s2 → Follows E Rel (R1.read1 s1) (R2.read1 s2))
    (hn : ∀ s1 s2 n, Rel s1 s2 → Follows E Rel (R1.read s1 n) (R2.read s2 n))
    (s1 : σ1) (s2 : σ2) (info : Nat) (h : Rel s1 s2) :
    Follows E Rel (handle_info_bits R1 s1 info) (handle_info_bits R2 s2 info) := by
  rw [handle_info_bits_bind, handle_info_bits_bind]
  split_ifs
  · exact follows_ok _ _ _ h
  · exact follows_bind (h1 _ _ h) (fun a t1 t2 ht => follows_ok _ _ _ ht)
  · exact follows_bind (h1 _ _ h)
      (fun a t1 t2 ht => follows_bind (h1 _ _ ht) (fun a2 u1 u2 hu => follows_ok _ _ _ hu))
  · exact follows_bind (hn _ _ 4 h) (fun a t1 t2 ht => follows_ok _ _ _ ht)
  · exact follows_bind (hn _ _ 8 h) (fun a t1 t2 ht => follows_ok _ _ _ ht)
  · exact follows_ok _ _ _ h

theorem follows_inner_loads_of {σ1 σ2 : Type} (R1 : Reader σ1) (R2 : Reader σ2)
    (E : PyErr → Prop) (Rel : σ1 → σ2 → Prop)
    (h1 : ∀ s1 s2, Rel s1 s2 → Follows E Rel (R1.read1 s1) (R2.read1 s2))
    (item1 : σ1 → Nat → Res σ1 PyObj) (item2 : σ2 → Nat → Res σ2 PyObj)
    (hitem : ∀ s1 s2 c, Rel s1 s2 → Follows E Rel (item1 s1 c) (item2 s2 c))
    (s1 : σ1) (s2 : σ2) (h : Rel s1 s2) :
    Follows E Rel (inner_loads_of R1 item1 s1) (inner_loads_of R2 item2 s2) :=
  follows_bind (h1 _ _ h) (fun c t1 t2 ht => hitem t1 t2 c ht)

theorem follows_loads_var_bytes {σ1 σ2 : Type} (R1 : Reader σ1) (R2 : Reader σ2)
    (E : PyErr → Prop) (Rel : σ1 → σ2 → Prop)
    (h1 : ∀ s1 s2, Rel s1 s2 → Follows E Rel (R1.read1 s1) (R2.read1 s2))
    (hn : ∀ s1 s2 n, Rel s1 s2 → Follows E Rel (R1.read s1 n) (R2.read s2 n))
    (n : Nat) : ∀ (s1 : σ1) (s2 : σ2) (sc : Nat) (parts : List (List Nat)), Rel s1 s2 →
      Follows E Rel (loads_var_bytes R1 n s1 sc parts) (loads_var_bytes R2 n s2 sc parts) := by
  induction n with
  | zero => intro s1 s2 sc parts _; trivial
  | succ n ih =>
    intro s1 s2 sc parts h
    simp only [loads_var_bytes]
    split_ifs
    · exact follows_fail _ _ _
    · refine follows_bind (follows_handle_info_bits R1 R2 E Rel h1 hn _ _ _ h)
        (fun saux t1 t2 ht => ?_)
      refine follows_bind (hn _ _ _ ht) (fun blob u1 u2 hu => ?_)
      split_ifs
      · exact follows_fail _ _ _
      · exact follows_bind (h1 _ _ hu) (fun sc2 w1 w2 hw => ih _ _ sc2 _ hw)
    · exact follows_ok _ _ _ h

theorem follows_loads_var_items {σ1 σ2 : Type} (R1 : Reader σ1) (R2 : Reader σ2)
    (E : PyErr → Prop) (Rel : σ1 → σ2 → Prop)
    (h1 : ∀ s1 s2, Rel s1 s2 → Follows E Rel (R1.read1 s1) (R2.read1 s2))
    (item1 : σ1 → Nat → Res σ1 PyObj) (item2 : σ2 → Nat → Res σ2 PyObj)
    (hitem : ∀ s1 s2 c, Rel s1 s2 → Follows E Rel (item1 s1 c) (item2 s2 c))
    (n : Nat) : ∀ (s1 : σ1) (s2 : σ2) (sc : Nat) (parts : List PyObj), Rel s1 s2 →
      Follows E Rel (loads_var_items R1 item1 n s1 sc parts)
        (loads_var_items R2 item2 n s2 sc parts) := by
  induction n with
  | zero => intro s1 s2 sc parts _; trivial
  | succ n ih =>
    intro s1 s2 sc parts h
    simp only [loads_var_items]
    split_ifs
    · refine follows_bind (hitem _ _ sc h) (fun v t1 t2 ht => ?_)
      exact follows_bind (h1 _ _ ht) (fun sc2 u1 u2 hu => ih _ _ sc2 _ hu)
    · exact follows_ok _ _ _ h

theorem follows_loads_array_items {σ1 σ2 : Type} (R1 : Reader σ1) (R2 : Reader σ2)
    (E : PyErr → Prop) (Rel : σ1 → σ2 → Prop)
    (h1 : ∀ s1 s2, Rel s1 s2 → Follows E Rel (R1.read1 s1) (R2.read1 s2))
    (item1 : σ1 → Nat → Res σ1 PyObj) (item2 : σ2 → Nat → Res σ2 PyObj)
    (hitem : ∀ s1 s2 c, Rel s1 s2 → Follows E Rel (item1 s1 c) (item2 s2 c))
    (aux n : Nat) : ∀ (s1 : σ1) (s2 : σ2) (i : Nat) (out : Option (List PyObj)), Rel s1 s2 →
      Follows E Rel (loads_array_items R1 item1 aux n s1 i out)
        (loads_array_items R2 item2 aux n s2 i out) := by
  induction n with
  | zero => intro s1 s2 i out _; trivial
  | succ n ih =>
    intro s1 s2 i out h
    simp only [loads_array_items]
    split_ifs
    · refine follows_bind (follows_inner_loads_of R1 R2 E Rel h1 item1 item2 hitem _ _ h)
        (fun v t1 t2 ht => ?_)
      cases out with
      | none => exact follows_fail _ _ _
      | some l => exact ih _ _ _ _ ht
    · cases out with
      | none => exact follows_fail _ _ _
      | some l => exact follows_ok _ _ _ h

theorem follows_dict_set_item {σ1 σ2 : Type} (H : Host) (E : PyErr → Prop)
    (Rel : σ1 → σ2 → Prop) (out : List (PyObj × PyObj)) (k v : PyObj) (s1 : σ1) (s2 : σ2)
    (h : Rel s1 s2) :
    Follows E Rel (dict_set_item H out k v s1) (dict_set_item H out k v s2) := by
  unfold dict_set_item
  split_ifs
  · exact follows_ok _ _ _ h
  · trivial

theorem follows_loads_kv {σ1 σ2 : Type} (H : Host) (R1 : Reader σ1) (R2 : Reader σ2)
    (E : PyErr → Prop) (Rel : σ1 → σ2 → Prop)
    (h1 : ∀ s1 s2, Rel s1 s2 → Follows E Rel (R1.read1 s1) (R2.read1 s2))
    (item1 : σ1 → Nat → Res σ1 PyObj) (item2 : σ2 → Nat → Res σ2 PyObj)
    (hitem : ∀ s1 s2 c, Rel s1 s2 → Follows E Rel (item1 s1 c) (item2 s2 c))
    (out : List (PyObj × PyObj)) (s1 : σ1) (s2 : σ2) (h : Rel s1 s2) :
    Follows E Rel (loads_kv H R1 item1 out s1) (loads_kv H R2 item2 out s2) := by
  unfold loads_kv
  refine follows_bind (follows_inner_loads_of R1 R2 E Rel h1 item1 item2 hitem _ _ h)
    (fun k t1 t2 ht => ?_)
  refine follows_bind (follows_inner_loads_of R1 R2 E Rel h1 item1 item2 hitem _ _ ht)
    (fun v u1 u2 hu => ?_)
  exact follows_dict_set_item H E Rel out k v u1 u2 hu

theorem follows_loads_map_items {σ1 σ2 : Type} (H : Host) (R1 : Reader σ1) (R2 : Reader σ2)
    (E : PyErr → Prop) (Rel : σ1 → σ2 → Prop)
    (h1 : ∀ s1 s2, Rel s1 s2 → Follows E Rel (R1.read1 s1) (R2.read1 s2))
    (item1 : σ1 → Nat → Res σ1 PyObj) (item2 : σ2 → Nat → Res σ2 PyObj)
    (hitem : ∀ s1 s2 c, Rel s1 s2 → Follows E Rel (item1 s1 c) (item2 s2 c))
    (aux n : Nat) : ∀ (s1 : σ1) (s2 : σ2) (i : Nat) (out : List (PyObj × PyObj)), Rel s1 s2 →
      Follows E Rel (loads_map_items H R1 item1 aux n s1 i out)
        (loads_map_items H R2 item2 aux n s2 i out) := by
  induction n with
  | zero => intro s1 s2 i out _; trivial
  | succ n ih =>
    intro s1 s2 i out h
    simp only [loads_map_items]
    split_ifs
    · exact follows_bind (follows_loads_kv H R1 R2 E Rel h1 item1 item2 hitem out _ _ h)
        (fun out2 t1 t2 ht => ih _ _ _ _ ht)
    · exact follows_ok _ _ _ h

theorem follows_loads_var_map {σ1 σ2 : Type} (H : Host) (R1 : Reader σ1) (R2 : Reader σ2)
    (E : PyErr → Prop) (Rel : σ1 → σ2 → Prop)
    (h1 : ∀ s1 s2, Rel s1 s2 → Follows E Rel (R1.read1 s1) (R2.read1 s2))
    (item1 : σ1 → Nat → Res σ1 PyObj) (item2 : σ2 → Nat → Res σ2 PyObj)
    (hitem : ∀ s1 s2 c, Rel s1 s2 → Follows E Rel (item1 s1 c) (item2 s2 c))
    (n : Nat) : ∀ (s1 : σ1) (s2 : σ2) (sc : Nat) (out : List (PyObj × PyObj)), Rel s1 s2 →
      Follows E Rel (loads_var_map H R1 item1 n s1 sc out)
        (loads_var_map H R2 item2 n s2 sc out) := by
  induction n with
  | zero => intro s1 s2 sc out _; trivial
  | succ n ih =>
    intro s1 s2 sc out h
    simp only [loads_var_map]
    split_ifs
    · refine follows_bind (hitem _ _ sc h) (fun k t1 t2 ht => ?_)
      refine follows_bind (follows_inner_loads_of R1 R2 E Rel h1 item1 item2 hitem _ _ ht)
        (fun v u1 u2 hu => ?_)
      refine follows_bind (follows_dict_set_item H E Rel out k v u1 u2 hu)
        (fun out2 x1 x2 hx => ?_)
      exact follows_bind (h1 _ _ hx) (fun sc2 w1 w2 hw => ih _ _ sc2 _ hw)
    · exact follows_ok _ _ _ h

theorem follows_loads_bignum_loop {σ1 σ2 : Type} (R1 : Reader σ1) (R2 : Reader σ2)
    (E : PyErr → Prop) (Rel : σ1 → σ2 → Prop)
    (h1 : ∀ s1 s2, Rel s1 s2 → Follows E Rel (R1.read1 s1) (R2.read1 s2)) (k : Nat) :
    ∀ (s1 : σ1) (s2 : σ2) (out : Nat), Rel s1 s2 →
      Follows E Rel (loads_bignum_loop R1 k s1 out) (loads_bignum_loop R2 k s2 out) := by
  induction k with
  | zero => intro s1 s2 out h; exact follows_ok _ _ _ h
  | succ k ih =>
    intro s1 s2 out h
    simp only [loads_bignum_loop]
    exact follows_bind (h1 _ _ h) (fun cb t1 t2 ht => ih _ _ _ ht)

theorem follows_loads_bignum {σ1 σ2 : Type} (R1 : Reader σ1) (R2 : Reader σ2)
    (E : PyErr → Prop) (Rel : σ1 → σ2 → Prop)
    (h1 : ∀ s1 s2, Rel s1 s2 → Follows E Rel (R1.read1 s1) (R2.read1 s2))
    (s1 : σ1) (s2 : σ2) (c : Nat) (h : Rel s1 s2) :
    Follows E Rel (loads_bignum R1 s1 c) (loads_bignum R2 s2 c) := by
  unfold loads_bignum
  dsimp only
  split_ifs
  · exact follows_loads_bignum_loop R1 R2 E Rel h1 _ _ _ _ h
  · exact follows_fail _ _ _

theorem follows_loads_tag {σ1 σ2 : Type} (R1 : Reader σ1) (R2 : Reader σ2)
    (E : PyErr → Prop) (Rel : σ1 → σ2 → Prop)
    (h1 : ∀ s1 s2, Rel s1 s2 → Follows E Rel (R1.read1 s1) (R2.read1 s2))
    (item1 : σ1 → Nat → Res σ1 PyObj) (item2 : σ2 → Nat → Res σ2 PyObj)
    (hitem : ∀ s1 s2 c, Rel s1 s2 → Follows E Rel (item1 s1 c) (item2 s2 c))
    (s1 : σ1) (s2 : σ2) (aux : Nat) (h : Rel s1 s2) :
    Follows E Rel (loads_tag R1 item1 s1 aux) (loads_tag R2 item2 s2 aux) := by
  unfold loads_tag
  split_ifs
  · refine follows_bind (h1 _ _ h) (fun sc t1 t2 ht => ?_)
    split_ifs
    · exact follows_loads_bignum R1 R2 E Rel h1 _ _ sc ht
    · exact follows_fail _ _ _
  · refine follows_bind (h1 _ _ h) (fun sc t1 t2 ht => ?_)
    split_ifs
    · refine follows_bind (follows_loads_bignum R1 R2 E Rel h1 _ _ sc ht)
        (fun out u1 u2 hu => ?_)
      cases out <;> first | exact follows_ok _ _ _ hu | exact follows_fail _ _ _
    · exact follows_fail _ _ _
  · exact follows_bind (follows_inner_loads_of R1 R2 E Rel h1 item1 item2 hitem _ _ h)
      (fun out t1 t2 ht => follows_ok _ _ _ ht)

/-- Two runs of the decoder over readers whose calls correspond: where the
second run yields a value, the first yields the same value or fails with an
exception in `E`. -/
theorem follows_inner_loads_c {σ1 σ2 : Type} (H : Host) (R1 : Reader σ1) (R2 : Reader σ2)
    (E : PyErr → Prop) (Rel : σ1 → σ2 → Prop)
    (h1 : ∀ s1 s2, Rel s1 s2 → Follows E Rel (R1.read1 s1) (R2.read1 s2))
    (hn : ∀ s1 s2 n, Rel s1 s2 → Follows E Rel (R1.read s1 n) (R2.read s2 n))
    (fuel : Nat) : ∀ (s1 : σ1) (s2 : σ2) (c : Nat), Rel s1 s2 →
      Follows E Rel (inner_loads_c H R1 fuel s1 c) (inner_loads_c H R2 fuel s2 c) := by
  induction fuel with
  | zero => intro s1 s2 c _; trivial
  | succ f ih =>
    intro s1 s2 c h
    have hib := fun t1 t2 info ht => follows_handle_info_bits R1 R2 E Rel h1 hn t1 t2 info ht
    rcases major_type_cases_all c with hT | hT | hT | hT | hT | hT | hT | hT
    · rw [inner_loads_c_uint H R1 f _ c hT, inner_loads_c_uint H R2 f _ c hT]
      exact follows_bind (hib _ _ _ h) (fun aux t1 t2 ht => follows_ok _ _ _ ht)
    · rw [inner_loads_c_negint H R1 f _ c hT, inner_loads_c_negint H R2 f _ c hT]
      refine follows_bind (hib _ _ _ h) (fun aux t1 t2 ht => ?_)
      split_ifs <;> exact follows_ok _ _ _ ht
    · rw [inner_loads_c_bytes H R1 f _ c hT, inner_loads_c_bytes H R2 f _ c hT]
      refine follows_bind (hib _ _ _ h) (fun aux t1 t2 ht => ?_)
      by_cases hv : c &&& CBOR_INFO_BITS = CBOR_VAR_FOLLOWS
      · simp only [if_pos hv]
        exact follows_bind (h1 _ _ ht)
          (fun sc u1 u2 hu => follows_loads_var_bytes R1 R2 E Rel h1 hn _ _ _ sc _ hu)
      · simp only [if_neg hv]
        by_cases h0 : aux = 0
        · simp only [if_pos h0]
          exact follows_ok _ _ _ ht
        · simp only [if_neg h0]
          refine follows_bind (hn _ _ _ ht) (fun raw u1 u2 hu => ?_)
          split_ifs
          · exact follows_fail _ _ _
          · exact follows_ok _ _ _ hu
    · rw [inner_loads_c_text H R1 f _ c hT, inner_loads_c_text H R2 f _ c hT]
      refine follows_bind (hib _ _ _ h) (fun aux t1 t2 ht => ?_)
      by_cases hv : c &&& CBOR_INFO_BITS = CBOR_VAR_FOLLOWS
      · simp only [if_pos hv]
        refine follows_bind (h1 _ _ ht) (fun sc u1 u2 hu => ?_)
        refine follows_bind
          (follows_loads_var_items R1 R2 E Rel h1 _ _ ih _ _ _ sc _ hu)
          (fun parts w1 w2 hw => ?_)
        cases unicode_join parts with
        | none => exact follows_fail _ _ _
        | some x => exact follows_ok _ _ _ hw
      · simp only [if_neg hv]
        by_cases h0 : aux = 0
        · simp only [if_pos h0]
          exact follows_ok _ _ _ ht
        · simp only [if_neg h0]
          refine follows_bind (hn _ _ _ ht) (fun raw u1 u2 hu => ?_)
          split_ifs
          · exact follows_fail _ _ _
          · exact follows_ok _ _ _ hu
          · exact follows_fail _ _ _
    · rw [inner_loads_c_array H R1 f _ c hT, inner_loads_c_array H R2 f _ c hT]
      refine follows_bind (hib _ _ _ h) (fun aux t1 t2 ht => ?_)
      split_ifs
      · refine follows_bind (h1 _ _ ht) (fun sc u1 u2 hu => ?_)
        exact follows_bind (follows_loads_var_items R1 R2 E Rel h1 _ _ ih _ _ _ sc _ hu)
          (fun parts w1 w2 hw => follows_ok _ _ _ hw)
      · exact follows_loads_array_items R1 R2 E Rel h1 _ _ ih _ _ _ _ _ _ ht
      · exact follows_loads_array_items R1 R2 E Rel h1 _ _ ih _ _ _ _ _ _ ht
    · rw [inner_loads_c_map H R1 f _ c hT, inner_loads_c_map H R2 f _ c hT]
      refine follows_bind (hib _ _ _ h) (fun aux t1 t2 ht => ?_)
      split_ifs
      · exact follows_bind (h1 _ _ ht)
          (fun sc u1 u2 hu => follows_loads_var_map H R1 R2 E Rel h1 _ _ ih _ _ _ sc _ hu)
      · exact follows_loads_map_items H R1 R2 E Rel h1 _ _ ih _ _ _ _ _ _ ht
    · rw [inner_loads_c_tag H R1 f _ c hT, inner_loads_c_tag H R2 f _ c hT]
      refine follows_bind (hib _ _ _ h) (fun aux t1 t2 ht => ?_)
      exact follows_loads_tag R1 R2 E Rel h1 _ _ ih _ _ _ ht
    · rw [inner_loads_c_seven H R1 f _ c hT, inner_loads_c_seven H R2 f _ c hT]
      split_ifs
      · exact follows_bind (h1 _ _ h)
          (fun a t1 t2 ht => follows_bind (h1 _ _ ht) (fun a2 u1 u2 hu => follows_ok _ _ _ hu))
      · exact follows_bind (hn _ _ 4 h) (fun a t1 t2 ht => follows_ok _ _ _ ht)
      · exact follows_bind (hn _ _ 8 h) (fun a t1 t2 ht => follows_ok _ _ _ ht)
      · refine follows_bind (hib _ _ _ h) (fun aux t1 t2 ht => ?_)
        split_ifs <;> first | exact follows_ok _ _ _ ht | exact follows_fail _ _ _

/-! ## The in-memory reader and the stream reader -/

theorem objectReader_read_nonpos {τ : Type} (S : Stream τ) (fuel : Nat)
    (thiz : ObjectReader τ) (n : Int) (hn : n ≤ 0) :
    ObjectReader_read S fuel thiz n = .fail .systemNullNoError thiz := by
  have h : ¬ ((0 : Int) < n) := by omega
  unfold ObjectReader_read
  cases fuel with
  | zero => rw [ObjectReader_read_loop, if_neg h]; rfl
  | succ f => rw [ObjectReader_read_loop, if_neg h]; rfl

/-- A call of `ObjectReader_read` that returns has asked for at least one byte
and for no more than the stream holds, and returns the next bytes. -/
theorem objectReader_read_ok (fuel : Nat) (thiz : ObjectReader (List Nat)) (n : Int)
    (a : List Nat) (s : ObjectReader (List Nat))
    (h : ObjectReader_read bytesStream fuel thiz n = .ok a s) :
    0 < n ∧ n ≤ thiz.ob.length ∧ a = thiz.ob.take n.toNat ∧ s.ob = thiz.ob.drop n.toNat := by
  by_cases hn : n ≤ 0
  · rw [objectReader_read_nonpos bytesStream fuel thiz n hn] at h
    simp at h
  · by_cases hlen : (thiz.ob.length : Int) < n
    · rw [objectReader_read_short thiz.ob n hlen fuel thiz rfl] at h
      simp at h
    · cases fuel with
      | zero =>
        have hp : (0 : Int) < n := by omega
        simp [ObjectReader_read, ObjectReader_read_loop, hp] at h
      | succ f =>
        have hl : ((thiz.ob.take n.toNat).length : Int) = n := by
          rw [List.length_take]
          omega
        have hne : thiz.ob.take n.toNat ≠ [] := by
          intro e
          rw [e] at hl
          simp at hl
          omega
        have hfull := objectReader_read_full (thiz.ob.take n.toNat) (thiz.ob.drop n.toNat) hne f
          thiz (List.take_append_drop _ _).symm
        rw [hl, h] at hfull
        simp only [Res.ok.injEq] at hfull
        refine ⟨by omega, by omega, hfull.1, ?_⟩
        rw [hfull.2]

theorem buffer_read1_follows (E : PyErr → Prop) (s1 : BufferReader)
    (s2 : ObjectReader (List Nat)) (h : SameLeft s1 s2) :
    Follows E SameLeft (bufferReader.read1 s1) (ObjectReader_read1 bytesStream s2) := by
  obtain ⟨pre, rfl⟩ := h
  cases hob : s2.ob with
  | nil => rw [objectReader_read1_eof s2 hob]; trivial
  | cons b t =>
    rw [objectReader_read1_byte b t s2 hob, bufferReader_read1, read1_over]
    exact Or.inl ⟨_, rfl, pre ++ [b], rfl⟩

theorem buffer_read_follows (E : PyErr → Prop) (fuel : Nat) (s1 : BufferReader)
    (s2 : ObjectReader (List Nat)) (n : Int) (h : SameLeft s1 s2) :
    Follows E SameLeft (bufferReader.read s1 n) (ObjectReader_read bytesStream fuel s2 n) := by
  obtain ⟨pre, rfl⟩ := h
  cases hr : ObjectReader_read bytesStream fuel s2 n with
  | fail e s => trivial
  | timeout => trivial
  | pending e a s => trivial
  | ok a s =>
    obtain ⟨hpos, hle, ha, hs⟩ := objectReader_read_ok fuel s2 n a s hr
    have hl : n = ((s2.ob.take n.toNat).length : Int) := by
      rw [List.length_take]
      omega
    have hb := read_over pre (s2.ob.take n.toNat) (s2.ob.drop n.toNat) n hl
    rw [List.take_append_drop] at hb
    rw [bufferReader_read, hb, ha]
    exact Or.inl ⟨_, rfl, pre ++ s2.ob.take n.toNat, by rw [hs]⟩

/-- Where the decoder yields a value from the stream, it yields the same
value from the buffer. -/
theorem buffer_follows_stream (H : Host) (rfuel fuel : Nat) (s1 : BufferReader)
    (s2 : ObjectReader (List Nat)) (c : Nat) (h : SameLeft s1 s2) :
    Follows (fun _ => False) SameLeft (inner_loads_c H bufferReader fuel s1 c)
      (inner_loads_c H (objectReader bytesStream rfuel) fuel s2 c) :=
  follows_inner_loads_c H bufferReader (objectReader bytesStream rfuel) _ SameLeft
    (fun t1 t2 ht => buffer_read1_follows _ t1 t2 ht)
    (fun t1 t2 n ht => buffer_read_follows _ rfuel t1 t2 n ht)
    fuel s1 s2 c h

theorem stream_read1_follows (s1 : ObjectReader (List Nat)) (s2 : BufferReader)
    (h : SameLeft s2 s1) :
    Follows (fun e => e = PyErr.systemNullNoError) (fun a b => SameLeft b a)
      (ObjectReader_read1 bytesStream s1) (bufferReader.read1 s2) := by
  obtain ⟨pre, rfl⟩ := h
  cases hob : s1.ob with
  | nil => rw [bufferReader_read1, read1_over_nil]; trivial
  | cons b t =>
    rw [objectReader_read1_byte b t s1 hob, bufferReader_read1, read1_over]
    exact Or.inl ⟨_, rfl, pre ++ [b], rfl⟩

theorem stream_read_follows (fuel : Nat) (s1 : ObjectReader (List Nat)) (s2 : BufferReader)
    (n : Int) (h : SameLeft s2 s1) :
    Follows (fun e => e = PyErr.systemNullNoError) (fun a b => SameLeft b a)
      (ObjectReader_read bytesStream (fuel + 1) s1 n) (bufferReader.read s2 n) := by
  obtain ⟨pre, rfl⟩ := h
  by_cases hn : n ≤ 0
  · rw [objectReader_read_nonpos bytesStream (fuel + 1) s1 n hn]
    exact @follows_of_fail _ _ _ (fun e => e = PyErr.systemNullNoError) _ _ s1 rfl _
  · by_cases hlen : (s1.ob.length : Int) < n
    · rw [bufferReader_read, read_over_fail pre s1.ob n hlen]
      trivial
    · have hl : n = ((s1.ob.take n.toNat).length : Int) := by
        rw [List.length_take]
        omega
      have hne : s1.ob.take n.toNat ≠ [] := by
        intro e
        rw [e] at hl
        simp at hl
        omega
      have hb := read_over pre (s1.ob.take n.toNat) (s1.ob.drop n.toNat) n hl
      rw [List.take_append_drop] at hb
      have hfull := objectReader_read_full (s1.ob.take n.toNat) (s1.ob.drop n.toNat) hne fuel
        s1 (List.take_append_drop _ _).symm
      rw [← hl] at hfull
      rw [bufferReader_read, hb, hfull]
      exact Or.inl ⟨_, rfl, pre ++ s1.ob.take n.toNat, rfl⟩

/-- Where the decoder yields a value from the buffer, it yields the same value
from the stream, unless the stream reader returns NULL with no exception
set. -/
theorem stream_follows_buffer (H : Host) (rfuel fuel : Nat) (s1 : ObjectReader (List Nat))
    (s2 : BufferReader) (c : Nat) (h : SameLeft s2 s1) :
    Follows (fun e => e = PyErr.systemNullNoError) (fun a b => SameLeft b a)
      (inner_loads_c H (objectReader bytesStream (rfuel + 1)) fuel s1 c)
      (inner_loads_c H bufferReader fuel s2 c) :=
  follows_inner_loads_c H (objectReader bytesStream (rfuel + 1)) bufferReader _ _
    (fun t1 t2 ht => stream_read1_follows t1 t2 ht)
    (fun t1 t2 n ht => stream_read_follows rfuel t1 t2 n ht)
    fuel s1 s2 c h

theorem newBufferReader_over (s : List Nat) (hs : s ≠ []) :
    NewBufferReader (.bytes s) = .ok (BufferReader.over [] s) := by
  have h : ¬ (s.length = 0) := by
    intro e
    exact hs (List.length_eq_zero.mp e)
  simp [NewBufferReader, h, BufferReader.over]

theorem cbor_loads_of_ok (H : Host) (fuel : Nat) (s : List Nat) (hs : s ≠ []) (v : PyObj)
    (r : BufferReader)
    (h : inner_loads H bufferReader fuel (BufferReader.over [] s) = .ok v r) :
    cbor_loads H fuel (.bytes s) = some (.ok v) := by
  simp only [cbor_loads, newBufferReader_over s hs, h]

theorem cbor_loads_ok_inv (H : Host) (fuel : Nat) (s : List Nat) (v : PyObj)
    (h : cbor_loads H fuel (.bytes s) = some (.ok v)) :
    s ≠ [] ∧ ∃ r, inner_loads H bufferReader fuel (BufferReader.over [] s) = .ok v r := by
  have hs : s ≠ [] := by
    rintro rfl
    simp [cbor_loads, NewBufferReader] at h
  refine ⟨hs, ?_⟩
  simp only [cbor_loads, newBufferReader_over s hs] at h
  cases hr : inner_loads H bufferReader fuel (BufferReader.over [] s) with
  | timeout => rw [hr] at h; simp at h
  | fail e r => rw [hr] at h; simp at h
  | pending e w r => rw [hr] at h; simp at h
  | ok w r =>
    rw [hr] at h
    simp only [Option.some.injEq, Except.ok.injEq] at h
    subst h
    exact ⟨r, rfl⟩

/-- Where `load` on a stream over a byte string returns a value, `loads` on
the byte string returns the same value. -/
theorem stream_value_buffer_value (H : Host) (fuel : Nat) (s : List Nat) (v : PyObj)
    (h : cbor_load H bytesStream fuel s = some (.ok v)) :
    cbor_loads H fuel (.bytes s) = some (.ok v) := by
  have hs : s ≠ [] := by
    rintro rfl
    rw [cbor_load_empty] at h
    simp at h
  have hf : Follows (fun _ => False) SameLeft
      (inner_loads H bufferReader fuel (BufferReader.over [] s))
      (inner_loads H (objectReader bytesStream fuel) fuel (NewObjectReader s)) :=
    follows_inner_loads_of bufferReader (objectReader bytesStream fuel) _ SameLeft
      (fun t1 t2 ht => buffer_read1_follows _ t1 t2 ht) _ _
      (fun t1 t2 c ht => buffer_follows_stream H fuel fuel t1 t2 c ht) _ _ ⟨[], rfl⟩
  unfold cbor_load at h
  dsimp only at h
  cases hr : inner_loads H (objectReader bytesStream fuel) fuel (NewObjectReader s) with
  | timeout => rw [hr] at h; simp at h
  | fail e r =>
    rw [hr] at h
    simp only at h
    split_ifs at h <;> simp at h
  | pending e w r => rw [hr] at h; simp at h
  | ok w r =>
    rw [hr] at h hf
    simp only [Option.some.injEq, Except.ok.injEq] at h
    subst h
    rcases hf with ⟨s1, h1, _⟩ | ⟨e, s1, _, he⟩
    · exact cbor_loads_of_ok H fuel s hs w s1 h1
    · exact he.elim

/-- Where `loads` on a byte string returns a value, `load` on a stream over
the byte string returns the same value or raises the `SystemError` of a NULL
result with no exception set. -/
theorem buffer_value_stream_value (H : Host) (fuel : Nat) (s : List Nat) (v : PyObj)
    (h : cbor_loads H fuel (.bytes s) = some (.ok v)) :
    cbor_load H bytesStream fuel s = some (.ok v) ∨
      cbor_load H bytesStream fuel s = some (.error .systemNullNoError) := by
  obtain ⟨hs, r, hr⟩ := cbor_loads_ok_inv H fuel s v h
  cases fuel with
  | zero =>
    cases s with
    | nil => exact absurd rfl hs
    | cons b t =>
      simp [inner_loads, inner_loads_of_over, inner_loads_c] at hr
  | succ f =>
    have hf : Follows (fun e => e = PyErr.systemNullNoError) (fun a b => SameLeft b a)
        (inner_loads H (objectReader bytesStream (f + 1)) (f + 1) (NewObjectReader s))
        (inner_loads H bufferReader (f + 1) (BufferReader.over [] s)) :=
      follows_inner_loads_of (objectReader bytesStream (f + 1)) bufferReader _ _
        (fun t1 t2 ht => stream_read1_follows t1 t2 ht) _ _
        (fun t1 t2 c ht => stream_follows_buffer H f (f + 1) t1 t2 c ht) _ _ ⟨[], rfl⟩
    rw [hr] at hf
    rcases hf with ⟨s1, h1, _⟩ | ⟨e, s1, h1, he⟩
    · left
      unfold cbor_load
      dsimp only
      rw [h1]
    · right
      have hne : cbor_load H bytesStream (f + 1) s ≠ some (.error .eofReadNothing) := by
        rw [Ne, cbor_load_eof_bytes]
        exact hs
      subst he
      unfold cbor_load at hne ⊢
      dsimp only at hne ⊢
      rw [h1] at hne ⊢
      simp only at hne ⊢
      split_ifs at hne ⊢
      · exact absurd rfl hne
      · rfl

/-- Claim C32, failing inputs: the bytes `5F 40 FF`, an indefinite-length byte
string with one chunk of length zero, are decoded to the empty byte string by
`loads`, while `load` on a stream over the same bytes fails (the stream reader
returns NULL for a read of zero bytes); and on the bytes `42 01`, a byte string
cut short, `loads` fails, while `load` never returns. -/
theorem readers_disagree :
    cbor_loads refHost 2 (.bytes [0x5F, 0x40, 0xFF]) = some (.ok (.bytes [])) ∧
    cbor_load refHost bytesStream 2 [0x5F, 0x40, 0xFF] = some (.error .systemNullNoError) ∧
    cbor_loads refHost 2 (.bytes [0x42, 0x01]) = some (.error .valueBufferRead) ∧
    ∀ fuel : Nat, cbor_load refHost bytesStream fuel [0x42, 0x01] = Option.none :=
  ⟨rfl, rfl, rfl, cbor_load_truncated_bytes refHost⟩

/-! ## Self-delimiting steps of the in-memory decoder -/

theorem framed_ok {α : Type} (a : α) : Framed (fun s => (.ok a s : Res BufferReader α)) := by
  intro pre suf b s h
  simp only [Res.ok.injEq] at h
  obtain ⟨rfl, rfl⟩ := h
  exact ⟨[], suf, rfl, by simp, fun pre2 rest2 => by simp⟩

theorem framed_fail {α : Type} (e : PyErr) :
    Framed (fun s => (.fail e s : Res BufferReader α)) := by
  intro pre suf b s h
  simp at h

theorem framed_timeout {α : Type} : Framed (fun _ => (.timeout : Res BufferReader α)) := by
  intro pre suf b s h
  simp at h

theorem framed_read1 : Framed (fun s => bufferReader.read1 s) := by
  intro pre suf b s h
  cases suf with
  | nil => simp [bufferReader_read1, read1_over_nil] at h
  | cons c t =>
    simp only [bufferReader_read1, read1_over, Res.ok.injEq] at h
    obtain ⟨rfl, rfl⟩ := h
    exact ⟨[c], t, rfl, rfl, fun pre2 rest2 => by
      simp only [bufferReader_read1, List.singleton_append, read1_over]⟩

theorem framed_read (n : Int) (hn : 0 ≤ n) : Framed (fun s => bufferReader.read s n) := by
  intro pre suf b s h
  by_cases hlen : (suf.length : Int) < n
  · simp [bufferReader_read, read_over_fail pre suf n hlen] at h
  · have hl : n = ((suf.take n.toNat).length : Int) := by
      rw [List.length_take]
      omega
    have hb := read_over pre (suf.take n.toNat) (suf.drop n.toNat) n hl
    rw [List.take_append_drop] at hb
    simp only [bufferReader_read, hb, Res.ok.injEq] at h
    obtain ⟨rfl, rfl⟩ := h
    exact ⟨suf.take n.toNat, suf.drop n.toNat, (List.take_append_drop _ _).symm, rfl,
      fun pre2 rest2 => by
        simp only [bufferReader_read]
        exact read_over pre2 _ rest2 n hl⟩

theorem framed_bind {α β : Type} {f : BufferReader → Res BufferReader α}
    {g : α → BufferReader → Res BufferReader β} (hf : Framed f) (hg : ∀ a, Framed (g a)) :
    Framed (fun s => (f s).bind g) := by
  intro pre suf b s h
  cases hfr : f (BufferReader.over pre suf) with
  | timeout => simp [hfr, Res.bind] at h
  | fail e s1 => simp [hfr, Res.bind] at h
  | pending e a s1 =>
    simp only [hfr, bind_pending] at h
    exact absurd h (after_ne_ok _ _ _ _)
  | ok a s1 =>
    obtain ⟨u1, r1, rfl, rfl, fr1⟩ := hf pre _ a s1 hfr
    simp only [hfr, bind_ok] at h
    obtain ⟨u2, r2, rfl, rfl, fr2⟩ := hg a (pre ++ u1) _ b s h
    refine ⟨u1 ++ u2, r2, by simp, by simp, fun pre2 rest2 => ?_⟩
    have e1 := fr1 pre2 (u2 ++ rest2)
    have e2 := fr2 (pre2 ++ u1) rest2
    simp only [List.append_assoc] at e1 e2 ⊢
    simp only [e1, bind_ok, e2]

theorem framed_ite {α : Type} (c : Prop) [Decidable c] {f g : BufferReader → Res BufferReader α}
    (hf : c → Framed f) (hg : ¬ c → Framed g) : Framed (fun s => if c then f s else g s) := by
  by_cases h : c
  · simp only [if_pos h]; exact hf h
  · simp only [if_neg h]; exact hg h

/-- A read of `n` bytes that is followed by the test for a negative size. -/
theorem framed_read_guard {β : Type} (n : Int) (e : PyErr)
    (k : List Nat → BufferReader → Res BufferReader β) (hk : ∀ raw, Framed (k raw)) :
    Framed (fun s => (bufferReader.read s n).bind fun raw rin =>
      if n < 0 then .fail e rin else k raw rin) := by
  by_cases hn : n < 0
  · simp only [if_pos hn]
    intro pre suf b s h
    cases hr : bufferReader.read (BufferReader.over pre suf) n <;> simp [hr, Res.bind] at h
  · simp only [if_neg hn]
    exact framed_bind (framed_read n (by omega)) hk

theorem framed_handle_info_bits (info : Nat) :
    Framed (fun s => handle_info_bits bufferReader s info) := by
  have e : (fun s => handle_info_bits bufferReader s info) = fun s =>
      if info ≤ 23 then .ok info s
      else if info = CBOR_UINT8_FOLLOWS then
        (bufferReader.read1 s).bind fun taux rin => .ok taux rin
      else if info = CBOR_UINT16_FOLLOWS then
        (bufferReader.read1 s).bind fun hibyte rin =>
        (bufferReader.read1 rin).bind fun lobyte rin => .ok ((hibyte <<< 8) ||| lobyte) rin
      else if info = CBOR_UINT32_FOLLOWS then
        (bufferReader.read s 4).bind fun raw rin =>
          .ok (((raw.getD 0 0) <<< 24) ||| ((raw.getD 1 0) <<< 16) |||
            ((raw.getD 2 0) <<< 8) ||| (raw.getD 3 0)) rin
      else if info = CBOR_UINT64_FOLLOWS then
        (bufferReader.read s 8).bind fun raw rin =>
          .ok ((List.range 8).foldl
            (fun aux si => ((aux <<< 8) % 2 ^ 64) ||| raw.getD si 0) 0) rin
      else .ok 0 s :=
    funext fun s => handle_info_bits_bind bufferReader s info
  rw [e]
  refine framed_ite _ (fun _ => framed_ok _) (fun _ => ?_)
  refine framed_ite _ (fun _ => framed_bind framed_read1 (fun _ => framed_ok _)) (fun _ => ?_)
  refine framed_ite _ (fun _ => framed_bind framed_read1
    (fun _ => framed_bind framed_read1 (fun _ => framed_ok _))) (fun _ => ?_)
  refine framed_ite _ (fun _ => framed_bind (framed_read 4 (by omega)) (fun _ => framed_ok _))
    (fun _ => ?_)
  exact framed_ite _ (fun _ => framed_bind (framed_read 8 (by omega)) (fun _ => framed_ok _))
    (fun _ => framed_ok _)

theorem framed_inner_loads_of (item : BufferReader → Nat → Res BufferReader PyObj)
    (hitem : ∀ c, Framed (fun s => item s c)) :
    Framed (fun s => inner_loads_of bufferReader item s) :=
  framed_bind framed_read1 hitem

theorem framed_loads_var_bytes (n : Nat) : ∀ (sc : Nat) (parts : List (List Nat)),
    Framed (fun s => loads_var_bytes bufferReader n s sc parts) := by
  induction n with
  | zero =>
    intro sc parts
    exact framed_timeout
  | succ n ih =>
    intro sc parts
    simp only [loads_var_bytes]
    refine framed_ite _ (fun _ => ?_) (fun _ => framed_ok _)
    refine framed_ite _ (fun _ => framed_fail _) (fun _ => ?_)
    refine framed_bind (framed_handle_info_bits _) (fun saux => ?_)
    refine framed_read_guard _ _ _ (fun blob => ?_)
    exact framed_bind framed_read1 (fun sc2 => ih sc2 _)

theorem framed_loads_var_items (item : BufferReader → Nat → Res BufferReader PyObj)
    (hitem : ∀ c, Framed (fun s => item s c)) (n : Nat) :
    ∀ (sc : Nat) (parts : List PyObj),
      Framed (fun s => loads_var_items bufferReader item n s sc parts) := by
  induction n with
  | zero =>
    intro sc parts
    exact framed_timeout
  | succ n ih =>
    intro sc parts
    simp only [loads_var_items]
    refine framed_ite _ (fun _ => ?_) (fun _ => framed_ok _)
    refine framed_bind (hitem sc) (fun v => ?_)
    exact framed_bind framed_read1 (fun sc2 => ih sc2 _)

theorem framed_loads_array_items (item : BufferReader → Nat → Res BufferReader PyObj)
    (hitem : ∀ c, Framed (fun s => item s c)) (aux n : Nat) :
    ∀ (i : Nat) (out : Option (List PyObj)),
      Framed (fun s => loads_array_items bufferReader item aux n s i out) := by
  induction n with
  | zero =>
    intro i out
    exact framed_timeout
  | succ n ih =>
    intro i out
    simp only [loads_array_items]
    cases out with
    | none =>
      refine framed_ite _ (fun _ => ?_) (fun _ => framed_fail _)
      exact framed_bind (framed_inner_loads_of item hitem) (fun v => framed_fail _)
    | some l =>
      refine framed_ite _ (fun _ => ?_) (fun _ => framed_ok _)
      exact framed_bind (framed_inner_loads_of item hitem) (fun v => ih _ _)

theorem framed_dict_set_item (H : Host) (out : List (PyObj × PyObj)) (k v : PyObj) :
    Framed (fun s => dict_set_item H out k v s) := by
  unfold dict_set_item
  refine framed_ite _ (fun _ => framed_ok _) (fun _ => ?_)
  intro pre suf b s h
  cases h

theorem framed_loads_kv (H : Host) (item : BufferReader → Nat → Res BufferReader PyObj)
    (hitem : ∀ c, Framed (fun s => item s c)) (out : List (PyObj × PyObj)) :
    Framed (fun s => loads_kv H bufferReader item out s) := by
  unfold loads_kv
  refine framed_bind (framed_inner_loads_of item hitem) (fun k => ?_)
  exact framed_bind (framed_inner_loads_of item hitem) (fun v => framed_dict_set_item H _ _ _)

theorem framed_loads_map_items (H : Host) (item : BufferReader → Nat → Res BufferReader PyObj)
    (hitem : ∀ c, Framed (fun s => item s c)) (aux n : Nat) :
    ∀ (i : Nat) (out : List (PyObj × PyObj)),
      Framed (fun s => loads_map_items H bufferReader item aux n s i out) := by
  induction n with
  | zero =>
    intro i out
    exact framed_timeout
  | succ n ih =>
    intro i out
    simp only [loads_map_items]
    refine framed_ite _ (fun _ => ?_) (fun _ => framed_ok _)
    exact framed_bind (framed_loads_kv H item hitem out) (fun out2 => ih _ _)

theorem framed_loads_var_map (H : Host) (item : BufferReader → Nat → Res BufferReader PyObj)
    (hitem : ∀ c, Framed (fun s => item s c)) (n : Nat) :
    ∀ (sc : Nat) (out : List (PyObj × PyObj)),
      Framed (fun s => loads_var_map H bufferReader item n s sc out) := by
  induction n with
  | zero =>
    intro sc out
    exact framed_timeout
  | succ n ih =>
    intro sc out
    simp only [loads_var_map]
    refine framed_ite _ (fun _ => ?_) (fun _ => framed_ok _)
    refine framed_bind (hitem sc) (fun k => ?_)
    refine framed_bind (framed_inner_loads_of item hitem) (fun v => ?_)
    refine framed_bind (framed_dict_set_item H _ _ _) (fun out2 => ?_)
    exact framed_bind framed_read1 (fun sc2 => ih sc2 _)

theorem framed_loads_bignum_loop (k : Nat) :
    ∀ out : Nat, Framed (fun s => loads_bignum_loop bufferReader k s out) := by
  induction k with
  | zero =>
    intro out
    simp only [loads_bignum_loop]
    exact framed_ok _
  | succ k ih =>
    intro out
    simp only [loads_bignum_loop]
    exact framed_bind framed_read1 (fun cb => ih _)

theorem framed_loads_bignum (c : Nat) : Framed (fun s => loads_bignum bufferReader s c) := by
  unfold loads_bignum
  dsimp only
  exact framed_ite _ (fun _ => framed_loads_bignum_loop _ _) (fun _ => framed_fail _)

theorem framed_loads_tag (item : BufferReader → Nat → Res BufferReader PyObj)
    (hitem : ∀ c, Framed (fun s => item s c)) (aux : Nat) :
    Framed (fun s => loads_tag bufferReader item s aux) := by
  unfold loads_tag
  refine framed_ite _ (fun _ => ?_) (fun _ => ?_)
  · refine framed_bind framed_read1 (fun sc => ?_)
    exact framed_ite _ (fun _ => framed_loads_bignum sc) (fun _ => framed_fail _)
  · refine framed_ite _ (fun _ => ?_) (fun _ => ?_)
    · refine framed_bind framed_read1 (fun sc => ?_)
      refine framed_ite _ (fun _ => ?_) (fun _ => framed_fail _)
      refine framed_bind (framed_loads_bignum sc) (fun out => ?_)
      cases out <;> first | exact framed_ok _ | exact framed_fail _
    · exact framed_bind (framed_inner_loads_of item hitem) (fun out => framed_ok _)

theorem framed_decodeFloat16 : Framed (fun s => decodeFloat16 bufferReader s) :=
  framed_bind framed_read1 (fun _ => framed_bind framed_read1 (fun _ => framed_ok _))

theorem framed_decodeFloat32 : Framed (fun s => decodeFloat32 bufferReader s) :=
  framed_bind (framed_read 4 (by omega)) (fun _ => framed_ok _)

theorem framed_decodeFloat64 : Framed (fun s => decodeFloat64 bufferReader s) :=
  framed_bind (framed_read 8 (by omega)) (fun _ => framed_ok _)

/-- Every run of the in-memory decoder on an item is self-delimiting. -/
theorem framed_inner_loads_c (H : Host) (fuel : Nat) :
    ∀ c : Nat, Framed (fun s => inner_loads_c H bufferReader fuel s c) := by
  induction fuel with
  | zero =>
    intro c
    exact framed_timeout
  | succ f ih =>
    intro c
    rcases major_type_cases_all c with hT | hT | hT | hT | hT | hT | hT | hT
    · rw [funext fun s => inner_loads_c_uint H bufferReader f s c hT]
      exact framed_bind (framed_handle_info_bits _) (fun aux => framed_ok _)
    · rw [funext fun s => inner_loads_c_negint H bufferReader f s c hT]
      refine framed_bind (framed_handle_info_bits _) (fun aux => ?_)
      exact framed_ite _ (fun _ => framed_ok _) (fun _ => framed_ok _)
    · rw [funext fun s => inner_loads_c_bytes H bufferReader f s c hT]
      refine framed_bind (framed_handle_info_bits _) (fun aux => ?_)
      refine framed_ite _ (fun _ => ?_) (fun _ => ?_)
      · exact framed_bind framed_read1 (fun sc => framed_loads_var_bytes _ sc _)
      · refine framed_ite _ (fun _ => framed_ok _) (fun _ => ?_)
        exact framed_read_guard _ _ _ (fun raw => framed_ok _)
    · rw [funext fun s => inner_loads_c_text H bufferReader f s c hT]
      refine framed_bind (framed_handle_info_bits _) (fun aux => ?_)
      refine framed_ite _ (fun _ => ?_) (fun _ => ?_)
      · refine framed_bind framed_read1 (fun sc => ?_)
        refine framed_bind (framed_loads_var_items _ ih _ sc _) (fun parts => ?_)
        cases unicode_join parts with
        | none => exact framed_fail _
        | some x => exact framed_ok _
      · refine framed_ite _ (fun _ => framed_ok _) (fun _ => ?_)
        refine framed_read_guard _ _ _ (fun raw => ?_)
        exact framed_ite _ (fun _ => framed_ok _) (fun _ => framed_fail _)
    · rw [funext fun s => inner_loads_c_array H bufferReader f s c hT]
      refine framed_bind (framed_handle_info_bits _) (fun aux => ?_)
      refine framed_ite _ (fun _ => ?_) (fun _ => ?_)
      · refine framed_bind framed_read1 (fun sc => ?_)
        exact framed_bind (framed_loads_var_items _ ih _ sc _) (fun parts => framed_ok _)
      · exact framed_loads_array_items _ ih _ _ _ _
    · rw [funext fun s => inner_loads_c_map H bufferReader f s c hT]
      refine framed_bind (framed_handle_info_bits _) (fun aux => ?_)
      refine framed_ite _ (fun _ => ?_) (fun _ => framed_loads_map_items H _ ih _ _ _ _)
      exact framed_bind framed_read1 (fun sc => framed_loads_var_map H _ ih _ sc _)
    · rw [funext fun s => inner_loads_c_tag H bufferReader f s c hT]
      refine framed_bind (framed_handle_info_bits _) (fun aux => ?_)
      exact framed_loads_tag _ ih _
    · rw [funext fun s => inner_loads_c_seven H bufferReader f s c hT]
      refine framed_ite _ (fun _ => framed_decodeFloat16) (fun _ => ?_)
      refine framed_ite _ (fun _ => framed_decodeFloat32) (fun _ => ?_)
      refine framed_ite _ (fun _ => framed_decodeFloat64) (fun _ => ?_)
      refine framed_bind (framed_handle_info_bits _) (fun aux => ?_)
      refine framed_ite _ (fun _ => framed_ok _) (fun _ => ?_)
      refine framed_ite _ (fun _ => framed_ok _) (fun _ => ?_)
      refine framed_ite _ (fun _ => framed_ok _) (fun _ => ?_)
      exact framed_ite _ (fun _ => framed_ok _) (fun _ => framed_fail _)

/-- Every run of `inner_loads` on a buffer is self-delimiting. -/
theorem framed_inner_loads (H : Host) (fuel : Nat) :
    Framed (fun s => inner_loads H bufferReader fuel s) :=
  framed_inner_loads_of _ (framed_inner_loads_c H fuel)

theorem inner_loads_frame (H : Host) (fuel : Nat) (pre b : List Nat) (v : PyObj)
    (s : BufferReader)
    (h : inner_loads H bufferReader fuel (BufferReader.over pre b) = .ok v s) :
    ∃ k, 1 ≤ k ∧ k ≤ b.length ∧
      s = BufferReader.over (pre ++ b.take k) (b.drop k) ∧
      (∀ pre2 rest, inner_loads H bufferReader fuel (BufferReader.over pre2 (b.take k ++ rest))
        = .ok v (BufferReader.over (pre2 ++ b.take k) rest)) ∧
      ∀ rest, cbor_loads H fuel (.bytes (b.take k ++ rest)) = some (.ok v) := by
  obtain ⟨used, rest, rfl, rfl, fr⟩ := framed_inner_loads H fuel pre b v s h
  have hpos : 1 ≤ used.length := by
    cases used with
    | nil =>
      have h0 := fr [] []
      simp [inner_loads, inner_loads_of, bufferReader_read1, read1_over_nil] at h0
    | cons c t => simp
  have ht : (used ++ rest).take used.length = used := by simp
  have hd : (used ++ rest).drop used.length = rest := by simp
  refine ⟨used.length, hpos, by simp, by rw [ht, hd], ?_, ?_⟩
  · rw [ht]
    exact fr
  · intro rest2
    rw [ht]
    have hne : used ++ rest2 ≠ [] := by
      cases used with
      | nil => simp at hpos
      | cons c t => simp
    exact cbor_loads_of_ok H fuel _ hne v _ (fr [] rest2)

/-- Claim C31: where `inner_loads` on an in-memory reader over the bytes `b`
yields a value, it has consumed the first `k` bytes of `b` for some `k` from
`1` to the length of `b` (the reader is left at the cursor behind them), and
on every buffer that holds these `k` bytes followed by any bytes `rest`,
behind any bytes already read, it yields the same value and leaves exactly
`rest` unread; `loads` on the `k` bytes followed by `rest` returns the
value. -/
theorem decoding_self_delimiting (H : Host) (fuel : Nat) (pre b : List Nat) (v : PyObj)
    (s : BufferReader)
    (h : inner_loads H bufferReader fuel (BufferReader.over pre b) = .ok v s) :
    ∃ k, 1 ≤ k ∧ k ≤ b.length ∧
      s = BufferReader.over (pre ++ b.take k) (b.drop k) ∧
      (∀ pre2 rest, inner_loads H bufferReader fuel (BufferReader.over pre2 (b.take k ++ rest))
        = .ok v (BufferReader.over (pre2 ++ b.take k) rest)) ∧
      ∀ rest, cbor_loads H fuel (.bytes (b.take k ++ rest)) = some (.ok v) :=
  inner_loads_frame H fuel pre b v s h

theorem decoding_self_delimiting_witness :
    inner_loads refHost bufferReader 3 (BufferReader.over [] [0x82, 0x01, 0x41, 0x07, 0xFF])
      = .ok (.list [.long 1, .bytes [0x07]])
          (BufferReader.over [0x82, 0x01, 0x41, 0x07] [0xFF]) ∧
    ∃ k, 1 ≤ k ∧ k ≤ [0x82, 0x01, 0x41, 0x07, 0xFF].length ∧
      BufferReader.over [0x82, 0x01, 0x41, 0x07] [0xFF]
        = BufferReader.over ([] ++ [0x82, 0x01, 0x41, 0x07, 0xFF].take k)
            ([0x82, 0x01, 0x41, 0x07, 0xFF].drop k) ∧
      (∀ pre2 rest, inner_loads refHost bufferReader 3
          (BufferReader.over pre2 ([0x82, 0x01, 0x41, 0x07, 0xFF].take k ++ rest))
        = .ok (.list [.long 1, .bytes [0x07]])
            (BufferReader.over (pre2 ++ [0x82, 0x01, 0x41, 0x07, 0xFF].take k) rest)) ∧
      ∀ rest, cbor_loads refHost 3 (.bytes ([0x82, 0x01, 0x41, 0x07, 0xFF].take k ++ rest))
        = some (.ok (.list [.long 1, .bytes [0x07]])) :=
  ⟨rfl, decoding_self_delimiting refHost 3 [] [0x82, 0x01, 0x41, 0x07, 0xFF]
    (.list [.long 1, .bytes [0x07]]) (BufferReader.over [0x82, 0x01, 0x41, 0x07] [0xFF]) rfl⟩

/-! ## The list sort and the dictionary of the host model -/

theorem run_down_spec {α : Type} [LinearOrder α] (rank : PyObj → α) (prev : PyObj)
    (rest : List PyObj)
    (h : ∀ a ∈ prev :: rest, ∀ b ∈ prev :: rest, pyLt a b = some (decide (rank a < rank b))) :
    ∃ n, run_down prev rest = some n ∧ n ≤ rest.length ∧
      List.Chain (fun a b => rank b < rank a) prev (rest.take n) := by
  induction rest generalizing prev with
  | nil => exact ⟨0, rfl, Nat.le_refl _, List.Chain.nil⟩
  | cons x rest ih =>
    have hx := h x (by simp) prev (by simp)
    by_cases hlt : rank x < rank prev
    · obtain ⟨n, hn, hle, hc⟩ := ih x (fun a ha b hb =>
        h a (List.mem_cons_of_mem _ ha) b (List.mem_cons_of_mem _ hb))
      refine ⟨n + 1, ?_, by simpa using hle, ?_⟩
      · simp [run_down, hx, hlt, hn]
      · simpa using ⟨hlt, hc⟩
    · refine ⟨0, ?_, Nat.zero_le _, ?_⟩
      · simp [run_down, hx, hlt]
      · simp

theorem run_up_spec {α : Type} [LinearOrder α] (rank : PyObj → α) (prev : PyObj)
    (rest : List PyObj)
    (h : ∀ a ∈ prev :: rest, ∀ b ∈ prev :: rest, pyLt a b = some (decide (rank a < rank b))) :
    ∃ n, run_up prev rest = some n ∧ n ≤ rest.length ∧
      List.Chain (fun a b => rank a ≤ rank b) prev (rest.take n) := by
  induction rest generalizing prev with
  | nil => exact ⟨0, rfl, Nat.le_refl _, List.Chain.nil⟩
  | cons x rest ih =>
    have hx := h x (by simp) prev (by simp)
    by_cases hlt : rank x < rank prev
    · refine ⟨0, ?_, Nat.zero_le _, ?_⟩
      · simp [run_up, hx, hlt]
      · simp
    · obtain ⟨n, hn, hle, hc⟩ := ih x (fun a ha b hb =>
        h a (List.mem_cons_of_mem _ ha) b (List.mem_cons_of_mem _ hb))
      refine ⟨n + 1, ?_, by simpa using hle, ?_⟩
      · simp [run_up, hx, hlt, hn]
      · simpa using ⟨not_lt.mp hlt, hc⟩

/-- On items that `<` orders as `rank` does, `count_run` succeeds, and the run
it finds, turned round when it goes down, is in ascending order. -/
theorem count_run_spec {α : Type} [LinearOrder α] (rank : PyObj → α) (ks : List PyObj)
    (h : ∀ a ∈ ks, ∀ b ∈ ks, pyLt a b = some (decide (rank a < rank b)))
    (hl : 2 ≤ ks.length) :
    ∃ n descending, count_run ks = some (n, descending) ∧ n ≤ ks.length ∧
      (if descending then (ks.take n).reverse else ks.take n).Pairwise
        (fun a b => rank a ≤ rank b) := by
  match ks, hl with
  | a :: b :: rest, _ =>
    have hb := h b (by simp) a (by simp)
    have hsub : ∀ x ∈ b :: rest, ∀ y ∈ b :: rest, pyLt x y = some (decide (rank x < rank y)) :=
      fun x hx y hy => h x (List.mem_cons_of_mem _ hx) y (List.mem_cons_of_mem _ hy)
    by_cases hlt : rank b < rank a
    · obtain ⟨n, hn, hle, hc⟩ := run_down_spec rank b rest hsub
      refine ⟨n + 2, true, ?_, by simpa using hle, ?_⟩
      · simp [count_run, hb, hlt, hn]
      · have hch : List.Chain (fun x y => rank y < rank x) a (b :: rest.take n) :=
          List.Chain.cons hlt hc
        haveI : IsTrans PyObj (fun x y => rank y < rank x) :=
          ⟨fun _ _ _ h1 h2 => lt_trans h2 h1⟩
        have hp : (a :: b :: rest.take n).Pairwise (fun x y => rank y < rank x) :=
          List.chain_iff_pairwise.mp hch
        simp only [if_true, List.take_succ_cons]
        rw [List.pairwise_reverse]
        exact hp.imp (fun hxy => le_of_lt hxy)
    · obtain ⟨n, hn, hle, hc⟩ := run_up_spec rank b rest hsub
      refine ⟨n + 2, false, ?_, by simpa using hle, ?_⟩
      · simp [count_run, hb, hlt, hn]
      · have hch : List.Chain (fun x y => rank x ≤ rank y) a (b :: rest.take n) :=
          List.Chain.cons (not_lt.mp hlt) hc
        haveI : IsTrans PyObj (fun x y => rank x ≤ rank y) :=
          ⟨fun _ _ _ h1 h2 => le_trans h1 h2⟩
        have hp : (a :: b :: rest.take n).Pairwise (fun x y => rank x ≤ rank y) :=
          List.chain_iff_pairwise.mp hch
        simpa using hp


/-- The bisection of `binarysort` on a sorted list finds the place of the
pivot: behind the items that are not greater, before the items that are. -/
theorem bisect_spec {α : Type} [LinearOrder α] (rank : PyObj → α) (pivot : PyObj)
    (arr : List PyObj)
    (hlt : ∀ x ∈ arr, pyLt pivot x = some (decide (rank pivot < rank x)))
    (hs : arr.Pairwise (fun a b => rank a ≤ rank b)) (fuel : Nat) :
    ∀ l r, l < r → r ≤ arr.length → r - l ≤ fuel →
      (∀ x ∈ arr.take l, rank x ≤ rank pivot) → (∀ x ∈ arr.drop r, rank pivot < rank x) →
      ∃ m, bisect pivot arr fuel l r = some m ∧ m ≤ arr.length ∧
        (∀ x ∈ arr.take m, rank x ≤ rank pivot) ∧ (∀ x ∈ arr.drop m, rank pivot < rank x) := by
  induction fuel with
  | zero =>
    intro l r hlr _ hf
    omega
  | succ fuel ih =>
    intro l r hlr hr hf h1 h2
    have hp1 : l ≤ l + (r - l) / 2 := Nat.le_add_right _ _
    have hp2 : l + (r - l) / 2 < r := by omega
    have hpl : l + (r - l) / 2 < arr.length := by omega
    have hget : arr.getD (l + (r - l) / 2) PyObj.none = arr[l + (r - l) / 2] :=
      List.getD_eq_getElem _ _ hpl
    have hmem : arr[l + (r - l) / 2] ∈ arr := List.getElem_mem _
    have hcmp := hlt _ hmem
    have hdrop : arr.drop (l + (r - l) / 2)
        = arr[l + (r - l) / 2] :: arr.drop (l + (r - l) / 2 + 1) :=
      List.drop_eq_getElem_cons hpl
    have hsplit : arr = arr.take (l + (r - l) / 2) ++ arr.drop (l + (r - l) / 2) :=
      (List.take_append_drop _ _).symm
    have hs2 := hs
    rw [hsplit, List.pairwise_append, hdrop, List.pairwise_cons] at hs2
    obtain ⟨_, ⟨hge, _⟩, hle⟩ := hs2
    by_cases hc : rank pivot < rank arr[l + (r - l) / 2]
    · have h2new : ∀ x ∈ arr.drop (l + (r - l) / 2), rank pivot < rank x := by
        intro x hx
        rw [hdrop] at hx
        rcases List.mem_cons.mp hx with rfl | hx
        · exact hc
        · exact lt_of_lt_of_le hc (hge x hx)
      by_cases hl : l < l + (r - l) / 2
      · obtain ⟨m, hm, hres⟩ := ih l (l + (r - l) / 2) hl (by omega) (by omega) h1 h2new
        refine ⟨m, ?_, hres⟩
        simp only [bisect, hget, hcmp, hc, decide_True, if_pos hl, hm]
      · have e : l + (r - l) / 2 = l := by omega
        refine ⟨l + (r - l) / 2, ?_, by omega, ?_, h2new⟩
        · simp only [bisect, hget, hcmp, hc, decide_True, if_neg hl]
        · rw [e]
          exact h1
    · have h1new : ∀ x ∈ arr.take (l + (r - l) / 2 + 1), rank x ≤ rank pivot := by
        intro x hx
        rw [List.take_succ, List.getElem?_eq_getElem hpl] at hx
        simp only [Option.toList_some, List.mem_append, List.mem_singleton] at hx
        rcases hx with hx | rfl
        · exact le_trans (hle x hx _ (List.mem_cons_self _ _)) (not_lt.mp hc)
        · exact not_lt.mp hc
      by_cases hl : l + (r - l) / 2 + 1 < r
      · obtain ⟨m, hm, hres⟩ := ih (l + (r - l) / 2 + 1) r hl hr (by omega) h1new h2
        refine ⟨m, ?_, hres⟩
        simp only [bisect, hget, hcmp, hc, decide_False, if_pos hl, hm]
      · have e : l + (r - l) / 2 + 1 = r := by omega
        refine ⟨l + (r - l) / 2 + 1, ?_, by omega, h1new, ?_⟩
        · simp only [bisect, hget, hcmp, hc, decide_False, if_neg hl]
        · rw [e]
          exact h2

/-- On items that `<` orders as `rank` does, `binarysort` succeeds and leaves a
sorted arrangement of the items. -/
theorem binarysort_spec {α : Type} [LinearOrder α] (rank : PyObj → α) (rest : List PyObj) :
    ∀ (sorted : List PyObj),
      (∀ a ∈ sorted ++ rest, ∀ b ∈ sorted ++ rest, pyLt a b = some (decide (rank a < rank b))) →
      sorted.Pairwise (fun a b => rank a ≤ rank b) →
      (binarysort sorted rest).2 = true ∧ (binarysort sorted rest).1.Perm (sorted ++ rest) ∧
        (binarysort sorted rest).1.Pairwise (fun a b => rank a ≤ rank b) := by
  induction rest with
  | nil =>
    intro sorted _ hs
    simp only [binarysort, List.append_nil]
    exact ⟨trivial, List.Perm.refl _, hs⟩
  | cons pivot rest ih =>
    intro sorted hlt hs
    have hb : ∃ m, bisect pivot sorted sorted.length 0 sorted.length = some m ∧
        m ≤ sorted.length ∧ (∀ x ∈ sorted.take m, rank x ≤ rank pivot) ∧
        (∀ x ∈ sorted.drop m, rank pivot < rank x) := by
      cases hsorted : sorted with
      | nil => exact ⟨0, rfl, Nat.le_refl _, by simp, by simp⟩
      | cons s0 st =>
        rw [← hsorted]
        refine bisect_spec rank pivot sorted
          (fun x hx => hlt pivot (by simp) x (List.mem_append_left _ hx)) hs sorted.length
          0 sorted.length (by rw [hsorted]; simp) (Nat.le_refl _) (by omega) (by simp) (by simp)
    obtain ⟨m, hm, hmle, h1, h2⟩ := hb
    have hperm : (sorted.take m ++ pivot :: sorted.drop m).Perm (pivot :: sorted) := by
      have := @List.perm_middle _ pivot (sorted.take m) (sorted.drop m)
      rwa [List.take_append_drop] at this
    have hsplit : sorted = sorted.take m ++ sorted.drop m := (List.take_append_drop _ _).symm
    have hs2 := hs
    rw [hsplit, List.pairwise_append] at hs2
    obtain ⟨hst, hsd, hcross⟩ := hs2
    have hs3 : (sorted.take m ++ pivot :: sorted.drop m).Pairwise
        (fun a b => rank a ≤ rank b) := by
      rw [List.pairwise_append, List.pairwise_cons]
      refine ⟨hst, ⟨fun x hx => le_of_lt (h2 x hx), hsd⟩, fun a ha b hb => ?_⟩
      rcases List.mem_cons.mp hb with rfl | hb
      · exact h1 a ha
      · exact hcross a ha b hb
    have hmem : ∀ x, x ∈ (sorted.take m ++ pivot :: sorted.drop m) ++ rest →
        x ∈ sorted ++ pivot :: rest := by
      intro x hx
      rcases List.mem_append.mp hx with hx | hx
      · rcases List.mem_cons.mp (hperm.mem_iff.mp hx) with rfl | hx
        · simp
        · exact List.mem_append_left _ hx
      · exact List.mem_append_right _ (List.mem_cons_of_mem _ hx)
    obtain ⟨r1, r2, r3⟩ := ih (sorted.take m ++ pivot :: sorted.drop m)
      (fun a ha b hb => hlt a (hmem a ha) b (hmem b hb)) hs3
    simp only [binarysort, hm]
    refine ⟨r1, ?_, r3⟩
    refine r2.trans ?_
    refine (List.Perm.append_right rest hperm).trans ?_
    simpa using (@List.perm_middle _ pivot sorted rest).symm

/-- On items that `<` orders as `rank` does, the list sort succeeds and leaves
the items in ascending order. -/
theorem list_sort_impl_spec {α : Type} [LinearOrder α] (rank : PyObj → α) (ks : List PyObj)
    (hlt : ∀ a ∈ ks, ∀ b ∈ ks, pyLt a b = some (decide (rank a < rank b))) :
    (list_sort_impl ks).2 = true ∧ (list_sort_impl ks).1.Perm ks ∧
      (list_sort_impl ks).1.Pairwise (fun a b => rank a ≤ rank b) := by
  unfold list_sort_impl
  by_cases hl : ks.length < 2
  · rw [if_pos hl]
    refine ⟨rfl, List.Perm.refl _, ?_⟩
    match ks, hl with
    | [], _ => exact List.Pairwise.nil
    | [a], _ => exact List.pairwise_singleton _ _
  · rw [if_neg hl]
    obtain ⟨n, descending, hc, hn, hrun⟩ := count_run_spec rank ks hlt (by omega)
    rw [hc]
    dsimp only
    have hrperm : (if descending then (ks.take n).reverse else ks.take n).Perm (ks.take n) := by
      cases descending
      · exact List.Perm.refl _
      · exact List.reverse_perm _
    have hall : ((if descending then (ks.take n).reverse else ks.take n) ++ ks.drop n).Perm ks := by
      have := List.Perm.append_right (ks.drop n) hrperm
      rwa [List.take_append_drop] at this
    obtain ⟨r1, r2, r3⟩ := binarysort_spec rank (ks.drop n)
      (if descending then (ks.take n).reverse else ks.take n)
      (fun a ha b hb => hlt a (hall.mem_iff.mp ha) b (hall.mem_iff.mp hb)) hrun
    exact ⟨r1, r2.trans hall, r3⟩

/-- Two ascending arrangements of keys with different ranks are the same list. -/
theorem sorted_unique {α : Type} [LinearOrder α] (rank : PyObj → α) (ks l1 l2 : List PyObj)
    (hn : (ks.map rank).Nodup) (p1 : l1.Perm ks) (p2 : l2.Perm ks)
    (s1 : l1.Pairwise (fun a b => rank a ≤ rank b))
    (s2 : l2.Pairwise (fun a b => rank a ≤ rank b)) : l1 = l2 := by
  haveI : IsAntisymm PyObj (fun a b => rank a < rank b) :=
    ⟨fun _ _ h1 h2 => absurd h1 (lt_asymm h2)⟩
  have strict : ∀ l : List PyObj, l.Perm ks → l.Pairwise (fun a b => rank a ≤ rank b) →
      l.Pairwise (fun a b => rank a < rank b) := by
    intro l hp hs
    have hnd : (l.map rank).Nodup := (List.Perm.map rank hp).nodup_iff.mpr hn
    have hne : l.Pairwise (fun a b => rank a ≠ rank b) := List.pairwise_map.mp hnd
    exact (hs.and hne).imp (fun h => lt_of_le_of_ne h.1 h.2)
  exact List.eq_of_perm_of_sorted (p1.trans p2.symm) (strict l1 p1 s1) (strict l2 p2 s2)

theorem pyDictFind_ranked {α : Type} [LinearOrder α] (rank : PyObj → α) (tagHash : Bool)
    (kvs : List (PyObj × PyObj)) (h : RankedKeys rank tagHash (kvs.map Prod.fst)) :
    ∀ kv ∈ kvs, pyDictFind kvs kv.1 = some kv.2 := by
  induction kvs with
  | nil => intro kv hkv; cases hkv
  | cons p kvs ih =>
    obtain ⟨h1, h2, h3, h4⟩ := h
    intro kv hkv
    obtain ⟨k0, v0⟩ := p
    simp only [List.map_cons, List.nodup_cons, List.mem_map, not_exists, not_and] at h4
    rcases List.mem_cons.mp hkv with rfl | hkv
    · have := h2 k0 (by simp) k0 (by simp)
      simp only [decide_True] at this
      simp only [pyDictFind, this, if_true]
    · have hne : rank k0 ≠ rank kv.1 := fun e => h4.1 kv.1 ⟨kv, hkv, rfl⟩ e.symm
      have := h2 k0 (by simp) kv.1 (by simp [List.mem_map_of_mem Prod.fst hkv])
      simp only [hne, decide_False] at this
      simp only [pyDictFind, this]
      exact ih ⟨fun a ha b hb => h1 a (List.mem_cons_of_mem _ ha) b (List.mem_cons_of_mem _ hb),
        fun a ha b hb => h2 a (List.mem_cons_of_mem _ ha) b (List.mem_cons_of_mem _ hb),
        fun a ha => h3 a (List.mem_cons_of_mem _ ha), h4.2⟩ kv hkv

/-- The lookup of the host finds the value of every key of a dictionary with
ranked keys. -/
theorem dict_get_ranked {α : Type} [LinearOrder α] (rank : PyObj → α) (tagHash : Bool)
    (kvs : List (PyObj × PyObj)) (h : RankedKeys rank tagHash (kvs.map Prod.fst)) :
    ∀ kv ∈ kvs, (pyHost tagHash).dict_get kvs kv.1 = some kv.2 := by
  intro kv hkv
  have hh := h.2.2.1 kv.1 (List.mem_map_of_mem _ hkv)
  simp only [pyHost, hh, if_true]
  exact pyDictFind_ranked rank tagHash kvs h kv hkv

theorem rankedKeys_perm {α : Type} [LinearOrder α] (rank : PyObj → α) (tagHash : Bool)
    (ks1 ks2 : List PyObj) (hp : ks1.Perm ks2) (h : RankedKeys rank tagHash ks1) :
    RankedKeys rank tagHash ks2 :=
  ⟨fun a ha b hb => h.1 a (hp.mem_iff.mpr ha) b (hp.mem_iff.mpr hb),
    fun a ha b hb => h.2.1 a (hp.mem_iff.mpr ha) b (hp.mem_iff.mpr hb),
    fun a ha => h.2.2.1 a (hp.mem_iff.mpr ha),
    (List.Perm.map rank hp).nodup_iff.mp h.2.2.2⟩

/-- The list sort of the host on ranked keys: it succeeds, and the list it
leaves is the arrangement of the keys in ascending order. -/
theorem list_sort_ranked {α : Type} [LinearOrder α] (rank : PyObj → α) (tagHash : Bool)
    (ks : List PyObj) (h : RankedKeys rank tagHash ks) :
    (pyHost tagHash).list_sort_ok ks = true ∧ ((pyHost tagHash).list_sort ks).Perm ks ∧
      ((pyHost tagHash).list_sort ks).Pairwise (fun a b => rank a < rank b) := by
  obtain ⟨r1, r2, r3⟩ := list_sort_impl_spec rank ks h.1
  refine ⟨r1, r2, ?_⟩
  have hnd : (((pyHost tagHash).list_sort ks).map rank).Nodup :=
    (List.Perm.map rank r2).nodup_iff.mpr h.2.2.2
  have hne : ((pyHost tagHash).list_sort ks).Pairwise (fun a b => rank a ≠ rank b) :=
    List.pairwise_map.mp hnd
  exact (List.Pairwise.and r3 hne).imp (fun h => lt_of_le_of_ne h.1 h.2)

/-- The comparison `bytesLt` is the lexicographic order of the lists. -/
theorem bytesLt_iff (a b : List Nat) : bytesLt a b = true ↔ a < b := by
  induction a generalizing b with
  | nil =>
    cases b with
    | nil =>
      simp only [bytesLt, Bool.false_eq_true, false_iff]
      exact List.Lex.not_nil_right _ _
    | cons y ys =>
      simp only [bytesLt, true_iff]
      exact List.Lex.nil
  | cons x xs ih =>
    cases b with
    | nil =>
      simp only [bytesLt, Bool.false_eq_true, false_iff]
      exact List.Lex.not_nil_right _ _
    | cons y ys =>
      simp only [bytesLt]
      rcases lt_trichotomy x y with h | h | h
      · simp only [h, if_true, true_iff]
        exact List.Lex.rel h
      · subst h
        simp only [lt_self_iff_false, if_false, ih]
        exact (@List.Lex.cons_iff _ (· < ·) ⟨fun a => Nat.lt_irrefl a⟩ x xs ys).symm
      · have h2 : ¬ x < y := by omega
        simp only [h2, if_false, h, if_true, Bool.false_eq_true, false_iff]
        intro hc
        cases hc with
        | cons hc => omega
        | rel hc => omega

theorem bytesLt_eq (a b : List Nat) : bytesLt a b = decide (a < b) := by
  by_cases h : a < b
  · rw [decide_eq_true h]
    exact (bytesLt_iff a b).mpr h
  · rw [decide_eq_false h]
    exact Bool.eq_false_iff.mpr (fun hc => h ((bytesLt_iff a b).mp hc))

/-- Integers as keys are ranked by their values. -/
theorem rankedKeys_long (tagHash : Bool) (ns : List Int) (hn : ns.Nodup) :
    RankedKeys long_value tagHash (ns.map PyObj.long) := by
  refine ⟨?_, ?_, ?_, ?_⟩
  · intro a ha b hb
    obtain ⟨x, -, rfl⟩ := List.mem_map.mp ha
    obtain ⟨y, -, rfl⟩ := List.mem_map.mp hb
    have hK : (0 : Int) < ((1 <<< 1075 : Nat) : Int) := by decide
    simp only [pyLt, pyNum, PyNum.lt, long_value, Option.some.injEq, decide_eq_decide]
    exact mul_lt_mul_right hK
  · intro a ha b hb
    obtain ⟨x, -, rfl⟩ := List.mem_map.mp ha
    obtain ⟨y, -, rfl⟩ := List.mem_map.mp hb
    have hK : ((1 <<< 1075 : Nat) : Int) ≠ 0 := by decide
    simp only [pySame, pyEq, pyNum, PyNum.eq, long_value]
    by_cases h : x = y
    · simp [h]
    · simp [h, hK]
  · intro a ha
    obtain ⟨x, -, rfl⟩ := List.mem_map.mp ha
    rfl
  · rw [List.map_map]
    exact hn.map (fun a b h => h)

/-- Text strings as keys are ranked by the lexicographic order of their
UTF-8 bytes, which is the order of their code points. -/
theorem rankedKeys_unicode (tagHash : Bool) (us : List (List Nat)) (hn : us.Nodup) :
    RankedKeys unicode_value tagHash (us.map PyObj.unicode) := by
  refine ⟨?_, ?_, ?_, ?_⟩
  · intro a ha b hb
    obtain ⟨x, -, rfl⟩ := List.mem_map.mp ha
    obtain ⟨y, -, rfl⟩ := List.mem_map.mp hb
    simp only [pyLt, unicode_value, Option.some.injEq]
    exact bytesLt_eq x y
  · intro a ha b hb
    obtain ⟨x, -, rfl⟩ := List.mem_map.mp ha
    obtain ⟨y, -, rfl⟩ := List.mem_map.mp hb
    simp only [pySame, pyEq, unicode_value]
    by_cases h : x = y
    · simp [h]
    · simp [h]
  · intro a ha
    obtain ⟨x, -, rfl⟩ := List.mem_map.mp ha
    rfl
  · rw [List.map_map]
    exact hn.map (fun a b h => h)

/-- With `sort_keys` on, the encoding of a dictionary of the host whose keys
the list sort arranges as the keys of `pairs`. -/
theorem ranked_map_encoding_of (H : Host) (fuel : Nat) (kvs : List (PyObj × PyObj))
    (pairs : List ((List Nat × PyObj) × (List Nat × PyObj)))
    (hok : H.list_sort_ok (kvs.map Prod.fst) = true)
    (hkeys : (pairs.map fun p => p.1.2) = H.list_sort (kvs.map Prod.fst))
    (hget : ∀ p ∈ pairs, H.dict_get kvs p.1.2 = some p.2.2)
    (hp : ∀ p ∈ pairs, cbor_dumps H fuel p.1.2 true = some (.ok (.bytes p.1.1)) ∧
      cbor_dumps H fuel p.2.2 true = some (.ok (.bytes p.2.1))) :
    cbor_dumps H (fuel + 1) (.dict kvs) true
      = some (.ok (.bytes (header CBOR_MAP kvs.length
          ++ (pairs.map fun p => p.1.1 ++ p.2.1).flatten))) := by
  have he := encode_sorted_of H (encode H { sort_keys := true } fuel) kvs pairs hget
    (fun p hq => ⟨encode_of_cbor_dumps H fuel _ true _ (hp p hq).1,
      encode_of_cbor_dumps H fuel _ true _ (hp p hq).2⟩)
  rw [hkeys] at he
  have hclean : dumps_error_pending H { sort_keys := true } (fuel + 1) (.dict kvs) = false := by
    simp only [dumps_error_pending, if_true, hok, Bool.not_true, Bool.false_or, ← hkeys]
    rw [List.any_eq_false]
    intro k hk
    obtain ⟨p, hp1, rfl⟩ := List.mem_map.mp hk
    simp only [hget p hp1, clean_of_cbor_dumps H fuel _ true _ (hp p hp1).1,
      clean_of_cbor_dumps H fuel _ true _ (hp p hp1).2, Bool.or_self, Bool.false_eq_true,
      not_false_eq_true]
  rw [cbor_dumps_eq H (fuel + 1) (.dict kvs) true hclean]
  simp only [encode, if_true, he, encSeq]

theorem ranked_map_encoding {α : Type} [LinearOrder α] (rank : PyObj → α) (tagHash : Bool)
    (fuel : Nat) (pairs : List ((List Nat × PyObj) × (List Nat × PyObj)))
    (hkeys : RankedKeys rank tagHash (pairs.map fun p => p.1.2))
    (hp : ∀ p ∈ pairs,
      cbor_dumps (pyHost tagHash) fuel p.1.2 true = some (.ok (.bytes p.1.1)) ∧
      cbor_dumps (pyHost tagHash) fuel p.2.2 true = some (.ok (.bytes p.2.1))) :
    ∃ sorted : List ((List Nat × PyObj) × (List Nat × PyObj)),
      sorted.Perm pairs ∧ sorted.Pairwise (fun p q => rank p.1.2 < rank q.1.2) ∧
      cbor_dumps (pyHost tagHash) (fuel + 1) (.dict (pairs.map fun p => (p.1.2, p.2.2))) true
        = some (.ok (.bytes (header CBOR_MAP pairs.length
            ++ (sorted.map fun p => p.1.1 ++ p.2.1).flatten))) := by
  haveI : IsTotal ((List Nat × PyObj) × (List Nat × PyObj))
      (fun p q => rank p.1.2 ≤ rank q.1.2) := ⟨fun p q => le_total _ _⟩
  haveI : IsTrans ((List Nat × PyObj) × (List Nat × PyObj))
      (fun p q => rank p.1.2 ≤ rank q.1.2) := ⟨fun _ _ _ h1 h2 => le_trans h1 h2⟩
  have hperm := List.perm_insertionSort (fun p q : (List Nat × PyObj) × (List Nat × PyObj) =>
    rank p.1.2 ≤ rank q.1.2) pairs
  have hsorted := List.sorted_insertionSort
    (fun p q : (List Nat × PyObj) × (List Nat × PyObj) => rank p.1.2 ≤ rank q.1.2) pairs
  generalize List.insertionSort (fun p q : (List Nat × PyObj) × (List Nat × PyObj) =>
    rank p.1.2 ≤ rank q.1.2) pairs = sorted at hperm hsorted
  have hkv : (pairs.map fun p => (p.1.2, p.2.2)).map Prod.fst = pairs.map fun p => p.1.2 := by
    rw [List.map_map]
    rfl
  have hkeys2 : RankedKeys rank tagHash ((pairs.map fun p => (p.1.2, p.2.2)).map Prod.fst) := by
    rw [hkv]
    exact hkeys
  obtain ⟨hok, hlperm, hlsorted⟩ := list_sort_ranked rank tagHash _ hkeys2
  have hskeys : (sorted.map fun p => p.1.2).Perm (pairs.map fun p => p.1.2) :=
    List.Perm.map _ hperm
  have hssorted : (sorted.map fun p => p.1.2).Pairwise (fun a b => rank a ≤ rank b) :=
    List.pairwise_map.mpr hsorted
  have heq : (sorted.map fun p => p.1.2)
      = (pyHost tagHash).list_sort ((pairs.map fun p => (p.1.2, p.2.2)).map Prod.fst) := by
    refine sorted_unique rank (pairs.map fun p => p.1.2) _ _ hkeys.2.2.2 hskeys ?_ hssorted
      (hlsorted.imp (fun h => le_of_lt h))
    rw [← hkv]
    exact hlperm
  have hstrict : sorted.Pairwise (fun p q => rank p.1.2 < rank q.1.2) := by
    have h1 : (sorted.map fun p => p.1.2).Pairwise (fun a b => rank a < rank b) := by
      rw [heq]
      exact hlsorted
    exact (@List.pairwise_map _ _ (fun p : (List Nat × PyObj) × (List Nat × PyObj) => p.1.2)
      (fun a b => rank a < rank b) sorted).mp h1
  refine ⟨sorted, hperm, hstrict, ?_⟩
  have := ranked_map_encoding_of (pyHost tagHash) fuel (pairs.map fun p => (p.1.2, p.2.2))
    sorted hok heq
    (fun p hps => dict_get_ranked rank tagHash _ hkeys2 (p.1.2, p.2.2)
      (List.mem_map.mpr ⟨p, hperm.mem_iff.mp hps, rfl⟩))
    (fun p hps => hp p (hperm.mem_iff.mp hps))
  rw [this, List.length_map]

theorem any_congr_zip (f g : PyObj → Bool) :
    ∀ (xs ys : List PyObj), xs.length = ys.length →
      (∀ p ∈ xs.zip ys, f p.1 = g p.2) → xs.any f = ys.any g := by
  intro xs
  induction xs with
  | nil =>
    intro ys hl _
    cases ys with
    | nil => rfl
    | cons y ys => simp at hl
  | cons x xs ih =>
    intro ys hl h
    cases ys with
    | nil => simp at hl
    | cons y ys =>
      have h1 := h (x, y) (by simp)
      simp only at h1
      simp only [List.any_cons, h1,
        ih ys (by simpa using hl) (fun p hp => h p (by simp [hp]))]

theorem any_congr_mem (f g : PyObj → Bool) (xs : List PyObj) (h : ∀ x ∈ xs, f x = g x) :
    xs.any f = xs.any g := by
  induction xs with
  | nil => rfl
  | cons x xs ih =>
    simp only [List.any_cons, h x (by simp), ih (fun y hy => h y (by simp [hy]))]

/-- In two dictionaries with the same keys in the same order, the lookup of a
key finds nothing in both or the values at the same place. -/
theorem pyDictFind_zip (k : PyObj) :
    ∀ (kvs1 kvs2 : List (PyObj × PyObj)), kvs1.map Prod.fst = kvs2.map Prod.fst →
      (pyDictFind kvs1 k = Option.none ∧ pyDictFind kvs2 k = Option.none) ∨
      ∃ p ∈ kvs1.zip kvs2, pyDictFind kvs1 k = some p.1.2 ∧ pyDictFind kvs2 k = some p.2.2 := by
  intro kvs1
  induction kvs1 with
  | nil =>
    intro kvs2 hk
    cases kvs2 with
    | nil => exact Or.inl ⟨rfl, rfl⟩
    | cons q kvs2 => simp at hk
  | cons p kvs1 ih =>
    intro kvs2 hk
    cases kvs2 with
    | nil => simp at hk
    | cons q kvs2 =>
      obtain ⟨k1, v1⟩ := p
      obtain ⟨k2, v2⟩ := q
      simp only [List.map_cons, List.cons.injEq] at hk
      obtain ⟨rfl, hk⟩ := hk
      by_cases hm : (pySame k1 k || pyEq k1 k) = true
      · refine Or.inr ⟨((k1, v1), (k1, v2)), by simp, ?_, ?_⟩
        · simp only [pyDictFind, hm, if_true]
        · simp only [pyDictFind, hm, if_true]
      · have hm2 : (pySame k1 k || pyEq k1 k) = false := eq_false_of_ne_true hm
        rcases ih kvs2 hk with ⟨h1, h2⟩ | ⟨p, hp, h1, h2⟩
        · exact Or.inl ⟨by simp only [pyDictFind, hm2, Bool.false_eq_true, if_false, h1],
            by simp only [pyDictFind, hm2, Bool.false_eq_true, if_false, h2]⟩
        · exact Or.inr ⟨p, by simp [hp],
            by simp only [pyDictFind, hm2, Bool.false_eq_true, if_false, h1],
            by simp only [pyDictFind, hm2, Bool.false_eq_true, if_false, h2]⟩

theorem encode_sorted_rel (H : Host) (item : PyObj → EncRes) (kvs1 kvs2 : List (PyObj × PyObj))
    (h : ∀ k, (H.dict_get kvs1 k = Option.none ∧ H.dict_get kvs2 k = Option.none) ∨
      ∃ v1 v2, H.dict_get kvs1 k = some v1 ∧ H.dict_get kvs2 k = some v2 ∧ item v1 = item v2)
    (keys : List PyObj) :
    encode_sorted H item kvs1 keys = encode_sorted H item kvs2 keys := by
  induction keys with
  | nil => rfl
  | cons k keys ih =>
    rcases h k with ⟨h1, h2⟩ | ⟨v1, v2, h1, h2, h3⟩
    · simp only [encode_sorted, h1, h2]
    · simp only [encode_sorted, h1, h2, h3, ih]

/-- With `sort_keys` on, two objects that differ at most in the insertion
order of dictionaries with ranked keys have the same bytes, and the passes
over them leave an exception set alike. -/
theorem encode_reordered (tagHash : Bool) (a b : PyObj) (h : Reordered tagHash a b) :
    ∀ fuel, encode (pyHost tagHash) { sort_keys := true } fuel a
        = encode (pyHost tagHash) { sort_keys := true } fuel b ∧
      dumps_error_pending (pyHost tagHash) { sort_keys := true } fuel a
        = dumps_error_pending (pyHost tagHash) { sort_keys := true } fuel b := by
  induction h with
  | refl a =>
    intro fuel
    exact ⟨rfl, rfl⟩
  | trans a b c _ _ ih1 ih2 =>
    intro fuel
    exact ⟨(ih1 fuel).1.trans (ih2 fuel).1, (ih1 fuel).2.trans (ih2 fuel).2⟩
  | list xs ys hl _ ih =>
    intro fuel
    cases fuel with
    | zero => exact ⟨rfl, rfl⟩
    | succ f =>
      refine ⟨?_, ?_⟩
      · simp only [encode, hl, encode_items_congr _ xs ys hl (fun p hp => (ih p hp f).1)]
      · simp only [dumps_error_pending]
        exact any_congr_zip _ _ xs ys hl (fun p hp => (ih p hp f).2)
  | tuple xs ys hl _ ih =>
    intro fuel
    cases fuel with
    | zero => exact ⟨rfl, rfl⟩
    | succ f =>
      refine ⟨?_, ?_⟩
      · simp only [encode, hl, encode_items_congr _ xs ys hl (fun p hp => (ih p hp f).1)]
      · simp only [dumps_error_pending]
        exact any_congr_zip _ _ xs ys hl (fun p hp => (ih p hp f).2)
  | tag t v w _ ih =>
    intro fuel
    cases fuel with
    | zero => exact ⟨rfl, rfl⟩
    | succ f =>
      refine ⟨?_, ?_⟩
      · simp only [encode, encode_tag, (ih f).1]
      · cases t <;> simp only [dumps_error_pending, (ih f).2]
  | values kvs1 kvs2 hk _ ih =>
    intro fuel
    cases fuel with
    | zero => exact ⟨rfl, rfl⟩
    | succ f =>
      have hl : kvs1.length = kvs2.length := by
        have := congrArg List.length hk
        simpa using this
      have hget : ∀ k, ((pyHost tagHash).dict_get kvs1 k = Option.none ∧
            (pyHost tagHash).dict_get kvs2 k = Option.none) ∨
          ∃ p ∈ kvs1.zip kvs2, (pyHost tagHash).dict_get kvs1 k = some p.1.2 ∧
            (pyHost tagHash).dict_get kvs2 k = some p.2.2 := by
        intro k
        simp only [pyHost]
        by_cases hh : pyHashable tagHash k = true
        · simp only [hh, if_true]
          exact pyDictFind_zip k kvs1 kvs2 hk
        · have hh2 : pyHashable tagHash k = false := eq_false_of_ne_true hh
          simp only [hh2, Bool.false_eq_true, if_false]
          exact Or.inl ⟨trivial, trivial⟩
      refine ⟨?_, ?_⟩
      · simp only [encode, if_true, hl, ← hk]
        rw [encode_sorted_rel (pyHost tagHash) _ kvs1 kvs2 (fun k => ?_)]
        rcases hget k with h0 | ⟨p, hp, h1, h2⟩
        · exact Or.inl h0
        · exact Or.inr ⟨_, _, h1, h2, (ih p hp f).1⟩
      · simp only [dumps_error_pending, if_true, ← hk]
        congr 1
        refine any_congr_mem _ _ _ (fun k _ => ?_)
        rcases hget k with ⟨h1, h2⟩ | ⟨p, hp, h1, h2⟩
        · simp only [h1, h2]
        · simp only [h1, h2, (ih p hp f).2]
  | order rank kvs1 kvs2 hp hk =>
    intro fuel
    cases fuel with
    | zero => exact ⟨rfl, rfl⟩
    | succ f =>
      have hl : kvs1.length = kvs2.length := hp.length_eq
      have hkp : (kvs1.map Prod.fst).Perm (kvs2.map Prod.fst) := List.Perm.map _ hp
      have hk2 := rankedKeys_perm rank tagHash _ _ hkp hk
      obtain ⟨ok1, p1, s1⟩ := list_sort_ranked rank tagHash _ hk
      obtain ⟨ok2, p2, s2⟩ := list_sort_ranked rank tagHash _ hk2
      have hsame : (pyHost tagHash).list_sort (kvs1.map Prod.fst)
          = (pyHost tagHash).list_sort (kvs2.map Prod.fst) :=
        sorted_unique rank (kvs1.map Prod.fst) _ _ hk.2.2.2 p1 (p2.trans hkp.symm)
          (s1.imp (fun h => le_of_lt h)) (s2.imp (fun h => le_of_lt h))
      have hget : ∀ k ∈ (pyHost tagHash).list_sort (kvs1.map Prod.fst),
          ∃ v, (pyHost tagHash).dict_get kvs1 k = some v ∧
            (pyHost tagHash).dict_get kvs2 k = some v := by
        intro k hkm
        obtain ⟨kv, hkv, rfl⟩ := List.mem_map.mp (p1.mem_iff.mp hkm)
        exact ⟨kv.2, dict_get_ranked rank tagHash kvs1 hk kv hkv,
          dict_get_ranked rank tagHash kvs2 hk2 kv (hp.mem_iff.mp hkv)⟩
      refine ⟨?_, ?_⟩
      · simp only [encode, if_true, hl, ← hsame]
        rw [encode_sorted_congr (pyHost tagHash) _ kvs1 kvs2
          (fun k => ((pyHost tagHash).dict_get kvs1 k).getD .none)
          (fun k => ((pyHost tagHash).dict_get kvs1 k).getD .none) _
          (fun k hkm => by
            obtain ⟨v, h1, _⟩ := hget k hkm
            simp only [h1, Option.getD_some])
          (fun k hkm => by
            obtain ⟨v, h1, h2⟩ := hget k hkm
            simp only [h1, h2, Option.getD_some])
          (fun _ _ => rfl)]
      · simp only [dumps_error_pending, if_true, ← hsame, ok1, ok2]
        congr 1
        refine any_congr_mem _ _ _ (fun k hkm => ?_)
        obtain ⟨v, h1, h2⟩ := hget k hkm
        simp only [h1, h2]

theorem reordered_dumps_agree (tagHash : Bool) (a b : PyObj)
    (h : Reordered tagHash a b) (fuel : Nat) :
    cbor_dumps (pyHost tagHash) fuel a true = cbor_dumps (pyHost tagHash) fuel b true := by
  rw [cbor_dumps_pending, cbor_dumps_pending, (encode_reordered tagHash a b h fuel).1,
    (encode_reordered tagHash a b h fuel).2]

/-! ## Sorted keys -/

/-- A dictionary with distinct integers as keys, and one with distinct text
strings as keys, may be reordered. -/
theorem reordered_of_keys (tagHash : Bool) (kvs1 kvs2 : List (PyObj × PyObj))
    (hp : kvs1.Perm kvs2) :
    (∀ ns : List Int, ns.Nodup → kvs1.map Prod.fst = ns.map PyObj.long →
      Reordered tagHash (.dict kvs1) (.dict kvs2)) ∧
    (∀ us : List (List Nat), us.Nodup → kvs1.map Prod.fst = us.map PyObj.unicode →
      Reordered tagHash (.dict kvs1) (.dict kvs2)) :=
  ⟨fun ns hn hk => Reordered.order long_value kvs1 kvs2 hp (hk ▸ rankedKeys_long tagHash ns hn),
    fun us hn hk =>
      Reordered.order unicode_value kvs1 kvs2 hp (hk ▸ rankedKeys_unicode tagHash us hn)⟩

/-- Claim C23, as amended: with `sort_keys` on, a dictionary whose keys Python
orders (`RankedKeys`: the comparison `<` of any two keys raises nothing and is
the comparison of their ranks in a linear order, and no two keys have the same
rank) and whose keys and values `dumps` encodes is written as the MAP header
that carries the number of pairs, followed by the pairs in ascending order of
the keys, each key followed by its value.  The order is the one of the key
objects, not of their encodings: distinct integers are ordered by their value,
distinct text strings by the lexicographic order of their UTF-8 bytes. -/
theorem sorted_map_encoding (tagHash : Bool) :
    (∀ {α : Type} [LinearOrder α] (rank : PyObj → α) (fuel : Nat)
        (pairs : List ((List Nat × PyObj) × (List Nat × PyObj))),
      RankedKeys rank tagHash (pairs.map fun p => p.1.2) →
      (∀ p ∈ pairs,
        cbor_dumps (pyHost tagHash) fuel p.1.2 true = some (.ok (.bytes p.1.1)) ∧
        cbor_dumps (pyHost tagHash) fuel p.2.2 true = some (.ok (.bytes p.2.1))) →
      ∃ sorted : List ((List Nat × PyObj) × (List Nat × PyObj)),
        sorted.Perm pairs ∧ sorted.Pairwise (fun p q => rank p.1.2 < rank q.1.2) ∧
        cbor_dumps (pyHost tagHash) (fuel + 1) (.dict (pairs.map fun p => (p.1.2, p.2.2))) true
          = some (.ok (.bytes (header CBOR_MAP pairs.length
              ++ (sorted.map fun p => p.1.1 ++ p.2.1).flatten)))) ∧
    (∀ ns : List Int, ns.Nodup → RankedKeys long_value tagHash (ns.map PyObj.long)) ∧
    (∀ us : List (List Nat), us.Nodup →
      RankedKeys unicode_value tagHash (us.map PyObj.unicode)) :=
  ⟨fun rank fuel pairs hk hp => ranked_map_encoding rank tagHash fuel pairs hk hp,
    rankedKeys_long tagHash, rankedKeys_unicode tagHash⟩

theorem sorted_map_encoding_witness :
    ([[0x62], [0x61]] : List (List Nat)).Nodup ∧
    (∀ p ∈ [(([0x61, 0x62], PyObj.unicode [0x62]), ([0x01], PyObj.long 1)),
        (([0x61, 0x61], PyObj.unicode [0x61]), ([0x02], PyObj.long 2))],
      cbor_dumps (pyHost false) 1 p.1.2 true = some (.ok (.bytes p.1.1)) ∧
      cbor_dumps (pyHost false) 1 p.2.2 true = some (.ok (.bytes p.2.1))) ∧
    (∃ sorted : List ((List Nat × PyObj) × (List Nat × PyObj)),
      sorted.Perm [(([0x61, 0x62], PyObj.unicode [0x62]), ([0x01], PyObj.long 1)),
        (([0x61, 0x61], PyObj.unicode [0x61]), ([0x02], PyObj.long 2))] ∧
      sorted.Pairwise (fun p q => unicode_value p.1.2 < unicode_value q.1.2) ∧
      cbor_dumps (pyHost false) (1 + 1)
          (.dict ([(([0x61, 0x62], PyObj.unicode [0x62]), ([0x01], PyObj.long 1)),
            (([0x61, 0x61], PyObj.unicode [0x61]), ([0x02], PyObj.long 2))].map
              fun p => (p.1.2, p.2.2))) true
        = some (.ok (.bytes (header CBOR_MAP
            [(([0x61, 0x62], PyObj.unicode [0x62]), ([0x01], PyObj.long 1)),
              (([0x61, 0x61], PyObj.unicode [0x61]), ([0x02], PyObj.long 2))].length
            ++ (sorted.map fun p => p.1.1 ++ p.2.1).flatten)))) ∧
    cbor_dumps refHost 2 (.dict [(.unicode [0x62], .long 1), (.unicode [0x61], .long 2)]) true
      = some (.ok (.bytes [0xA2, 0x61, 0x61, 0x02, 0x61, 0x62, 0x01])) := by
  have hn : ([[0x62], [0x61]] : List (List Nat)).Nodup := by decide
  have hp : ∀ p ∈ [(([0x61, 0x62], PyObj.unicode [0x62]), ([0x01], PyObj.long 1)),
        (([0x61, 0x61], PyObj.unicode [0x61]), ([0x02], PyObj.long 2))],
      cbor_dumps (pyHost false) 1 p.1.2 true = some (.ok (.bytes p.1.1)) ∧
      cbor_dumps (pyHost false) 1 p.2.2 true = some (.ok (.bytes p.2.1)) := by
    intro p hp
    simp only [List.mem_cons, List.mem_singleton, List.not_mem_nil, or_false] at hp
    rcases hp with rfl | rfl
    · exact ⟨rfl, rfl⟩
    · exact ⟨rfl, rfl⟩
  exact ⟨hn, hp,
    (sorted_map_encoding false).1 unicode_value 1 _
      ((sorted_map_encoding false).2.2 [[0x62], [0x61]] hn) hp, rfl⟩

/-- Claim C24, as amended: with `sort_keys` on, two objects that differ at
most in the insertion order of dictionaries whose keys Python orders (the
relation `Reordered`, which reaches the dictionaries at any depth under lists,
tuples, values of `Tag` objects and values of dictionaries) give the same
result of `dumps`: the same bytes, or the same failure.  Dictionaries with
distinct integers as keys and dictionaries with distinct text strings as keys
are among them. -/
theorem sorted_encoding_independent (tagHash : Bool) :
    (∀ a b : PyObj, Reordered tagHash a b → ∀ fuel : Nat,
      cbor_dumps (pyHost tagHash) fuel a true = cbor_dumps (pyHost tagHash) fuel b true) ∧
    (∀ (ns : List Int) (kvs1 kvs2 : List (PyObj × PyObj)), ns.Nodup →
      kvs1.map Prod.fst = ns.map PyObj.long → kvs1.Perm kvs2 →
      Reordered tagHash (.dict kvs1) (.dict kvs2)) ∧
    (∀ (us : List (List Nat)) (kvs1 kvs2 : List (PyObj × PyObj)), us.Nodup →
      kvs1.map Prod.fst = us.map PyObj.unicode → kvs1.Perm kvs2 →
      Reordered tagHash (.dict kvs1) (.dict kvs2)) :=
  ⟨fun a b h fuel => reordered_dumps_agree tagHash a b h fuel,
    fun ns kvs1 kvs2 hn hk hp => (reordered_of_keys tagHash kvs1 kvs2 hp).1 ns hn hk,
    fun us kvs1 kvs2 hn hk hp => (reordered_of_keys tagHash kvs1 kvs2 hp).2 us hn hk⟩

theorem sorted_encoding_independent_witness :
    Reordered false
      (.list [.dict [(.long 1, .unicode [0x78]), (.long 2, .unicode [0x79])]])
      (.list [.dict [(.long 2, .unicode [0x79]), (.long 1, .unicode [0x78])]]) ∧
    cbor_dumps (pyHost false) 3
        (.list [.dict [(.long 1, .unicode [0x78]), (.long 2, .unicode [0x79])]]) true
      = cbor_dumps (pyHost false) 3
        (.list [.dict [(.long 2, .unicode [0x79]), (.long 1, .unicode [0x78])]]) true ∧
    cbor_dumps refHost 3
        (.list [.dict [(.long 2, .unicode [0x79]), (.long 1, .unicode [0x78])]]) true
      = some (.ok (.bytes [0x81, 0xA2, 0x01, 0x61, 0x78, 0x02, 0x61, 0x79])) := by
  have h : Reordered false
      (.list [.dict [(.long 1, .unicode [0x78]), (.long 2, .unicode [0x79])]])
      (.list [.dict [(.long 2, .unicode [0x79]), (.long 1, .unicode [0x78])]]) := by
    refine Reordered.list _ _ rfl (fun p hp => ?_)
    simp only [List.zip_cons_cons, List.zip_nil_right, List.mem_singleton] at hp
    subst hp
    exact (sorted_encoding_independent false).2.1 [1, 2] _ _ (by decide) rfl
      (List.Perm.swap _ _ _)
  exact ⟨h, (sorted_encoding_independent false).1 _ _ h 3, rfl⟩

/-- A key that the dictionary refuses: `A1 80 00` is a map whose one key is an
empty list.  `PyDict_SetItem` fails with a `TypeError`, `loads_kv` does not
look at its status and returns the dictionary, left empty, with the exception
set; `loads` then raises the `SystemError` of the interpreter.  The same
holds in the loop of the indefinite-length map. -/
theorem refused_key_left_pending :
    inner_loads refHost bufferReader 2 (BufferReader.over [] [0xA1, 0x80, 0x00])
      = .pending .typeUnhashable (.dict []) (BufferReader.over [0xA1, 0x80, 0x00] []) ∧
    cbor_loads refHost 2 (.bytes [0xA1, 0x80, 0x00]) = some (.error .systemResultWithError) ∧
    cbor_loads refHost 2 (.bytes [0xBF, 0x80, 0x00, 0xFF])
      = some (.error .systemResultWithError) :=
  ⟨rfl, rfl, rfl⟩

/-- Keys that Python cannot compare: for the dictionary with the keys `1` and
`"a"` the list sort fails with a `TypeError`, `dumps_dict` does not look at its
status and writes the pairs in the order the list is left in; `dumps` then
raises the `SystemError` of the interpreter.  Without `sort_keys` the bytes
are returned. -/
theorem unordered_keys_left_pending :
    list_sort_impl [.long 1, .unicode [0x61]] = ([.long 1, .unicode [0x61]], false) ∧
    cbor_dumps refHost 2 (.dict [(.long 1, .long 0), (.unicode [0x61], .long 1)]) true
      = some (.error .systemResultWithError) ∧
    cbor_dumps refHost 2 (.dict [(.long 1, .long 0), (.unicode [0x61], .long 1)]) false
      = some (.ok (.bytes [0xA2, 0x01, 0x00, 0x61, 0x61, 0x01])) :=
  ⟨rfl, rfl, rfl⟩

/-! ## Tags 2 and 3 on the way back -/

/-- What `loads_bignum_loop` returns is an integer. -/
theorem loads_bignum_loop_long {σ : Type} (R : Reader σ) :
    ∀ (k : Nat) (s : σ) (out : Nat) (v : PyObj) (r : σ),
      loads_bignum_loop R k s out = .ok v r → ∃ n, v = .long n := by
  intro k
  induction k with
  | zero =>
    intro s out v r h
    simp only [loads_bignum_loop, Res.ok.injEq] at h
    exact ⟨_, h.1.symm⟩
  | succ k ih =>
    intro s out v r h
    simp only [loads_bignum_loop] at h
    cases hr : R.read1 s with
    | ok a s2 =>
      rw [hr, bind_ok] at h
      exact ih _ _ _ _ h
    | fail e s2 =>
      rw [hr] at h
      simp [Res.bind] at h
    | timeout =>
      rw [hr] at h
      simp [Res.bind] at h
    | pending e a s2 =>
      rw [hr, bind_pending] at h
      exact absurd h (after_ne_ok _ _ _ _)

/-- What `loads_bignum` returns is an integer. -/
theorem loads_bignum_long {σ : Type} (R : Reader σ) (s : σ) (c : Nat) (v : PyObj) (r : σ)
    (h : loads_bignum R s c = .ok v r) : ∃ n, v = .long n := by
  simp only [loads_bignum] at h
  split_ifs at h
  · exact loads_bignum_loop_long R _ _ _ _ _ h
 
/-- Behind a header of tag 2 or 3 the in-memory decoder never returns a `Tag`
object, whatever follows. -/
theorem bignum_tag_never_tag (H : Host) (fuel tag : Nat) (h : List Nat)
    (hh : IsHeader CBOR_TAG tag h) (htag : tag = 2 ∨ tag = 3) (pre suf : List Nat)
    (t w : PyObj) (r : BufferReader) :
    inner_loads H bufferReader fuel (BufferReader.over pre (h ++ suf)) ≠ .ok (.tag t w) r := by
  intro hr
  cases fuel with
  | zero =>
    obtain ⟨c, tail, rfl, -, -, -⟩ := hh
    rw [inner_loads, List.cons_append, inner_loads_of_over] at hr
    simp [inner_loads_c] at hr
  | succ fuel =>
    cases suf with
    | nil =>
      obtain ⟨c, tail, rfl, hT, hI, hd⟩ := hh
      have hd2 := hd pre []
      simp only [List.append_nil] at hd2 hr
      rw [inner_loads, inner_loads_of_over, inner_loads_c_tag H _ fuel _ _ hT, hd2, bind_ok] at hr
      rcases htag with rfl | rfl
      · simp [loads_tag, CBOR_TAG_BIGNUM, bufferReader_read1, read1_over_nil, Res.bind] at hr
      · simp [loads_tag, CBOR_TAG_BIGNUM, CBOR_TAG_NEGBIGNUM, bufferReader_read1, read1_over_nil,
          Res.bind] at hr
    | cons sc rest =>
      rw [loads_after_bignum_tag H fuel tag h hh htag] at hr
      split_ifs at hr with hT h2
      · obtain ⟨n, hn⟩ := loads_bignum_long _ _ _ _ _ hr
        exact PyObj.noConfusion hn
      · cases hb : loads_bignum bufferReader (BufferReader.over (pre ++ (h ++ [sc])) rest) sc with
        | ok a s2 =>
          rw [hb, bind_ok] at hr
          obtain ⟨n, rfl⟩ := loads_bignum_long _ _ _ _ _ hb
          simp at hr
        | fail e s2 =>
          rw [hb] at hr
          simp [Res.bind] at hr
        | timeout =>
          rw [hb] at hr
          simp [Res.bind] at hr
        | pending e a s2 =>
          rw [hb, bind_pending] at hr
          exact absurd hr (after_ne_ok _ _ _ _)

/-- A `Tag` object with the tag number 2 or 3 never survives the round trip:
whatever its value, the bytes `dumps` returns for it do not decode to a `Tag`
object. -/
theorem bignum_tag_no_round_trip (H : Host) (n : Int) (hn : n = 2 ∨ n = 3) (v : PyObj)
    (fuel fuel2 : Nat) (b : List Nat)
    (hd : cbor_dumps H fuel (.tag (.long n) v) false = some (.ok (.bytes b))) (t w : PyObj) :
    cbor_loads H fuel2 (.bytes b) ≠ some (.ok (.tag t w)) := by
  intro hl
  have he := encode_of_cbor_dumps H fuel _ false b hd
  obtain ⟨-, r, hr⟩ := cbor_loads_ok_inv H fuel2 b _ hl
  cases fuel with
  | zero => simp [encode] at he
  | succ fuel =>
    have hrange : -(2 ^ 63 : Int) ≤ n ∧ n < 2 ^ 63 := by
      rcases hn with rfl | rfl <;> exact ⟨by decide, by decide⟩
    have h0 : n ≥ 0 := by
      rcases hn with rfl | rfl <;> decide
    simp only [encode, encode_tag, hrange, and_self, if_true, h0] at he
    obtain ⟨b1, b2, hb1, -, rfl⟩ := encSeq_ok _ _ _ he
    simp only [Option.some.injEq, Except.ok.injEq] at hb1
    subst hb1
    have hnat : n.toNat = 2 ∨ n.toNat = 3 := by
      rcases hn with rfl | rfl
      · exact Or.inl rfl
      · exact Or.inr rfl
    have hh : IsHeader CBOR_TAG n.toNat (header CBOR_TAG n.toNat) :=
      isHeader_header CBOR_TAG n.toNat ⟨by decide, by decide⟩ (by
        rcases hnat with h | h <;> rw [h] <;> decide)
    exact bignum_tag_never_tag H fuel2 n.toNat _ hh hnat [] b2 t w r hr

/-- Claim C1, as amended: for every object made of `None`, booleans, integers
from `-2 ^ 184` to `2 ^ 184 - 1`, floats, byte strings, valid text strings,
lists and dictionaries of fewer than `2 ^ 32` entries (the keys of a
dictionary being ones that a dictionary accepts and keeps apart, in insertion
order) and `Tag` objects with a tag number from `0` to `2 ^ 63 - 1` other than
`2` and `3` (the predicate `Storable`), `dumps` with the default options
succeeds for every fuel from some bound on, and `loads` of the bytes it
returns yields the object itself, for every fuel that is at least the number
of these bytes.  A `Tag` object with the tag number `2` or `3` does not make
the round trip, whatever its value `v`: the bytes that `dumps` returns for it
never decode to a `Tag` object. -/
theorem dumps_loads_roundtrip (H : Host) (v : PyObj) :
    (Storable H v →
      ∃ b fuel0, (∀ fuel, fuel0 ≤ fuel → cbor_dumps H fuel v false = some (.ok (.bytes b))) ∧
        ∀ fuel, b.length ≤ fuel → cbor_loads H fuel (.bytes b) = some (.ok v)) ∧
    (∀ (n : Int) (fuel fuel2 : Nat) (b : List Nat) (t w : PyObj), n = 2 ∨ n = 3 →
      cbor_dumps H fuel (.tag (.long n) v) false = some (.ok (.bytes b)) →
      cbor_loads H fuel2 (.bytes b) ≠ some (.ok (.tag t w))) := by
  refine ⟨fun hv => ?_, fun n fuel fuel2 b t w hn hd =>
    bignum_tag_no_round_trip H n hn v fuel fuel2 b hd t w⟩
  obtain ⟨fuel0, b, hb⟩ := encode_total H { sort_keys := false } rfl v hv
  refine ⟨b, fuel0, fun fuel hf => ?_, fun fuel hf => ?_⟩
  · rw [cbor_dumps_eq _ _ _ _ (dumps_error_pending_unsorted _ _ _), hb fuel hf]
  · exact cbor_loads_of_itemOk H fuel b v
      (roundtrip_item H { sort_keys := false } rfl fuel0 v b hv (hb fuel0 (Nat.le_refl _)) fuel hf)

set_option maxRecDepth 100000 in
theorem dumps_loads_roundtrip_witness :
    Storable refHost (.list [.long (-300), .tag (.long 7) (.bytes [1, 2]),
      .dict [(.unicode [0x61], .long 1), (.long 5, .none)]]) ∧
    (∃ b fuel0,
      (∀ fuel, fuel0 ≤ fuel →
        cbor_dumps refHost fuel (.list [.long (-300), .tag (.long 7) (.bytes [1, 2]),
            .dict [(.unicode [0x61], .long 1), (.long 5, .none)]]) false
          = some (.ok (.bytes b))) ∧
      ∀ fuel, b.length ≤ fuel →
        cbor_loads refHost fuel (.bytes b)
          = some (.ok (.list [.long (-300), .tag (.long 7) (.bytes [1, 2]),
              .dict [(.unicode [0x61], .long 1), (.long 5, .none)]]))) ∧
    cbor_dumps refHost 2 (.tag (.long 3) (.bytes [0x01, 0x00])) false
      = some (.ok (.bytes [0xC3, 0x42, 0x01, 0x00])) ∧
    cbor_loads refHost 2 (.bytes [0xC3, 0x42, 0x01, 0x00])
      ≠ some (.ok (.tag (.long 3) (.bytes [0x01, 0x00]))) ∧
    cbor_loads refHost 2 (.bytes [0xC3, 0x42, 0x01, 0x00]) = some (.ok (.long (-257))) :=
  have hv : Storable refHost (.list [.long (-300), .tag (.long 7) (.bytes [1, 2]),
      .dict [(.unicode [0x61], .long 1), (.long 5, .none)]]) :=
    Storable.list _ (by decide) (by
      intro x hx
      simp only [List.mem_cons, List.mem_singleton, List.not_mem_nil, or_false] at hx
      rcases hx with rfl | rfl | rfl
      · exact Storable.long _ (by decide) (by decide)
      · exact Storable.tag 7 _ (by decide) (by decide) (by decide) (by decide)
          (Storable.bytes _ (by decide) (by decide))
      · refine Storable.dict _ (by decide) (fun kv hkv => ?_) (fun kv hkv => ?_) rfl rfl
        · simp only [List.mem_cons, List.mem_singleton, List.not_mem_nil, or_false] at hkv
          rcases hkv with rfl | rfl
          · exact Storable.unicode _ (by decide) (by decide) (Or.inr rfl)
          · exact Storable.long _ (by decide) (by decide)
        · simp only [List.mem_cons, List.mem_singleton, List.not_mem_nil, or_false] at hkv
          rcases hkv with rfl | rfl
          · exact Storable.long _ (by decide) (by decide)
          · exact Storable.none)
  ⟨hv, (dumps_loads_roundtrip refHost _).1 hv, rfl,
    (dumps_loads_roundtrip refHost (.bytes [0x01, 0x00])).2 3 2 2 _ _ _ (Or.inr rfl) rfl, rfl⟩

end Cbor
